import Mathlib

/-!
# ELF codegen interpreter: linker, execution engine and greedy pruner

A shallow embedding of `src/codegen/interpreter.h` and `src/codegen/interpreter.cc`.

* `std::vector<int>` is a `List Int`; register and memory values are unbounded integers
  (signed overflow of a register value is undefined in C++ and is not modelled).
* `std::map<int, T>` is a function `Int → Option T` (`none` = key absent).
* A thrown `std::runtime_error` is `none` in `Option`.
* The bit-encoded stack `control_type` of `Machine::Load` is a 32-bit `int`; its shifts are
  modelled with explicit two's complement wrap-around (`wrap32`).
-/

namespace ELF

/-! ## Halt codes (`interpreter.h`, lines 17-22) -/

def RES_END : Int := 0
def RES_RUNNING : Int := 1
def RES_STACKOVERFLOW : Int := 2
def RES_MEM_OOB : Int := 3
def RES_PC_OOB : Int := 4
def RES_MAX_CODE_RUN_REACHED : Int := 5

/-! ## Instructions (`interpreter.h`, lines 69-107) -/

/-- The enum `Instruction::InsType`, by its underlying integer value. -/
abbrev InsType := Int

def INS_INVALID : InsType := -1
def INS_END : InsType := 0
def INS_BOUND_J : InsType := 0
def INS_REP : InsType := 1
def INS_INC : InsType := 2
def INS_DEC : InsType := 3
def INS_BOUND_UNARY : InsType := 3
def INS_MOV : InsType := 4
def INS_CMP : InsType := 5
def INS_LOAD : InsType := 6
def INS_SAVE : InsType := 7
def INS_TOTAL : InsType := 8

/-- The struct `Instruction`; the constructor defaults are `INS_INVALID, -1, -1`. -/
structure Instruction where
  ins_type : InsType := INS_INVALID
  arg1 : Int := -1
  arg2 : Int := -1
deriving DecidableEq, Repr

abbrev Register := List Int
abbrev Memory := List Int
abbrev Memories := List Memory

/-! ## Machine state (`interpreter.h`, lines 113-184; `interpreter.cc`, lines 29-57) -/

/-- The class `MachineState`. -/
structure MachineState where
  pc : Int
  flag : Int
  counter : Int
  return_code : Int
  register : Register
  memory : Memory
deriving DecidableEq, Repr

/-- Bounds-checked read of a vector cell: the body shared by `MachineState::mem(int)` and
`MachineState::reg(int)`, which throw when `i < 0 || i >= size`. -/
def getCell (v : List Int) (i : Int) : Option Int :=
  if i < 0 ∨ i ≥ v.length then none else v[i.toNat]?

/-- Bounds-checked write through the reference returned by `mem(int)` / `reg(int)`. -/
def setCell (v : List Int) (i : Int) (x : Int) : Option (List Int) :=
  if i < 0 ∨ i ≥ v.length then none else some (v.set i.toNat x)

/-- Read access `MachineState::reg(int) const`. -/
def MachineState.reg (s : MachineState) (i : Int) : Option Int :=
  getCell s.register i

/-- Read access `MachineState::mem(int) const`. -/
def MachineState.mem (s : MachineState) (i : Int) : Option Int :=
  getCell s.memory i

/-- Assignment through `int &MachineState::reg(int)`. -/
def MachineState.setReg (s : MachineState) (i : Int) (x : Int) : Option MachineState :=
  match setCell s.register i x with
  | none => none
  | some r => some { s with register := r }

/-- Assignment through `int &MachineState::mem(int)`. -/
def MachineState.setMem (s : MachineState) (i : Int) (x : Int) : Option MachineState :=
  match setCell s.memory i x with
  | none => none
  | some r => some { s with memory := r }

/-- The constructor `MachineState(int reg_size, int memory_size)`: two zeroed vectors, then `Reset`. -/
def MachineState.new (reg_size memory_size : Nat) : MachineState :=
  { pc := 0, flag := 0, counter := 0, return_code := RES_RUNNING,
    register := List.replicate reg_size 0, memory := List.replicate memory_size 0 }

/-- The method `MachineState::Reset`: the vectors keep their sizes and are filled with zeros. -/
def MachineState.Reset (s : MachineState) : MachineState :=
  { pc := 0, flag := 0, return_code := RES_RUNNING, counter := 0,
    memory := List.replicate s.memory.length 0,
    register := List.replicate s.register.length 0 }

/-- The loop `for (i = 0; i < min(src.size(), dst.size()); ++i) dst[i] = src[i]`. -/
def copyInto : List Int → List Int → List Int
  | _, [] => []
  | [], d :: ds => d :: ds
  | s :: ss, _ :: ds => s :: copyInto ss ds

/-- The method `MachineState::Init(const Register&, const Memory&)`. -/
def MachineState.Init (s : MachineState) (reg : Register) (mem : Memory) : MachineState :=
  let s0 := s.Reset
  { s0 with register := copyInto reg s0.register, memory := copyInto mem s0.memory }

/-- The method `MachineState::InitRandomMemory`; `f k` is the value returned by the `k`-th call
of the generator made by this invocation. -/
def MachineState.InitRandomMemory (s : MachineState) (reg : Register) (f : Nat → Int) :
    MachineState :=
  let s0 := s.Reset
  { s0 with register := copyInto reg s0.register,
            memory := (List.range s0.memory.length).map f }

/-! ## The machine (`interpreter.h`, lines 186-229) -/

/-- The block map `std::map<int, int> _control_map`. -/
abbrev ControlMap := Int → Option Int

/-- The empty map (after `clear()`). -/
def ControlMap.empty : ControlMap := fun _ => none

/-- Assignment `map[k] = v`. -/
def ControlMap.insert (cm : ControlMap) (k v : Int) : ControlMap :=
  fun j => if j = k then some v else cm j

/-- Reading `map[k]` through `operator[]`: an absent key is inserted with value `0`. -/
def ControlMap.index (cm : ControlMap) (k : Int) : Int × ControlMap :=
  match cm k with
  | some v => (v, cm)
  | none => (0, cm.insert k 0)

/-- One entry of `_program`: a `std::function<void ()>` that captured `this`. It acts on the
machine's state and block map; `none` means that it threw `std::runtime_error` (none of the
closures built by `parse_one_line` writes anything before it throws). -/
abbrev Closure := MachineState → ControlMap → Option (MachineState × ControlMap)

/-- The map `std::map<int, std::vector<int>> _pc2states`. -/
abbrev PcMap := Int → Option (List Int)

/-- The statement `map[k].push_back(x)`. -/
def PcMap.pushAt (pm : PcMap) (k : Int) (x : Int) : PcMap :=
  fun j => if j = k then some ((pm k).getD [] ++ [x]) else pm j

/-- The class `Machine`. -/
structure Machine where
  state : MachineState
  dump_all_state : Bool
  max_code_run : Int
  program : List Closure
  code : List Instruction
  control_map : ControlMap
  dumped_states : List MachineState
  pc2states : PcMap

/-- The constructor `Machine(int reg_size, int memory_size)`. -/
def Machine.new (reg_size memory_size : Nat) : Machine :=
  { state := MachineState.new reg_size memory_size, dump_all_state := false,
    max_code_run := 1000, program := [], code := [], control_map := ControlMap.empty,
    dumped_states := [], pc2states := fun _ => none }

/-- The setter `SetDumpAll`. -/
def Machine.SetDumpAll (m : Machine) (dump_all : Bool) : Machine :=
  { m with dump_all_state := dump_all }

/-- The setter `SetMaxCodeRun`. -/
def Machine.SetMaxCodeRun (m : Machine) (max_code_run : Int) : Machine :=
  { m with max_code_run := max_code_run }

/-! ## Binding an instruction to its step behaviour (`interpreter.cc`, lines 95-162) -/

/-- The function `check_oob`: throws when `addr < 0 || addr >= limit`. -/
def check_oob (addr limit : Int) : Option Int :=
  if addr < 0 ∨ addr ≥ limit then none else some addr

/-- The method `Machine::parse_one_line`; `num_reg` is `_state.reg().size()`. The outer `Option`
is the exception thrown while binding, the closure's result that of running it. -/
def parse_one_line (num_reg : Int) (line_idx : Int) (s : Instruction) : Option Closure :=
  if s.ins_type = INS_REP then
    match check_oob s.arg1 num_reg with
    | none => none
    | some dst => some fun st cm =>
      match st.reg dst with
      | none => none
      | some v =>
        if v > 0 then
          match st.setReg dst (v - 1) with
          | none => none
          | some st1 => some (st1, cm)
        else
          some ({ st with pc := (cm.index line_idx).1 }, (cm.index line_idx).2)
  else if s.ins_type = INS_END then
    some fun st cm =>
      match cm line_idx with
      | some v => some ({ st with pc := v - 1 }, cm)
      | none => some (st, cm)
  else if s.ins_type = INS_MOV then
    match check_oob s.arg1 num_reg with
    | none => none
    | some dst =>
      match check_oob s.arg2 num_reg with
      | none => none
      | some src => some fun st cm =>
        match st.reg src with
        | none => none
        | some v =>
          match st.setReg dst v with
          | none => none
          | some st1 => some (st1, cm)
  else if s.ins_type = INS_INC ∨ s.ins_type = INS_DEC then
    match check_oob s.arg1 num_reg with
    | none => none
    | some dst => some fun st cm =>
      match st.reg dst with
      | none => none
      | some v =>
        match st.setReg dst (v + (if s.ins_type = INS_INC then 1 else -1)) with
        | none => none
        | some st1 => some (st1, cm)
  else if s.ins_type = INS_CMP then
    match check_oob s.arg1 num_reg with
    | none => none
    | some addr1 =>
      match check_oob s.arg2 num_reg with
      | none => none
      | some addr2 => some fun st cm =>
        match st.reg addr1 with
        | none => none
        | some v1 =>
          match st.reg addr2 with
          | none => none
          | some v2 =>
            if v1 ≥ v2 then
              some ({ st with pc := (cm.index line_idx).1 - 1 }, (cm.index line_idx).2)
            else some (st, cm)
  else if s.ins_type = INS_LOAD then
    match check_oob s.arg1 num_reg with
    | none => none
    | some dst =>
      match check_oob s.arg2 num_reg with
      | none => none
      | some addr => some fun st cm =>
        match st.reg addr with
        | none => none
        | some a =>
          match st.mem a with
          | none => none
          | some v =>
            match st.setReg dst v with
            | none => none
            | some st1 => some (st1, cm)
  else if s.ins_type = INS_SAVE then
    match check_oob s.arg1 num_reg with
    | none => none
    | some src =>
      match check_oob s.arg2 num_reg with
      | none => none
      | some addr => some fun st cm =>
        match st.reg addr with
        | none => none
        | some a =>
          match st.reg src with
          | none => none
          | some v =>
            match st.setMem a v with
            | none => none
            | some st1 => some (st1, cm)
  else none

/-! ## The linker (`interpreter.cc`, lines 164-217) -/

/-- Two's complement reduction of an integer to the range of a 32-bit `int`. -/
def wrap32 (x : Int) : Int := (x + 2147483648) % 4294967296 - 2147483648

/-- The locals of `Machine::Load` during the scan, with the block map. The vector `control_pc` is
used only as a stack (`push_back`, `back`, `pop_back`); its back is the head of the list. -/
structure LinkState where
  control_map : ControlMap
  control_pc : List Int
  control_type : Int

/-- The initial locals of `Machine::Load` (lines 166-168). -/
def LinkState.start : LinkState :=
  { control_map := ControlMap.empty, control_pc := [], control_type := 1 }

/-- The block that closes the innermost open block against the `END` at index `e`
(lines 180-190 and 195-206, the same statements): needs a non-empty stack. -/
def closeBlock (s : LinkState) (current_pc : Int) (rest : List Int) (e : Int) : LinkState :=
  { control_map :=
      if Int.tmod s.control_type 2 = 0 then
        (s.control_map.insert e current_pc).insert current_pc e
      else
        s.control_map.insert current_pc e
    control_pc := rest
    control_type := s.control_type >>> 1 }

/-- The first loop of `Machine::Load` (lines 169-192), from index `i` on. -/
def linkScan : List Instruction → Int → LinkState → LinkState
  | [], _, s => s
  | c :: cs, i, s =>
    if c.ins_type = INS_REP then
      linkScan cs (i + 1)
        { s with control_pc := i :: s.control_pc, control_type := wrap32 (s.control_type * 2) }
    else if c.ins_type = INS_CMP then
      linkScan cs (i + 1)
        { s with control_pc := i :: s.control_pc,
                 control_type := wrap32 (wrap32 (s.control_type * 2) + 1) }
    else if c.ins_type = INS_END then
      match s.control_pc with
      | [] => linkScan cs (i + 1) s
      | current_pc :: rest => linkScan cs (i + 1) (closeBlock s current_pc rest i)
    else linkScan cs (i + 1) s

/-- The loop `while (control_pc.size() > 0)` of `Machine::Load` (lines 193-207); returns the
block map and the final value of `n`. -/
def linkClose : List Int → LinkState → Int → ControlMap × Int
  | [], s, n => (s.control_map, n)
  | current_pc :: rest, s, n =>
    linkClose rest (closeBlock s current_pc rest n) (n + 1)

/-- The loop of lines 208-210: bind every instruction of `codes`, from index `i` on. -/
def parseLines (num_reg : Int) : Int → List Instruction → Option (List Closure)
  | _, [] => some []
  | i, c :: cs =>
    match parse_one_line num_reg i c with
    | none => none
    | some f =>
      match parseLines num_reg (i + 1) cs with
      | none => none
      | some fs => some (f :: fs)

/-- The value `Instruction(Instruction::INS_END)` (both operands default to `-1`). -/
def endIns : Instruction := { ins_type := INS_END }

/-- The method `Machine::Load`; `none` when `parse_one_line` throws. The instructions of `codes`
are bound first (lines 208-210), then the `n - codes.size()` appended `END`s (lines 212-215),
each at its own index. -/
def Machine.Load (m : Machine) (codes : List Instruction) : Option Machine :=
  let s := linkScan codes 0 LinkState.start
  let r := linkClose s.control_pc s codes.length
  let k := (r.2 - codes.length).toNat
  let ends := List.replicate k endIns
  match parseLines m.state.register.length 0 (codes ++ ends) with
  | none => none
  | some prog => some { m with program := prog, code := codes ++ ends, control_map := r.1 }

/-! ## The execution engine (`interpreter.cc`, lines 227-264) -/

/-- The two statements guarded by `_dump_all_state` (lines 238-239 and 258-259). -/
def Machine.dump (m : Machine) : Machine :=
  { m with dumped_states := m.dumped_states ++ [m.state],
           pc2states := m.pc2states.pushAt m.state.pc m.dumped_states.length }

/-- The condition of the `while` loop of `Machine::Run` (line 233). -/
def loopCond (m : Machine) : Prop :=
  0 ≤ m.state.pc ∧ m.state.pc < m.program.length ∧ m.state.counter < m.max_code_run

instance (m : Machine) : Decidable (loopCond m) :=
  inferInstanceAs (Decidable
    (0 ≤ m.state.pc ∧ m.state.pc < m.program.length ∧ m.state.counter < m.max_code_run))

/-- The body of the `while` loop of `Machine::Run` (lines 236-250); the Boolean tells whether
the pass left the loop through `break`. The index `pc` is in range under the loop condition, so
the first `none` arm is never taken. -/
def loopBody (m : Machine) : Machine × Bool :=
  let m1 := if m.dump_all_state then m.dump else m
  match m1.program[m1.state.pc.toNat]? with
  | none => (m1, true)
  | some f =>
    match f m1.state m1.control_map with
    | none => ({ m1 with state := { m1.state with return_code := RES_MEM_OOB } }, true)
    | some (st, cm) =>
      ({ m1 with state := { st with pc := st.pc + 1, counter := st.counter + 1 },
                 control_map := cm }, false)

/-- The `while` loop of `Machine::Run` (lines 233-251). Every pass that does not `break`
increments the counter, so `max_code_run - counter` passes are always enough; `fuel` is that
bound, and `runLoop k m` for a smaller `k` is the machine after the first `k` passes. -/
def runLoop : Nat → Machine → Machine
  | 0, m => m
  | fuel + 1, m =>
    if loopCond m then
      if (loopBody m).2 then (loopBody m).1 else runLoop fuel (loopBody m).1
    else m

/-- The statements after the loop (lines 252-262). -/
def runFinish (m : Machine) : Machine :=
  if m.state.return_code = RES_RUNNING then
    if m.state.counter = m.max_code_run then
      { m with state := { m.state with return_code := RES_MAX_CODE_RUN_REACHED } }
    else
      let m1 := { m with state := { m.state with return_code := RES_END } }
      if m1.dump_all_state then m1.dump else m1
  else m

/-- The statements of `Machine::Run` before the loop (lines 228-231). -/
def Machine.runStart (m : Machine) : Machine :=
  if m.dump_all_state then { m with pc2states := fun _ => none, dumped_states := [] } else m

/-- The method `Machine::Run`; the returned `int` is `state.return_code` of the result. The
machine after the first `k` passes of its loop is `runLoop k m.runStart`. -/
def Machine.Run (m : Machine) : Machine :=
  runFinish (runLoop (m.runStart.max_code_run - m.runStart.state.counter).toNat m.runStart)

/-! ## The greedy pruner (`interpreter.cc`, lines 290-354) -/

/-- The memory that `InitRandomMemory` writes for sample `i`: cell `c` receives the value of the
`(i * size_memory + c)`-th call of `std::rand() % 20` (every earlier sample has drawn
`size_memory` values; `rand k` is the `k`-th value returned by `std::rand()`). -/
def sampleMemory (rand : Nat → Nat) (size_memory : Nat) (i : Nat) : Memory :=
  (List.range size_memory).map fun c => ((rand (i * size_memory + c) % 20 : Nat) : Int)

/-- The first loop of `GreedyPrune` (lines 296-304), from sample `i` on, with `k` samples left.
The result pairs `mem_before[j]` with `mem_after[j]`; `none` is the `return false`. -/
def recordSamples (init_reg : Register) (rand : Nat → Nat) :
    Nat → Nat → Machine → Option (List (Memory × Memory) × Machine)
  | 0, _, m => some ([], m)
  | k + 1, i, m =>
    let f : Nat → Int := fun c => ((rand (i * m.state.memory.length + c) % 20 : Nat) : Int)
    let m1 := { m with state := m.state.InitRandomMemory init_reg f }
    let m2 := m1.Run
    if m2.state.return_code ≠ RES_END then none
    else
      match recordSamples init_reg rand k (i + 1) m2 with
      | none => none
      | some (rest, m3) => some ((m1.state.memory, m2.state.memory) :: rest, m3)

/-- The loop over the samples `j` of lines 320-343; the Boolean is `mem_altered`. -/
def validate (init_reg : Register) : List (Memory × Memory) → Machine → Bool × Machine
  | [], m => (false, m)
  | (before, after) :: rest, m =>
    let m1 := ({ m with state := m.state.Init init_reg before }).Run
    if m1.state.return_code ≠ RES_END ∨ m1.state.memory ≠ after then (true, m1)
    else validate init_reg rest m1

/-- The loop over the indices `i` of lines 312-350, from index `i` on, with `k` indices left.
The outer `none` is an exception thrown by `Load`; the inner option is the accepted candidate
(`all_prune_failed = false`), or `none` when the pass accepted nothing. -/
def tryDeletions (init_reg : Register) (samples : List (Memory × Memory))
    (ins : List Instruction) : Nat → Nat → Machine → Option (Option (List Instruction) × Machine)
  | 0, _, m => some (none, m)
  | k + 1, i, m =>
    match m.Load (ins.eraseIdx i) with
    | none => none
    | some m1 =>
      let r := validate init_reg samples m1
      if r.1 then tryDeletions init_reg samples ins k (i + 1) r.2
      else some (some (ins.eraseIdx i), r.2)

/-- The loop `while (! all_prune_failed)` of lines 310-351. Every pass but the last deletes one
instruction, so `ins.size() + 1` passes are always enough; `fuel` is that bound. -/
def pruneLoop (init_reg : Register) (samples : List (Memory × Memory)) :
    Nat → List Instruction → Machine → Option (List Instruction)
  | 0, ins, _ => some ins
  | fuel + 1, ins, m =>
    match tryDeletions init_reg samples ins ins.length 0 m with
    | none => none
    | some (none, _) => some ins
    | some (some new_instructions, m1) => pruneLoop init_reg samples fuel new_instructions m1

/-- The function `GreedyPrune`. The argument `pruned` is the value of `*pruned` before the call
and the second component of the result its value after it; the Boolean is the returned value;
`none` is an exception thrown by `Load`. `num_sample` and `size_memory` are vector sizes. -/
def GreedyPrune (instructions : List Instruction) (init_reg : Register) (size_memory : Nat)
    (num_sample : Nat) (rand : Nat → Nat) (pruned : List Instruction) :
    Option (Bool × List Instruction) :=
  match (Machine.new init_reg.length size_memory).Load instructions with
  | none => none
  | some machine =>
    match recordSamples init_reg rand num_sample 0 machine with
    | none => some (false, pruned)
    | some (samples, machine1) =>
      match pruneLoop init_reg samples (instructions.length + 1) instructions machine1 with
      | none => none
      | some ins => some (true, ins)

/-! ## Vocabulary of the statements -/

/-- Load `codes` on a fresh machine with `init_reg.size()` registers, `size_memory` cells and
step budget `max_code_run`, initialise it with `Init(init_reg, mem)` and run it: the final
machine (`none` when `Load` throws). -/
def loadInitRun (max_code_run : Int) (size_memory : Nat) (codes : List Instruction)
    (init_reg : Register) (mem : Memory) : Option Machine :=
  match ((Machine.new init_reg.length size_memory).SetMaxCodeRun max_code_run).Load codes with
  | none => none
  | some m => some ({ m with state := m.state.Init init_reg mem }).Run

/-- The index `i` of `codes` holds a block opener (`REP` or `CMP`). -/
def OpenerAt (codes : List Instruction) (i : Int) : Prop :=
  0 ≤ i ∧ ∃ c, codes[i.toNat]? = some c ∧ (c.ins_type = INS_REP ∨ c.ins_type = INS_CMP)

/-- The index `i` of `codes` holds an `END`. -/
def EndAt (codes : List Instruction) (i : Int) : Prop :=
  0 ≤ i ∧ ∃ c, codes[i.toNat]? = some c ∧ c.ins_type = INS_END

/-- The fields of a state that no instruction writes, and the sizes of the two vectors. -/
def SameFrame (st st1 : MachineState) : Prop :=
  st1.counter = st.counter ∧ st1.return_code = st.return_code ∧ st1.flag = st.flag ∧
  st1.register.length = st.register.length ∧ st1.memory.length = st.memory.length

/-- The invariant of the scan of `Machine::Load` once the instructions `pre` are processed: the
stack of open blocks is strictly decreasing from its top and holds openers of `pre`, every other
opener of `pre` is a key mapped to a later `END`, keys and values are indices of `pre`, a block
closed below an open one was closed before that one opened, and closed blocks never cross. -/
structure ScanInv (pre : List Instruction) (s : LinkState) : Prop where
  sorted : s.control_pc.Pairwise (fun a b => b < a)
  opened : ∀ x ∈ s.control_pc, OpenerAt pre x
  closed : ∀ x, OpenerAt pre x → x ∉ s.control_pc →
    ∃ e, s.control_map x = some e ∧ x < e ∧ EndAt pre e
  keys : ∀ k v, s.control_map k = some v →
    (0 ≤ v ∧ v < pre.length) ∧ (0 ≤ k ∧ k < pre.length)
  before_open : ∀ x ∈ s.control_pc, ∀ y e, OpenerAt pre y → y ∉ s.control_pc → y < x →
    s.control_map y = some e → e < x
  nest : ∀ x y ex ey, OpenerAt pre x → OpenerAt pre y → x ∉ s.control_pc →
    y ∉ s.control_pc → x < y → s.control_map x = some ex → s.control_map y = some ey →
    ex < y ∨ ey < ex

/-- The machine holds a linked program: `_program` binds `_code` line by line for the machine's
register count, and `_control_map` is the block map of the scan of `_code`, which leaves no
block open. This is what a successful `Load` establishes. -/
structure Linked (m : Machine) : Prop where
  prog : parseLines m.state.register.length 0 m.code = some m.program
  map_eq : m.control_map = (linkScan m.code 0 LinkState.start).control_map
  all_closed : (linkScan m.code 0 LinkState.start).control_pc = []

/-- The candidate `codes` passes the validation on the recorded pair `p = (before, after)`: on a
machine like the pruner's (default budget), `Load`, `Init(init_reg, before)`, `Run` halts with
`RES_END` and leaves the memory `after`. -/
def PassesOn (codes : List Instruction) (init_reg : Register) (size_memory : Nat)
    (p : Memory × Memory) : Prop :=
  ∃ m, loadInitRun 1000 size_memory codes init_reg p.1 = some m ∧
    m.state.return_code = RES_END ∧ m.state.memory = p.2

/-- The candidate `codes` fails the validation on the recorded pair `p`: the run does not halt
with `RES_END`, or its final memory differs from the recorded one. -/
def FailsOn (codes : List Instruction) (init_reg : Register) (size_memory : Nat)
    (p : Memory × Memory) : Prop :=
  ∃ m, loadInitRun 1000 size_memory codes init_reg p.1 = some m ∧
    (m.state.return_code ≠ RES_END ∨ m.state.memory ≠ p.2)

/-- The pruner's machine `m` holds the program `codes` as a fresh machine would after `Load`. -/
structure Tracks (m : Machine) (codes : List Instruction) (R M : Nat) : Prop where
  linked : Linked m
  budget : m.max_code_run = 1000
  regs : m.state.register.length = R
  mems : m.state.memory.length = M
  fresh : ∃ mF, (Machine.new R M).Load codes = some mF ∧ m.code = mF.code

/-- The pruner's machine between two `Load`s: default budget, `R` registers, `M` cells. -/
structure Ready (m : Machine) (R M : Nat) : Prop where
  budget : m.max_code_run = 1000
  regs : m.state.register.length = R
  mems : m.state.memory.length = M

/-! ## Concrete inputs used by the examples -/

/-- The program `inc 0; save 0 1; inc 0`. -/
def sampleProgram : List Instruction :=
  [⟨INS_INC, 0, -1⟩, ⟨INS_SAVE, 0, 1⟩, ⟨INS_INC, 0, -1⟩]

/-- A stream of generator values. -/
def sampleRand : Nat → Nat := fun k => k + 5

/-- The program `cmp 0 1` followed by 32 times `rep 0`: 33 nested blocks, none closed. -/
def deepProgram : List Instruction :=
  ⟨INS_CMP, 0, 1⟩ :: List.replicate 32 ⟨INS_REP, 0, -1⟩

/-- The program `rep 0; cmp 0 1; inc 0`: two nested blocks, none closed. -/
def nestedProgram : List Instruction :=
  [⟨INS_REP, 0, -1⟩, ⟨INS_CMP, 0, 1⟩, ⟨INS_INC, 0, -1⟩]

/-- The block map that `Load` computes for the already END-extended program `codes`. -/
def blockMapOf (codes : List Instruction) : ControlMap :=
  (linkScan codes 0 LinkState.start).control_map

/-- The machine `m` is linked, holds the (END-extended) program `codes`, has step budget `X`
and is in state `S`. -/
structure At (m : Machine) (codes : List Instruction) (X : Int) (S : MachineState) : Prop where
  linked : Linked m
  code : m.code = codes
  budget : m.max_code_run = X
  state : m.state = S

/-- The program `rep 0; inc 1; end`. -/
def repIncEnd : List Instruction :=
  [⟨INS_REP, 0, -1⟩, ⟨INS_INC, 1, -1⟩, ⟨INS_END, -1, -1⟩]

/-- The program `rep 0; end`. -/
def repEnd : List Instruction := [⟨INS_REP, 0, -1⟩, ⟨INS_END, -1, -1⟩]

/-- The program `cmp 0 1; inc 0; end`. -/
def cmpIncEnd : List Instruction :=
  [⟨INS_CMP, 0, 1⟩, ⟨INS_INC, 0, -1⟩, ⟨INS_END, -1, -1⟩]

/-- The program `rep 0; inc 0; end`. -/
def repIncSelfEnd : List Instruction :=
  [⟨INS_REP, 0, -1⟩, ⟨INS_INC, 0, -1⟩, ⟨INS_END, -1, -1⟩]

/-- The state after `Init(reg, mem)` on a fresh machine with `reg.size()` registers and `M`
memory cells. -/
def initState (M : Nat) (reg : Register) (mem : Memory) : MachineState :=
  (MachineState.new reg.length M).Init reg mem

/-- The call `machine.state().Init(reg, mem)`, seen on the machine. -/
def Machine.withInit (m : Machine) (reg : Register) (mem : Memory) : Machine :=
  { m with state := m.state.Init reg mem }

/-- The states that the run of `rep 0; inc 0; end` started with `r0 >= 1` passes through. -/
def SelfLoopInv (X fl : Int) (rest : List Int) (mem : Memory) (m : Machine) : Prop :=
  ∃ pcv x c, At m repIncSelfEnd X ⟨pcv, fl, c, RES_RUNNING, x :: rest, mem⟩ ∧
    ((pcv = 0 ∧ 1 ≤ x) ∨ (pcv = 1 ∧ 0 ≤ x) ∨ (pcv = 2 ∧ 1 ≤ x))

/-- The machine of a fresh `Load` of `codes` that is known not to throw (used in examples). -/
def loadedOrNew (R M : Nat) (codes : List Instruction) : Machine :=
  ((Machine.new R M).Load codes).getD (Machine.new R M)

/-- The opcode is one of the eight opcodes `end, rep, inc, dec, mov, cmp, load, save`. -/
def KnownOpcode (t : InsType) : Prop :=
  t = INS_END ∨ t = INS_REP ∨ t = INS_INC ∨ t = INS_DEC ∨ t = INS_MOV ∨ t = INS_CMP ∨
    t = INS_LOAD ∨ t = INS_SAVE

/-- The instruction `c` fails the structural check on a machine with `R` registers: a `REP`,
`INC` or `DEC` with `arg1` outside `[0, R)`, a `MOV`, `CMP`, `LOAD` or `SAVE` with `arg1` or
`arg2` outside `[0, R)`, or an opcode that is not one of the eight. -/
def StructurallyBad (R : Int) (c : Instruction) : Prop :=
  ((c.ins_type = INS_REP ∨ c.ins_type = INS_INC ∨ c.ins_type = INS_DEC) ∧
      (c.arg1 < 0 ∨ R ≤ c.arg1)) ∨
  ((c.ins_type = INS_MOV ∨ c.ins_type = INS_CMP ∨ c.ins_type = INS_LOAD ∨
      c.ins_type = INS_SAVE) ∧
      (c.arg1 < 0 ∨ R ≤ c.arg1 ∨ c.arg2 < 0 ∨ R ≤ c.arg2)) ∨
  ¬ KnownOpcode c.ins_type

/-- The number of blocks open after a left-to-right scan of `codes` that starts with `d` open
blocks: a `REP` or `CMP` opens one, an `END` closes one when one is open. -/
def openAfter : List Instruction → Nat → Nat
  | [], d => d
  | c :: cs, d =>
    if c.ins_type = INS_REP ∨ c.ins_type = INS_CMP then openAfter cs (d + 1)
    else if c.ins_type = INS_END then openAfter cs (d - 1)
    else openAfter cs d

/-- The number of `REP`/`CMP` blocks still open at the end of the left-to-right scan. -/
def openCount (codes : List Instruction) : Nat := openAfter codes 0

/-- One pass of the loop of `Machine::Run` on `m` completes without a fault and leaves the
machine state `st`. -/
def StepsTo (m : Machine) (st : MachineState) : Prop :=
  (loopBody m).2 = false ∧ (loopBody m).1.state = st

/-- The program `mov 0 1; inc 0; dec 1; load 0 1; save 0 1`. -/
def straightProgram : List Instruction :=
  [⟨INS_MOV, 0, 1⟩, ⟨INS_INC, 0, -1⟩, ⟨INS_DEC, 1, -1⟩, ⟨INS_LOAD, 0, 1⟩, ⟨INS_SAVE, 0, 1⟩]

/-- A two-register, three-cell machine that loaded `straightProgram` and was initialised with
registers `5, 2` and memory `7, 8, 9`, as `Run` sees it when it enters its loop. -/
def straightMachine : Machine :=
  ((loadedOrNew 2 3 straightProgram).withInit [5, 2] [7, 8, 9]).runStart

/-- The machine `m` stands at a `LOAD x a` or `SAVE x a` with `reg[a]` outside `[0, M)`, where
`M` is the memory capacity. -/
def FaultAt (m : Machine) : Prop :=
  ∃ c a, m.code[m.state.pc.toNat]? = some c ∧
    (c.ins_type = INS_LOAD ∨ c.ins_type = INS_SAVE) ∧
    m.state.reg c.arg2 = some a ∧ (a < 0 ∨ (m.state.memory.length : Int) ≤ a)

/-- The machine after the first `k` passes of the loop of `Machine::Run` started on `m`. -/
def Machine.afterSteps (m : Machine) (k : Nat) : Machine := runLoop k m.runStart

/-- A two-register, three-cell machine that loaded `straightProgram` and was initialised with
registers `5, 4` and memory `7, 8, 9`: its fourth instruction `load 0 1` reads `mem[3]`. -/
def faultMachine : Machine := (loadedOrNew 2 3 straightProgram).withInit [5, 4] [7, 8, 9]

/-- A machine with two registers and three memory cells, trace recording enabled, that has
already loaded and run `straightProgram` from registers `5, 4` (a run that faults): its block
map, program, traces and halt code are those of that earlier run. -/
def usedMachine : Machine :=
  (((loadedOrNew 2 3 straightProgram).SetDumpAll true).withInit [5, 4] [7, 8, 9]).Run

/-- A fresh machine with two registers and three memory cells and trace recording enabled. -/
def tracingMachine : Machine := (Machine.new 2 3).SetDumpAll true

/-- The positions `k, k + 1, ...` of the snapshots of `T` whose `pc` is `p`, in trace order. -/
def positionsFrom (p : Int) : Nat → List MachineState → List Int
  | _, [] => []
  | k, s :: T =>
    if s.pc = p then (k : Int) :: positionsFrom p (k + 1) T else positionsFrom p (k + 1) T

/-- The map `_pc2states` indexes the trace `_dumped_states`: the entry of `p` is the list of the
positions whose snapshot has `pc = p`, and there is no entry when there is no such position. -/
def TraceIndexed (m : Machine) : Prop :=
  ∀ p, m.pc2states p =
    if positionsFrom p 0 m.dumped_states = [] then none
    else some (positionsFrom p 0 m.dumped_states)

/-- A two-register, one-cell machine with trace recording enabled that loaded
`rep 0; inc 1; end` and was initialised with registers `2, 0` and memory `1`. -/
def tracedLoop : Machine :=
  ((loadedOrNew 2 1 repIncEnd).SetDumpAll true).withInit [2, 0] [1]

/-! ## Feature vectors (`interpreter.cc`, lines 59-71; `codegen.h`; `codegen.cc`, lines 57-59) -/

/-- The call `std::copy(src.begin(), src.end(), dst.begin() + offset)`: element `i` of `src` is
written to position `offset + i` of `dst`. -/
def copyAt : List Int → Nat → List Int → List Int
  | [], _, dst => dst
  | x :: xs, offset, dst => copyAt xs (offset + 1) (dst.set offset x)

/-- The method `MachineState::GetFeature`. -/
def MachineState.GetFeature (s : MachineState) : List Int :=
  let f0 := List.replicate (s.register.length + s.memory.length + 2) 0
  let offset0 := 0
  let f1 := copyAt s.memory offset0 f0
  let offset1 := offset0 + s.memory.length
  let f2 := copyAt s.register offset1 f1
  let offset2 := offset1 + s.register.length
  let f3 := f2.set offset2 s.pc
  let offset3 := offset2 + 1
  let f4 := f3.set offset3 s.flag
  f4

/-- The members of the class `CodegenGame` with their default member initialisers (`codegen.h`)
and the members that the constructor builds from them: `machine(num_reg, size_memory)` and
`init_reg(num_reg)` filled with zeros, then `init_reg[0] = size_memory`; the four vectors
`memories`, `code_pruned`, `all_states`, `pc2states` start empty. -/
structure CodegenGame where
  num_memory_sample : Int := 10
  size_memory : Int := 10
  num_reg : Int := 4
  instruction_dim : Int := 3
  initial_program_length : Int := 20
  min_program_length_after_pruning : Int := 5
  max_program_length_after_pruning : Int := 10
  mem_upper_bound : Int := 10
  redraw_after_n : Int := 3
  instruction_span : Int := 2
  percent_mem_picked : Int := 50
  use_random_span : Bool := false
  use_first_memory : Bool := false
  eval_only : Bool := false
  use_loop : Bool := true
  machine : Machine := Machine.new num_reg.toNat size_memory.toNat
  init_reg : List Int := (List.replicate num_reg.toNat (0 : Int)).set 0 size_memory
  memories : List Memory := []
  code_pruned : List Instruction := []
  all_states : List (List MachineState) := []
  pc2states : List PcMap := []

/-- The constructor `CodegenGame(const GameOptions&)`; the two options it reads are
`options.eval_only` and `options.use_loop`. -/
def CodegenGame.new (opt_eval_only opt_use_loop : Bool) : CodegenGame :=
  { eval_only := opt_eval_only, use_loop := opt_use_loop }

/-- The method `CodegenGame::GetEnsembleMachineStateDim`. -/
def CodegenGame.GetEnsembleMachineStateDim (g : CodegenGame) : Int :=
  g.size_memory + g.num_reg + 2

/-! ## Instruction text (`interpreter.h`, lines 27-66 and 81-97; `interpreter.cc`, lines 8-16) -/

/-- A `std::string`, as its sequence of characters. -/
abbrev Str := List Char

/-- The space character, the delimiter that `Instruction` splits at and `Print` writes. -/
def SPACE : Char := Char.ofNat 32

/-- The function `std::isspace` in the default locale: space, `\t`, `\n`, `\v`, `\f`, `\r`. -/
def isspace (c : Char) : Bool :=
  c.toNat = 32 || (9 ≤ c.toNat && c.toNat ≤ 13)

/-- The loop `while (std::getline(ss, item, delim)) elems.push_back(item)` of `split`; `item`
is the text read since the last delimiter. A `getline` that meets the end of the input after
reading nothing fails and ends the loop. -/
def splitLoop (delim : Char) : Str → Str → List Str
  | item, [] => if item.isEmpty then [] else [item]
  | item, c :: cs =>
    if c = delim then item :: splitLoop delim [] cs else splitLoop delim (item ++ [c]) cs

/-- The function `split(const std::string&, char)`. -/
def split (s : Str) (delim : Char) : List Str := splitLoop delim [] s

/-- The function `ltrim`. -/
def ltrim (s : Str) : Str := s.dropWhile isspace

/-- The function `rtrim`. -/
def rtrim (s : Str) : Str := (s.reverse.dropWhile isspace).reverse

/-- The function `trim`. -/
def trim (s : Str) : Str := ltrim (rtrim s)

/-- The table `Instruction::kInsTypename`. -/
def kInsTypename : List Str :=
  ["end".toList, "rep".toList, "inc".toList, "dec".toList, "mov".toList, "cmp".toList,
   "load".toList, "save".toList]

/-- The table `Instruction::kInsMap`. -/
def kInsMap : List (Str × InsType) :=
  [("rep".toList, INS_REP), ("end".toList, INS_END), ("inc".toList, INS_INC),
   ("dec".toList, INS_DEC), ("mov".toList, INS_MOV), ("cmp".toList, INS_CMP),
   ("load".toList, INS_LOAD), ("save".toList, INS_SAVE)]

/-- The decimal digit `d` as a character. -/
def digitChar (d : Nat) : Char := Char.ofNat (48 + d % 10)

/-- The decimal digits of `n` in front of `acc`; `fuel` bounds the number of digits. -/
def natDigitsAux : Nat → Nat → Str → Str
  | 0, _, acc => acc
  | fuel + 1, n, acc =>
    if n < 10 then digitChar n :: acc
    else natDigitsAux fuel (n / 10) (digitChar (n % 10) :: acc)

/-- The decimal text of a natural number (`n + 1` bounds its number of digits). -/
def natDigits (n : Nat) : Str := natDigitsAux (n + 1) n []

/-- The text that `operator<<` writes for an `int`. -/
def printInt (v : Int) : Str :=
  if v < 0 then Char.ofNat 45 :: natDigits (-v).toNat else natDigits v.toNat

/-- The method `Instruction::Print`; `none` when `kInsTypename[(int)ins_type]` is indexed out
of range. -/
def Instruction.Print (i : Instruction) : Option Str :=
  if i.ins_type < 0 then none
  else
    match kInsTypename[i.ins_type.toNat]? with
    | none => none
    | some name =>
      some (name ++ [SPACE] ++ printInt i.arg1 ++
        (if i.arg2 ≥ 0 then [SPACE] ++ printInt i.arg2 else []))

/-- The result of `std::stoi`: the value, or one of its two exceptions. -/
inductive StoiResult where
  | value (v : Int)
  | invalid_argument
  | out_of_range
deriving DecidableEq, Repr

/-- The value of the longest prefix of decimal digits, continuing from `acc`. -/
def readDigits : Nat → Str → Nat
  | acc, [] => acc
  | acc, c :: cs =>
    if 48 ≤ c.toNat ∧ c.toNat ≤ 57 then readDigits (acc * 10 + (c.toNat - 48)) cs else acc

/-- The function `std::stoi(const std::string&)` (base 10): leading whitespace is skipped, then
an optional sign and the longest run of digits are read; what follows is ignored. -/
def stoi (s : Str) : StoiResult :=
  let s1 := s.dropWhile isspace
  let neg : Bool := match s1 with
    | c :: _ => c.toNat = 45
    | [] => false
  let s2 := match s1 with
    | c :: cs => if c.toNat = 45 ∨ c.toNat = 43 then cs else s1
    | [] => []
  match s2 with
  | [] => StoiResult.invalid_argument
  | c :: _ =>
    if 48 ≤ c.toNat ∧ c.toNat ≤ 57 then
      let v : Int := if neg then -(readDigits 0 s2 : Int) else (readDigits 0 s2 : Int)
      if v < -2147483648 ∨ v > 2147483647 then StoiResult.out_of_range
      else StoiResult.value v
    else StoiResult.invalid_argument

/-- The outcome of the constructor `Instruction(const std::string&)`: the instruction, the
`std::runtime_error` for an unknown name, an exception of `std::stoi`, or undefined behaviour
(`tokens[0]` of an empty vector). -/
inductive ParseOutcome where
  | ok (i : Instruction)
  | runtime_error
  | invalid_argument
  | out_of_range
  | undefined
deriving DecidableEq, Repr

/-- The expression `tokens.size() >= k + 1 ? std::stoi(tokens[k]) : -1`. -/
def argOf (tokens : List Str) (k : Nat) : StoiResult :=
  match tokens[k]? with
  | some t => stoi t
  | none => StoiResult.value (-1)

/-- The constructor `Instruction(const std::string&)`. -/
def Instruction.fromString (s : Str) : ParseOutcome :=
  let tokens := split (trim s) SPACE
  match tokens with
  | [] => ParseOutcome.undefined
  | t0 :: _ =>
    match kInsMap.lookup t0 with
    | none => ParseOutcome.runtime_error
    | some ty =>
      match argOf tokens 1 with
      | StoiResult.invalid_argument => ParseOutcome.invalid_argument
      | StoiResult.out_of_range => ParseOutcome.out_of_range
      | StoiResult.value a1 =>
        match argOf tokens 2 with
        | StoiResult.invalid_argument => ParseOutcome.invalid_argument
        | StoiResult.out_of_range => ParseOutcome.out_of_range
        | StoiResult.value a2 => ParseOutcome.ok ⟨ty, a1, a2⟩

/-- The values of a 32-bit `int`. -/
def IsInt32 (x : Int) : Prop := -2147483648 ≤ x ∧ x ≤ 2147483647

/-! ## The reference iteration of the pruner (from the specification's words) -/

/-- Specification side: the candidate `codes` validates on the recorded pairs: on every pair the
run from `Init(init_reg, before)` halts with `RES_END` and leaves the recorded memory. -/
def candidateValid (init_reg : Register) (M : Nat) (samples : List (Memory × Memory))
    (codes : List Instruction) : Bool :=
  samples.all fun p =>
    match loadInitRun 1000 M codes init_reg p.1 with
    | some m => decide (m.state.return_code = RES_END ∧ m.state.memory = p.2)
    | none => false

/-- Specification side: the least index of `ins` whose deletion validates, if there is one. -/
def leastValid (init_reg : Register) (M : Nat) (samples : List (Memory × Memory))
    (ins : List Instruction) : Option Nat :=
  (List.range ins.length).find? fun i => candidateValid init_reg M samples (ins.eraseIdx i)

/-- Specification side, the reference iteration: while some index validates, delete the least
such index and start again; stop when no index validates. Every round deletes an instruction,
so `ins.length` rounds are always enough; `fuel` is that bound. -/
def referencePrune (init_reg : Register) (M : Nat) (samples : List (Memory × Memory)) :
    Nat → List Instruction → List Instruction
  | 0, ins => ins
  | fuel + 1, ins =>
    match leastValid init_reg M samples ins with
    | none => ins
    | some i => referencePrune init_reg M samples fuel (ins.eraseIdx i)

/-- Specification side: the pairs of sampled input memory and output memory of the original
program `P`, for the `n` samples drawn from the generator stream `rand`. -/
def recordedSamples (P : List Instruction) (init_reg : Register) (M n : Nat)
    (rand : Nat → Nat) : List (Memory × Memory) :=
  (List.range n).map fun t =>
    (sampleMemory rand M t,
      match loadInitRun 1000 M P init_reg (sampleMemory rand M t) with
      | some m => m.state.memory
      | none => [])

/-! ## The pruner with its work counted -/

/-- The loop of `validate`, also counting the runs it performs. -/
def validateLog (init_reg : Register) :
    List (Memory × Memory) → Machine → (Bool × Machine) × Nat
  | [], m => ((false, m), 0)
  | (before, after) :: rest, m =>
    let m1 := ({ m with state := m.state.Init init_reg before }).Run
    if m1.state.return_code ≠ RES_END ∨ m1.state.memory ≠ after then ((true, m1), 1)
    else ((validateLog init_reg rest m1).1, (validateLog init_reg rest m1).2 + 1)

/-- The loop of `tryDeletions`, also listing, for every candidate it tried, the number of runs
made for that candidate. -/
def tryDeletionsLog (init_reg : Register) (samples : List (Memory × Memory))
    (ins : List Instruction) :
    Nat → Nat → Machine → Option ((Option (List Instruction) × Machine) × List Nat)
  | 0, _, m => some ((none, m), [])
  | k + 1, i, m =>
    match m.Load (ins.eraseIdx i) with
    | none => none
    | some m1 =>
      let r := validateLog init_reg samples m1
      if r.1.1 then
        match tryDeletionsLog init_reg samples ins k (i + 1) r.1.2 with
        | none => none
        | some (res, log) => some (res, r.2 :: log)
      else some ((some (ins.eraseIdx i), r.1.2), [r.2])

/-- The loop of `pruneLoop`, also listing, for every pass it made, the length of the program at
the start of the pass and the log of the candidates tried in it. -/
def pruneLoopLog (init_reg : Register) (samples : List (Memory × Memory)) :
    Nat → List Instruction → Machine → Option (List Instruction × List (Nat × List Nat))
  | 0, ins, _ => some (ins, [])
  | fuel + 1, ins, m =>
    match tryDeletionsLog init_reg samples ins ins.length 0 m with
    | none => none
    | some ((none, _), log) => some (ins, [(ins.length, log)])
    | some ((some new_instructions, m1), log) =>
      match pruneLoopLog init_reg samples fuel new_instructions m1 with
      | none => none
      | some (q, logs) => some (q, (ins.length, log) :: logs)

/-- Specification side: the value of a string of decimal digits. -/
def decimalValue (ds : Str) : Nat := ds.foldl (fun a c => a * 10 + (c.toNat - 48)) 0

/-- Specification side: `t` is the text of a decimal integer with value `v`: an optional sign
(`-` or `+`) followed by at least one decimal digit. -/
def DecimalText (t : Str) (v : Int) : Prop :=
  ∃ ds : Str, ds ≠ [] ∧ (∀ c ∈ ds, 48 ≤ c.toNat ∧ c.toNat ≤ 57) ∧
    ((t = ds ∧ v = (decimalValue ds : Int)) ∨
     (t = Char.ofNat 45 :: ds ∧ v = -(decimalValue ds : Int)) ∨
     (t = Char.ofNat 43 :: ds ∧ v = (decimalValue ds : Int)))

/-! ## The sampler (`interpreter.cc`, lines 356-397) -/

/-- The value that the `k`-th call `dis(gen)` of a `std::uniform_int_distribution<>(a, b)`
returns, `a <= b`: a value of `[a, b]` determined by the generator; `gen k` stands for the
randomness that the generator supplies to that call. -/
def drawInt (gen : Nat → Nat) (k : Nat) (a b : Int) : Int := a + (gen k : Int) % (b - a + 1)

/-- The loop `do { ins.ins_type = dis2(gen); } while (END || REP || CMP)` of the loop-free mode,
from call `pos` of the generator on: the opcode drawn and the next call. `none`: the bound
`fuel` on the iterations was reached. -/
def drawType (gen : Nat → Nat) : Nat → Nat → Option (InsType × Nat)
  | 0, _ => none
  | fuel + 1, pos =>
    let t := drawInt gen pos 0 (INS_TOTAL - 1)
    if t = INS_END ∨ t = INS_REP ∨ t = INS_CMP then drawType gen fuel (pos + 1)
    else some (t, pos + 1)

/-- The loop `do { arg1 = dis_reg(gen); arg2 = dis_reg(gen); } while (arg1 == arg2)`. -/
def drawPair (gen : Nat → Nat) (num_reg : Int) : Nat → Nat → Option (Int × Int × Nat)
  | 0, _ => none
  | fuel + 1, pos =>
    let a1 := drawInt gen pos 0 (num_reg - 1)
    let a2 := drawInt gen (pos + 1) 0 (num_reg - 1)
    if a1 = a2 then drawPair gen num_reg fuel (pos + 2) else some (a1, a2, pos + 2)

/-- The statements of lines 370-374: the opcode of the next instruction, drawn once in the
loop-permitting mode and by `drawType` in the loop-free mode. -/
def drawOpcode (gen : Nat → Nat) (loop : Bool) (fuel pos : Nat) : Option (InsType × Nat) :=
  if loop then some (drawInt gen pos 0 (INS_TOTAL - 1), pos + 1) else drawType gen fuel pos

/-- The statements of lines 375-386: the operands for the opcode already stored in `ins`. -/
def drawOperands (gen : Nat → Nat) (num_reg : Int) (fuel : Nat) (ins : Instruction)
    (pos : Nat) : Option (Instruction × Nat) :=
  if ins.ins_type ≤ INS_BOUND_J then some ({ ins with arg1 := -1, arg2 := -1 }, pos)
  else if ins.ins_type ≤ INS_BOUND_UNARY then
    some ({ ins with arg1 := drawInt gen pos 0 (num_reg - 1), arg2 := -1 }, pos + 1)
  else
    match drawPair gen num_reg fuel pos with
    | none => none
    | some (a1, a2, pos2) => some ({ ins with arg1 := a1, arg2 := a2 }, pos2)

/-- The loop `while (code.size() < num_lines)` of `SampleCode`; `ins` is the local that the
iterations reuse, `pos` the next call of the generator. `none`: the bound `fuel` on the
iterations (of this loop and of the two inner loops) was reached. -/
def sampleLoop (gen : Nat → Nat) (num_reg num_lines : Int) (loop : Bool) :
    Nat → Nat → Instruction → List Instruction → Option (List Instruction)
  | 0, _, _, _ => none
  | fuel + 1, pos, ins, code =>
    if ¬ ((code.length : Int) < num_lines) then some code
    else
      match drawOpcode gen loop fuel pos with
      | none => none
      | some (t, pos1) =>
        match drawOperands gen num_reg fuel { ins with ins_type := t } pos1 with
        | none => none
        | some (ins2, pos2) =>
          if (ins2.ins_type = INS_MOV ∨ ins2.ins_type = INS_CMP ∨ ins2.ins_type = INS_SAVE ∨
                ins2.ins_type = INS_LOAD) ∧ code.getLast? = some ins2 then
            sampleLoop gen num_reg num_lines loop fuel pos2 ins2 code
          else sampleLoop gen num_reg num_lines loop fuel pos2 ins2 (code ++ [ins2])

/-- The outcome of a call of `SampleCode`: the code it returns; undefined behaviour (a
distribution built with `a > b`); or no return within the bound on the iterations. -/
inductive SampleOutcome where
  | returned (code : List Instruction)
  | undefined
  | unfinished
deriving DecidableEq, Repr

/-- The function `Machine::SampleCode`. The three distributions are built first: `dis_reg(0,
num_reg - 1)` and `dis_line(0, num_lines - 1)` need `num_reg >= 1` and `num_lines >= 1`. -/
def SampleCode (gen : Nat → Nat) (num_reg num_lines : Int) (loop : Bool) (fuel : Nat) :
    SampleOutcome :=
  if num_reg - 1 < 0 ∨ num_lines - 1 < 0 then SampleOutcome.undefined
  else
    match sampleLoop gen num_reg num_lines loop fuel 0 {} [] with
    | some code => SampleOutcome.returned code
    | none => SampleOutcome.unfinished

/-- The instruction `c` is well formed for `num_reg` registers, as the sampler builds them. -/
def WellFormed (num_reg : Int) (c : Instruction) : Prop :=
  (c.ins_type = INS_END ∧ c.arg1 = -1 ∧ c.arg2 = -1) ∨
  ((c.ins_type = INS_REP ∨ c.ins_type = INS_INC ∨ c.ins_type = INS_DEC) ∧
    0 ≤ c.arg1 ∧ c.arg1 < num_reg ∧ c.arg2 = -1) ∨
  ((c.ins_type = INS_MOV ∨ c.ins_type = INS_CMP ∨ c.ins_type = INS_LOAD ∨
      c.ins_type = INS_SAVE) ∧
    0 ≤ c.arg1 ∧ c.arg1 < num_reg ∧ 0 ≤ c.arg2 ∧ c.arg2 < num_reg ∧ c.arg1 ≠ c.arg2)

/-- A generator stream for the examples. -/
def sampleGen : Nat → Nat := fun k => k * k + 1

/-! ## The generate cycle (`codegen.cc`; `codegen_specific.h`; `interpreter.cc`, lines 440-446) -/

/-- The members of `GameState` that `GenerateProgram` writes. -/
structure GameState where
  mem_in : List Int := []
  mem_out : List Int := []
  code : List Int := []
deriving DecidableEq, Repr

/-- The method `Instruction::GetFeature`. -/
def Instruction.GetFeature (i : Instruction) : List Int := [i.ins_type, i.arg1, i.arg2]

/-- The loop of `Machine::LoadCodeFromString` over the tokens; `none` when the constructor of
`Instruction` does not return an instruction for one of them. -/
def parseTokens : List Str → Option (List Instruction)
  | [] => some []
  | t :: ts =>
    match Instruction.fromString t with
    | ParseOutcome.ok i =>
      match parseTokens ts with
      | some res => some (i :: res)
      | none => none
    | _ => none

/-- The function `Machine::LoadCodeFromString`: the text is split at `;`. -/
def LoadCodeFromString (s : Str) : Option (List Instruction) :=
  parseTokens (split s (Char.ofNat 59))

/-- The method `CodegenGame::regenerate_memory`: `num_memory_sample` memories of `size_memory`
cells, each cell drawn by `dis_mem(gen)` from `[0, mem_upper_bound]`; `gen` is the stream of the
generator as it stands at the call. -/
def CodegenGame.regenerate_memory (g : CodegenGame) (gen : Nat → Nat) : CodegenGame :=
  { g with memories := (List.range g.num_memory_sample.toNat).map fun i =>
      (List.range g.size_memory.toNat).map fun c =>
        drawInt gen (i * g.size_memory.toNat + c) 0 g.mem_upper_bound }

/-- The loop of `reload_code` over the memories (lines 48-54): `Init`, `Run` (the returned halt
code is not looked at), then the trace and the pc index of the run are appended. -/
def reloadLoop (init_reg : Register) :
    List Memory → Machine → List (List MachineState) → List PcMap →
      Machine × List (List MachineState) × List PcMap
  | [], m, states, maps => (m, states, maps)
  | mem :: rest, m, states, maps =>
    let m1 := (m.withInit init_reg mem).Run
    reloadLoop init_reg rest m1 (states ++ [m1.dumped_states]) (maps ++ [m1.pc2states])

/-- The method `CodegenGame::reload_code`; `none` when `Load` throws. -/
def CodegenGame.reload_code (g : CodegenGame) : Option CodegenGame :=
  match g.machine.Load g.code_pruned with
  | none => none
  | some m1 =>
    let r := reloadLoop g.init_reg g.memories (m1.SetDumpAll true) [] []
    some { g with machine := r.1, all_states := r.2.1, pc2states := r.2.2 }

/-- The method `CodegenGame::get_half_feature`: the returned `int` and the vector `*f` after
the call. -/
def CodegenGame.get_half_feature (g : CodegenGame) (sample_idx state_idx : Int) (f : List Int)
    (offset : Int) : Int × List Int :=
  if sample_idx < 0 ∨ sample_idx ≥ g.all_states.length then (0, f)
  else
    match g.all_states[sample_idx.toNat]? with
    | none => (0, f)
    | some states =>
      if state_idx < 0 ∨ state_idx ≥ states.length then (0, f)
      else
        match states[state_idx.toNat]? with
        | none => (0, f)
        | some s => ((s.GetFeature.length : Int), copyAt s.GetFeature offset.toNat f)

/-- The loop of `get_pruned_code` (lines 7-13), from its iteration `k` on; `gens k` and
`rands k` are the streams of the member generator and of `std::rand` as they stand at iteration
`k`, `sfuel` bounds the loops of `SampleCode`. `none`: an exception or undefined behaviour
inside, or the bound `fuel` on the iterations was reached. -/
def get_pruned_code (loop : Bool) (gens rands : Nat → Nat → Nat) (sfuel : Nat) :
    Nat → Nat → CodegenGame → Option CodegenGame
  | 0, _, _ => none
  | fuel + 1, k, g =>
    match SampleCode (gens k) g.init_reg.length g.initial_program_length loop sfuel with
    | SampleOutcome.returned codes =>
      match GreedyPrune codes g.init_reg g.size_memory.toNat g.num_memory_sample.toNat
          (rands k) g.code_pruned with
      | none => none
      | some (is_valid, pruned) =>
        if is_valid = true ∧ (pruned.length : Int) ≤ g.max_program_length_after_pruning ∧
            (pruned.length : Int) ≥ g.min_program_length_after_pruning then
          some { g with code_pruned := pruned }
        else get_pruned_code loop gens rands sfuel fuel (k + 1) { g with code_pruned := pruned }
    | _ => none

/-- The loop over the samples of lines 82-89, with `k` samples left from sample `i` on: the
state, and the flag `retry`, after it. -/
def featureLoop (g : CodegenGame) :
    Nat → Nat → GameState → Int → Int → Bool → GameState × Bool
  | 0, _, state, _, _, retry => (state, retry)
  | k + 1, i, state, mem_in_offset, mem_out_offset, retry =>
    if retry then (state, retry)
    else
      let r_in := g.get_half_feature i 0 state.mem_in mem_in_offset
      let r_out := g.get_half_feature i (((g.all_states.getD i []).length : Int) - 1)
        state.mem_out mem_out_offset
      featureLoop g k (i + 1) { state with mem_in := r_in.2, mem_out := r_out.2 }
        (mem_in_offset + r_in.1) (mem_out_offset + r_out.1)
        (decide (r_in.1 = 0 ∨ r_out.1 = 0))

/-- The loop of lines 94-98 that writes the features of the instructions of `code_pruned`. -/
def dumpCode : List Instruction → Nat → List Int → List Int
  | [], _, code => code
  | c :: cs, code_offset, code =>
    dumpCode cs (code_offset + c.GetFeature.length) (copyAt c.GetFeature code_offset code)

/-- How a call of `GenerateProgram` ends: it returns (with the game, the state and the index of
the trial that succeeded); it throws the fatal `std::runtime_error("")` after the last trial; or
something else leaves the call (an exception of parsing or linking, or no result of
`get_pruned_code`). -/
inductive GenOutcome where
  | returned (g : CodegenGame) (state : GameState) (trial : Nat)
  | fatal
  | escaped

/-- The trials of `GenerateProgram` (lines 71-102), with `n` trials left from trial `k` on;
`trialGen k` is the stream of the member generator when trial `k` regenerates the memories. -/
def trialLoop (program : Option Str) (trialGen : Nat → Nat → Nat)
    (gens rands : Nat → Nat → Nat → Nat) (sfuel pfuel : Nat) :
    Nat → Nat → CodegenGame → GameState → GenOutcome
  | 0, _, _, _ => GenOutcome.fatal
  | n + 1, k, g, state =>
    let coded : Option CodegenGame :=
      match program with
      | none => get_pruned_code g.use_loop (gens k) (rands k) sfuel pfuel 0 g
      | some text =>
        match LoadCodeFromString text with
        | none => none
        | some code => some { g with code_pruned := code }
    match coded with
    | none => GenOutcome.escaped
    | some g1 =>
      match (g1.regenerate_memory (trialGen k)).reload_code with
      | none => GenOutcome.escaped
      | some g2 =>
        let r := featureLoop g2 g2.memories.length 0 state 0 0 false
        if r.2 then trialLoop program trialGen gens rands sfuel pfuel n (k + 1) g2 r.1
        else
          GenOutcome.returned g2
            { r.1 with code := dumpCode g2.code_pruned 0 r.1.code } k

/-- The method `CodegenGame::GenerateProgram`; `program` is `none` for `nullptr`. -/
def CodegenGame.GenerateProgram (g : CodegenGame) (state : GameState) (program : Option Str)
    (trialGen : Nat → Nat → Nat) (gens rands : Nat → Nat → Nat → Nat) (sfuel pfuel : Nat) :
    GenOutcome :=
  let num_trial := 100
  let dim := (g.GetEnsembleMachineStateDim * g.num_memory_sample).toNat
  let state1 : GameState :=
    { state with mem_in := List.replicate dim 0, mem_out := List.replicate dim 0,
                 code := List.replicate
                   (g.max_program_length_after_pruning * g.instruction_dim).toNat 0 }
  trialLoop program trialGen gens rands sfuel pfuel num_trial 0 g state1

/-- The values that the calls `m.Run()` of line 50 return, in the order of the samples (the
code discards them): the loop of `reloadLoop`, keeping the halt codes instead of the traces. -/
def reloadCodes (init_reg : Register) : List Memory → Machine → List Int
  | [], _ => []
  | mem :: rest, m =>
    let m1 := (m.withInit init_reg mem).Run
    m1.state.return_code :: reloadCodes init_reg rest m1

/-- The program text `rep 0;inc 0;end`. -/
def selfLoopText : Str := "rep 0;inc 0;end".toList

/-! ## An immediately repeated instruction (`interpreter.cc`, lines 388-392) -/

/-- The program `P` with a second copy of the instruction at index `i` inserted right after
it. -/
def duplicateAt (P : List Instruction) (i : Nat) : List Instruction :=
  P.take (i + 1) ++ P.drop i

/-- The index in `duplicateAt P i` of the instruction that has index `x` in `P`. -/
def shiftIndex (i : Int) (x : Int) : Int := if x ≤ i then x else x + 1

/-- The locals `s2` of `Machine::Load` are those of `s1` with every index moved by
`shiftIndex i`, and index `i + 1` is no key. -/
structure ShiftRel (i : Int) (s1 s2 : LinkState) : Prop where
  type_eq : s2.control_type = s1.control_type
  stack_eq : s2.control_pc = s1.control_pc.map (shiftIndex i)
  map_eq : ∀ x, s2.control_map (shiftIndex i x) = (s1.control_map x).map (shiftIndex i)
  fresh : s2.control_map (i + 1) = none

/-- The lambda that `parse_one_line` returns for `s` at `line_idx`, with the captured `dst`,
`src`, `addr`, `addr1`, `addr2` equal to the operands of `s` (the value that `check_oob`
returns when it does not throw). -/
def closureBody (s : Instruction) (line_idx : Int) : Closure :=
  if s.ins_type = INS_REP then
    fun st cm =>
      match st.reg s.arg1 with
      | none => none
      | some v =>
        if v > 0 then
          match st.setReg s.arg1 (v - 1) with
          | none => none
          | some st1 => some (st1, cm)
        else
          some ({ st with pc := (cm.index line_idx).1 }, (cm.index line_idx).2)
  else if s.ins_type = INS_END then
    fun st cm =>
      match cm line_idx with
      | some v => some ({ st with pc := v - 1 }, cm)
      | none => some (st, cm)
  else if s.ins_type = INS_MOV then
    fun st cm =>
      match st.reg s.arg2 with
      | none => none
      | some v =>
        match st.setReg s.arg1 v with
        | none => none
        | some st1 => some (st1, cm)
  else if s.ins_type = INS_INC ∨ s.ins_type = INS_DEC then
    fun st cm =>
      match st.reg s.arg1 with
      | none => none
      | some v =>
        match st.setReg s.arg1 (v + (if s.ins_type = INS_INC then 1 else -1)) with
        | none => none
        | some st1 => some (st1, cm)
  else if s.ins_type = INS_CMP then
    fun st cm =>
      match st.reg s.arg1 with
      | none => none
      | some v1 =>
        match st.reg s.arg2 with
        | none => none
        | some v2 =>
          if v1 ≥ v2 then
            some ({ st with pc := (cm.index line_idx).1 - 1 }, (cm.index line_idx).2)
          else some (st, cm)
  else if s.ins_type = INS_LOAD then
    fun st cm =>
      match st.reg s.arg2 with
      | none => none
      | some a =>
        match st.mem a with
        | none => none
        | some v =>
          match st.setReg s.arg1 v with
          | none => none
          | some st1 => some (st1, cm)
  else
    fun st cm =>
      match st.reg s.arg2 with
      | none => none
      | some a =>
        match st.reg s.arg1 with
        | none => none
        | some v =>
          match st.setMem a v with
          | none => none
          | some st1 => some (st1, cm)
/-- The machine `m2` runs the program of `m` with the instruction `c` at index `A.length`
doubled (`c` a `mov`, `load` or `save` with distinct operands), and stands at the corresponding
point of the run: same registers, memory and flag, both running, `pc` moved by `shiftIndex`,
and at least as many executed instructions. -/
structure Doubled (A T : List Instruction) (c : Instruction) (m m2 : Machine) : Prop where
  l1 : Linked m
  l2 : Linked m2
  code1 : m.code = A ++ c :: T
  code2 : m2.code = A ++ c :: c :: T
  op : c.ins_type = INS_MOV ∨ c.ins_type = INS_LOAD ∨ c.ins_type = INS_SAVE
  ne : c.arg1 ≠ c.arg2
  regs : m2.state.register = m.state.register
  mems : m2.state.memory = m.state.memory
  flags : m2.state.flag = m.state.flag
  budget : m2.max_code_run = m.max_code_run
  pcs : m2.state.pc = shiftIndex A.length m.state.pc
  rc1 : m.state.return_code = RES_RUNNING
  rc2 : m2.state.return_code = RES_RUNNING
  cnt : m.state.counter ≤ m2.state.counter
  cnt2 : m2.state.counter ≤ m2.max_code_run ∨ m2.state.counter = m.state.counter

/-- The loop of `Run` has ended on `m` without exhausting the step budget: by a fault, or
with `pc` outside the program. -/
def EndedInBudget (m : Machine) : Prop :=
  m.state.return_code = RES_MEM_OOB ∨
  (m.state.return_code = RES_RUNNING ∧ ¬ loopCond m ∧ m.state.counter ≠ m.max_code_run)
/-- The program `cmp 0 1; end; inc 1`. -/
def cmpEndInc : List Instruction :=
  [⟨INS_CMP, 0, 1⟩, ⟨INS_END, -1, -1⟩, ⟨INS_INC, 1, -1⟩]

/-- A generator stream whose draws are, in the loop-permitting mode with two registers: opcode
`cmp` and operands `0, 1`; again opcode `cmp` and operands `0, 1`; opcode `end`; opcode `inc`
and operand `1`. -/
def cmpStream : Nat → Nat := fun k => [5, 0, 1, 5, 0, 1, 0, 2, 1].getD k 0

/-- The registers and the halt code after `Load(codes)`, `Init(reg, mem)` and `Run` on a fresh
machine with `reg.size()` registers and `M` memory cells (`none` when `Load` throws). -/
def finalRegisters (M : Nat) (codes : List Instruction) (reg : Register) (mem : Memory) :
    Option (Register × Int) :=
  ((Machine.new reg.length M).Load codes).map fun m =>
    ((m.withInit reg mem).Run.state.register, (m.withInit reg mem).Run.state.return_code)

/-- A two-register, three-cell machine with trace recording enabled that loaded
`straightProgram` and was initialised with registers `5, 4` and memory `7, 8, 9`: its fourth
instruction `load 0 1` reads `mem[3]` and faults. -/
def tracingFault : Machine :=
  ((loadedOrNew 2 3 straightProgram).SetDumpAll true).withInit [5, 4] [7, 8, 9]

/-! # Theorems -/

theorem openerAt_lt {l : List Instruction} {x : Int} (h : OpenerAt l x) : x < l.length := by
  obtain ⟨h0, c, hc, _⟩ := h
  have := (List.getElem?_eq_some_iff.1 hc).1
  omega

theorem endAt_lt {l : List Instruction} {x : Int} (h : EndAt l x) : x < l.length := by
  obtain ⟨h0, c, hc, _⟩ := h
  have := (List.getElem?_eq_some_iff.1 hc).1
  omega

theorem openerAt_append {l : List Instruction} {x : Int} (h : OpenerAt l x)
    (l2 : List Instruction) : OpenerAt (l ++ l2) x := by
  obtain ⟨h0, c, hc, hk⟩ := h
  refine ⟨h0, c, ?_, hk⟩
  have := (List.getElem?_eq_some_iff.1 hc).1
  rw [List.getElem?_append_left this]; exact hc

theorem endAt_append {l : List Instruction} {x : Int} (h : EndAt l x)
    (l2 : List Instruction) : EndAt (l ++ l2) x := by
  obtain ⟨h0, c, hc, hk⟩ := h
  refine ⟨h0, c, ?_, hk⟩
  have := (List.getElem?_eq_some_iff.1 hc).1
  rw [List.getElem?_append_left this]; exact hc

theorem openerAt_snoc {l : List Instruction} {c : Instruction} {x : Int}
    (h : OpenerAt (l ++ [c]) x) :
    OpenerAt l x ∨ (x = l.length ∧ (c.ins_type = INS_REP ∨ c.ins_type = INS_CMP)) := by
  obtain ⟨h0, d, hd, hk⟩ := h
  by_cases hlt : x.toNat < l.length
  · left
    rw [List.getElem?_append_left hlt] at hd
    exact ⟨h0, d, hd, hk⟩
  · right
    have hlen := (List.getElem?_eq_some_iff.1 hd).1
    simp at hlen
    have hx : x.toNat = l.length := by omega
    rw [hx] at hd
    simp at hd
    subst hd
    exact ⟨by omega, hk⟩

theorem openerAt_last (l : List Instruction) (c : Instruction)
    (hc : c.ins_type = INS_REP ∨ c.ins_type = INS_CMP) : OpenerAt (l ++ [c]) l.length := by
  refine ⟨by omega, c, ?_, hc⟩
  simp

theorem endAt_last (l : List Instruction) (c : Instruction)
    (hc : c.ins_type = INS_END) : EndAt (l ++ [c]) l.length := by
  refine ⟨by omega, c, ?_, hc⟩
  simp

theorem closeBlock_map (s : LinkState) (x : Int) (rest : List Int) (e k : Int) :
    (closeBlock s x rest e).control_map k =
      if k = x then some e
      else if k = e ∧ Int.tmod s.control_type 2 = 0 then some x
      else s.control_map k := by
  unfold closeBlock
  by_cases hp : Int.tmod s.control_type 2 = 0 <;> by_cases h1 : k = x <;> by_cases h2 : k = e <;>
    simp [ControlMap.insert, hp, h1, h2]

theorem scanInv_push {pre : List Instruction} {s : LinkState} (h : ScanInv pre s)
    (c : Instruction) (hc : c.ins_type = INS_REP ∨ c.ins_type = INS_CMP) (t : Int) :
    ScanInv (pre ++ [c])
      { s with control_pc := (pre.length : Int) :: s.control_pc, control_type := t } := by
  constructor
  · simp only [List.pairwise_cons]
    exact ⟨fun a ha => openerAt_lt (h.opened a ha), h.sorted⟩
  · intro x hx
    simp only [List.mem_cons] at hx
    rcases hx with rfl | hx
    · exact openerAt_last pre c hc
    · exact openerAt_append (h.opened x hx) _
  · intro x hx hnot
    simp only [List.mem_cons, not_or] at hnot
    rcases openerAt_snoc hx with h1 | ⟨h1, _⟩
    · obtain ⟨e, he, hlt, hend⟩ := h.closed x h1 hnot.2
      exact ⟨e, he, hlt, endAt_append hend _⟩
    · exact absurd h1 hnot.1
  · intro k v hkv
    have := h.keys k v hkv
    simp only [List.length_append, List.length_singleton, Nat.cast_add, Nat.cast_one]
    omega
  · intro x hx y e hy hnot hlt hye
    simp only [List.mem_cons, not_or] at hnot hx
    rcases hx with rfl | hx
    · exact (h.keys y e hye).1.2
    · rcases openerAt_snoc hy with h1 | ⟨h1, _⟩
      · exact h.before_open x hx y e h1 hnot.2 hlt hye
      · exact absurd h1 hnot.1
  · intro x y ex ey hx hy hnx hny hlt hxe hye
    simp only [List.mem_cons, not_or] at hnx hny
    rcases openerAt_snoc hx with h1 | ⟨h1, _⟩
    · rcases openerAt_snoc hy with h2 | ⟨h2, _⟩
      · exact h.nest x y ex ey h1 h2 hnx.2 hny.2 hlt hxe hye
      · exact absurd h2 hny.1
    · exact absurd h1 hnx.1

theorem scanInv_skip {pre : List Instruction} {s : LinkState} (h : ScanInv pre s)
    (c : Instruction) (hc : ¬ (c.ins_type = INS_REP ∨ c.ins_type = INS_CMP)) :
    ScanInv (pre ++ [c]) s := by
  have key : ∀ x, OpenerAt (pre ++ [c]) x → OpenerAt pre x := by
    intro x hx
    rcases openerAt_snoc hx with h1 | ⟨_, h1⟩
    · exact h1
    · exact absurd h1 hc
  constructor
  · exact h.sorted
  · intro x hx
    exact openerAt_append (h.opened x hx) _
  · intro x hx hnot
    obtain ⟨e, he, hlt, hend⟩ := h.closed x (key x hx) hnot
    exact ⟨e, he, hlt, endAt_append hend _⟩
  · intro k v hkv
    have := h.keys k v hkv
    simp only [List.length_append, List.length_singleton, Nat.cast_add, Nat.cast_one]
    omega
  · intro x hx y e hy hnot hlt hye
    exact h.before_open x hx y e (key y hy) hnot hlt hye
  · intro x y ex ey hx hy hnx hny hlt hxe hye
    exact h.nest x y ex ey (key x hx) (key y hy) hnx hny hlt hxe hye

theorem scanInv_close {pre : List Instruction} {s : LinkState} (h : ScanInv pre s)
    (c : Instruction) (hc : c.ins_type = INS_END) (x : Int) (rest : List Int)
    (hs : s.control_pc = x :: rest) :
    ScanInv (pre ++ [c]) (closeBlock s x rest pre.length) := by
  have hne : ¬ (c.ins_type = INS_REP ∨ c.ins_type = INS_CMP) := by
    rw [hc]; decide
  have key : ∀ y, OpenerAt (pre ++ [c]) y → OpenerAt pre y := by
    intro y hy
    rcases openerAt_snoc hy with h1 | ⟨_, h1⟩
    · exact h1
    · exact absurd h1 hne
  have hsorted := h.sorted
  rw [hs, List.pairwise_cons] at hsorted
  have hxo : OpenerAt pre x := h.opened x (by rw [hs]; simp)
  have hxlt := openerAt_lt hxo
  have hx0 := hxo.1
  have hpc : (closeBlock s x rest pre.length).control_pc = rest := rfl
  have hmem : ∀ y, y ≠ x → y ∉ rest → y ∉ s.control_pc := by
    intro y h1 h2 h3
    rw [hs] at h3
    simp only [List.mem_cons] at h3
    tauto
  have hmap : ∀ y, OpenerAt pre y → y ≠ x →
      (closeBlock s x rest pre.length).control_map y = s.control_map y := by
    intro y hy hyx
    rw [closeBlock_map, if_neg hyx, if_neg]
    have := openerAt_lt hy
    intro hh; omega
  constructor
  · exact hsorted.2
  · intro y hy
    rw [hpc] at hy
    exact openerAt_append (h.opened y (by rw [hs]; simp [hy])) _
  · intro y hy hnot
    rw [hpc] at hnot
    by_cases hyx : y = x
    · subst hyx
      refine ⟨pre.length, ?_, hxlt, endAt_last pre c hc⟩
      rw [closeBlock_map, if_pos rfl]
    · obtain ⟨e, he, hlt, hend⟩ := h.closed y (key y hy) (hmem y hyx hnot)
      refine ⟨e, ?_, hlt, endAt_append hend _⟩
      rw [hmap y (key y hy) hyx]; exact he
  · intro k v hkv
    rw [closeBlock_map] at hkv
    simp only [List.length_append, List.length_singleton, Nat.cast_add, Nat.cast_one]
    split_ifs at hkv with h1 h2
    · simp only [Option.some.injEq] at hkv
      omega
    · simp only [Option.some.injEq] at hkv
      omega
    · have := h.keys k v hkv
      omega
  · intro x1 hx1 y e hy hnot hlt hye
    rw [hpc] at hx1 hnot
    have hx1x : x1 < x := hsorted.1 x1 hx1
    have hyx : y ≠ x := by omega
    rw [hmap y (key y hy) hyx] at hye
    exact h.before_open x1 (by rw [hs]; simp [hx1]) y e (key y hy) (hmem y hyx hnot) hlt hye
  · intro y1 y2 e1 e2 hy1 hy2 hn1 hn2 hlt h1e h2e
    rw [hpc] at hn1 hn2
    by_cases c1 : y1 = x
    · subst c1
      have c2 : y2 ≠ y1 := by omega
      rw [hmap y2 (key y2 hy2) c2] at h2e
      rw [closeBlock_map, if_pos rfl] at h1e
      simp only [Option.some.injEq] at h1e
      have := (h.keys y2 e2 h2e).1.2
      right; omega
    · rw [hmap y1 (key y1 hy1) c1] at h1e
      by_cases c2 : y2 = x
      · subst c2
        left
        exact h.before_open y2 (by rw [hs]; simp) y1 e1 (key y1 hy1) (hmem y1 c1 hn1) hlt h1e
      · rw [hmap y2 (key y2 hy2) c2] at h2e
        exact h.nest y1 y2 e1 e2 (key y1 hy1) (key y2 hy2) (hmem y1 c1 hn1) (hmem y2 c2 hn2)
          hlt h1e h2e

theorem scanInv_linkScan (cs : List Instruction) :
    ∀ (pre : List Instruction) (s : LinkState), ScanInv pre s →
      ScanInv (pre ++ cs) (linkScan cs pre.length s) := by
  induction cs with
  | nil => intro pre s h; simpa [linkScan] using h
  | cons c cs ih =>
    intro pre s h
    have hlen : ((pre ++ [c]).length : Int) = (pre.length : Int) + 1 := by simp
    have happ : pre ++ c :: cs = (pre ++ [c]) ++ cs := by simp
    rw [happ]
    unfold linkScan
    split_ifs with h1 h2 h3
    · rw [← hlen]; exact ih _ _ (scanInv_push h c (Or.inl h1) _)
    · rw [← hlen]; exact ih _ _ (scanInv_push h c (Or.inr h2) _)
    · have hne : ¬ (c.ins_type = INS_REP ∨ c.ins_type = INS_CMP) := by tauto
      cases hst : s.control_pc with
      | nil => simp only []; rw [← hlen]; exact ih _ _ (scanInv_skip h c hne)
      | cons x rest => simp only []; rw [← hlen]; exact ih _ _ (scanInv_close h c h3 x rest hst)
    · have hne : ¬ (c.ins_type = INS_REP ∨ c.ins_type = INS_CMP) := by tauto
      rw [← hlen]; exact ih _ _ (scanInv_skip h c hne)

theorem linkScan_append (a b : List Instruction) :
    ∀ (i : Int) (s : LinkState),
      linkScan (a ++ b) i s = linkScan b (i + a.length) (linkScan a i s) := by
  induction a with
  | nil => intro i s; simp [linkScan]
  | cons c cs ih =>
    intro i s
    have e : i + ((c :: cs).length : Int) = (i + 1) + (cs.length : Int) := by
      simp only [List.length_cons, Nat.cast_add, Nat.cast_one]; ring
    rw [e]
    simp only [List.cons_append, linkScan]
    split_ifs
    · exact ih _ _
    · exact ih _ _
    · cases s.control_pc with
      | nil => exact ih _ _
      | cons x rest => exact ih _ _
    · exact ih _ _

theorem linkClose_eq (stack : List Int) :
    ∀ (s : LinkState) (n : Int), s.control_pc = stack →
      linkClose stack s n =
        ((linkScan (List.replicate stack.length endIns) n s).control_map, n + stack.length) ∧
      (linkScan (List.replicate stack.length endIns) n s).control_pc = [] := by
  induction stack with
  | nil => intro s n h; simp [linkClose, linkScan, h]
  | cons x rest ih =>
    intro s n h
    have hs : (closeBlock s x rest n).control_pc = rest := rfl
    have e1 : INS_END ≠ INS_REP := by decide
    have e2 : INS_END ≠ INS_CMP := by decide
    have := ih (closeBlock s x rest n) (n + 1) hs
    simp only [List.length_cons, List.replicate_succ, linkClose, linkScan, endIns, e1, e2,
      if_false, if_true, h, Nat.cast_add, Nat.cast_one]
    simp only [endIns] at this
    rw [this.1]
    refine ⟨?_, this.2⟩
    congr 1; ring

theorem parseLines_spec (R : Int) (cs : List Instruction) :
    ∀ (i : Int) (fs : List Closure), parseLines R i cs = some fs →
      fs.length = cs.length ∧
      ∀ (j : Nat) (c : Instruction), cs[j]? = some c →
        ∃ f, fs[j]? = some f ∧ parse_one_line R (i + j) c = some f := by
  induction cs with
  | nil =>
    intro i fs h
    simp only [parseLines, Option.some.injEq] at h
    subst h
    simp
  | cons c cs ih =>
    intro i fs h
    simp only [parseLines] at h
    split at h
    · exact absurd h (by simp)
    · rename_i f hf
      split at h
      · exact absurd h (by simp)
      · rename_i fs1 hfs
        simp only [Option.some.injEq] at h
        subst h
        obtain ⟨hl, hget⟩ := ih (i + 1) fs1 hfs
        refine ⟨by simp [hl], ?_⟩
        intro j d hd
        cases j with
        | zero =>
          simp only [List.getElem?_cons_zero, Option.some.injEq] at hd
          subst hd
          exact ⟨f, by simp, by simpa using hf⟩
        | succ j =>
          simp only [List.getElem?_cons_succ] at hd
          obtain ⟨g, hg1, hg2⟩ := hget j d hd
          refine ⟨g, by simpa using hg1, ?_⟩
          have e : i + ((j + 1 : Nat) : Int) = i + 1 + (j : Int) := by push_cast; ring
          rw [e]; exact hg2

theorem setReg_frame {st st1 : MachineState} {i x : Int} (h : st.setReg i x = some st1) :
    SameFrame st st1 ∧ st1.pc = st.pc ∧ st1.memory = st.memory := by
  unfold MachineState.setReg setCell at h
  split_ifs at h
  simp only [Option.some.injEq] at h
  subst h
  simp [SameFrame]

theorem setMem_frame {st st1 : MachineState} {i x : Int} (h : st.setMem i x = some st1) :
    SameFrame st st1 ∧ st1.pc = st.pc ∧ st1.register = st.register := by
  unfold MachineState.setMem setCell at h
  split_ifs at h
  simp only [Option.some.injEq] at h
  subst h
  simp [SameFrame]

theorem closure_spec {R idx : Int} {c : Instruction} {f : Closure}
    (h : parse_one_line R idx c = some f) {st st1 : MachineState} {cm cm1 : ControlMap}
    (hf : f st cm = some (st1, cm1)) :
    SameFrame st st1 ∧
    ((st1.pc = st.pc ∧ cm1 = cm) ∨
     (c.ins_type = INS_REP ∧ st1.pc = (cm.index idx).1 ∧ cm1 = (cm.index idx).2) ∨
     (c.ins_type = INS_END ∧ cm1 = cm ∧ ∃ v, cm idx = some v ∧ st1.pc = v - 1) ∨
     (c.ins_type = INS_CMP ∧ st1.pc = (cm.index idx).1 - 1 ∧ cm1 = (cm.index idx).2)) := by
  unfold parse_one_line at h
  split_ifs at h
  · -- REP
    split at h
    · simp at h
    · simp only [Option.some.injEq] at h
      subst h
      simp only at hf
      split at hf
      · simp at hf
      · split_ifs at hf
        · split at hf
          · simp at hf
          · rename_i st2 hst2
            simp only [Option.some.injEq, Prod.mk.injEq] at hf
            obtain ⟨rfl, rfl⟩ := hf
            have := setReg_frame hst2
            exact ⟨this.1, Or.inl ⟨this.2.1, rfl⟩⟩
        · simp only [Option.some.injEq, Prod.mk.injEq] at hf
          obtain ⟨rfl, rfl⟩ := hf
          exact ⟨by simp [SameFrame], Or.inr (Or.inl ⟨by assumption, rfl, rfl⟩)⟩
  · -- END
    simp only [Option.some.injEq] at h
    subst h
    simp only at hf
    split at hf
    · rename_i v hv
      simp only [Option.some.injEq, Prod.mk.injEq] at hf
      obtain ⟨rfl, rfl⟩ := hf
      exact ⟨by simp [SameFrame], Or.inr (Or.inr (Or.inl ⟨by assumption, rfl, v, hv, rfl⟩))⟩
    · simp only [Option.some.injEq, Prod.mk.injEq] at hf
      obtain ⟨rfl, rfl⟩ := hf
      exact ⟨by simp [SameFrame], Or.inl ⟨rfl, rfl⟩⟩
  · -- MOV
    split at h
    · simp at h
    · split at h
      · simp at h
      · simp only [Option.some.injEq] at h
        subst h
        simp only at hf
        split at hf
        · simp at hf
        · split at hf
          · simp at hf
          · rename_i st2 hst2
            simp only [Option.some.injEq, Prod.mk.injEq] at hf
            obtain ⟨rfl, rfl⟩ := hf
            have := setReg_frame hst2
            exact ⟨this.1, Or.inl ⟨this.2.1, rfl⟩⟩
  · -- INC
    split at h
    · simp at h
    · simp only [Option.some.injEq] at h
      subst h
      simp only at hf
      split at hf
      · simp at hf
      · split at hf
        · simp at hf
        · rename_i st2 hst2
          simp only [Option.some.injEq, Prod.mk.injEq] at hf
          obtain ⟨rfl, rfl⟩ := hf
          have := setReg_frame hst2
          exact ⟨this.1, Or.inl ⟨this.2.1, rfl⟩⟩
  · -- DEC
    split at h
    · simp at h
    · simp only [Option.some.injEq] at h
      subst h
      simp only at hf
      split at hf
      · simp at hf
      · split at hf
        · simp at hf
        · rename_i st2 hst2
          simp only [Option.some.injEq, Prod.mk.injEq] at hf
          obtain ⟨rfl, rfl⟩ := hf
          have := setReg_frame hst2
          exact ⟨this.1, Or.inl ⟨this.2.1, rfl⟩⟩
  · -- CMP
    split at h
    · simp at h
    · split at h
      · simp at h
      · simp only [Option.some.injEq] at h
        subst h
        simp only at hf
        split at hf
        · simp at hf
        · split at hf
          · simp at hf
          · split_ifs at hf
            · simp only [Option.some.injEq, Prod.mk.injEq] at hf
              obtain ⟨rfl, rfl⟩ := hf
              exact ⟨by simp [SameFrame], Or.inr (Or.inr (Or.inr ⟨by assumption, rfl, rfl⟩))⟩
            · simp only [Option.some.injEq, Prod.mk.injEq] at hf
              obtain ⟨rfl, rfl⟩ := hf
              exact ⟨by simp [SameFrame], Or.inl ⟨rfl, rfl⟩⟩
  · -- LOAD
    split at h
    · simp at h
    · split at h
      · simp at h
      · simp only [Option.some.injEq] at h
        subst h
        simp only at hf
        split at hf
        · simp at hf
        · split at hf
          · simp at hf
          · split at hf
            · simp at hf
            · rename_i st2 hst2
              simp only [Option.some.injEq, Prod.mk.injEq] at hf
              obtain ⟨rfl, rfl⟩ := hf
              have := setReg_frame hst2
              exact ⟨this.1, Or.inl ⟨this.2.1, rfl⟩⟩
  · -- SAVE
    split at h
    · simp at h
    · split at h
      · simp at h
      · simp only [Option.some.injEq] at h
        subst h
        simp only at hf
        split at hf
        · simp at hf
        · split at hf
          · simp at hf
          · split at hf
            · simp at hf
            · rename_i st2 hst2
              simp only [Option.some.injEq, Prod.mk.injEq] at hf
              obtain ⟨rfl, rfl⟩ := hf
              have := setMem_frame hst2
              exact ⟨this.1, Or.inl ⟨this.2.1, rfl⟩⟩

theorem scanInv_start : ScanInv [] LinkState.start := by
  constructor
  · simp [LinkState.start]
  · intro x hx; simp [LinkState.start] at hx
  · intro x hx
    have h1 := openerAt_lt hx
    have h2 := hx.1
    simp at h1; omega
  · intro k v h; simp [LinkState.start, ControlMap.empty] at h
  · intro x hx; simp [LinkState.start] at hx
  · intro x y ex ey hx
    have h1 := openerAt_lt hx
    have h2 := hx.1
    simp at h1; omega

theorem scanInv_code (codes : List Instruction) :
    ScanInv codes (linkScan codes 0 LinkState.start) := by
  have := scanInv_linkScan codes [] LinkState.start scanInv_start
  simpa using this

theorem Load_eq (m : Machine) (codes : List Instruction) :
    m.Load codes =
      match parseLines m.state.register.length 0
        (codes ++ List.replicate (linkScan codes 0 LinkState.start).control_pc.length endIns) with
      | none => none
      | some prog => some { m with
          program := prog
          code := codes ++
            List.replicate (linkScan codes 0 LinkState.start).control_pc.length endIns
          control_map := (linkScan (codes ++
            List.replicate (linkScan codes 0 LinkState.start).control_pc.length endIns) 0
              LinkState.start).control_map } := by
  have h := (linkClose_eq (linkScan codes 0 LinkState.start).control_pc
    (linkScan codes 0 LinkState.start) codes.length rfl).1
  unfold Machine.Load
  simp only [h, add_sub_cancel_left, Int.toNat_ofNat, linkScan_append, zero_add] <;> rfl

theorem Load_spec {m m1 : Machine} {codes : List Instruction} (h : m.Load codes = some m1) :
    m1.code = codes ++
      List.replicate (linkScan codes 0 LinkState.start).control_pc.length endIns ∧
    Linked m1 ∧ m1.state = m.state ∧ m1.max_code_run = m.max_code_run ∧
    m1.dump_all_state = m.dump_all_state ∧ m1.dumped_states = m.dumped_states ∧
    m1.pc2states = m.pc2states := by
  rw [Load_eq] at h
  split at h
  · simp at h
  · rename_i prog hp
    simp only [Option.some.injEq] at h
    subst h
    refine ⟨rfl, ⟨hp, rfl, ?_⟩, rfl, rfl, rfl, rfl, rfl⟩
    simp only [linkScan_append, zero_add]
    exact (linkClose_eq _ _ _ rfl).2

theorem Load_congr {m m1 m2 : Machine} {codes : List Instruction}
    (h : m.Load codes = some m1)
    (hR : m2.state.register.length = m.state.register.length) :
    ∃ m3, m2.Load codes = some m3 ∧ m3.program = m1.program ∧ m3.code = m1.code ∧
      m3.control_map = m1.control_map := by
  rw [Load_eq] at h ⊢
  rw [hR]
  split at h
  · simp at h
  · rename_i prog hp
    simp only [Option.some.injEq] at h
    subst h
    simp only [hp]
    exact ⟨_, rfl, rfl, rfl, rfl⟩

theorem linked_scanInv {m : Machine} (_h : Linked m) :
    ScanInv m.code (linkScan m.code 0 LinkState.start) := scanInv_code m.code

theorem linked_opener_key {m : Machine} (h : Linked m) {x : Int} (hx : OpenerAt m.code x) :
    ∃ e, m.control_map x = some e ∧ x < e ∧ e < m.code.length ∧ EndAt m.code e := by
  obtain ⟨e, he, hlt, hend⟩ := (linked_scanInv h).closed x hx (by rw [h.all_closed]; simp)
  exact ⟨e, by rw [h.map_eq]; exact he, hlt, endAt_lt hend, hend⟩

theorem linked_key_val {m : Machine} (h : Linked m) {k v : Int}
    (hk : m.control_map k = some v) : 0 ≤ v ∧ v < m.code.length := by
  rw [h.map_eq] at hk
  exact ((linked_scanInv h).keys k v hk).1

theorem linked_length_eq {m : Machine} (h : Linked m) : m.program.length = m.code.length :=
  (parseLines_spec _ _ _ _ h.prog).1

theorem linked_closure_at {m : Machine} (h : Linked m) {pc : Int} (h0 : 0 ≤ pc)
    (h1 : pc < m.program.length) :
    ∃ c f, m.code[pc.toNat]? = some c ∧ m.program[pc.toNat]? = some f ∧
      parse_one_line m.state.register.length pc c = some f := by
  rw [linked_length_eq h] at h1
  have hlt : pc.toNat < m.code.length := by omega
  obtain ⟨f, hf1, hf2⟩ := (parseLines_spec _ _ _ _ h.prog).2 pc.toNat (m.code[pc.toNat])
    (List.getElem?_eq_getElem hlt)
  refine ⟨_, f, List.getElem?_eq_getElem hlt, hf1, ?_⟩
  have e : (0 : Int) + (pc.toNat : Int) = pc := by omega
  rw [e] at hf2; exact hf2

theorem loopBody_of (m : Machine) (f : Closure)
    (hprog : m.program[m.state.pc.toNat]? = some f) :
    loopBody m =
      match f m.state m.control_map with
      | none =>
        ({ (if m.dump_all_state then m.dump else m) with
            state := { m.state with return_code := RES_MEM_OOB } }, true)
      | some (st, cm) =>
        ({ (if m.dump_all_state then m.dump else m) with
            state := { st with pc := st.pc + 1, counter := st.counter + 1 },
            control_map := cm }, false) := by
  unfold loopBody
  cases hd : m.dump_all_state <;> cases hf : f m.state m.control_map <;>
    simp [Machine.dump, hprog, hf]

theorem dump_fields (m : Machine) :
    (if m.dump_all_state then m.dump else m).state = m.state ∧
    (if m.dump_all_state then m.dump else m).program = m.program ∧
    (if m.dump_all_state then m.dump else m).code = m.code ∧
    (if m.dump_all_state then m.dump else m).control_map = m.control_map ∧
    (if m.dump_all_state then m.dump else m).max_code_run = m.max_code_run ∧
    (if m.dump_all_state then m.dump else m).dump_all_state = m.dump_all_state := by
  split_ifs <;> simp [Machine.dump]

/-- What one pass of the run loop does to a linked machine. -/
theorem loopBody_linked {m : Machine} (h : Linked m) (hc : loopCond m) :
    Linked (loopBody m).1 ∧ (loopBody m).1.control_map = m.control_map ∧
    (loopBody m).1.program = m.program ∧ (loopBody m).1.code = m.code ∧
    (loopBody m).1.max_code_run = m.max_code_run ∧
    (loopBody m).1.dump_all_state = m.dump_all_state ∧
    (loopBody m).1.state.register.length = m.state.register.length ∧
    (loopBody m).1.state.memory.length = m.state.memory.length ∧
    (loopBody m).1.state.flag = m.state.flag ∧
    (((loopBody m).2 = true ∧
        (loopBody m).1.state = { m.state with return_code := RES_MEM_OOB }) ∨
     ((loopBody m).2 = false ∧ (loopBody m).1.state.counter = m.state.counter + 1 ∧
        (loopBody m).1.state.return_code = m.state.return_code ∧
        0 ≤ (loopBody m).1.state.pc ∧ (loopBody m).1.state.pc ≤ m.code.length)) := by
  obtain ⟨hc0, hc1, hc2⟩ := hc
  obtain ⟨c, f, hcode, hprog, hparse⟩ := linked_closure_at h hc0 hc1
  have hlen := linked_length_eq h
  rw [loopBody_of m f hprog]
  obtain ⟨e1, e2, e3, e4, e5, e6⟩ := dump_fields m
  generalize (if m.dump_all_state then m.dump else m) = m1 at e1 e2 e3 e4 e5 e6 ⊢
  cases hf : f m.state m.control_map with
  | none =>
    refine ⟨⟨?_, ?_, ?_⟩, e4, e2, e3, e5, e6, rfl, rfl, rfl, Or.inl ⟨rfl, rfl⟩⟩
    · simpa [e2, e3] using h.prog
    · simpa [e3, e4] using h.map_eq
    · simpa [e3] using h.all_closed
  | some r =>
    obtain ⟨st, cm⟩ := r
    obtain ⟨⟨f1, f2, f3, f4, f5⟩, hcases⟩ := closure_spec hparse hf
    have hpc : cm = m.control_map ∧ 0 ≤ st.pc + 1 ∧ st.pc + 1 ≤ m.code.length := by
      rcases hcases with ⟨p1, p2⟩ | ⟨p1, p2, p3⟩ | ⟨p1, p2, v, p3, p4⟩ | ⟨p1, p2, p3⟩
      · exact ⟨p2, by omega, by omega⟩
      · obtain ⟨e, he, hlt, hlt2, _⟩ := linked_opener_key h (x := m.state.pc) ⟨hc0, c, hcode, Or.inl p1⟩
        simp only [ControlMap.index, he] at p2 p3
        exact ⟨p3, by omega, by omega⟩
      · have := linked_key_val h p3
        exact ⟨p2, by omega, by omega⟩
      · obtain ⟨e, he, hlt, hlt2, _⟩ := linked_opener_key h (x := m.state.pc) ⟨hc0, c, hcode, Or.inr p1⟩
        simp only [ControlMap.index, he] at p2 p3
        exact ⟨p3, by omega, by omega⟩
    obtain ⟨hcm, hp0, hp1⟩ := hpc
    subst hcm
    refine ⟨⟨?_, ?_, ?_⟩, rfl, e2, e3, e5, e6, f4, f5, f3,
      Or.inr ⟨rfl, by simp [f1], f2, hp0, hp1⟩⟩
    · simpa [e2, e3, f4] using h.prog
    · simpa [e3] using h.map_eq
    · simpa [e3] using h.all_closed

theorem runLoop_zero (m : Machine) : runLoop 0 m = m := rfl

theorem runLoop_succ (fuel : Nat) (m : Machine) :
    runLoop (fuel + 1) m =
      if loopCond m then
        if (loopBody m).2 then (loopBody m).1 else runLoop fuel (loopBody m).1
      else m := rfl

theorem runLoop_of_not_cond {m : Machine} (h : ¬ loopCond m) (fuel : Nat) :
    runLoop fuel m = m := by
  cases fuel with
  | zero => rfl
  | succ n => rw [runLoop_succ, if_neg h]

/-- Every prefix of the run of a linked machine keeps the machine linked, leaves the block map
and the program untouched and keeps `pc` within `[0, code().size()]`. -/
theorem runLoop_linked (fuel : Nat) :
    ∀ {m : Machine}, Linked m → 0 ≤ m.state.pc → m.state.pc ≤ m.code.length →
      Linked (runLoop fuel m) ∧ (runLoop fuel m).control_map = m.control_map ∧
      (runLoop fuel m).program = m.program ∧ (runLoop fuel m).code = m.code ∧
      (runLoop fuel m).max_code_run = m.max_code_run ∧
      (runLoop fuel m).dump_all_state = m.dump_all_state ∧
      (runLoop fuel m).state.register.length = m.state.register.length ∧
      (runLoop fuel m).state.memory.length = m.state.memory.length ∧
      (runLoop fuel m).state.flag = m.state.flag ∧
      0 ≤ (runLoop fuel m).state.pc ∧ (runLoop fuel m).state.pc ≤ m.code.length := by
  induction fuel with
  | zero => intro m h h0 h1; exact ⟨h, rfl, rfl, rfl, rfl, rfl, rfl, rfl, rfl, h0, h1⟩
  | succ n ih =>
    intro m h h0 h1
    rw [runLoop_succ]
    split_ifs with hc hb
    · obtain ⟨a1, a2, a3, a4, a5, a6, a7, a8, a9, a10⟩ := loopBody_linked h hc
      rcases a10 with ⟨_, hs⟩ | ⟨hb2, _⟩
      · refine ⟨a1, a2, a3, a4, a5, a6, a7, a8, a9, ?_, ?_⟩ <;> rw [hs] <;> assumption
      · rw [hb] at hb2; cases hb2
    · obtain ⟨a1, a2, a3, a4, a5, a6, a7, a8, a9, a10⟩ := loopBody_linked h hc
      rcases a10 with ⟨hb2, _⟩ | ⟨_, _, _, p0, p1⟩
      · exact absurd hb2 hb
      · obtain ⟨b1, b2, b3, b4, b5, b6, b7, b8, b9, b10, b11⟩ :=
          ih a1 p0 (by rw [a4]; exact p1)
        exact ⟨b1, b2.trans a2, b3.trans a3, b4.trans a4, b5.trans a5, b6.trans a6,
          b7.trans a7, b8.trans a8, b9.trans a9, b10, by rw [← a4]; exact b11⟩
    · exact ⟨h, rfl, rfl, rfl, rfl, rfl, rfl, rfl, rfl, h0, h1⟩

/-- With `max_code_run - counter` passes of fuel, the loop of a linked machine stops either on
a fault or because its condition fails; the halt code stays `RES_RUNNING` unless it faults. -/
theorem runLoop_done (fuel : Nat) :
    ∀ {m : Machine}, Linked m → m.state.return_code = RES_RUNNING →
      (m.max_code_run - m.state.counter).toNat ≤ fuel →
      (runLoop fuel m).state.return_code = RES_MEM_OOB ∨
      ((runLoop fuel m).state.return_code = RES_RUNNING ∧ ¬ loopCond (runLoop fuel m)) := by
  induction fuel with
  | zero =>
    intro m h hrc hf
    right
    refine ⟨hrc, ?_⟩
    rintro ⟨_, _, h3⟩
    simp only [runLoop_zero] at h3
    omega
  | succ n ih =>
    intro m h hrc hf
    rw [runLoop_succ]
    split_ifs with hc hb
    · obtain ⟨a1, a2, a3, a4, a5, a6, a7, a8, a9, a10⟩ := loopBody_linked h hc
      rcases a10 with ⟨_, hs⟩ | ⟨hb2, _⟩
      · left; rw [hs]
      · rw [hb] at hb2; cases hb2
    · obtain ⟨a1, a2, a3, a4, a5, a6, a7, a8, a9, a10⟩ := loopBody_linked h hc
      rcases a10 with ⟨hb2, _⟩ | ⟨_, q1, q2, p0, p1⟩
      · exact absurd hb2 hb
      · exact ih a1 (q2.trans hrc) (by rw [a5, q1]; omega)
    · exact Or.inr ⟨hrc, hc⟩

/-- The counter never decreases during the loop, and never passes the budget. -/
theorem runLoop_counter (fuel : Nat) :
    ∀ {m : Machine}, Linked m →
      m.state.counter ≤ (runLoop fuel m).state.counter ∧
      (m.state.counter ≤ m.max_code_run →
        (runLoop fuel m).state.counter ≤ m.max_code_run) := by
  induction fuel with
  | zero => intro m h; exact ⟨le_refl _, fun h => h⟩
  | succ n ih =>
    intro m h
    rw [runLoop_succ]
    split_ifs with hc hb
    · obtain ⟨a1, a2, a3, a4, a5, a6, a7, a8, a9, a10⟩ := loopBody_linked h hc
      rcases a10 with ⟨_, hs⟩ | ⟨hb2, _⟩
      · rw [hs]; exact ⟨le_refl _, fun h => h⟩
      · rw [hb] at hb2; cases hb2
    · obtain ⟨a1, a2, a3, a4, a5, a6, a7, a8, a9, a10⟩ := loopBody_linked h hc
      rcases a10 with ⟨hb2, _⟩ | ⟨_, q1, q2, p0, p1⟩
      · exact absurd hb2 hb
      · obtain ⟨i1, i2⟩ := ih a1
        have := hc.2.2
        rw [a5, q1] at i2
        exact ⟨by omega, fun _ => i2 (by omega)⟩
    · exact ⟨le_refl _, fun h => h⟩

theorem loopBody_congr {m1 m2 : Machine} (hp : m1.program = m2.program)
    (hc : m1.control_map = m2.control_map) (hx : m1.max_code_run = m2.max_code_run)
    (hs : m1.state = m2.state) :
    (loopBody m1).2 = (loopBody m2).2 ∧ (loopBody m1).1.state = (loopBody m2).1.state ∧
    (loopBody m1).1.program = (loopBody m2).1.program ∧
    (loopBody m1).1.control_map = (loopBody m2).1.control_map ∧
    (loopBody m1).1.max_code_run = (loopBody m2).1.max_code_run := by
  obtain ⟨a1, a2, _, a4, a5, _⟩ := dump_fields m1
  obtain ⟨b1, b2, _, b4, b5, _⟩ := dump_fields m2
  unfold loopBody
  generalize (if m1.dump_all_state then m1.dump else m1) = n1 at a1 a2 a4 a5 ⊢
  generalize (if m2.dump_all_state then m2.dump else m2) = n2 at b1 b2 b4 b5 ⊢
  simp only [a1, a2, a4, b1, b2, b4, hp, hc, hs]
  cases m2.program[m2.state.pc.toNat]? with
  | none => simp [a1, a2, a4, a5, b1, b2, b4, b5, hp, hc, hs, hx]
  | some f =>
    cases hf : f m2.state m2.control_map <;>
      simp [hf, a1, a2, a4, a5, b1, b2, b4, b5, hp, hc, hs, hx]

theorem loopCond_congr {m1 m2 : Machine} (hp : m1.program = m2.program)
    (hx : m1.max_code_run = m2.max_code_run) (hs : m1.state = m2.state) :
    loopCond m1 ↔ loopCond m2 := by
  unfold loopCond; rw [hp, hx, hs]

/-- The state reached by the loop depends only on the program, the block map, the budget and
the starting state. -/
theorem runLoop_congr (fuel : Nat) :
    ∀ {m1 m2 : Machine}, m1.program = m2.program → m1.control_map = m2.control_map →
      m1.max_code_run = m2.max_code_run → m1.state = m2.state →
      (runLoop fuel m1).state = (runLoop fuel m2).state ∧
      (runLoop fuel m1).max_code_run = (runLoop fuel m2).max_code_run := by
  induction fuel with
  | zero => intro m1 m2 hp hc hx hs; exact ⟨hs, hx⟩
  | succ n ih =>
    intro m1 m2 hp hc hx hs
    obtain ⟨c1, c2, c3, c4, c5⟩ := loopBody_congr hp hc hx hs
    rw [runLoop_succ, runLoop_succ]
    by_cases hc1 : loopCond m1
    · have hc2 := (loopCond_congr hp hx hs).1 hc1
      rw [if_pos hc1, if_pos hc2, c1]
      split_ifs
      · exact ⟨c2, c5⟩
      · exact ih c3 c4 c5 c2
    · have hc2 : ¬ loopCond m2 := fun h => hc1 ((loopCond_congr hp hx hs).2 h)
      rw [if_neg hc1, if_neg hc2]
      exact ⟨hs, hx⟩

theorem runFinish_state (m : Machine) :
    (runFinish m).state =
      if m.state.return_code = RES_RUNNING then
        if m.state.counter = m.max_code_run then
          { m.state with return_code := RES_MAX_CODE_RUN_REACHED }
        else { m.state with return_code := RES_END }
      else m.state := by
  unfold runFinish
  cases hd : m.dump_all_state <;> split_ifs <;> simp [Machine.dump, hd]

theorem runFinish_fields (m : Machine) :
    (runFinish m).program = m.program ∧ (runFinish m).code = m.code ∧
    (runFinish m).control_map = m.control_map ∧
    (runFinish m).max_code_run = m.max_code_run ∧
    (runFinish m).dump_all_state = m.dump_all_state := by
  unfold runFinish
  cases hd : m.dump_all_state <;> split_ifs <;> simp [Machine.dump, hd]

theorem runStart_fields (m : Machine) :
    m.runStart.state = m.state ∧ m.runStart.program = m.program ∧ m.runStart.code = m.code ∧
    m.runStart.control_map = m.control_map ∧ m.runStart.max_code_run = m.max_code_run ∧
    m.runStart.dump_all_state = m.dump_all_state := by
  unfold Machine.runStart
  split_ifs <;> simp

/-- The machine on which the loop of `Run` starts. -/
theorem Run_eq (m : Machine) :
    ∃ m0 : Machine, m.Run = runFinish (runLoop (m.max_code_run - m.state.counter).toNat m0) ∧
      m0 = m.runStart ∧
      m0.state = m.state ∧ m0.program = m.program ∧ m0.code = m.code ∧
      m0.control_map = m.control_map ∧ m0.max_code_run = m.max_code_run ∧
      m0.dump_all_state = m.dump_all_state := by
  obtain ⟨a, b, c, d, e, f⟩ := runStart_fields m
  refine ⟨m.runStart, ?_, rfl, a, b, c, d, e, f⟩
  unfold Machine.Run
  rw [a, e]

/-- The final state of `Run` depends only on the program, the block map, the budget and the
starting state. -/
theorem Run_congr {m1 m2 : Machine} (hp : m1.program = m2.program)
    (hc : m1.control_map = m2.control_map) (hx : m1.max_code_run = m2.max_code_run)
    (hs : m1.state = m2.state) : m1.Run.state = m2.Run.state := by
  obtain ⟨n1, e1, _, s1, p1, _, c1, x1, _⟩ := Run_eq m1
  obtain ⟨n2, e2, _, s2, p2, _, c2, x2, _⟩ := Run_eq m2
  rw [e1, e2, runFinish_state, runFinish_state, hx, hs]
  obtain ⟨r1, r2⟩ := @runLoop_congr (m2.max_code_run - m2.state.counter).toNat
    n1 n2 (by rw [p1, p2, hp]) (by rw [c1, c2, hc]) (by rw [x1, x2, hx])
    (by rw [s1, s2, hs])
  rw [r1, r2]

theorem linked_of_fields {m n : Machine} (h : Linked m) (hp : n.program = m.program)
    (hcode : n.code = m.code) (hc : n.control_map = m.control_map)
    (hr : n.state.register.length = m.state.register.length) : Linked n := by
  refine ⟨?_, ?_, ?_⟩
  · rw [hr, hcode, hp]; exact h.prog
  · rw [hc, hcode]; exact h.map_eq
  · rw [hcode]; exact h.all_closed

/-- A run of a linked machine from an initialised state: the machine stays linked with the same
program and block map, and the halt code is one of the three terminal codes. -/
theorem Run_linked {m : Machine} (h : Linked m) (hrc : m.state.return_code = RES_RUNNING)
    (hpc : m.state.pc = 0) :
    Linked m.Run ∧ m.Run.control_map = m.control_map ∧ m.Run.program = m.program ∧
    m.Run.code = m.code ∧ m.Run.max_code_run = m.max_code_run ∧
    m.Run.dump_all_state = m.dump_all_state ∧
    m.Run.state.register.length = m.state.register.length ∧
    m.Run.state.memory.length = m.state.memory.length ∧
    (m.Run.state.return_code = RES_END ∨ m.Run.state.return_code = RES_MEM_OOB ∨
      m.Run.state.return_code = RES_MAX_CODE_RUN_REACHED) := by
  obtain ⟨m0, e, _, s0, p0, d0, c0, x0, f0⟩ := Run_eq m
  have hl0 : Linked m0 := linked_of_fields h p0 d0 c0 (by rw [s0])
  obtain ⟨a1, a2, a3, a4, a5, a6, a7, a8, a9, a10, a11⟩ :=
    runLoop_linked (m.max_code_run - m.state.counter).toNat hl0
      (by rw [s0, hpc]) (by rw [s0, hpc]; omega)
  have hdone := runLoop_done (m.max_code_run - m.state.counter).toNat hl0
      (by rw [s0]; exact hrc) (by rw [x0, s0])
  obtain ⟨g1, g2, g3, g4, g5⟩ := runFinish_fields
    (runLoop (m.max_code_run - m.state.counter).toNat m0)
  have hst := runFinish_state (runLoop (m.max_code_run - m.state.counter).toNat m0)
  rw [← e] at g1 g2 g3 g4 g5 hst
  have hreg : m.Run.state.register.length = m.state.register.length := by
    rw [hst]; split_ifs <;> simp [a7, s0]
  have hmem : m.Run.state.memory.length = m.state.memory.length := by
    rw [hst]; split_ifs <;> simp [a8, s0]
  refine ⟨?_, ?_, ?_, ?_, ?_, ?_, hreg, hmem, ?_⟩
  · exact linked_of_fields h (by rw [g1, a3, p0]) (by rw [g2, a4, d0]) (by rw [g3, a2, c0]) hreg
  · rw [g3, a2, c0]
  · rw [g1, a3, p0]
  · rw [g2, a4, d0]
  · rw [g4, a5, x0]
  · rw [g5, a6, f0]
  · rw [hst]
    rcases hdone with hd | ⟨hd, _⟩
    · rw [if_neg (by rw [hd]; decide)]; exact Or.inr (Or.inl hd)
    · rw [if_pos hd]
      split_ifs
      · exact Or.inr (Or.inr rfl)
      · exact Or.inl rfl

theorem copyInto_length (a b : List Int) : (copyInto a b).length = b.length := by
  induction b generalizing a with
  | nil => cases a <;> simp [copyInto]
  | cons d ds ih => cases a <;> simp [copyInto, ih]

theorem copyInto_replicate (l : List Int) : copyInto l (List.replicate l.length 0) = l := by
  induction l with
  | nil => simp [copyInto]
  | cons a l ih => simp [copyInto, List.replicate_succ, ih]

theorem Init_fields (s : MachineState) (reg : Register) (mem : Memory) :
    (s.Init reg mem).pc = 0 ∧ (s.Init reg mem).counter = 0 ∧
    (s.Init reg mem).return_code = RES_RUNNING ∧ (s.Init reg mem).flag = 0 ∧
    (s.Init reg mem).register.length = s.register.length ∧
    (s.Init reg mem).memory.length = s.memory.length := by
  simp [MachineState.Init, MachineState.Reset, copyInto_length]

theorem Init_congr {s1 s2 : MachineState} (hr : s1.register.length = s2.register.length)
    (hm : s1.memory.length = s2.memory.length) (reg : Register) (mem : Memory) :
    s1.Init reg mem = s2.Init reg mem := by
  simp [MachineState.Init, MachineState.Reset, hr, hm]

theorem InitRandomMemory_eq (s : MachineState) (reg : Register) (f : Nat → Int) :
    s.InitRandomMemory reg f = s.Init reg ((List.range s.memory.length).map f) := by
  have h := copyInto_replicate ((List.range s.memory.length).map f)
  simp only [List.length_map, List.length_range] at h
  simp [MachineState.Init, MachineState.InitRandomMemory, MachineState.Reset, h]

theorem linked_core_eq {m1 m2 : Machine} (h1 : Linked m1) (h2 : Linked m2)
    (hc : m1.code = m2.code) (hr : m1.state.register.length = m2.state.register.length) :
    m1.program = m2.program ∧ m1.control_map = m2.control_map := by
  constructor
  · have a := h1.prog
    have b := h2.prog
    rw [hc, hr, b] at a
    exact (Option.some.inj a).symm
  · rw [h1.map_eq, h2.map_eq, hc]

theorem new_fields (R M : Nat) :
    (Machine.new R M).state.register.length = R ∧ (Machine.new R M).state.memory.length = M ∧
    (Machine.new R M).max_code_run = 1000 := by
  simp [Machine.new, MachineState.new]

theorem loadInitRun_eq {codes : List Instruction} {init_reg : Register} {M : Nat} {mF : Machine}
    (h : (Machine.new init_reg.length M).Load codes = some mF) (mem : Memory) :
    loadInitRun 1000 M codes init_reg mem =
      some ({ mF with state := mF.state.Init init_reg mem }).Run := by
  have e : (Machine.new init_reg.length M).SetMaxCodeRun 1000 = Machine.new init_reg.length M :=
    rfl
  unfold loadInitRun
  rw [e, h]

theorem tracks_of_load {m m1 : Machine} {codes : List Instruction} {R M : Nat}
    (hb : m.max_code_run = 1000) (hr : m.state.register.length = R)
    (hm : m.state.memory.length = M) (h : m.Load codes = some m1) : Tracks m1 codes R M := by
  obtain ⟨_, hl, hs, hx, _⟩ := Load_spec h
  obtain ⟨mF, hF, _, hcode, _⟩ := @Load_congr m m1 (Machine.new R M) codes h
    (by rw [(new_fields R M).1, hr])
  exact ⟨hl, by rw [hx, hb], by rw [hs, hr], by rw [hs, hm], mF, hF, hcode.symm⟩

theorem tracks_run {m : Machine} {codes : List Instruction} {init_reg : Register} {M : Nat}
    (h : Tracks m codes init_reg.length M) (mem : Memory) :
    Tracks ({ m with state := m.state.Init init_reg mem }).Run codes init_reg.length M ∧
    ∃ mR, loadInitRun 1000 M codes init_reg mem = some mR ∧
      mR.state = ({ m with state := m.state.Init init_reg mem }).Run.state := by
  obtain ⟨mF, hF, hcode⟩ := h.fresh
  obtain ⟨_, hlF, hsF, hxF, _⟩ := Load_spec hF
  obtain ⟨i1, i2, i3, i4, i5, i6⟩ := Init_fields m.state init_reg mem
  have hl1 : Linked { m with state := m.state.Init init_reg mem } :=
    linked_of_fields h.linked rfl rfl rfl i5
  obtain ⟨r1, r2, r3, r4, r5, r6, r7, r8, _⟩ := Run_linked hl1 i3 i1
  have hregF : mF.state.register.length = init_reg.length := by
    rw [hsF]; exact (new_fields _ _).1
  have hmemF : mF.state.memory.length = M := by
    rw [hsF]; exact (new_fields _ _).2.1
  refine ⟨⟨r1, ?_, ?_, ?_, mF, hF, ?_⟩, _, loadInitRun_eq hF mem, ?_⟩
  · rw [r5]; exact h.budget
  · rw [r7]; simp only []; rw [i5]; exact h.regs
  · rw [r8]; simp only []; rw [i6]; exact h.mems
  · rw [r4]; exact hcode
  · obtain ⟨c1, c2⟩ := linked_core_eq h.linked hlF hcode (by rw [h.regs, hregF])
    apply Run_congr
    · exact c1.symm
    · exact c2.symm
    · simp only []; rw [hxF, h.budget]; exact (new_fields _ _).2.2
    · exact Init_congr (by rw [hregF, h.regs]) (by rw [hmemF, h.mems]) _ _

theorem validate_spec {init_reg : Register} {M : Nat} {codes : List Instruction}
    (samples : List (Memory × Memory)) :
    ∀ {m : Machine}, Tracks m codes init_reg.length M →
      Tracks (validate init_reg samples m).2 codes init_reg.length M ∧
      ((validate init_reg samples m).1 = false → ∀ p ∈ samples, PassesOn codes init_reg M p) ∧
      ((validate init_reg samples m).1 = true → ∃ p ∈ samples, FailsOn codes init_reg M p) := by
  induction samples with
  | nil => intro m h; simp [validate, h]
  | cons p rest ih =>
    intro m h
    obtain ⟨before, after⟩ := p
    obtain ⟨ht, mR, hR, hst⟩ := tracks_run h before
    simp only [validate]
    split_ifs with hbad
    · refine ⟨ht, by simp, fun _ => ⟨(before, after), by simp, mR, hR, ?_⟩⟩
      rw [hst]; exact hbad
    · obtain ⟨j1, j2, j3⟩ := ih ht
      refine ⟨j1, ?_, ?_⟩
      · intro hv p hp
        simp only [List.mem_cons] at hp
        rcases hp with rfl | hp
        · rw [not_or, not_not, not_not] at hbad
          exact ⟨mR, hR, by rw [hst]; exact hbad.1, by rw [hst]; exact hbad.2⟩
        · exact j2 hv p hp
      · intro hv
        obtain ⟨p, hp, hf⟩ := j3 hv
        exact ⟨p, by simp [hp], hf⟩

theorem tracks_ready {m : Machine} {codes : List Instruction} {R M : Nat}
    (h : Tracks m codes R M) : Ready m R M := ⟨h.budget, h.regs, h.mems⟩

theorem Init_memory (s : MachineState) (reg : Register) (mem : Memory)
    (h : mem.length = s.memory.length) : (s.Init reg mem).memory = mem := by
  simp only [MachineState.Init, MachineState.Reset, ← h]
  exact copyInto_replicate mem

theorem sampleMemory_length (rand : Nat → Nat) (M i : Nat) :
    (sampleMemory rand M i).length = M := by
  simp [sampleMemory]

theorem recordSamples_spec {init_reg : Register} {M : Nat} {codes : List Instruction}
    (rand : Nat → Nat) (k : Nat) :
    ∀ (i : Nat) {m : Machine}, Tracks m codes init_reg.length M →
      match recordSamples init_reg rand k i m with
      | none => ∃ t, t < k ∧ ∃ mR,
          loadInitRun 1000 M codes init_reg (sampleMemory rand M (i + t)) = some mR ∧
          mR.state.return_code ≠ RES_END
      | some (samples, m1) => Tracks m1 codes init_reg.length M ∧ samples.length = k ∧
          ∀ t, t < k → ∃ mR,
            loadInitRun 1000 M codes init_reg (sampleMemory rand M (i + t)) = some mR ∧
            mR.state.return_code = RES_END ∧
            samples[t]? = some (sampleMemory rand M (i + t), mR.state.memory) := by
  induction k with
  | zero => intro i m h; simp [recordSamples, h]
  | succ k ih =>
    intro i m h
    have hf : (List.range m.state.memory.length).map
        (fun c => ((rand (i * m.state.memory.length + c) % 20 : Nat) : Int)) =
        sampleMemory rand M i := by
      rw [h.mems]; rfl
    obtain ⟨ht, mR, hR, hst⟩ := tracks_run h (sampleMemory rand M i)
    have hmem : (m.state.Init init_reg (sampleMemory rand M i)).memory = sampleMemory rand M i :=
      Init_memory _ _ _ (by rw [sampleMemory_length, h.mems])
    simp only [recordSamples, InitRandomMemory_eq, hf, hmem]
    split_ifs with hbad
    · exact ⟨0, by omega, mR, hR, by rw [hst]; exact hbad⟩
    · rw [not_not] at hbad
      have := ih (i + 1) ht
      split at this
      · rename_i heq
        try rw [heq]
        obtain ⟨t, ht1, mR2, hR2, hne⟩ := this
        refine ⟨t + 1, by omega, mR2, ?_, hne⟩
        rw [← hR2]; congr 2; omega
      · rename_i samples m1 heq
        try rw [heq]
        obtain ⟨j1, j2, j3⟩ := this
        refine ⟨j1, by simp [j2], ?_⟩
        intro t htk
        cases t with
        | zero => exact ⟨mR, hR, by rw [hst]; exact hbad, by simp [hst]⟩
        | succ t =>
          obtain ⟨mR2, hR2, hend, hget⟩ := j3 t (by omega)
          have e : i + (t + 1) = i + 1 + t := by omega
          rw [e]
          exact ⟨mR2, hR2, hend, by simpa using hget⟩

theorem tryDeletions_spec {init_reg : Register} {M : Nat} (samples : List (Memory × Memory))
    (ins : List Instruction) (k : Nat) :
    ∀ (i : Nat) {m : Machine}, Ready m init_reg.length M →
      match tryDeletions init_reg samples ins k i m with
      | none => True
      | some (none, m1) => Ready m1 init_reg.length M ∧
          ∀ t, t < k → ∃ p ∈ samples, FailsOn (ins.eraseIdx (i + t)) init_reg M p
      | some (some new_instructions, m1) => Ready m1 init_reg.length M ∧
          ∃ t, t < k ∧ new_instructions = ins.eraseIdx (i + t) ∧
            (∀ p ∈ samples, PassesOn new_instructions init_reg M p) ∧
            ∀ u, u < t → ∃ p ∈ samples, FailsOn (ins.eraseIdx (i + u)) init_reg M p := by
  induction k with
  | zero => intro i m h; simp [tryDeletions, h]
  | succ k ih =>
    intro i m h
    simp only [tryDeletions]
    cases hl : m.Load (ins.eraseIdx i) with
    | none => trivial
    | some m1 =>
      have ht := tracks_of_load h.budget h.regs h.mems hl
      obtain ⟨v1, v2, v3⟩ := validate_spec samples ht
      simp only []
      split_ifs with hv
      · have := ih (i + 1) (tracks_ready v1)
        split at this
        · trivial
        · rename_i m2 heq
          refine ⟨this.1, ?_⟩
          intro t htk
          cases t with
          | zero => exact v3 hv
          | succ t =>
            have e : i + (t + 1) = i + 1 + t := by omega
            rw [e]; exact this.2 t (by omega)
        · rename_i c m2 heq
          obtain ⟨j1, t, j2, j3, j4, j5⟩ := this
          refine ⟨j1, t + 1, by omega, ?_, j4, ?_⟩
          · rw [j3]; congr 1; omega
          · intro u hu
            cases u with
            | zero => exact v3 hv
            | succ u =>
              have e : i + (u + 1) = i + 1 + u := by omega
              rw [e]; exact j5 u (by omega)
      · have hv2 : (validate init_reg samples m1).1 = false := by
          simpa using hv
        exact ⟨(tracks_ready v1), 0, by omega, rfl, v2 hv2, fun u hu => absurd hu (by omega)⟩

theorem pruneLoop_spec {init_reg : Register} {M : Nat} (samples : List (Memory × Memory))
    (fuel : Nat) :
    ∀ (ins : List Instruction) {m : Machine} {Q : List Instruction},
      Ready m init_reg.length M → ins.length < fuel →
      pruneLoop init_reg samples fuel ins m = some Q →
      (Q = ins ∨ ∀ p ∈ samples, PassesOn Q init_reg M p) ∧
      (∀ t, t < Q.length → ∃ p ∈ samples, FailsOn (Q.eraseIdx t) init_reg M p) ∧
      Q.Sublist ins := by
  induction fuel with
  | zero => intro ins m Q _ hlt; omega
  | succ n ih =>
    intro ins m Q h hlt hp
    simp only [pruneLoop] at hp
    have hs := tryDeletions_spec samples ins ins.length 0 h
    split at hp
    · exact absurd hp (by simp)
    · rename_i m1 heq
      rw [heq] at hs
      simp only [Option.some.injEq] at hp
      subst hp
      refine ⟨Or.inl rfl, ?_, List.Sublist.refl _⟩
      intro t ht
      simpa using hs.2 t ht
    · rename_i c m1 heq
      rw [heq] at hs
      obtain ⟨j1, t, j2, j3, j4, _⟩ := hs
      have hlen : c.length < n := by
        rw [j3, List.length_eraseIdx]
        simp only [zero_add]
        rw [if_pos j2]
        omega
      obtain ⟨k1, k2, k3⟩ := ih c j1 hlen hp
      refine ⟨Or.inr ?_, k2, k3.trans ?_⟩
      · rcases k1 with rfl | k1
        · exact j4
        · exact k1
      · rw [j3]; exact List.eraseIdx_sublist _ _

theorem GreedyPrune_success {P : List Instruction} {init_reg : Register} {M n : Nat}
    {rand : Nat → Nat} {pruned Q : List Instruction}
    (h : GreedyPrune P init_reg M n rand pruned = some (true, Q)) :
    ∃ samples : List (Memory × Memory),
      (∀ t, t < n → ∃ mR,
        loadInitRun 1000 M P init_reg (sampleMemory rand M t) = some mR ∧
        mR.state.return_code = RES_END ∧
        samples[t]? = some (sampleMemory rand M t, mR.state.memory)) ∧
      samples.length = n ∧
      (Q = P ∨ ∀ p ∈ samples, PassesOn Q init_reg M p) ∧
      (∀ t, t < Q.length → ∃ p ∈ samples, FailsOn (Q.eraseIdx t) init_reg M p) ∧
      Q.Sublist P := by
  unfold GreedyPrune at h
  split at h
  · exact absurd h (by simp)
  · rename_i machine hl
    obtain ⟨n1, n2, n3⟩ := new_fields init_reg.length M
    have ht := tracks_of_load n3 n1 n2 hl
    have hrec := recordSamples_spec rand n 0 ht
    split at h
    · exact absurd h (by simp)
    · rename_i samples m1 heq
      rw [heq] at hrec
      obtain ⟨r1, r2, r3⟩ := hrec
      split at h
      · exact absurd h (by simp)
      · rename_i ins hp
        simp only [Option.some.injEq, Prod.mk.injEq, true_and] at h
        subst h
        obtain ⟨p1, p2, p3⟩ := pruneLoop_spec samples (P.length + 1) P (tracks_ready r1) (by omega) hp
        refine ⟨samples, ?_, r2, p1, p2, p3⟩
        intro t ht
        simpa using r3 t ht

/-- C1. Pruning soundness: when `GreedyPrune` succeeds with result `Q`, then for every sample
`j < n` the run of `Q` (fresh machine, `Load`, `Init(init_reg, m_j)`, `Run`) halts with `RES_END`
and its final memory equals the final memory of the run of the original program `P` from the
same registers and memory. -/
theorem pruning_soundness (P : List Instruction) (init_reg : Register) (M n : Nat)
    (rand : Nat → Nat) (pruned Q : List Instruction)
    (h : GreedyPrune P init_reg M n rand pruned = some (true, Q)) (j : Nat) (hj : j < n) :
    ∃ mQ mP, loadInitRun 1000 M Q init_reg (sampleMemory rand M j) = some mQ ∧
      loadInitRun 1000 M P init_reg (sampleMemory rand M j) = some mP ∧
      mQ.state.return_code = RES_END ∧ mQ.state.memory = mP.state.memory := by
  obtain ⟨samples, h1, _, h3, _, _⟩ := GreedyPrune_success h
  obtain ⟨mP, hP, hend, hget⟩ := h1 j hj
  rcases h3 with rfl | h3
  · exact ⟨mP, mP, hP, hP, hend, rfl⟩
  · obtain ⟨mQ, hQ, hQend, hQmem⟩ := h3 _ (List.getElem?_mem hget)
    exact ⟨mQ, mP, hQ, hP, hQend, hQmem⟩

/-- C2. Pruning local fixed point: when `GreedyPrune` succeeds with result `Q`, deleting any
single instruction `i` of `Q` gives a program that fails validation: on some sample `j < n` its
run does not halt with `RES_END`, or halts with a final memory different from the recorded
output memory of the original program on that sample. -/
theorem pruning_local_fixed_point (P : List Instruction) (init_reg : Register) (M n : Nat)
    (rand : Nat → Nat) (pruned Q : List Instruction)
    (h : GreedyPrune P init_reg M n rand pruned = some (true, Q)) (i : Nat)
    (hi : i < Q.length) :
    ∃ j, j < n ∧ ∃ mC mP,
      loadInitRun 1000 M (Q.eraseIdx i) init_reg (sampleMemory rand M j) = some mC ∧
      loadInitRun 1000 M P init_reg (sampleMemory rand M j) = some mP ∧
      (mC.state.return_code ≠ RES_END ∨ mC.state.memory ≠ mP.state.memory) := by
  obtain ⟨samples, h1, h2, _, h4, _⟩ := GreedyPrune_success h
  obtain ⟨p, hp, mC, hC, hbad⟩ := h4 i hi
  obtain ⟨j, hj, hget⟩ := List.getElem_of_mem hp
  rw [h2] at hj
  obtain ⟨mP, hP, _, hget2⟩ := h1 j hj
  have e : p = (sampleMemory rand M j, mP.state.memory) := by
    have := List.getElem?_eq_getElem (l := samples) (by rw [h2]; exact hj)
    rw [hget2] at this
    rw [← hget]
    exact (Option.some.inj this).symm
  subst e
  exact ⟨j, hj, mC, mP, hC, hP, hbad⟩

/-- C3. Pruner precondition: `GreedyPrune` returns failure exactly when, for some sample
`j < n`, the run of the original program from `(init_reg, m_j)` halts with a code other than
`RES_END`; such a code is `RES_MEM_OOB` or `RES_MAX_CODE_RUN_REACHED`; and on failure `*pruned`
is left as it was before the call. -/
theorem pruner_precondition (P : List Instruction) (init_reg : Register) (M n : Nat)
    (rand : Nat → Nat) (pruned : List Instruction) :
    ((∃ q, GreedyPrune P init_reg M n rand pruned = some (false, q)) ↔
      ∃ j, j < n ∧ ∃ mP, loadInitRun 1000 M P init_reg (sampleMemory rand M j) = some mP ∧
        mP.state.return_code ≠ RES_END) ∧
    (∀ q, GreedyPrune P init_reg M n rand pruned = some (false, q) → q = pruned) ∧
    (∀ j mP, loadInitRun 1000 M P init_reg (sampleMemory rand M j) = some mP →
      mP.state.return_code ≠ RES_END →
      mP.state.return_code = RES_MEM_OOB ∨
        mP.state.return_code = RES_MAX_CODE_RUN_REACHED) := by
  refine ⟨⟨?_, ?_⟩, ?_, ?_⟩
  · rintro ⟨q, h⟩
    unfold GreedyPrune at h
    split at h
    · exact absurd h (by simp)
    · rename_i machine hl
      obtain ⟨n1, n2, n3⟩ := new_fields init_reg.length M
      have hrec := recordSamples_spec rand n 0 (tracks_of_load n3 n1 n2 hl)
      split at h
      · rename_i heq
        rw [heq] at hrec
        obtain ⟨t, ht, mR, hR, hne⟩ := hrec
        exact ⟨t, ht, mR, by simpa using hR, hne⟩
      · split at h <;> simp at h
  · rintro ⟨j, hj, mP, hP, hne⟩
    unfold GreedyPrune
    cases hl : (Machine.new init_reg.length M).Load P with
    | none =>
      have e : (Machine.new init_reg.length M).SetMaxCodeRun 1000 =
          Machine.new init_reg.length M := rfl
      simp [loadInitRun, e, hl] at hP
    | some machine =>
      obtain ⟨n1, n2, n3⟩ := new_fields init_reg.length M
      have hrec := recordSamples_spec rand n 0 (tracks_of_load n3 n1 n2 hl)
      simp only []
      split at hrec
      · rename_i heq
        exact ⟨pruned, by first | rfl | rw [heq]⟩
      · obtain ⟨_, _, r3⟩ := hrec
        obtain ⟨mR, hR, hend, _⟩ := r3 j hj
        simp only [zero_add] at hR
        rw [hP] at hR
        exact absurd hend (by rw [← Option.some.inj hR]; exact hne)
  · intro q h
    unfold GreedyPrune at h
    split at h
    · exact absurd h (by simp)
    · split at h
      · simp only [Option.some.injEq, Prod.mk.injEq, true_and] at h
        exact h.symm
      · split at h <;> simp at h
  · intro j mP hP hne
    cases hl : (Machine.new init_reg.length M).Load P with
    | none =>
      have e : (Machine.new init_reg.length M).SetMaxCodeRun 1000 =
          Machine.new init_reg.length M := rfl
      simp [loadInitRun, e, hl] at hP
    | some machine =>
      obtain ⟨n1, n2, n3⟩ := new_fields init_reg.length M
      obtain ⟨ht, mR, hR, hst⟩ :=
        tracks_run (tracks_of_load n3 n1 n2 hl) (sampleMemory rand M j)
      rw [hP] at hR
      have e := Option.some.inj hR
      subst e
      obtain ⟨i1, i2, i3, i4, i5, i6⟩ := Init_fields machine.state init_reg (sampleMemory rand M j)
      have hl1 : Linked { machine with state := machine.state.Init init_reg (sampleMemory rand M j) } :=
        linked_of_fields (tracks_of_load n3 n1 n2 hl).linked rfl rfl rfl i5
      obtain ⟨_, _, _, _, _, _, _, _, r9⟩ := Run_linked hl1 i3 i1
      rw [← hst] at r9
      rcases r9 with r | r | r
      · exact absurd r hne
      · exact Or.inl r
      · exact Or.inr r

theorem pruning_soundness_witness :
    ∃ mQ mP, loadInitRun 1000 2 [⟨INS_INC, 0, -1⟩, ⟨INS_SAVE, 0, 1⟩] [0, 0]
        (sampleMemory sampleRand 2 1) = some mQ ∧
      loadInitRun 1000 2 sampleProgram [0, 0] (sampleMemory sampleRand 2 1) = some mP ∧
      mQ.state.return_code = RES_END ∧ mQ.state.memory = mP.state.memory :=
  pruning_soundness sampleProgram [0, 0] 2 2 sampleRand [] [⟨INS_INC, 0, -1⟩, ⟨INS_SAVE, 0, 1⟩]
    (by decide!) 1 (by decide)

theorem openerAt_code_of_load {m m1 : Machine} {codes : List Instruction}
    (h : m.Load codes = some m1) {s : Int} (hs : OpenerAt m1.code s) : OpenerAt codes s := by
  obtain ⟨hcode, _⟩ := Load_spec h
  rw [hcode] at hs
  obtain ⟨h0, c, hc, hk⟩ := hs
  by_cases hlt : s.toNat < codes.length
  · rw [List.getElem?_append_left hlt] at hc
    exact ⟨h0, c, hc, hk⟩
  · rw [List.getElem?_append_right (by omega)] at hc
    have := List.getElem?_mem hc
    rw [List.mem_replicate] at this
    rw [this.2] at hk
    have hne : ¬ (endIns.ins_type = INS_REP ∨ endIns.ins_type = INS_CMP) := by decide
    exact absurd hk hne

/-- C4, at the failing input. On `cmp 0 1` followed by 32 `rep 0`, `Load` appends 33 `END`s
(indices 33 to 65); the `END` at index 65 closes the `CMP` at index 0 (`map[0] = 65`), and it is a
key of the block map (`map[65] = 0`): after 33 pushes the 32-bit `control_type` no longer holds
the bit of the outermost block. -/
theorem deep_nesting_end_of_cmp_is_key :
    ((Machine.new 2 1).Load deepProgram).map
        (fun m => (m.code.length, m.code[0]?, m.code[65]?, m.control_map 0, m.control_map 65)) =
      some (66, some ⟨INS_CMP, 0, 1⟩, some ⟨INS_END, -1, -1⟩, some 65, some 0) := by
  decide!

/-- C5. LIFO nesting: after a successful `Load`, for any two block openers `s1 < s2` of the
linked program both are keys of the block map and either the first block is closed before the
second opens (`map[s1] < s2`) or the second lies strictly inside the first
(`map[s2] < map[s1]`). When the first block is closed by a synthetic `END` (index at or past
`codes.size()`), the inner block gets the lower index. -/
theorem lifo_nesting (m : Machine) (codes : List Instruction) (m1 : Machine)
    (h : m.Load codes = some m1) (s1 s2 : Int) (h1 : OpenerAt m1.code s1)
    (h2 : OpenerAt m1.code s2) (hlt : s1 < s2) :
    ∃ e1 e2, m1.control_map s1 = some e1 ∧ m1.control_map s2 = some e2 ∧
      (e1 < s2 ∨ e2 < e1) ∧ ((codes.length : Int) ≤ e1 → e2 < e1) := by
  obtain ⟨_, hl, _⟩ := Load_spec h
  obtain ⟨e1, he1, _, _, _⟩ := linked_opener_key hl h1
  obtain ⟨e2, he2, _, _, _⟩ := linked_opener_key hl h2
  have hn := (linked_scanInv hl).nest s1 s2 e1 e2 h1 h2 (by rw [hl.all_closed]; simp)
    (by rw [hl.all_closed]; simp) hlt (by rw [← hl.map_eq]; exact he1)
    (by rw [← hl.map_eq]; exact he2)
  refine ⟨e1, e2, he1, he2, hn, ?_⟩
  intro hge
  have := openerAt_lt (openerAt_code_of_load h h2)
  rcases hn with hn | hn
  · omega
  · exact hn

theorem lifo_nesting_witness :
    ∃ m1, (Machine.new 2 1).Load nestedProgram = some m1 ∧
      ∃ e1 e2, m1.control_map 0 = some e1 ∧ m1.control_map 1 = some e2 ∧
        (e1 < 1 ∨ e2 < e1) ∧ ((nestedProgram.length : Int) ≤ e1 → e2 < e1) :=
  ⟨((Machine.new 2 1).Load nestedProgram).get (by decide!), by simp,
    lifo_nesting (Machine.new 2 1) nestedProgram _ (by simp) 0 1
      ⟨by decide, ⟨INS_REP, 0, -1⟩, by decide!, Or.inl rfl⟩
      ⟨by decide, ⟨INS_CMP, 0, 1⟩, by decide!, Or.inr rfl⟩ (by decide)⟩

theorem at_control_map {m : Machine} {C : List Instruction} {X : Int} {S : MachineState}
    (h : At m C X S) : m.control_map = blockMapOf C := by
  rw [h.linked.map_eq, h.code]; rfl

/-- One pass of the loop on a machine known up to its state: if the closure bound to the
instruction at `pc` maps the state to `st` and leaves the block map alone, the pass does not
leave the loop and the new state is `st` with `pc` and `counter` incremented. -/
theorem at_body {m : Machine} {C : List Instruction} {X : Int} {S : MachineState}
    (h : At m C X S) (hpc0 : 0 ≤ S.pc) (hpc1 : S.pc < C.length) (hcnt : S.counter < X)
    {c : Instruction} (hcode : C[S.pc.toNat]? = some c) {st : MachineState}
    (hexec : ∀ f, parse_one_line S.register.length S.pc c = some f →
      f S (blockMapOf C) = some (st, blockMapOf C)) :
    (loopBody m).2 = false ∧
    At (loopBody m).1 C X { st with pc := st.pc + 1, counter := st.counter + 1 } := by
  have hl := h.linked
  have hlen := linked_length_eq hl
  have hc : loopCond m := by
    refine ⟨by rw [h.state]; exact hpc0, ?_, by rw [h.state, h.budget]; exact hcnt⟩
    rw [h.state, hlen, h.code]; exact hpc1
  obtain ⟨c1, f, hc1, hprog, hparse⟩ := linked_closure_at hl hc.1 hc.2.1
  rw [h.code, h.state, hcode] at hc1
  have e := Option.some.inj hc1
  subst e
  rw [h.state] at hparse
  have hf := hexec f hparse
  obtain ⟨a1, a2, a3, a4, a5, a6, _⟩ := loopBody_linked hl hc
  have hb := loopBody_of m f hprog
  rw [h.state, at_control_map h, hf] at hb
  simp only [] at hb
  refine ⟨by rw [hb], a1, a4.trans h.code, a5.trans h.budget, by rw [hb]⟩

theorem at_step {m : Machine} {C : List Instruction} {X : Int} {S : MachineState}
    (h : At m C X S) (hpc0 : 0 ≤ S.pc) (hpc1 : S.pc < C.length) (hcnt : S.counter < X)
    {c : Instruction} (hcode : C[S.pc.toNat]? = some c) {st : MachineState}
    (hexec : ∀ f, parse_one_line S.register.length S.pc c = some f →
      f S (blockMapOf C) = some (st, blockMapOf C)) (fuel : Nat) :
    ∃ m1, runLoop (fuel + 1) m = runLoop fuel m1 ∧
      At m1 C X { st with pc := st.pc + 1, counter := st.counter + 1 } := by
  obtain ⟨hb, hat⟩ := at_body h hpc0 hpc1 hcnt hcode hexec
  have hc : loopCond m := by
    refine ⟨by rw [h.state]; exact hpc0, ?_, by rw [h.state, h.budget]; exact hcnt⟩
    rw [h.state, linked_length_eq h.linked, h.code]; exact hpc1
  refine ⟨(loopBody m).1, ?_, hat⟩
  rw [runLoop_succ, if_pos hc, hb]; rfl

theorem at_stop {m : Machine} {C : List Instruction} {X : Int} {S : MachineState}
    (h : At m C X S) (hpc : S.pc = C.length) (fuel : Nat) : runLoop fuel m = m := by
  apply runLoop_of_not_cond
  rintro ⟨_, h2, _⟩
  rw [h.state, linked_length_eq h.linked, h.code] at h2
  omega

theorem getCell_some {v : List Int} {i x : Int} (h : getCell v i = some x) :
    0 ≤ i ∧ i < v.length := by
  unfold getCell at h
  split_ifs at h with hc
  omega

theorem setCell_of_some {v : List Int} {i x : Int} (h : getCell v i = some x) (y : Int) :
    setCell v i y = some (v.set i.toNat y) := by
  have := getCell_some h
  unfold setCell
  rw [if_neg (by omega)]

theorem check_oob_of_some {v : List Int} {i x : Int} (h : getCell v i = some x) :
    check_oob i v.length = some i := by
  have := getCell_some h
  unfold check_oob
  rw [if_neg (by omega)]

theorem exec_rep_enter {st : MachineState} {idx d a2 v : Int} (cm : ControlMap)
    (hv : st.reg d = some v) (hpos : 0 < v) :
    ∀ f, parse_one_line st.register.length idx ⟨INS_REP, d, a2⟩ = some f →
      f st cm = some ({ st with register := st.register.set d.toNat (v - 1) }, cm) := by
  intro f hf
  have h1 := check_oob_of_some hv
  have h2 := setCell_of_some hv (v - 1)
  simp only [parse_one_line, if_true, h1, Option.some.injEq] at hf
  subst hf
  simp [hv, hpos, MachineState.setReg, h2]

theorem exec_rep_skip {st : MachineState} {idx d a2 v e : Int} {cm : ControlMap}
    (hv : st.reg d = some v) (hpos : ¬ 0 < v) (hk : cm idx = some e) :
    ∀ f, parse_one_line st.register.length idx ⟨INS_REP, d, a2⟩ = some f →
      f st cm = some ({ st with pc := e }, cm) := by
  intro f hf
  have h1 := check_oob_of_some hv
  simp only [parse_one_line, if_true, h1, Option.some.injEq] at hf
  subst hf
  simp [hv, hpos, ControlMap.index, hk]

theorem exec_end_jump {st : MachineState} {R idx a1 a2 s : Int} {cm : ControlMap}
    (hk : cm idx = some s) :
    ∀ f, parse_one_line R idx ⟨INS_END, a1, a2⟩ = some f →
      f st cm = some ({ st with pc := s - 1 }, cm) := by
  intro f hf
  have e1 : INS_END ≠ INS_REP := by decide
  simp only [parse_one_line, e1, if_false, if_true, Option.some.injEq] at hf
  subst hf
  simp [hk]

theorem exec_end_fall {st : MachineState} {R idx a1 a2 : Int} {cm : ControlMap}
    (hk : cm idx = none) :
    ∀ f, parse_one_line R idx ⟨INS_END, a1, a2⟩ = some f → f st cm = some (st, cm) := by
  intro f hf
  have e1 : INS_END ≠ INS_REP := by decide
  simp only [parse_one_line, e1, if_false, if_true, Option.some.injEq] at hf
  subst hf
  simp [hk]

theorem exec_inc {st : MachineState} {idx d a2 v : Int} (cm : ControlMap)
    (hv : st.reg d = some v) :
    ∀ f, parse_one_line st.register.length idx ⟨INS_INC, d, a2⟩ = some f →
      f st cm = some ({ st with register := st.register.set d.toNat (v + 1) }, cm) := by
  intro f hf
  have h1 := check_oob_of_some hv
  have h2 := setCell_of_some hv (v + 1)
  have e1 : INS_INC ≠ INS_REP := by decide
  have e2 : INS_INC ≠ INS_END := by decide
  have e3 : INS_INC ≠ INS_MOV := by decide
  simp only [parse_one_line, e1, e2, e3, if_false, true_or, if_true, h1,
    Option.some.injEq] at hf
  subst hf
  simp [hv, MachineState.setReg, h2]

theorem exec_dec {st : MachineState} {idx d a2 v : Int} (cm : ControlMap)
    (hv : st.reg d = some v) :
    ∀ f, parse_one_line st.register.length idx ⟨INS_DEC, d, a2⟩ = some f →
      f st cm = some ({ st with register := st.register.set d.toNat (v + -1) }, cm) := by
  intro f hf
  have h1 := check_oob_of_some hv
  have h2 := setCell_of_some hv (v + -1)
  have e1 : INS_DEC ≠ INS_REP := by decide
  have e2 : INS_DEC ≠ INS_END := by decide
  have e3 : INS_DEC ≠ INS_MOV := by decide
  have e4 : INS_DEC ≠ INS_INC := by decide
  simp only [parse_one_line, e1, e2, e3, e4, if_false, or_true, if_true, h1,
    Option.some.injEq] at hf
  subst hf
  simp [hv, MachineState.setReg, h2]

theorem exec_cmp_skip {st : MachineState} {idx a b v w e : Int} {cm : ControlMap}
    (h1 : st.reg a = some v) (h2 : st.reg b = some w) (hge : w ≤ v)
    (hk : cm idx = some e) :
    ∀ f, parse_one_line st.register.length idx ⟨INS_CMP, a, b⟩ = some f →
      f st cm = some ({ st with pc := e - 1 }, cm) := by
  intro f hf
  have c1 := check_oob_of_some h1
  have c2 := check_oob_of_some h2
  have e1 : INS_CMP ≠ INS_REP := by decide
  have e2 : INS_CMP ≠ INS_END := by decide
  have e3 : INS_CMP ≠ INS_MOV := by decide
  have e4 : ¬ (INS_CMP = INS_INC ∨ INS_CMP = INS_DEC) := by decide
  simp only [parse_one_line, e1, e2, e3, e4, if_false, if_true, c1, c2,
    Option.some.injEq] at hf
  subst hf
  simp [h1, h2, hge, ControlMap.index, hk]

theorem exec_cmp_enter {st : MachineState} {idx a b v w : Int} (cm : ControlMap)
    (h1 : st.reg a = some v) (h2 : st.reg b = some w) (hlt : v < w) :
    ∀ f, parse_one_line st.register.length idx ⟨INS_CMP, a, b⟩ = some f →
      f st cm = some (st, cm) := by
  intro f hf
  have c1 := check_oob_of_some h1
  have c2 := check_oob_of_some h2
  have e1 : INS_CMP ≠ INS_REP := by decide
  have e2 : INS_CMP ≠ INS_END := by decide
  have e3 : INS_CMP ≠ INS_MOV := by decide
  have e4 : ¬ (INS_CMP = INS_INC ∨ INS_CMP = INS_DEC) := by decide
  simp only [parse_one_line, e1, e2, e3, e4, if_false, if_true, c1, c2,
    Option.some.injEq] at hf
  subst hf
  have : ¬ v ≥ w := by omega
  simp [h1, h2, this]

theorem parseLines_isSome (R : Int) (cs : List Instruction)
    (h : ∀ c ∈ cs, ∀ i, (parse_one_line R i c).isSome) :
    ∀ i, (parseLines R i cs).isSome := by
  induction cs with
  | nil => intro i; simp [parseLines]
  | cons c cs ih =>
    intro i
    have h1 := h c (by simp) i
    have h2 := ih (fun d hd => h d (by simp [hd])) (i + 1)
    obtain ⟨f, hf⟩ := Option.isSome_iff_exists.1 h1
    obtain ⟨fs, hfs⟩ := Option.isSome_iff_exists.1 h2
    simp [parseLines, hf, hfs]

theorem initState_eq (M : Nat) (reg : Register) (mem : Memory) :
    initState M reg mem =
      { pc := 0, flag := 0, counter := 0, return_code := RES_RUNNING, register := reg,
        memory := copyInto mem (List.replicate M 0) } := by
  simp [initState, MachineState.Init, MachineState.Reset, MachineState.new, copyInto_replicate]

/-- Loading a program that leaves no block open, then `Init`: the machine on which the loop of
`Run` starts is known up to its state, and `Run` is the loop followed by the final statements. -/
theorem loadInitRun_at {C : List Instruction}
    (hclosed : (linkScan C 0 LinkState.start).control_pc = []) {X : Int} {M : Nat}
    {r : Register} (mem : Memory)
    (hload : ∀ c ∈ C, ∀ i, (parse_one_line r.length i c).isSome) :
    ∃ m0, At m0 C X (initState M r mem) ∧
      loadInitRun X M C r mem = some (runFinish (runLoop X.toNat m0)) := by
  have hsome : ((Machine.new r.length M).SetMaxCodeRun X).Load C ≠ none := by
    rw [Load_eq, hclosed]
    have := parseLines_isSome (((Machine.new r.length M).SetMaxCodeRun X).state.register.length)
      C (by simpa [Machine.SetMaxCodeRun, Machine.new, MachineState.new] using hload) 0
    obtain ⟨fs, hfs⟩ := Option.isSome_iff_exists.1 this
    simp [hfs]
  obtain ⟨m1, hm1⟩ := Option.ne_none_iff_exists'.1 hsome
  obtain ⟨hcode, hl, hs, hx, _⟩ := Load_spec hm1
  rw [hclosed] at hcode
  simp only [List.length_nil, List.replicate_zero, List.append_nil] at hcode
  have hst : m1.state = MachineState.new r.length M := by rw [hs]; rfl
  obtain ⟨a, b, c, d, e, f⟩ := runStart_fields { m1 with state := m1.state.Init r mem }
  refine ⟨({ m1 with state := m1.state.Init r mem }).runStart, ⟨?_, ?_, ?_, ?_⟩, ?_⟩
  · refine linked_of_fields hl b c d ?_
    rw [a]; exact (Init_fields _ _ _).2.2.2.2.1
  · rw [c]; exact hcode
  · rw [e]; exact hx
  · rw [a]; simp only []; rw [hst]; rfl
  · unfold loadInitRun
    rw [hm1]
    simp only [Machine.Run, Option.some.injEq]
    rw [e, a]
    simp only []
    rw [hx, (Init_fields _ _ _).2.1]
    simp [Machine.SetMaxCodeRun]

theorem blockMapOf_repIncEnd :
    blockMapOf repIncEnd 0 = some 2 ∧ blockMapOf repIncEnd 2 = some 0 := by decide!

theorem blockMapOf_repEnd : blockMapOf repEnd 0 = some 1 := by decide!

theorem blockMapOf_cmpIncEnd :
    blockMapOf cmpIncEnd 0 = some 2 ∧ blockMapOf cmpIncEnd 2 = none := by decide!

theorem blockMapOf_repIncSelfEnd :
    blockMapOf repIncSelfEnd 0 = some 2 ∧ blockMapOf repIncSelfEnd 2 = some 0 := by decide!

theorem getCell_zero (a : Int) (l : List Int) : getCell (a :: l) 0 = some a := by
  have : ¬ ((0 : Int) < 0 ∨ (0 : Int) ≥ ((a :: l).length : Int)) := by
    simp only [List.length_cons, Nat.cast_add, Nat.cast_one]; omega
  simp [getCell, this]

theorem getCell_one (a b : Int) (l : List Int) : getCell (a :: b :: l) 1 = some b := by
  have : ¬ ((1 : Int) < 0 ∨ (1 : Int) ≥ ((a :: b :: l).length : Int)) := by
    simp only [List.length_cons, Nat.cast_add, Nat.cast_one]; omega
  simp [getCell, this]

theorem at_congr {m : Machine} {C : List Instruction} {X : Int} {S T : MachineState}
    (h : At m C X S) (e : S = T) : At m C X T := by
  subst e; exact h

/-- The loop `rep 0; inc 1; end` from `pc = 0` with `r0 = k`, `r1 = v`: after
`3 * max(k,0) + 1` passes the machine is at `pc = 3` with `r0 = min(k,0)` and
`r1 = v + max(k,0)`, provided the budget allows these passes. -/
theorem repIncEnd_loop (X fl : Int) (rest : List Int) (mem : Memory) :
    ∀ (n : Nat) (k v c : Int) (m : Machine), k.toNat = n →
      At m repIncEnd X ⟨0, fl, c, RES_RUNNING, k :: v :: rest, mem⟩ →
      c + 3 * max k 0 + 1 ≤ X →
      ∀ fuel, ∃ m1, runLoop (fuel + (3 * n + 1)) m = runLoop fuel m1 ∧
        At m1 repIncEnd X
          ⟨3, fl, c + 3 * max k 0 + 1, RES_RUNNING, min k 0 :: (v + max k 0) :: rest, mem⟩ := by
  intro n
  induction n with
  | zero =>
    intro k v c m hk hat hX fuel
    have hk0 : k ≤ 0 := by omega
    have hmax : max k 0 = 0 := max_eq_right hk0
    have hmin : min k 0 = k := min_eq_left hk0
    rw [hmax] at hX
    obtain ⟨m1, h1, hat1⟩ := at_step hat (by simp) (by simp [repIncEnd]) (by simp; omega)
      (c := ⟨INS_REP, 0, -1⟩) (by simp [repIncEnd])
      (exec_rep_skip (v := k) (by simp [MachineState.reg, getCell_zero]) (by omega)
        blockMapOf_repIncEnd.1) fuel
    refine ⟨m1, h1, at_congr hat1 ?_⟩
    simp [hmax, hmin]
  | succ n ih =>
    intro k v c m hk hat hX fuel
    have hk0 : 1 ≤ k := by omega
    have hmax : max k 0 = k := max_eq_left (by omega)
    have hmax1 : max (k - 1) 0 = k - 1 := max_eq_left (by omega)
    have hmin : min k 0 = 0 := min_eq_right (by omega)
    have hmin1 : min (k - 1) 0 = 0 := min_eq_right (by omega)
    rw [hmax] at hX
    have e : fuel + (3 * (n + 1) + 1) = (fuel + (3 * n + 1)) + 1 + 1 + 1 := by omega
    rw [e]
    obtain ⟨m1, h1, hat1⟩ := at_step hat (by simp) (by simp [repIncEnd]) (by simp; omega)
      (c := ⟨INS_REP, 0, -1⟩) (by simp [repIncEnd])
      (exec_rep_enter (v := k) (blockMapOf repIncEnd) (by simp [MachineState.reg, getCell_zero])
        (by omega)) (fuel + (3 * n + 1) + 1 + 1)
    have hat1 := at_congr hat1
      (T := ⟨1, fl, c + 1, RES_RUNNING, (k - 1) :: v :: rest, mem⟩) (by simp)
    obtain ⟨m2, h2, hat2⟩ := at_step hat1 (by simp) (by simp [repIncEnd]) (by simp; omega)
      (c := ⟨INS_INC, 1, -1⟩) (by simp [repIncEnd])
      (exec_inc (v := v) (blockMapOf repIncEnd) (by simp [MachineState.reg, getCell_one]))
      (fuel + (3 * n + 1) + 1)
    have hat2 := at_congr hat2
      (T := ⟨2, fl, c + 1 + 1, RES_RUNNING, (k - 1) :: (v + 1) :: rest, mem⟩) (by simp)
    obtain ⟨m3, h3, hat3⟩ := at_step hat2 (by simp) (by simp [repIncEnd]) (by simp; omega)
      (c := ⟨INS_END, -1, -1⟩) (by simp [repIncEnd])
      (exec_end_jump blockMapOf_repIncEnd.2) (fuel + (3 * n + 1))
    have hat3 := at_congr hat3
      (T := ⟨0, fl, c + 1 + 1 + 1, RES_RUNNING, (k - 1) :: (v + 1) :: rest, mem⟩) (by simp)
    obtain ⟨m4, h4, hat4⟩ := ih (k - 1) (v + 1) (c + 1 + 1 + 1) m3 (by omega) hat3
      (by rw [hmax1]; omega) fuel
    refine ⟨m4, by rw [h1, h2, h3, h4], at_congr hat4 ?_⟩
    simp only [hmax, hmax1, hmin, hmin1, MachineState.mk.injEq, true_and, and_true,
      List.cons.injEq]
    constructor <;> ring

theorem runFinish_at_end {m : Machine} {C : List Instruction} {X : Int} {S : MachineState}
    (h : At m C X S) (hrc : S.return_code = RES_RUNNING) (hne : S.counter ≠ X) :
    (runFinish m).state = { S with return_code := RES_END } := by
  rw [runFinish_state, h.state, h.budget, if_pos hrc, if_neg hne]

theorem runFinish_at_max {m : Machine} {C : List Instruction} {X : Int} {S : MachineState}
    (h : At m C X S) (hrc : S.return_code = RES_RUNNING) (heq : S.counter = X) :
    (runFinish m).state = { S with return_code := RES_MAX_CODE_RUN_REACHED } := by
  rw [runFinish_state, h.state, h.budget, if_pos hrc, if_pos heq]

theorem parse_isSome_end (R i a1 a2 : Int) :
    (parse_one_line R i ⟨INS_END, a1, a2⟩).isSome := by
  have e1 : INS_END ≠ INS_REP := by decide
  simp [parse_one_line, e1]

theorem parse_isSome_unary {R i : Int} {c : Instruction}
    (hc : c.ins_type = INS_REP ∨ c.ins_type = INS_INC ∨ c.ins_type = INS_DEC)
    (h0 : 0 ≤ c.arg1) (h1 : c.arg1 < R) : (parse_one_line R i c).isSome := by
  have hco : check_oob c.arg1 R = some c.arg1 := by
    unfold check_oob; rw [if_neg (by omega)]
  have e1 : INS_INC ≠ INS_REP := by decide
  have e2 : INS_INC ≠ INS_END := by decide
  have e3 : INS_INC ≠ INS_MOV := by decide
  have e4 : INS_DEC ≠ INS_REP := by decide
  have e5 : INS_DEC ≠ INS_END := by decide
  have e6 : INS_DEC ≠ INS_MOV := by decide
  rcases hc with h | h | h <;> simp [parse_one_line, h, hco, e1, e2, e3, e4, e5, e6]

theorem parse_isSome_binary {R i : Int} {c : Instruction}
    (hc : c.ins_type = INS_MOV ∨ c.ins_type = INS_CMP ∨ c.ins_type = INS_LOAD ∨
      c.ins_type = INS_SAVE)
    (h0 : 0 ≤ c.arg1) (h1 : c.arg1 < R) (h2 : 0 ≤ c.arg2) (h3 : c.arg2 < R) :
    (parse_one_line R i c).isSome := by
  have hco : check_oob c.arg1 R = some c.arg1 := by
    unfold check_oob; rw [if_neg (by omega)]
  have hco2 : check_oob c.arg2 R = some c.arg2 := by
    unfold check_oob; rw [if_neg (by omega)]
  have e1 : INS_MOV ≠ INS_REP := by decide
  have e2 : INS_MOV ≠ INS_END := by decide
  have e3 : INS_CMP ≠ INS_REP := by decide
  have e4 : INS_CMP ≠ INS_END := by decide
  have e5 : INS_CMP ≠ INS_MOV := by decide
  have e6 : ¬ (INS_CMP = INS_INC ∨ INS_CMP = INS_DEC) := by decide
  have f1 : INS_LOAD ≠ INS_REP := by decide
  have f2 : INS_LOAD ≠ INS_END := by decide
  have f3 : INS_LOAD ≠ INS_MOV := by decide
  have f4 : ¬ (INS_LOAD = INS_INC ∨ INS_LOAD = INS_DEC) := by decide
  have f5 : INS_LOAD ≠ INS_CMP := by decide
  have g1 : INS_SAVE ≠ INS_REP := by decide
  have g2 : INS_SAVE ≠ INS_END := by decide
  have g3 : INS_SAVE ≠ INS_MOV := by decide
  have g4 : ¬ (INS_SAVE = INS_INC ∨ INS_SAVE = INS_DEC) := by decide
  have g5 : INS_SAVE ≠ INS_CMP := by decide
  have g6 : INS_SAVE ≠ INS_LOAD := by decide
  rcases hc with h | h | h | h <;>
    simp [parse_one_line, h, hco, hco2, e1, e2, e3, e4, e5, e6, f1, f2, f3, f4, f5,
      g1, g2, g3, g4, g5, g6]

theorem two_le_length (k v : Int) (rest : List Int) :
    (0 : Int) < ((k :: v :: rest).length : Int) ∧ (1 : Int) < ((k :: v :: rest).length : Int) := by
  simp only [List.length_cons, Nat.cast_add, Nat.cast_one]; omega

/-- C9. Loop semantics: for all integers `k`, `v` with `3 * max(k,0) + 1 < max_steps`, the run
of `rep 0; inc 1; end` from `r0 = k`, `r1 = v` (any other registers, any memory) halts with
`RES_END` after exactly `3 * max(k,0) + 1` executed instructions, with `r0 = min(k,0)`,
`r1 = v + max(k,0)` and everything else as `Init` left it; for `k <= 0` the program `rep 0; end`
halts with `RES_END` after one step with registers and memory unchanged. -/
theorem loop_semantics (k v : Int) (rest : List Int) (M : Nat) (mem : Memory) (X : Int)
    (hX : 3 * max k 0 + 1 < X) :
    (∃ mR, loadInitRun X M repIncEnd (k :: v :: rest) mem = some mR ∧
      mR.state = { initState M (k :: v :: rest) mem with
        pc := 3, counter := 3 * max k 0 + 1, return_code := RES_END,
        register := min k 0 :: (v + max k 0) :: rest }) ∧
    (k ≤ 0 → ∃ mR, loadInitRun X M repEnd (k :: v :: rest) mem = some mR ∧
      mR.state = { initState M (k :: v :: rest) mem with
        pc := 2, counter := 1, return_code := RES_END }) := by
  obtain ⟨r0, r1⟩ := two_le_length k v rest
  constructor
  · obtain ⟨m0, hat, hrun⟩ := loadInitRun_at (C := repIncEnd) (X := X) (M := M)
      (r := k :: v :: rest) (by decide!) mem (by
        intro c hc i
        simp only [repIncEnd, List.mem_cons, List.mem_singleton, List.not_mem_nil,
          or_false] at hc
        rcases hc with rfl | rfl | rfl
        · exact parse_isSome_unary (Or.inl rfl) (by simp) r0
        · exact parse_isSome_unary (Or.inr (Or.inl rfl)) (by simp) r1
        · exact parse_isSome_end _ _ _ _)
    rw [initState_eq] at hat
    have hmax : max k 0 = (k.toNat : Int) := by
      rcases le_total k 0 with h | h
      · rw [max_eq_right h]; omega
      · rw [max_eq_left h]; omega
    have hfuel : X.toNat = (X.toNat - (3 * k.toNat + 1)) + (3 * k.toNat + 1) := by omega
    obtain ⟨m1, h1, hat1⟩ := repIncEnd_loop X 0 rest (copyInto mem (List.replicate M 0))
      k.toNat k v 0 m0 rfl hat (by omega) (X.toNat - (3 * k.toNat + 1))
    rw [← hfuel] at h1
    rw [at_stop hat1 (by simp [repIncEnd])] at h1
    refine ⟨_, hrun, ?_⟩
    rw [h1, runFinish_at_end hat1 rfl (by simp only []; omega), initState_eq]
    simp
  · intro hk
    obtain ⟨m0, hat, hrun⟩ := loadInitRun_at (C := repEnd) (X := X) (M := M)
      (r := k :: v :: rest) (by decide!) mem (by
        intro c hc i
        simp only [repEnd, List.mem_cons, List.mem_singleton, List.not_mem_nil,
          or_false] at hc
        rcases hc with rfl | rfl
        · exact parse_isSome_unary (Or.inl rfl) (by simp) r0
        · exact parse_isSome_end _ _ _ _)
    rw [initState_eq] at hat
    have hmax : max k 0 = 0 := max_eq_right hk
    rw [hmax] at hX
    have hfuel : X.toNat = (X.toNat - 1) + 1 := by omega
    obtain ⟨m1, h1, hat1⟩ := at_step hat (by simp) (by simp [repEnd]) (by simp; omega)
      (c := ⟨INS_REP, 0, -1⟩) (by simp [repEnd])
      (exec_rep_skip (v := k) (by simp [MachineState.reg, getCell_zero]) (by omega)
        blockMapOf_repEnd) (X.toNat - 1)
    rw [← hfuel] at h1
    rw [at_stop hat1 (by simp [repEnd])] at h1
    refine ⟨_, hrun, ?_⟩
    rw [h1, runFinish_at_end hat1 rfl (by simp only []; omega), initState_eq]
    simp

theorem loop_semantics_witness :
    (∃ mR, loadInitRun 1000 1 repIncEnd [3, 0] [7] = some mR ∧
      mR.state = { initState 1 [3, 0] [7] with
        pc := 3, counter := 3 * max 3 0 + 1, return_code := RES_END,
        register := [min 3 0, 0 + max 3 0] }) ∧
    ((3 : Int) ≤ 0 → ∃ mR, loadInitRun 1000 1 repEnd [3, 0] [7] = some mR ∧
      mR.state = { initState 1 [3, 0] [7] with
        pc := 2, counter := 1, return_code := RES_END }) :=
  loop_semantics 3 0 [] 1 [7] 1000 (by decide)

/-- C10. Conditional semantics: for all integers `x`, `y` (and any step budget above 3, such as
the default 1000), the run of `cmp 0 1; inc 0; end` from `r0 = x`, `r1 = y` halts with
`RES_END`, with `r0 = x` when `x >= y` (body skipped, 2 steps) and `r0 = x + 1` when `x < y`
(body run once, 3 steps); `r1`, the other registers, the memory and the flag are as `Init`
left them. -/
theorem conditional_semantics (x y : Int) (rest : List Int) (M : Nat) (mem : Memory) (X : Int)
    (hX : 3 < X) :
    ∃ mR, loadInitRun X M cmpIncEnd (x :: y :: rest) mem = some mR ∧
      mR.state = { initState M (x :: y :: rest) mem with
        pc := 3, counter := if x < y then 3 else 2, return_code := RES_END,
        register := (if x < y then x + 1 else x) :: y :: rest } := by
  obtain ⟨r0, r1⟩ := two_le_length x y rest
  obtain ⟨m0, hat, hrun⟩ := loadInitRun_at (C := cmpIncEnd) (X := X) (M := M)
    (r := x :: y :: rest) (by decide!) mem (by
      intro c hc i
      simp only [cmpIncEnd, List.mem_cons, List.mem_singleton, List.not_mem_nil,
        or_false] at hc
      rcases hc with rfl | rfl | rfl
      · exact parse_isSome_binary (Or.inr (Or.inl rfl)) (by simp) r0 (by simp) r1
      · exact parse_isSome_unary (Or.inr (Or.inl rfl)) (by simp) r0
      · exact parse_isSome_end _ _ _ _)
  rw [initState_eq] at hat
  refine ⟨_, hrun, ?_⟩
  by_cases hlt : x < y
  · have hfuel : X.toNat = (X.toNat - 3) + 1 + 1 + 1 := by omega
    rw [hfuel]
    obtain ⟨m1, h1, hat1⟩ := at_step hat (by simp) (by simp [cmpIncEnd]) (by simp; omega)
      (c := ⟨INS_CMP, 0, 1⟩) (by simp [cmpIncEnd])
      (exec_cmp_enter (v := x) (w := y) (blockMapOf cmpIncEnd)
        (by simp [MachineState.reg, getCell_zero]) (by simp [MachineState.reg, getCell_one])
        hlt) (X.toNat - 3 + 1 + 1)
    have hat1 := at_congr hat1 (T := ⟨1, 0, 1, RES_RUNNING, x :: y :: rest,
      copyInto mem (List.replicate M 0)⟩) (by simp)
    obtain ⟨m2, h2, hat2⟩ := at_step hat1 (by simp) (by simp [cmpIncEnd]) (by simp; omega)
      (c := ⟨INS_INC, 0, -1⟩) (by simp [cmpIncEnd])
      (exec_inc (v := x) (blockMapOf cmpIncEnd) (by simp [MachineState.reg, getCell_zero]))
      (X.toNat - 3 + 1)
    have hat2 := at_congr hat2 (T := ⟨2, 0, 2, RES_RUNNING, (x + 1) :: y :: rest,
      copyInto mem (List.replicate M 0)⟩) (by simp)
    obtain ⟨m3, h3, hat3⟩ := at_step hat2 (by simp) (by simp [cmpIncEnd]) (by simp; omega)
      (c := ⟨INS_END, -1, -1⟩) (by simp [cmpIncEnd])
      (exec_end_fall blockMapOf_cmpIncEnd.2) (X.toNat - 3)
    have hat3 := at_congr hat3 (T := ⟨3, 0, 3, RES_RUNNING, (x + 1) :: y :: rest,
      copyInto mem (List.replicate M 0)⟩) (by simp)
    rw [h1, h2, h3, at_stop hat3 (by simp [cmpIncEnd]),
      runFinish_at_end hat3 rfl (by simp only []; omega), initState_eq]
    simp [hlt]
  · have hfuel : X.toNat = (X.toNat - 2) + 1 + 1 := by omega
    rw [hfuel]
    obtain ⟨m1, h1, hat1⟩ := at_step hat (by simp) (by simp [cmpIncEnd]) (by simp; omega)
      (c := ⟨INS_CMP, 0, 1⟩) (by simp [cmpIncEnd])
      (exec_cmp_skip (v := x) (w := y)
        (by simp [MachineState.reg, getCell_zero]) (by simp [MachineState.reg, getCell_one])
        (by omega) blockMapOf_cmpIncEnd.1) (X.toNat - 2 + 1)
    have hat1 := at_congr hat1 (T := ⟨2, 0, 1, RES_RUNNING, x :: y :: rest,
      copyInto mem (List.replicate M 0)⟩) (by simp)
    obtain ⟨m2, h2, hat2⟩ := at_step hat1 (by simp) (by simp [cmpIncEnd]) (by simp; omega)
      (c := ⟨INS_END, -1, -1⟩) (by simp [cmpIncEnd])
      (exec_end_fall blockMapOf_cmpIncEnd.2) (X.toNat - 2)
    have hat2 := at_congr hat2 (T := ⟨3, 0, 2, RES_RUNNING, x :: y :: rest,
      copyInto mem (List.replicate M 0)⟩) (by simp)
    rw [h1, h2, at_stop hat2 (by simp [cmpIncEnd]),
      runFinish_at_end hat2 rfl (by simp only []; omega), initState_eq]
    simp [hlt]

theorem conditional_semantics_witness :
    ∃ mR, loadInitRun 1000 1 cmpIncEnd [1, 3] [7] = some mR ∧
      mR.state = { initState 1 [1, 3] [7] with
        pc := 3, counter := if (1 : Int) < 3 then 3 else 2, return_code := RES_END,
        register := [if (1 : Int) < 3 then 1 + 1 else 1, 3] } :=
  conditional_semantics 1 3 [] 1 [7] 1000 (by decide)

/-- C7, at the failing input. The run of `rep 0; inc 1; end` from `r0 = 333` with the default
budget 1000 executes exactly 1000 instructions and leaves the program (`pc = 3`, the program
length), and `Run` returns `RES_MAX_CODE_RUN_REACHED`, not `RES_END`. The same happens for the
one-instruction program `inc 0` with budget 1. -/
theorem normal_termination_at_budget_not_end :
    (loadInitRun 1000 1 repIncEnd [333, 0] [0]).map
        (fun m => (m.state.return_code, m.state.pc, m.state.counter, m.program.length)) =
      some (RES_MAX_CODE_RUN_REACHED, 3, 1000, 3) ∧
    (loadInitRun 1 1 [⟨INS_INC, 0, -1⟩] [0] [0]).map
        (fun m => (m.state.return_code, m.state.pc, m.state.counter, m.program.length)) =
      some (RES_MAX_CODE_RUN_REACHED, 1, 1, 1) := by
  constructor <;> decide!

theorem loadedOrNew_eq {R M : Nat} {codes : List Instruction}
    (h : ((Machine.new R M).Load codes).isSome = true) :
    (Machine.new R M).Load codes = some (loadedOrNew R M codes) := by
  obtain ⟨m, hm⟩ := Option.isSome_iff_exists.1 h
  simp [loadedOrNew, hm]

theorem withInit_linked {m : Machine} (h : Linked m) (reg : Register) (mem : Memory) :
    Linked (m.withInit reg mem).runStart ∧
    (m.withInit reg mem).runStart.state = m.state.Init reg mem ∧
    (m.withInit reg mem).runStart.code = m.code ∧
    (m.withInit reg mem).runStart.control_map = m.control_map ∧
    (m.withInit reg mem).runStart.program = m.program ∧
    (m.withInit reg mem).runStart.max_code_run = m.max_code_run := by
  obtain ⟨a, b, c, d, e, f⟩ := runStart_fields (m.withInit reg mem)
  refine ⟨linked_of_fields h b c d ?_, a, c, d, b, e⟩
  rw [a]; exact (Init_fields _ _ _).2.2.2.2.1

/-- The loop result and the final state of `Run` on a linked, initialised machine. -/
theorem Run_withInit {m : Machine} (h : Linked m) (reg : Register) (mem : Memory) :
    (m.withInit reg mem).Run.state =
      (if (runLoop m.max_code_run.toNat (m.withInit reg mem).runStart).state.return_code
          = RES_RUNNING then
        if (runLoop m.max_code_run.toNat (m.withInit reg mem).runStart).state.counter
            = m.max_code_run then
          { (runLoop m.max_code_run.toNat (m.withInit reg mem).runStart).state with
            return_code := RES_MAX_CODE_RUN_REACHED }
        else
          { (runLoop m.max_code_run.toNat (m.withInit reg mem).runStart).state with
            return_code := RES_END }
      else (runLoop m.max_code_run.toNat (m.withInit reg mem).runStart).state) ∧
    ((runLoop m.max_code_run.toNat (m.withInit reg mem).runStart).state.return_code
        = RES_MEM_OOB ∨
      ((runLoop m.max_code_run.toNat (m.withInit reg mem).runStart).state.return_code
        = RES_RUNNING ∧
       ¬ loopCond (runLoop m.max_code_run.toNat (m.withInit reg mem).runStart))) := by
  obtain ⟨hl, hs, hc, hcm, hp, hx⟩ := withInit_linked h reg mem
  obtain ⟨i1, i2, i3, _⟩ := Init_fields m.state reg mem
  have hfuel : ((m.withInit reg mem).runStart.max_code_run -
      (m.withInit reg mem).runStart.state.counter).toNat = m.max_code_run.toNat := by
    rw [hx, hs, i2]; simp
  have hlk := runLoop_linked m.max_code_run.toNat hl (by rw [hs, i1]) (by rw [hs, i1]; omega)
  constructor
  · unfold Machine.Run
    rw [hfuel, runFinish_state, hlk.2.2.2.2.1, hx]
  · exact runLoop_done m.max_code_run.toNat hl (by rw [hs]; exact i3) (by rw [hfuel])

/-- C6, as amended. After a successful `Load` and `Init`, at every point of the run (after any
number `k` of passes of the loop of `Run`): the block map is the one `Load` built (no lookup
through `operator[]` ever inserted a key), `0 <= pc <= L'` where `L'` is the length of the
END-extended program (also the length of `_program`), a `REP` or `CMP` at `pc` is a key of the
block map with a target inside `(pc, L')`, and any key found at `pc` (the lookup of an `END`)
has a value in `[0, L')`. When the budget is not negative, a run that halts with `RES_END`
stops with `pc = L'`. -/
theorem no_out_of_range_jump (m : Machine) (codes : List Instruction) (m1 : Machine)
    (h : m.Load codes = some m1) (reg : Register) (mem : Memory) :
    m1.program.length = m1.code.length ∧
    (∀ k : Nat,
      (runLoop k (m1.withInit reg mem).runStart).control_map = m1.control_map ∧
      (runLoop k (m1.withInit reg mem).runStart).code = m1.code ∧
      0 ≤ (runLoop k (m1.withInit reg mem).runStart).state.pc ∧
      (runLoop k (m1.withInit reg mem).runStart).state.pc ≤ m1.code.length ∧
      (OpenerAt m1.code (runLoop k (m1.withInit reg mem).runStart).state.pc →
        ∃ e, m1.control_map (runLoop k (m1.withInit reg mem).runStart).state.pc = some e ∧
          (runLoop k (m1.withInit reg mem).runStart).state.pc < e ∧ e < m1.code.length) ∧
      (∀ s, m1.control_map (runLoop k (m1.withInit reg mem).runStart).state.pc = some s →
        0 ≤ s ∧ s < m1.code.length)) ∧
    (0 ≤ m1.max_code_run → (m1.withInit reg mem).Run.state.return_code = RES_END →
      (m1.withInit reg mem).Run.state.pc = m1.code.length) := by
  obtain ⟨_, hl1, _⟩ := Load_spec h
  obtain ⟨hl, hs, hc, hcm, hp, hx⟩ := withInit_linked hl1 reg mem
  obtain ⟨i1, i2, i3, _⟩ := Init_fields m1.state reg mem
  have hlk := fun k => runLoop_linked k hl (by rw [hs, i1]) (by rw [hs, i1]; omega)
  refine ⟨linked_length_eq hl1, ?_, ?_⟩
  · intro k
    obtain ⟨a1, a2, a3, a4, a5, a6, a7, a8, a9, a10, a11⟩ := hlk k
    refine ⟨a2.trans hcm, a4.trans hc, a10, by rw [← hc]; exact a11, ?_, ?_⟩
    · intro ho
      obtain ⟨e, he, hlt, hlt2, _⟩ := linked_opener_key hl1 ho
      exact ⟨e, he, hlt, hlt2⟩
    · intro s hs
      exact linked_key_val hl1 hs
  · intro hmax hend
    obtain ⟨hrun, hdone⟩ := Run_withInit hl1 reg mem
    obtain ⟨a1, a2, a3, a4, a5, a6, a7, a8, a9, a10, a11⟩ := hlk m1.max_code_run.toNat
    have hcnt := (runLoop_counter m1.max_code_run.toNat hl).2 (by rw [hs, i2, hx]; exact hmax)
    rw [hx] at hcnt
    have e1 : RES_MEM_OOB ≠ RES_END := by decide
    have e2 : RES_MAX_CODE_RUN_REACHED ≠ RES_END := by decide
    have e3 : RES_MEM_OOB ≠ RES_RUNNING := by decide
    rw [hrun] at hend ⊢
    rcases hdone with hd | ⟨hd, hnc⟩
    · rw [if_neg (by rw [hd]; exact e3)] at hend
      exact absurd (hd.symm.trans hend) e1
    · rw [if_pos hd] at hend ⊢
      split_ifs at hend ⊢ with hcm2
      · exact absurd hend e2
      · simp only []
        have hlen := linked_length_eq a1
        unfold loopCond at hnc
        rw [a5, hx, hlen, a4, hc] at hnc
        rw [hc] at a11
        have : (runLoop m1.max_code_run.toNat (m1.withInit reg mem).runStart).state.counter
            < m1.max_code_run := lt_of_le_of_ne hcnt hcm2
        by_contra hne
        exact hnc ⟨a10, lt_of_le_of_ne a11 hne, this⟩

theorem no_out_of_range_jump_witness :
    (Machine.new 2 1).Load nestedProgram = some (loadedOrNew 2 1 nestedProgram) ∧
    ((loadedOrNew 2 1 nestedProgram).withInit [1, 0] [7]).Run.state.pc =
      (loadedOrNew 2 1 nestedProgram).code.length :=
  ⟨loadedOrNew_eq (by decide!),
    (no_out_of_range_jump (Machine.new 2 1) nestedProgram (loadedOrNew 2 1 nestedProgram)
      (loadedOrNew_eq (by decide!)) [1, 0] [7]).2.2 (by decide!) (by decide!)⟩

/-- C6, the claim as stated fails. On the program `end`, the `END` at `pc = 0` of the
initialised state looks up key `0` and there is no such key (the run falls through and halts
with `RES_END`); and with the budget `-1` the run of `inc 0` halts with `RES_END` at `pc = 0`
although `L' = 1`. -/
theorem end_lookup_finds_no_key :
    ((Machine.new 1 1).Load [⟨INS_END, -1, -1⟩]).map
        (fun m => (m.code, (m.withInit [0] [0]).runStart.state.pc, m.control_map 0,
          (m.withInit [0] [0]).Run.state.return_code)) =
      some ([⟨INS_END, -1, -1⟩], 0, none, RES_END) ∧
    (loadInitRun (-1) 1 [⟨INS_INC, 0, -1⟩] [0] [0]).map
        (fun m => (m.state.return_code, m.state.pc, m.code.length)) =
      some (RES_END, 0, 1) := by
  constructor <;> decide!

/-- A loop whose passes keep an invariant that implies the loop condition (while the budget
lasts) runs until the counter reaches the budget. -/
theorem runLoop_stays (J : Machine → Prop) (X : Int)
    (hJ : ∀ m, J m → m.state.counter < X →
      loopCond m ∧ (loopBody m).2 = false ∧ J (loopBody m).1 ∧
      (loopBody m).1.state.counter = m.state.counter + 1)
    (hX : ∀ m, J m → m.max_code_run = X) :
    ∀ (fuel : Nat) (m : Machine), J m → m.state.counter ≤ X →
      (X - m.state.counter).toNat ≤ fuel →
      J (runLoop fuel m) ∧ (runLoop fuel m).state.counter = X := by
  intro fuel
  induction fuel with
  | zero =>
    intro m hm hle hf
    exact ⟨hm, by simp only [runLoop_zero]; omega⟩
  | succ n ih =>
    intro m hm hle hf
    by_cases hlt : m.state.counter < X
    · obtain ⟨h1, h2, h3, h4⟩ := hJ m hm hlt
      rw [runLoop_succ, if_pos h1, h2]
      simp only [Bool.false_eq_true, if_false]
      exact ih _ h3 (by omega) (by omega)
    · have hnc : ¬ loopCond m := by
        rintro ⟨_, _, h3⟩
        rw [hX m hm] at h3
        exact hlt h3
      rw [runLoop_of_not_cond hnc]
      exact ⟨hm, by omega⟩

theorem selfLoop_step (X fl : Int) (rest : List Int) (mem : Memory) (m : Machine)
    (hm : SelfLoopInv X fl rest mem m) (hlt : m.state.counter < X) :
    loopCond m ∧ (loopBody m).2 = false ∧ SelfLoopInv X fl rest mem (loopBody m).1 ∧
      (loopBody m).1.state.counter = m.state.counter + 1 := by
  obtain ⟨pcv, x, c, hat, hcase⟩ := hm
  have hst := hat.state
  rw [hst] at hlt
  simp only [] at hlt
  have hcond : loopCond m := by
    refine ⟨?_, ?_, ?_⟩
    · rw [hst]; simp only []; omega
    · rw [hst, linked_length_eq hat.linked, hat.code]
      simp only [repIncSelfEnd, List.length_cons, List.length_nil]
      push_cast; omega
    · rw [hst, hat.budget]; exact hlt
  refine ⟨hcond, ?_⟩
  rcases hcase with ⟨rfl, hx⟩ | ⟨rfl, hx⟩ | ⟨rfl, hx⟩
  · obtain ⟨hb, hat1⟩ := at_body hat (by simp) (by simp [repIncSelfEnd]) hlt
      (c := ⟨INS_REP, 0, -1⟩) (by simp [repIncSelfEnd])
      (exec_rep_enter (v := x) (blockMapOf repIncSelfEnd)
        (by simp [MachineState.reg, getCell_zero]) (by omega))
    refine ⟨hb, ⟨1, x - 1, c + 1, at_congr hat1 (by simp), Or.inr (Or.inl ⟨rfl, by omega⟩)⟩, ?_⟩
    rw [hat1.state, hst]
  · obtain ⟨hb, hat1⟩ := at_body hat (by simp) (by simp [repIncSelfEnd]) hlt
      (c := ⟨INS_INC, 0, -1⟩) (by simp [repIncSelfEnd])
      (exec_inc (v := x) (blockMapOf repIncSelfEnd)
        (by simp [MachineState.reg, getCell_zero]))
    refine ⟨hb, ⟨2, x + 1, c + 1, at_congr hat1 (by simp), Or.inr (Or.inr ⟨rfl, by omega⟩)⟩, ?_⟩
    rw [hat1.state, hst]
  · obtain ⟨hb, hat1⟩ := at_body hat (by simp) (by simp [repIncSelfEnd]) hlt
      (c := ⟨INS_END, -1, -1⟩) (by simp [repIncSelfEnd])
      (exec_end_jump blockMapOf_repIncSelfEnd.2)
    refine ⟨hb, ⟨0, x, c + 1, at_congr hat1 (by simp), Or.inl ⟨rfl, hx⟩⟩, ?_⟩
    rw [hat1.state, hst]

/-- The program `rep 0; inc 0; end` started with `r0 >= 1` halts with
`RES_MAX_CODE_RUN_REACHED` and `counter = max_steps`, for every budget `max_steps >= 0`. -/
theorem selfLoop_reaches_budget (r0 : Int) (rest : List Int) (M : Nat) (mem : Memory)
    (X : Int) (hr : 1 ≤ r0) (hX : 0 ≤ X) :
    ∃ mR, loadInitRun X M repIncSelfEnd (r0 :: rest) mem = some mR ∧
      mR.state.return_code = RES_MAX_CODE_RUN_REACHED ∧ mR.state.counter = X := by
  have r1 : (0 : Int) < ((r0 :: rest).length : Int) := by
    simp only [List.length_cons, Nat.cast_add, Nat.cast_one]; omega
  obtain ⟨m0, hat, hrun⟩ := loadInitRun_at (C := repIncSelfEnd) (X := X) (M := M)
    (r := r0 :: rest) (by decide!) mem (by
      intro c hc i
      simp only [repIncSelfEnd, List.mem_cons, List.mem_singleton, List.not_mem_nil,
        or_false] at hc
      rcases hc with rfl | rfl | rfl
      · exact parse_isSome_unary (Or.inl rfl) (by simp) r1
      · exact parse_isSome_unary (Or.inr (Or.inl rfl)) (by simp) r1
      · exact parse_isSome_end _ _ _ _)
  rw [initState_eq] at hat
  have hJ0 : SelfLoopInv X 0 rest (copyInto mem (List.replicate M 0)) m0 :=
    ⟨0, r0, 0, hat, Or.inl ⟨rfl, hr⟩⟩
  obtain ⟨hJ, hcnt⟩ := runLoop_stays (SelfLoopInv X 0 rest (copyInto mem (List.replicate M 0))) X
    (selfLoop_step X 0 rest _)
    (fun m hm => by obtain ⟨_, _, _, h, _⟩ := hm; exact h.budget)
    X.toNat m0 hJ0 (by rw [hat.state]; exact hX) (by rw [hat.state]; simp)
  obtain ⟨pcv, x, c, hat1, _⟩ := hJ
  refine ⟨_, hrun, ?_⟩
  have hc : c = X := by
    rw [hat1.state] at hcnt; exact hcnt
  rw [runFinish_at_max hat1 rfl hc]
  exact ⟨rfl, hc⟩

/-- C8. Step budget: after a successful `Load` and `Init`, for every budget `max_steps` (in
particular `max_steps >= 0`): (a) if the
machine after `max_steps` passes of the loop has executed `max_steps` instructions
(`counter = max_steps`), has `pc` inside the program and raised no fault, then `Run` returns
`RES_MAX_CODE_RUN_REACHED`; (b) whenever `Run` returns `RES_MAX_CODE_RUN_REACHED` the counter
equals `max_steps`; (c) `rep 0; inc 0; end` started with `r0 >= 1` halts with
`RES_MAX_CODE_RUN_REACHED` and `counter = max_steps` for every budget `max_steps >= 0`. -/
theorem step_budget (m : Machine) (codes : List Instruction) (m1 : Machine)
    (h : m.Load codes = some m1) (reg : Register) (mem : Memory) :
    ((runLoop m1.max_code_run.toNat (m1.withInit reg mem).runStart).state.counter
        = m1.max_code_run →
      0 ≤ (runLoop m1.max_code_run.toNat (m1.withInit reg mem).runStart).state.pc →
      (runLoop m1.max_code_run.toNat (m1.withInit reg mem).runStart).state.pc
        < m1.program.length →
      (runLoop m1.max_code_run.toNat (m1.withInit reg mem).runStart).state.return_code
        = RES_RUNNING →
      (m1.withInit reg mem).Run.state.return_code = RES_MAX_CODE_RUN_REACHED) ∧
    ((m1.withInit reg mem).Run.state.return_code = RES_MAX_CODE_RUN_REACHED →
      (m1.withInit reg mem).Run.state.counter = m1.max_code_run) ∧
    (∀ (r0 : Int) (rest : List Int) (M : Nat) (mem2 : Memory) (X : Int), 1 ≤ r0 → 0 ≤ X →
      ∃ mR, loadInitRun X M repIncSelfEnd (r0 :: rest) mem2 = some mR ∧
        mR.state.return_code = RES_MAX_CODE_RUN_REACHED ∧ mR.state.counter = X) := by
  obtain ⟨_, hl1, _⟩ := Load_spec h
  obtain ⟨hrun, hdone⟩ := Run_withInit hl1 reg mem
  have e1 : RES_MEM_OOB ≠ RES_MAX_CODE_RUN_REACHED := by decide
  have e2 : RES_END ≠ RES_MAX_CODE_RUN_REACHED := by decide
  have e3 : RES_MEM_OOB ≠ RES_RUNNING := by decide
  refine ⟨?_, ?_, fun r0 rest M mem2 X => selfLoop_reaches_budget r0 rest M mem2 X⟩
  · intro hc _ _ hrc
    rw [hrun, if_pos hrc, if_pos hc]
  · intro hret
    rw [hrun] at hret ⊢
    rcases hdone with hd | ⟨hd, _⟩
    · rw [if_neg (by rw [hd]; exact e3)] at hret
      exact absurd (hd.symm.trans hret) e1
    · rw [if_pos hd] at hret ⊢
      split_ifs at hret ⊢ with hcm
      · exact hcm
      · exact absurd hret e2

theorem step_budget_witness :
    (Machine.new 2 1).Load repIncSelfEnd = some (loadedOrNew 2 1 repIncSelfEnd) ∧
    ((loadedOrNew 2 1 repIncSelfEnd).withInit [1, 0] [7]).Run.state.return_code =
      RES_MAX_CODE_RUN_REACHED ∧
    ((loadedOrNew 2 1 repIncSelfEnd).withInit [1, 0] [7]).Run.state.counter =
      (loadedOrNew 2 1 repIncSelfEnd).max_code_run :=
  ⟨loadedOrNew_eq (by decide!),
    (step_budget (Machine.new 2 1) repIncSelfEnd (loadedOrNew 2 1 repIncSelfEnd)
      (loadedOrNew_eq (by decide!)) [1, 0] [7]).1
      (by decide!) (by decide!) (by decide!) (by decide!),
    (step_budget (Machine.new 2 1) repIncSelfEnd (loadedOrNew 2 1 repIncSelfEnd)
      (loadedOrNew_eq (by decide!)) [1, 0] [7]).2.1 (by decide!)⟩

theorem pruning_local_fixed_point_witness :
    ∃ j, j < 2 ∧ ∃ mC mP,
      loadInitRun 1000 2 (([⟨INS_INC, 0, -1⟩, ⟨INS_SAVE, 0, 1⟩] : List Instruction).eraseIdx 1)
        [0, 0] (sampleMemory sampleRand 2 j) = some mC ∧
      loadInitRun 1000 2 sampleProgram [0, 0] (sampleMemory sampleRand 2 j) = some mP ∧
      (mC.state.return_code ≠ RES_END ∨ mC.state.memory ≠ mP.state.memory) :=
  pruning_local_fixed_point sampleProgram [0, 0] 2 2 sampleRand []
    [⟨INS_INC, 0, -1⟩, ⟨INS_SAVE, 0, 1⟩] (by decide!) 1 (by decide)

theorem parse_none_iff (R i : Int) (c : Instruction) :
    parse_one_line R i c = none ↔ StructurallyBad R c := by
  constructor
  · intro h
    by_contra hnb
    unfold StructurallyBad at hnb
    simp only [not_or, not_and, not_not, not_lt, not_le] at hnb
    obtain ⟨h1, h2, h3⟩ := hnb
    have hsome : (parse_one_line R i c).isSome := by
      rcases h3 with k | k | k | k | k | k | k | k
      · obtain ⟨t, a1, a2⟩ := c
        simp only at k
        subst k
        exact parse_isSome_end R i a1 a2
      · have := h1 (Or.inl k)
        exact parse_isSome_unary (Or.inl k) this.1 this.2
      · have := h1 (Or.inr (Or.inl k))
        exact parse_isSome_unary (Or.inr (Or.inl k)) this.1 this.2
      · have := h1 (Or.inr (Or.inr k))
        exact parse_isSome_unary (Or.inr (Or.inr k)) this.1 this.2
      · have := h2 (Or.inl k)
        exact parse_isSome_binary (Or.inl k) this.1 this.2.1 this.2.2.1 this.2.2.2
      · have := h2 (Or.inr (Or.inl k))
        exact parse_isSome_binary (Or.inr (Or.inl k)) this.1 this.2.1 this.2.2.1 this.2.2.2
      · have := h2 (Or.inr (Or.inr (Or.inl k)))
        exact parse_isSome_binary (Or.inr (Or.inr (Or.inl k))) this.1 this.2.1 this.2.2.1
          this.2.2.2
      · have := h2 (Or.inr (Or.inr (Or.inr k)))
        exact parse_isSome_binary (Or.inr (Or.inr (Or.inr k))) this.1 this.2.1 this.2.2.1
          this.2.2.2
    rw [h] at hsome
    exact absurd hsome (by simp)
  · intro hb
    have co : ∀ a : Int, (a < 0 ∨ R ≤ a) → check_oob a R = none := by
      intro a ha
      unfold check_oob
      rw [if_pos (by omega)]
    unfold parse_one_line
    rcases hb with ⟨k, hr⟩ | ⟨k, hr⟩ | hk
    · have e1 : INS_INC ≠ INS_REP := by decide
      have e2 : INS_INC ≠ INS_END := by decide
      have e3 : INS_INC ≠ INS_MOV := by decide
      have e4 : INS_DEC ≠ INS_REP := by decide
      have e5 : INS_DEC ≠ INS_END := by decide
      have e6 : INS_DEC ≠ INS_MOV := by decide
      rcases k with k | k | k <;> simp [k, co _ hr, e1, e2, e3, e4, e5, e6]
    · have e1 : INS_MOV ≠ INS_REP := by decide
      have e2 : INS_MOV ≠ INS_END := by decide
      have e3 : INS_CMP ≠ INS_REP := by decide
      have e4 : INS_CMP ≠ INS_END := by decide
      have e5 : INS_CMP ≠ INS_MOV := by decide
      have e6 : ¬ (INS_CMP = INS_INC ∨ INS_CMP = INS_DEC) := by decide
      have f1 : INS_LOAD ≠ INS_REP := by decide
      have f2 : INS_LOAD ≠ INS_END := by decide
      have f3 : INS_LOAD ≠ INS_MOV := by decide
      have f4 : ¬ (INS_LOAD = INS_INC ∨ INS_LOAD = INS_DEC) := by decide
      have f5 : INS_LOAD ≠ INS_CMP := by decide
      have g1 : INS_SAVE ≠ INS_REP := by decide
      have g2 : INS_SAVE ≠ INS_END := by decide
      have g3 : INS_SAVE ≠ INS_MOV := by decide
      have g4 : ¬ (INS_SAVE = INS_INC ∨ INS_SAVE = INS_DEC) := by decide
      have g5 : INS_SAVE ≠ INS_CMP := by decide
      have g6 : INS_SAVE ≠ INS_LOAD := by decide
      have hcases : check_oob c.arg1 R = none ∨
          (∃ d, check_oob c.arg1 R = some d) ∧ check_oob c.arg2 R = none := by
        by_cases h1 : c.arg1 < 0 ∨ R ≤ c.arg1
        · exact Or.inl (co _ h1)
        · right
          refine ⟨⟨c.arg1, by unfold check_oob; rw [if_neg (by omega)]⟩, co _ (by omega)⟩
      rcases hcases with h1 | ⟨⟨d, h1⟩, h2⟩
      · rcases k with k | k | k | k <;>
          simp [k, h1, e1, e2, e3, e4, e5, e6, f1, f2, f3, f4, f5, g1, g2, g3, g4, g5, g6]
      · rcases k with k | k | k | k <;>
          simp [k, h1, h2, e1, e2, e3, e4, e5, e6, f1, f2, f3, f4, f5, g1, g2, g3, g4, g5, g6]
    · unfold KnownOpcode at hk
      simp only [not_or] at hk
      obtain ⟨k0, k1, k2, k3, k4, k5, k6, k7⟩ := hk
      simp [k0, k1, k2, k3, k4, k5, k6, k7]

theorem parseLines_none_iff (R : Int) (cs : List Instruction) :
    ∀ i, parseLines R i cs = none ↔ ∃ c ∈ cs, StructurallyBad R c := by
  induction cs with
  | nil => intro i; simp [parseLines]
  | cons c cs ih =>
    intro i
    simp only [parseLines, List.mem_cons, exists_eq_or_imp]
    cases hp : parse_one_line R i c with
    | none =>
      simp only [true_iff]
      exact Or.inl ((parse_none_iff R i c).1 hp)
    | some f =>
      have hnb : ¬ StructurallyBad R c := by
        intro hb
        rw [(parse_none_iff R i c).2 hb] at hp
        exact absurd hp (by simp)
      cases hq : parseLines R (i + 1) cs with
      | none =>
        simp only [true_iff]
        exact Or.inr ((ih (i + 1)).1 hq)
      | some fs =>
        constructor
        · intro h; exact absurd h (by simp)
        · rintro (hbad | ⟨d, hd, hbad⟩)
          · exact absurd hbad hnb
          · have := (ih (i + 1)).2 ⟨d, hd, hbad⟩
            rw [hq] at this
            exact absurd this (by simp)

theorem endIns_not_bad (R : Int) (a1 a2 : Int) : ¬ StructurallyBad R ⟨INS_END, a1, a2⟩ := by
  intro h
  rw [← parse_none_iff R 0] at h
  have := parse_isSome_end R 0 a1 a2
  rw [h] at this
  exact absurd this (by simp)

/-- C13. Structural check at link time: on a machine with `R` registers `Load(P)` fails exactly
when `P` contains a `REP`, `INC` or `DEC` with `arg1` outside `[0, R)`, a `MOV`, `CMP`, `LOAD` or
`SAVE` with `arg1` or `arg2` outside `[0, R)`, or an opcode that is not one of the eight; an
`END` never makes `Load` fail, whatever its operands; and a machine with the same number of
registers (whatever they hold) fails on the same programs. -/
theorem structural_check (m : Machine) (P : List Instruction) :
    (m.Load P = none ↔ ∃ c ∈ P, StructurallyBad m.state.register.length c) ∧
    (∀ R a1 a2, ¬ StructurallyBad R ⟨INS_END, a1, a2⟩) ∧
    (∀ m2 : Machine, m2.state.register.length = m.state.register.length →
      (m2.Load P = none ↔ m.Load P = none)) := by
  have key : ∀ n : Machine,
      (n.Load P = none ↔ ∃ c ∈ P, StructurallyBad n.state.register.length c) := by
    intro n
    rw [Load_eq]
    have hp := parseLines_none_iff n.state.register.length
      (P ++ List.replicate (linkScan P 0 LinkState.start).control_pc.length endIns) 0
    constructor
    · intro h
      split at h
      · rename_i hnone
        obtain ⟨c, hc, hbad⟩ := hp.1 hnone
        rw [List.mem_append] at hc
        rcases hc with hc | hc
        · exact ⟨c, hc, hbad⟩
        · rw [List.mem_replicate] at hc
          rw [hc.2] at hbad
          exact absurd hbad (endIns_not_bad _ _ _)
      · simp at h
    · rintro ⟨c, hc, hbad⟩
      rw [hp.2 ⟨c, by simp [hc], hbad⟩]
  refine ⟨key m, endIns_not_bad, ?_⟩
  intro m2 h2
  rw [key m2, key m, h2]

theorem linkScan_stack_length (cs : List Instruction) :
    ∀ (i : Int) (s : LinkState),
      (linkScan cs i s).control_pc.length = openAfter cs s.control_pc.length := by
  induction cs with
  | nil => intro i s; rfl
  | cons c cs ih =>
    intro i s
    have e1 : INS_CMP ≠ INS_REP := by decide
    have e2 : INS_END ≠ INS_REP := by decide
    have e3 : INS_END ≠ INS_CMP := by decide
    simp only [linkScan, openAfter]
    by_cases h1 : c.ins_type = INS_REP
    · simp only [h1, if_true, true_or]
      rw [ih]; rfl
    · by_cases h2 : c.ins_type = INS_CMP
      · simp only [h2, e1, if_false, if_true, or_true]
        rw [ih]; rfl
      · by_cases h3 : c.ins_type = INS_END
        · simp only [h3, e2, e3, if_false, if_true, or_self]
          cases hs : s.control_pc with
          | nil => simp only []; rw [ih, hs]; rfl
          | cons x rest => simp only []; rw [ih]; rfl
        · simp only [h1, h2, h3, if_false, or_self]
          rw [ih]

/-- During the scan an open block is not yet a key of the block map. -/
theorem scan_open_not_key (cs : List Instruction) :
    ∀ (pre : List Instruction) (s : LinkState), ScanInv pre s →
      (∀ x ∈ s.control_pc, s.control_map x = none) →
      ∀ x ∈ (linkScan cs pre.length s).control_pc,
        (linkScan cs pre.length s).control_map x = none := by
  induction cs with
  | nil => intro pre s _ hf; simpa [linkScan] using hf
  | cons c cs ih =>
    intro pre s h hf
    have hlen : ((pre ++ [c]).length : Int) = (pre.length : Int) + 1 := by simp
    have hnew : s.control_map (pre.length : Int) = none := by
      cases hk : s.control_map (pre.length : Int) with
      | none => rfl
      | some v =>
        have := (h.keys _ _ hk).2.2
        omega
    unfold linkScan
    split_ifs with h1 h2 h3
    · rw [← hlen]
      refine ih _ _ (scanInv_push h c (Or.inl h1) _) ?_
      intro x hx
      simp only [List.mem_cons] at hx
      rcases hx with rfl | hx
      · exact hnew
      · exact hf x hx
    · rw [← hlen]
      refine ih _ _ (scanInv_push h c (Or.inr h2) _) ?_
      intro x hx
      simp only [List.mem_cons] at hx
      rcases hx with rfl | hx
      · exact hnew
      · exact hf x hx
    · have hne : ¬ (c.ins_type = INS_REP ∨ c.ins_type = INS_CMP) := by tauto
      cases hst : s.control_pc with
      | nil => simp only []; rw [← hlen]; exact ih _ _ (scanInv_skip h c hne) hf
      | cons x rest =>
        simp only []
        rw [← hlen]
        refine ih _ _ (scanInv_close h c h3 x rest hst) ?_
        intro y hy
        have hy2 : y ∈ rest := hy
        have hsorted := h.sorted
        rw [hst, List.pairwise_cons] at hsorted
        have hyx : y < x := hsorted.1 y hy2
        have hylt := openerAt_lt (h.opened y (by rw [hst]; simp [hy2]))
        rw [closeBlock_map, if_neg (by omega), if_neg (by intro hh; omega)]
        exact hf y (by rw [hst]; simp [hy2])
    · have hne : ¬ (c.ins_type = INS_REP ∨ c.ins_type = INS_CMP) := by tauto
      rw [← hlen]; exact ih _ _ (scanInv_skip h c hne) hf

/-- An entry that the scan from index `i` gives to a key below `i` is the old entry or points at
or past `i`. -/
theorem scan_entry_old_or_late (cs : List Instruction) :
    ∀ (i : Int) (s : LinkState) (k v : Int), k < i →
      (linkScan cs i s).control_map k = some v → s.control_map k = some v ∨ i ≤ v := by
  induction cs with
  | nil => intro i s k v _ h; exact Or.inl h
  | cons c cs ih =>
    intro i s k v hk h
    unfold linkScan at h
    split_ifs at h with h1 h2 h3
    · rcases ih _ _ k v (by omega) h with h | h
      · exact Or.inl h
      · exact Or.inr (by omega)
    · rcases ih _ _ k v (by omega) h with h | h
      · exact Or.inl h
      · exact Or.inr (by omega)
    · cases hst : s.control_pc with
      | nil =>
        rw [hst] at h
        rcases ih _ _ k v (by omega) h with h | h
        · exact Or.inl h
        · exact Or.inr (by omega)
      | cons x rest =>
        rw [hst] at h
        rcases ih _ _ k v (by omega) h with h | h
        · rw [closeBlock_map] at h
          split_ifs at h with c1 c2
          · simp only [Option.some.injEq] at h
            exact Or.inr (by omega)
          · omega
          · exact Or.inl h
        · exact Or.inr (by omega)
    · rcases ih _ _ k v (by omega) h with h | h
      · exact Or.inl h
      · exact Or.inr (by omega)

/-- C14. Auto-closing of open blocks: after a successful `Load(P)` the machine's `code()` is
`P` followed by exactly `k` instructions `END` with both operands `-1`, where `k` is the number
of `REP`/`CMP` blocks still open at the end of the left-to-right scan of `P`; its first `|P|`
instructions are `P`; and `code() = P` when every opener of `P` is closed by an `END` of `P`
(its block-map entry is an index of `P`). -/
theorem auto_closing (m : Machine) (P : List Instruction) (m1 : Machine)
    (h : m.Load P = some m1) :
    m1.code = P ++ List.replicate (openCount P) ⟨INS_END, -1, -1⟩ ∧
    m1.code.take P.length = P ∧
    (openCount P = 0 → m1.code = P) ∧
    ((∀ s, OpenerAt P s → ∃ e, m1.control_map s = some e ∧ e < P.length) → m1.code = P) := by
  obtain ⟨hcode, hl, _⟩ := Load_spec h
  have hk : (linkScan P 0 LinkState.start).control_pc.length = openCount P := by
    rw [linkScan_stack_length]; rfl
  rw [hk] at hcode
  have hcode2 : m1.code = P ++ List.replicate (openCount P) ⟨INS_END, -1, -1⟩ := hcode
  refine ⟨hcode2, by rw [hcode2]; simp, fun h0 => by rw [hcode2, h0]; simp, ?_⟩
  intro hall
  have hzero : openCount P = 0 := by
    rw [← hk]
    cases hst : (linkScan P 0 LinkState.start).control_pc with
    | nil => rfl
    | cons x rest =>
      exfalso
      have hinv := scanInv_code P
      have hx : x ∈ (linkScan P 0 LinkState.start).control_pc := by rw [hst]; simp
      have hop := hinv.opened x hx
      have hnone : (linkScan P 0 LinkState.start).control_map x = none := by
        have := scan_open_not_key P [] LinkState.start scanInv_start
          (by intro y hy; simp [LinkState.start] at hy)
        simp only [List.length_nil, Nat.cast_zero] at this
        exact this x hx
      obtain ⟨e, he, hlt⟩ := hall x hop
      rw [hl.map_eq, hcode2, linkScan_append, zero_add] at he
      rcases scan_entry_old_or_late _ _ _ x e (openerAt_lt hop) he with h1 | h1
      · rw [hnone] at h1; exact absurd h1 (by simp)
      · omega
  rw [hcode2, hzero]; simp

theorem auto_closing_witness :
    (loadedOrNew 2 1 nestedProgram).code =
        nestedProgram ++ List.replicate (openCount nestedProgram) ⟨INS_END, -1, -1⟩ ∧
    (loadedOrNew 2 1 nestedProgram).code.take nestedProgram.length = nestedProgram ∧
    (openCount nestedProgram = 0 → (loadedOrNew 2 1 nestedProgram).code = nestedProgram) ∧
    ((∀ s, OpenerAt nestedProgram s →
        ∃ e, (loadedOrNew 2 1 nestedProgram).control_map s = some e ∧
          e < nestedProgram.length) →
      (loadedOrNew 2 1 nestedProgram).code = nestedProgram) :=
  auto_closing (Machine.new 2 1) nestedProgram (loadedOrNew 2 1 nestedProgram)
    (loadedOrNew_eq (by decide!))

theorem getCell_of_range {v : List Int} {i : Int} (h0 : 0 ≤ i) (h1 : i < v.length) :
    ∃ x, getCell v i = some x := by
  unfold getCell
  rw [if_neg (by omega)]
  have h2 : i.toNat < v.length := by omega
  exact ⟨v[i.toNat], by simp [h2]⟩

theorem exec_mov {st : MachineState} {idx d s v w : Int} (cm : ControlMap)
    (hd : st.reg d = some w) (hv : st.reg s = some v) :
    ∀ f, parse_one_line st.register.length idx ⟨INS_MOV, d, s⟩ = some f →
      f st cm = some ({ st with register := st.register.set d.toNat v }, cm) := by
  intro f hf
  have h1 := check_oob_of_some hd
  have h2 := check_oob_of_some hv
  have h3 := setCell_of_some hd v
  have e1 : INS_MOV ≠ INS_REP := by decide
  have e2 : INS_MOV ≠ INS_END := by decide
  simp only [parse_one_line, e1, e2, if_false, if_true, h1, h2, Option.some.injEq] at hf
  subst hf
  simp [hv, MachineState.setReg, h3]

theorem exec_load {st : MachineState} {idx d a w x v : Int} (cm : ControlMap)
    (hd : st.reg d = some w) (ha : st.reg a = some x) (hv : st.mem x = some v) :
    ∀ f, parse_one_line st.register.length idx ⟨INS_LOAD, d, a⟩ = some f →
      f st cm = some ({ st with register := st.register.set d.toNat v }, cm) := by
  intro f hf
  have h1 := check_oob_of_some hd
  have h2 := check_oob_of_some ha
  have h3 := setCell_of_some hd v
  have e1 : INS_LOAD ≠ INS_REP := by decide
  have e2 : INS_LOAD ≠ INS_END := by decide
  have e3 : INS_LOAD ≠ INS_MOV := by decide
  have e4 : INS_LOAD ≠ INS_INC := by decide
  have e5 : INS_LOAD ≠ INS_DEC := by decide
  have e6 : INS_LOAD ≠ INS_CMP := by decide
  simp only [parse_one_line, e1, e2, e3, e4, e5, e6, or_self, if_false, if_true, h1, h2,
    Option.some.injEq] at hf
  subst hf
  simp [ha, hv, MachineState.setReg, h3]

theorem exec_save {st : MachineState} {idx s a w x v : Int} (cm : ControlMap)
    (hs : st.reg s = some v) (ha : st.reg a = some x) (hx : st.mem x = some w) :
    ∀ f, parse_one_line st.register.length idx ⟨INS_SAVE, s, a⟩ = some f →
      f st cm = some ({ st with memory := st.memory.set x.toNat v }, cm) := by
  intro f hf
  have h1 := check_oob_of_some hs
  have h2 := check_oob_of_some ha
  have h3 := setCell_of_some hx v
  have e1 : INS_SAVE ≠ INS_REP := by decide
  have e2 : INS_SAVE ≠ INS_END := by decide
  have e3 : INS_SAVE ≠ INS_MOV := by decide
  have e4 : INS_SAVE ≠ INS_INC := by decide
  have e5 : INS_SAVE ≠ INS_DEC := by decide
  have e6 : INS_SAVE ≠ INS_CMP := by decide
  have e7 : INS_SAVE ≠ INS_LOAD := by decide
  simp only [parse_one_line, e1, e2, e3, e4, e5, e6, e7, or_self, if_false, if_true, h1, h2,
    Option.some.injEq] at hf
  subst hf
  simp [ha, hs, MachineState.setMem, h3]

/-- The operands that a bound instruction uses as register indices are in range. -/
theorem parse_operands {R idx : Int} {c : Instruction} {f : Closure}
    (h : parse_one_line R idx c = some f) :
    ((c.ins_type = INS_REP ∨ c.ins_type = INS_INC ∨ c.ins_type = INS_DEC ∨
        c.ins_type = INS_MOV ∨ c.ins_type = INS_CMP ∨ c.ins_type = INS_LOAD ∨
        c.ins_type = INS_SAVE) → 0 ≤ c.arg1 ∧ c.arg1 < R) ∧
    ((c.ins_type = INS_MOV ∨ c.ins_type = INS_CMP ∨ c.ins_type = INS_LOAD ∨
        c.ins_type = INS_SAVE) → 0 ≤ c.arg2 ∧ c.arg2 < R) := by
  have hb : ¬ StructurallyBad R c := by
    intro hb
    rw [(parse_none_iff R idx c).2 hb] at h
    exact absurd h (by simp)
  unfold StructurallyBad at hb
  push_neg at hb
  obtain ⟨h1, h2, _⟩ := hb
  constructor
  · rintro (t | t | t | t | t | t | t)
    · exact h1 (Or.inl t)
    · exact h1 (Or.inr (Or.inl t))
    · exact h1 (Or.inr (Or.inr t))
    · exact ⟨(h2 (Or.inl t)).1, (h2 (Or.inl t)).2.1⟩
    · exact ⟨(h2 (Or.inr (Or.inl t))).1, (h2 (Or.inr (Or.inl t))).2.1⟩
    · exact ⟨(h2 (Or.inr (Or.inr (Or.inl t)))).1, (h2 (Or.inr (Or.inr (Or.inl t)))).2.1⟩
    · exact ⟨(h2 (Or.inr (Or.inr (Or.inr t)))).1, (h2 (Or.inr (Or.inr (Or.inr t)))).2.1⟩
  · intro t
    exact ⟨(h2 t).2.2.1, (h2 t).2.2.2⟩

/-- A pass of the loop whose closure returns normally. -/
theorem loopBody_exec {m : Machine} {f : Closure}
    (hprog : m.program[m.state.pc.toNat]? = some f) {st : MachineState} {cm : ControlMap}
    (hf : f m.state m.control_map = some (st, cm)) :
    StepsTo m { st with pc := st.pc + 1, counter := st.counter + 1 } ∧
    (loopBody m).1.control_map = cm := by
  rw [StepsTo, loopBody_of m f hprog, hf]
  exact ⟨⟨rfl, rfl⟩, rfl⟩

/-- C15. Straight-line instruction semantics and frame: on a linked machine whose loop
condition holds, one pass of the loop of `Run` at a `mov d s`, `inc d`, `dec d`, `load d a` or
`save s a` (the last two with `0 <= reg[a] < M`) completes without fault and leaves the state
before the pass with exactly one cell replaced (`reg[d] := reg[s]`, `reg[d] := reg[d] + 1`,
`reg[d] := reg[d] - 1`, `reg[d] := mem[reg[a]]`, `mem[reg[a]] := reg[s]`, all read before the
pass, the written index being in range), `pc` advanced by 1 and `counter` advanced by 1; the
flag, the halt code and every other cell are as before. -/
theorem straight_line_semantics {m : Machine} (h : Linked m) (hc : loopCond m)
    {c : Instruction} (hcode : m.code[m.state.pc.toNat]? = some c) :
    (c.ins_type = INS_MOV → ∃ w v, m.state.reg c.arg1 = some w ∧ m.state.reg c.arg2 = some v ∧
      StepsTo m { m.state with register := m.state.register.set c.arg1.toNat v,
                               pc := m.state.pc + 1, counter := m.state.counter + 1 }) ∧
    (c.ins_type = INS_INC → ∃ v, m.state.reg c.arg1 = some v ∧
      StepsTo m { m.state with register := m.state.register.set c.arg1.toNat (v + 1),
                               pc := m.state.pc + 1, counter := m.state.counter + 1 }) ∧
    (c.ins_type = INS_DEC → ∃ v, m.state.reg c.arg1 = some v ∧
      StepsTo m { m.state with register := m.state.register.set c.arg1.toNat (v - 1),
                               pc := m.state.pc + 1, counter := m.state.counter + 1 }) ∧
    (c.ins_type = INS_LOAD → ∃ w a, m.state.reg c.arg1 = some w ∧ m.state.reg c.arg2 = some a ∧
      (0 ≤ a → a < m.state.memory.length → ∃ v, m.state.mem a = some v ∧
        StepsTo m { m.state with register := m.state.register.set c.arg1.toNat v,
                                 pc := m.state.pc + 1, counter := m.state.counter + 1 })) ∧
    (c.ins_type = INS_SAVE → ∃ v a, m.state.reg c.arg1 = some v ∧ m.state.reg c.arg2 = some a ∧
      (0 ≤ a → a < m.state.memory.length →
        StepsTo m { m.state with memory := m.state.memory.set a.toNat v,
                                 pc := m.state.pc + 1, counter := m.state.counter + 1 })) := by
  obtain ⟨c1, f, hc1, hprog, hparse⟩ := linked_closure_at h hc.1 hc.2.1
  rw [hcode] at hc1
  have e := Option.some.inj hc1
  subst e
  obtain ⟨o1, o2⟩ := parse_operands hparse
  obtain ⟨t, a1, a2⟩ := c
  simp only at o1 o2
  refine ⟨?_, ?_, ?_, ?_, ?_⟩
  · intro ht
    simp only at ht
    subst ht
    obtain ⟨w, hw⟩ := getCell_of_range (o1 (by simp)).1 (o1 (by simp)).2
    obtain ⟨v, hv⟩ := getCell_of_range (o2 (by simp)).1 (o2 (by simp)).2
    exact ⟨w, v, hw, hv, (loopBody_exec hprog (exec_mov m.control_map hw hv f hparse)).1⟩
  · intro ht
    simp only at ht
    subst ht
    obtain ⟨v, hv⟩ := getCell_of_range (o1 (by simp)).1 (o1 (by simp)).2
    exact ⟨v, hv, (loopBody_exec hprog (exec_inc m.control_map hv f hparse)).1⟩
  · intro ht
    simp only at ht
    subst ht
    obtain ⟨v, hv⟩ := getCell_of_range (o1 (by simp)).1 (o1 (by simp)).2
    exact ⟨v, hv, (loopBody_exec hprog (exec_dec m.control_map hv f hparse)).1⟩
  · intro ht
    simp only at ht
    subst ht
    obtain ⟨w, hw⟩ := getCell_of_range (o1 (by simp)).1 (o1 (by simp)).2
    obtain ⟨a, ha⟩ := getCell_of_range (o2 (by simp)).1 (o2 (by simp)).2
    refine ⟨w, a, hw, ha, fun h0 h1 => ?_⟩
    obtain ⟨v, hv⟩ := getCell_of_range h0 h1
    exact ⟨v, hv, (loopBody_exec hprog (exec_load m.control_map hw ha hv f hparse)).1⟩
  · intro ht
    simp only at ht
    subst ht
    obtain ⟨v, hv⟩ := getCell_of_range (o1 (by simp)).1 (o1 (by simp)).2
    obtain ⟨a, ha⟩ := getCell_of_range (o2 (by simp)).1 (o2 (by simp)).2
    refine ⟨v, a, hv, ha, fun h0 h1 => ?_⟩
    obtain ⟨w, hw⟩ := getCell_of_range h0 h1
    exact (loopBody_exec hprog (exec_save m.control_map hv ha hw f hparse)).1

theorem straight_line_semantics_witness :
    (INS_MOV = INS_MOV → ∃ w v, straightMachine.state.reg 0 = some w ∧
      straightMachine.state.reg 1 = some v ∧
      StepsTo straightMachine { straightMachine.state with
        register := straightMachine.state.register.set (0 : Int).toNat v,
        pc := straightMachine.state.pc + 1, counter := straightMachine.state.counter + 1 }) ∧
    (INS_MOV = INS_INC → ∃ v, straightMachine.state.reg 0 = some v ∧
      StepsTo straightMachine { straightMachine.state with
        register := straightMachine.state.register.set (0 : Int).toNat (v + 1),
        pc := straightMachine.state.pc + 1, counter := straightMachine.state.counter + 1 }) ∧
    (INS_MOV = INS_DEC → ∃ v, straightMachine.state.reg 0 = some v ∧
      StepsTo straightMachine { straightMachine.state with
        register := straightMachine.state.register.set (0 : Int).toNat (v - 1),
        pc := straightMachine.state.pc + 1, counter := straightMachine.state.counter + 1 }) ∧
    (INS_MOV = INS_LOAD → ∃ w a, straightMachine.state.reg 0 = some w ∧
      straightMachine.state.reg 1 = some a ∧
      (0 ≤ a → a < straightMachine.state.memory.length →
        ∃ v, straightMachine.state.mem a = some v ∧
        StepsTo straightMachine { straightMachine.state with
          register := straightMachine.state.register.set (0 : Int).toNat v,
          pc := straightMachine.state.pc + 1,
          counter := straightMachine.state.counter + 1 })) ∧
    (INS_MOV = INS_SAVE → ∃ v a, straightMachine.state.reg 0 = some v ∧
      straightMachine.state.reg 1 = some a ∧
      (0 ≤ a → a < straightMachine.state.memory.length →
        StepsTo straightMachine { straightMachine.state with
          memory := straightMachine.state.memory.set a.toNat v,
          pc := straightMachine.state.pc + 1,
          counter := straightMachine.state.counter + 1 })) :=
  straight_line_semantics (m := straightMachine) (c := ⟨INS_MOV, 0, 1⟩)
    (withInit_linked (Load_spec (loadedOrNew_eq (by decide!))).2.1 [5, 2] [7, 8, 9]).1
    (by decide!) (by decide!)

theorem getCell_none_iff (v : List Int) (i : Int) :
    getCell v i = none ↔ (i < 0 ∨ (v.length : Int) ≤ i) := by
  unfold getCell
  constructor
  · intro h
    by_contra hn
    push_neg at hn
    rw [if_neg (by omega)] at h
    have h2 : i.toNat < v.length := by omega
    simp [h2] at h
  · intro h
    rw [if_pos (by omega)]

theorem setCell_none_iff (v : List Int) (i x : Int) :
    setCell v i x = none ↔ (i < 0 ∨ (v.length : Int) ≤ i) := by
  unfold setCell
  constructor
  · intro h
    by_contra hn
    push_neg at hn
    rw [if_neg (by omega)] at h
    exact absurd h (by simp)
  · intro h
    rw [if_pos (by omega)]

theorem reg_of_range {st : MachineState} {i : Int} (h0 : 0 ≤ i)
    (h1 : i < st.register.length) : ∃ x, st.reg i = some x :=
  getCell_of_range h0 h1

/-- A closure bound for the state's register count throws exactly at a `LOAD` or `SAVE` whose
address register holds a value outside the memory. -/
theorem closure_none_iff {idx : Int} {c : Instruction} {f : Closure} {st : MachineState}
    (h : parse_one_line st.register.length idx c = some f) (cm : ControlMap) :
    f st cm = none ↔
      ∃ a, (c.ins_type = INS_LOAD ∨ c.ins_type = INS_SAVE) ∧ st.reg c.arg2 = some a ∧
        (a < 0 ∨ (st.memory.length : Int) ≤ a) := by
  obtain ⟨o1, o2⟩ := parse_operands h
  obtain ⟨t, a1, a2⟩ := c
  simp only at o1 o2
  have e12 : INS_REP ≠ INS_LOAD := by decide
  have e13 : INS_REP ≠ INS_SAVE := by decide
  have e22 : INS_END ≠ INS_LOAD := by decide
  have e23 : INS_END ≠ INS_SAVE := by decide
  have e32 : INS_MOV ≠ INS_LOAD := by decide
  have e33 : INS_MOV ≠ INS_SAVE := by decide
  have e42 : INS_INC ≠ INS_LOAD := by decide
  have e43 : INS_INC ≠ INS_SAVE := by decide
  have e52 : INS_DEC ≠ INS_LOAD := by decide
  have e53 : INS_DEC ≠ INS_SAVE := by decide
  have e62 : INS_CMP ≠ INS_LOAD := by decide
  have e63 : INS_CMP ≠ INS_SAVE := by decide
  have hknown : KnownOpcode t := by
    by_contra hk
    have hb : StructurallyBad (st.register.length : Int) ⟨t, a1, a2⟩ := Or.inr (Or.inr hk)
    rw [(parse_none_iff _ idx _).2 hb] at h
    exact absurd h (by simp)
  rcases hknown with rfl | rfl | rfl | rfl | rfl | rfl | rfl | rfl
  · -- END
    cases hk : cm idx with
    | none => rw [exec_end_fall hk f h]; simp [e22, e23]
    | some s => rw [exec_end_jump hk f h]; simp [e22, e23]
  · -- REP
    obtain ⟨v, hv⟩ := reg_of_range (o1 (by simp)).1 (o1 (by simp)).2
    by_cases hpos : v > 0
    · rw [exec_rep_enter cm hv hpos f h]; simp [e12, e13]
    · have h1 := check_oob_of_some hv
      simp only [parse_one_line, if_true, h1, Option.some.injEq] at h
      subst h
      have hpos2 : ¬ 0 < v := by omega
      simp [hv, hpos2, e12, e13]
  · obtain ⟨v, hv⟩ := reg_of_range (o1 (by simp)).1 (o1 (by simp)).2
    rw [exec_inc cm hv f h]; simp [e42, e43]
  · obtain ⟨v, hv⟩ := reg_of_range (o1 (by simp)).1 (o1 (by simp)).2
    rw [exec_dec cm hv f h]; simp [e52, e53]
  · obtain ⟨w, hw⟩ := reg_of_range (o1 (by simp)).1 (o1 (by simp)).2
    obtain ⟨v, hv⟩ := reg_of_range (o2 (by simp)).1 (o2 (by simp)).2
    rw [exec_mov cm hw hv f h]; simp [e32, e33]
  · -- CMP
    obtain ⟨v, hv⟩ := reg_of_range (o1 (by simp)).1 (o1 (by simp)).2
    obtain ⟨w, hw⟩ := reg_of_range (o2 (by simp)).1 (o2 (by simp)).2
    by_cases hge : v ≥ w
    · have h1 := check_oob_of_some hv
      have h2 := check_oob_of_some hw
      have e1 : INS_CMP ≠ INS_REP := by decide
      have e2 : INS_CMP ≠ INS_END := by decide
      have e3 : INS_CMP ≠ INS_MOV := by decide
      have e4 : INS_CMP ≠ INS_INC := by decide
      have e5 : INS_CMP ≠ INS_DEC := by decide
      simp only [parse_one_line, e1, e2, e3, e4, e5, or_self, if_false, if_true, h1, h2,
        Option.some.injEq] at h
      subst h
      have hge2 : w ≤ v := hge
      simp [hv, hw, hge2, e62, e63]
    · rw [exec_cmp_enter cm hv hw (by omega) f h]; simp [e62, e63]
  · -- LOAD
    obtain ⟨w, hw⟩ := reg_of_range (o1 (by simp)).1 (o1 (by simp)).2
    obtain ⟨a, ha⟩ := reg_of_range (o2 (by simp)).1 (o2 (by simp)).2
    cases hm : st.mem a with
    | some v =>
      rw [exec_load cm hw ha hm f h]
      have hr := getCell_some hm
      simp only [false_iff, not_exists, not_and, true_or, true_implies, reduceCtorEq]
      intro b hb
      rw [ha] at hb
      have e := Option.some.inj hb
      subst e
      omega
    | none =>
      have hr := (getCell_none_iff _ _).1 hm
      have hf : f st cm = none := by
        have h1 := check_oob_of_some hw
        have h2 := check_oob_of_some ha
        have e1 : INS_LOAD ≠ INS_REP := by decide
        have e2 : INS_LOAD ≠ INS_END := by decide
        have e3 : INS_LOAD ≠ INS_MOV := by decide
        have e4 : INS_LOAD ≠ INS_INC := by decide
        have e5 : INS_LOAD ≠ INS_DEC := by decide
        have e6 : INS_LOAD ≠ INS_CMP := by decide
        simp only [parse_one_line, e1, e2, e3, e4, e5, e6, or_self, if_false, if_true, h1, h2,
          Option.some.injEq] at h
        subst h
        simp [ha, hm]
      rw [hf]
      exact ⟨fun _ => ⟨a, Or.inl rfl, ha, hr⟩, fun _ => rfl⟩
  · -- SAVE
    obtain ⟨v, hv⟩ := reg_of_range (o1 (by simp)).1 (o1 (by simp)).2
    obtain ⟨a, ha⟩ := reg_of_range (o2 (by simp)).1 (o2 (by simp)).2
    cases hm : st.mem a with
    | some w =>
      rw [exec_save cm hv ha hm f h]
      have hr := getCell_some hm
      simp only [false_iff, not_exists, not_and, or_true, true_implies, reduceCtorEq]
      intro b hb
      rw [ha] at hb
      have e := Option.some.inj hb
      subst e
      omega
    | none =>
      have hr := (getCell_none_iff _ _).1 hm
      have hf : f st cm = none := by
        have h1 := check_oob_of_some hv
        have h2 := check_oob_of_some ha
        have h3 := (setCell_none_iff st.memory a v).2 hr
        have e1 : INS_SAVE ≠ INS_REP := by decide
        have e2 : INS_SAVE ≠ INS_END := by decide
        have e3 : INS_SAVE ≠ INS_MOV := by decide
        have e4 : INS_SAVE ≠ INS_INC := by decide
        have e5 : INS_SAVE ≠ INS_DEC := by decide
        have e6 : INS_SAVE ≠ INS_CMP := by decide
        have e7 : INS_SAVE ≠ INS_LOAD := by decide
        simp only [parse_one_line, e1, e2, e3, e4, e5, e6, e7, or_self, if_false, if_true, h1,
          h2, Option.some.injEq] at h
        subst h
        simp [ha, hv, MachineState.setMem, h3]
      rw [hf]
      exact ⟨fun _ => ⟨a, Or.inr rfl, ha, hr⟩, fun _ => rfl⟩

theorem loopBody_break_iff {m : Machine} (h : Linked m) (hc : loopCond m) :
    (loopBody m).2 = true ↔ FaultAt m := by
  obtain ⟨c, f, hcode, hprog, hparse⟩ := linked_closure_at h hc.1 hc.2.1
  have hiff := closure_none_iff hparse m.control_map
  rw [loopBody_of m f hprog]
  cases hf : f m.state m.control_map with
  | none =>
    obtain ⟨a, ht, ha, hr⟩ := hiff.1 hf
    exact ⟨fun _ => ⟨c, a, hcode, ht, ha, hr⟩, fun _ => rfl⟩
  | some r =>
    refine ⟨fun hx => absurd hx (by simp), ?_⟩
    rintro ⟨c2, a, hcode2, ht, ha, hr⟩
    rw [hcode] at hcode2
    have e := Option.some.inj hcode2
    subst e
    have hn := hiff.2 ⟨a, ht, ha, hr⟩
    rw [hf] at hn
    exact absurd hn (by simp)

theorem runLoop_add (k : Nat) :
    ∀ (m : Machine) (j : Nat), Linked m →
      (runLoop k m).state.return_code = RES_RUNNING →
      runLoop (k + j) m = runLoop j (runLoop k m) := by
  induction k with
  | zero => intro m j _ _; simp [runLoop_zero]
  | succ k ih =>
    intro m j hl hrc
    rw [Nat.add_right_comm, runLoop_succ (k + j), runLoop_succ k]
    rw [runLoop_succ] at hrc
    by_cases hc : loopCond m
    · obtain ⟨l1, _, _, _, _, _, _, _, _, hcase⟩ := loopBody_linked hl hc
      simp only [if_pos hc] at hrc ⊢
      rcases hcase with ⟨hb, hst⟩ | ⟨hb, _⟩
      · rw [if_pos hb, hst] at hrc
        have hrc2 : RES_MEM_OOB = RES_RUNNING := hrc
        exact absurd hrc2 (by decide)
      · rw [hb] at hrc ⊢
        simp only [Bool.false_eq_true, if_false] at hrc ⊢
        exact ih _ j l1 hrc
    · simp only [if_neg hc]
      rw [runLoop_of_not_cond hc]

theorem runLoop_count (k : Nat) :
    ∀ {m : Machine}, Linked m → (runLoop k m).state.return_code = RES_RUNNING →
      loopCond (runLoop k m) → (runLoop k m).state.counter = m.state.counter + k := by
  induction k with
  | zero => intro m _ _ _; simp [runLoop_zero]
  | succ k ih =>
    intro m hl hrc hcond
    rw [runLoop_succ] at hrc hcond ⊢
    by_cases hc : loopCond m
    · obtain ⟨l1, _, _, _, _, _, _, _, _, hcase⟩ := loopBody_linked hl hc
      rw [if_pos hc] at hrc hcond ⊢
      rcases hcase with ⟨hb, hst⟩ | ⟨hb, hcnt, _⟩
      · rw [if_pos hb, hst] at hrc
        have hrc2 : RES_MEM_OOB = RES_RUNNING := hrc
        exact absurd hrc2 (by decide)
      · rw [hb] at hrc hcond ⊢
        simp only [Bool.false_eq_true, if_false] at hrc hcond ⊢
        rw [ih l1 hrc hcond, hcnt]
        push_cast
        ring
    · rw [if_neg hc] at hcond
      exact absurd hcond hc

/-- A loop that ends with `RES_MEM_OOB` broke out of the pass that follows some `k` completed
passes, and that pass changed nothing but the halt code. -/
theorem runLoop_fault (fuel : Nat) :
    ∀ {m : Machine}, Linked m → m.state.return_code = RES_RUNNING →
      (runLoop fuel m).state.return_code = RES_MEM_OOB →
      ∃ k, k < fuel ∧ (runLoop k m).state.return_code = RES_RUNNING ∧
        loopCond (runLoop k m) ∧ Linked (runLoop k m) ∧ (loopBody (runLoop k m)).2 = true ∧
        (runLoop fuel m).state =
          { (runLoop k m).state with return_code := RES_MEM_OOB } := by
  induction fuel with
  | zero =>
    intro m _ hrc hf
    rw [runLoop_zero, hrc] at hf
    exact absurd hf (by decide)
  | succ fuel ih =>
    intro m hl hrc hf
    rw [runLoop_succ] at hf ⊢
    by_cases hc : loopCond m
    · obtain ⟨l1, _, _, _, _, _, _, _, _, hcase⟩ := loopBody_linked hl hc
      rw [if_pos hc] at hf ⊢
      rcases hcase with ⟨hb, hst⟩ | ⟨hb, _, hrc1, _⟩
      · rw [if_pos hb]
        exact ⟨0, by omega, by rw [runLoop_zero]; exact hrc, by rw [runLoop_zero]; exact hc,
          by rw [runLoop_zero]; exact hl, by rw [runLoop_zero]; exact hb,
          by rw [runLoop_zero]; exact hst⟩
      · rw [hb] at hf ⊢
        simp only [Bool.false_eq_true, if_false] at hf ⊢
        obtain ⟨k, hk, h1, h2, h3, h4, h5⟩ := ih l1 (by rw [hrc1]; exact hrc) hf
        have hstep : runLoop (k + 1) m = runLoop k (loopBody m).1 := by
          rw [runLoop_succ, if_pos hc, hb]; rfl
        refine ⟨k + 1, by omega, ?_, ?_, ?_, ?_, ?_⟩
        · rw [hstep]; exact h1
        · rw [hstep]; exact h2
        · rw [hstep]; exact h3
        · rw [hstep]; exact h4
        · rw [hstep]; exact h5
    · rw [if_neg hc, hrc] at hf
      exact absurd hf (by decide)

/-- A pass that breaks after `k` completed passes fixes the result of every longer loop. -/
theorem runLoop_break {m : Machine} (hl : Linked m) {k : Nat}
    (hrc : (runLoop k m).state.return_code = RES_RUNNING) (hc : loopCond (runLoop k m))
    (hlk : Linked (runLoop k m)) (hb : (loopBody (runLoop k m)).2 = true) (fuel : Nat)
    (hk : k < fuel) :
    (runLoop fuel m).state = { (runLoop k m).state with return_code := RES_MEM_OOB } := by
  obtain ⟨j, rfl⟩ : ∃ j, fuel = k + (j + 1) := ⟨fuel - k - 1, by omega⟩
  rw [runLoop_add k m (j + 1) hl hrc, runLoop_succ, if_pos hc, if_pos hb]
  obtain ⟨_, _, _, _, _, _, _, _, _, hcase⟩ := loopBody_linked hlk hc
  rcases hcase with ⟨_, hst⟩ | ⟨hb2, _⟩
  · exact hst
  · rw [hb] at hb2; exact absurd hb2 (by simp)

/-- The facts about a run of a loaded and initialised machine that the fault claims share. -/
theorem run_fault_core {m m1 : Machine} {P : List Instruction} (h : m.Load P = some m1)
    (reg : Register) (mem : Memory) :
    Linked (m1.withInit reg mem).runStart ∧
    (m1.withInit reg mem).runStart.state.return_code = RES_RUNNING ∧
    (m1.withInit reg mem).runStart.state.counter = 0 ∧
    (m1.withInit reg mem).runStart.state.pc = 0 ∧
    (m1.withInit reg mem).runStart.state.register.length = m.state.register.length ∧
    (m1.withInit reg mem).runStart.state.memory.length = m.state.memory.length ∧
    (m1.withInit reg mem).runStart.max_code_run = m.max_code_run ∧
    ((m1.withInit reg mem).Run.state.return_code = RES_MEM_OOB ↔
      (runLoop m.max_code_run.toNat (m1.withInit reg mem).runStart).state.return_code
        = RES_MEM_OOB) ∧
    ((runLoop m.max_code_run.toNat (m1.withInit reg mem).runStart).state.return_code
        = RES_MEM_OOB →
      (m1.withInit reg mem).Run.state =
        (runLoop m.max_code_run.toNat (m1.withInit reg mem).runStart).state) := by
  obtain ⟨_, hl1, hst, hmax, _⟩ := Load_spec h
  obtain ⟨hl, hs, _, _, _, hx⟩ := withInit_linked hl1 reg mem
  obtain ⟨i1, i2, i3, _, i5, i6⟩ := Init_fields m1.state reg mem
  obtain ⟨hrun, _⟩ := Run_withInit hl1 reg mem
  rw [hmax] at hrun hx
  have e1 : RES_MAX_CODE_RUN_REACHED ≠ RES_MEM_OOB := by decide
  have e2 : RES_END ≠ RES_MEM_OOB := by decide
  have e3 : RES_MEM_OOB ≠ RES_RUNNING := by decide
  refine ⟨hl, by rw [hs, i3], by rw [hs, i2], by rw [hs, i1], by rw [hs, i5, hst],
    by rw [hs, i6, hst], hx, ?_, ?_⟩
  · rw [hrun]
    split_ifs with c1 c2
    · simp only [c1]
      exact ⟨fun hh => absurd hh e1, fun hh => absurd hh.symm e3⟩
    · simp only [c1]
      exact ⟨fun hh => absurd hh e2, fun hh => absurd hh.symm e3⟩
    · rfl
  · intro hf
    rw [hrun, if_neg (by rw [hf]; exact e3)]

/-- A run that returns `RES_MEM_OOB` reached, still running inside its loop, a `LOAD`/`SAVE`
whose address register is outside the memory. -/
theorem run_fault_point (m m1 : Machine) (P : List Instruction) (reg : Register)
    (mem : Memory) (h : m.Load P = some m1)
    (hf : (m1.withInit reg mem).Run.state.return_code = RES_MEM_OOB) :
    ∃ k : Nat,
      ((m1.withInit reg mem).afterSteps k).state.return_code = RES_RUNNING ∧
      loopCond ((m1.withInit reg mem).afterSteps k) ∧
      FaultAt ((m1.withInit reg mem).afterSteps k) := by
  obtain ⟨hl, hrc, _, _, _, _, _, hiff, _⟩ := run_fault_core h reg mem
  obtain ⟨k, _, h1, h2, h3, h4, _⟩ := runLoop_fault _ hl hrc (hiff.1 hf)
  exact ⟨k, h1, h2, (loopBody_break_iff h3 h2).1 h4⟩

/-- C11. Fault containment: when `Run` on a loaded and initialised machine returns
`RES_MEM_OOB`, there is a number `k` of completed passes such that the machine after them is
still running inside its loop with `counter = k`, stands at a `LOAD`/`SAVE` whose address
register is outside the memory, and the final state of `Run` is that state (registers, memory,
pc, flag, counter) with only the halt code replaced by `RES_MEM_OOB`. -/
theorem fault_containment (m m1 : Machine) (P : List Instruction) (reg : Register)
    (mem : Memory) (h : m.Load P = some m1)
    (hf : (m1.withInit reg mem).Run.state.return_code = RES_MEM_OOB) :
    ∃ k : Nat,
      ((m1.withInit reg mem).afterSteps k).state.return_code = RES_RUNNING ∧
      loopCond ((m1.withInit reg mem).afterSteps k) ∧
      ((m1.withInit reg mem).afterSteps k).state.counter = k ∧
      FaultAt ((m1.withInit reg mem).afterSteps k) ∧
      (m1.withInit reg mem).Run.state =
        { ((m1.withInit reg mem).afterSteps k).state with return_code := RES_MEM_OOB } := by
  obtain ⟨hl, hrc, hcnt, _, _, _, _, hiff, hst⟩ := run_fault_core h reg mem
  have hloop := hiff.1 hf
  obtain ⟨k, _, h1, h2, h3, h4, h5⟩ := runLoop_fault _ hl hrc hloop
  have hk := runLoop_count k hl h1 h2
  rw [hcnt, zero_add] at hk
  exact ⟨k, h1, h2, hk, (loopBody_break_iff h3 h2).1 h4, by rw [hst hloop, h5]; rfl⟩

theorem fault_containment_witness :
    ∃ k : Nat,
      (faultMachine.afterSteps k).state.return_code = RES_RUNNING ∧
      loopCond (faultMachine.afterSteps k) ∧
      (faultMachine.afterSteps k).state.counter = k ∧
      FaultAt (faultMachine.afterSteps k) ∧
      faultMachine.Run.state =
        { (faultMachine.afterSteps k).state with return_code := RES_MEM_OOB } :=
  fault_containment (Machine.new 2 3) (loadedOrNew 2 3 straightProgram) straightProgram
    [5, 4] [7, 8, 9] (loadedOrNew_eq (by decide!)) (by decide!)

/-- C12. Memory faults are the only runtime fault, exactly characterised: for a program that
`Load` accepts and any `Init(reg, mem)`, `Run` returns `RES_MEM_OOB` if and only if some number
of completed passes leaves the machine running inside its loop (budget not exhausted, pc inside
the program) at a `LOAD x a` or `SAVE x a` with `reg[a] < 0` or `reg[a] >= M`; at every state
reached inside the loop the register count and memory capacity are those of the machine, every
operand that the instruction at pc uses as a register index reads a register, and the pass
throws exactly in the memory-fault case; `Run` always returns, with one of the three halt
codes. -/
theorem memory_fault_characterisation (m m1 : Machine) (P : List Instruction) (reg : Register)
    (mem : Memory) (h : m.Load P = some m1) :
    ((m1.withInit reg mem).Run.state.return_code = RES_MEM_OOB ↔
      ∃ k : Nat, ((m1.withInit reg mem).afterSteps k).state.return_code = RES_RUNNING ∧
        loopCond ((m1.withInit reg mem).afterSteps k) ∧
        FaultAt ((m1.withInit reg mem).afterSteps k)) ∧
    (∀ (k : Nat) (c : Instruction),
      ((m1.withInit reg mem).afterSteps k).state.return_code = RES_RUNNING →
      loopCond ((m1.withInit reg mem).afterSteps k) →
      ((m1.withInit reg mem).afterSteps k).code[
        ((m1.withInit reg mem).afterSteps k).state.pc.toNat]? = some c →
      ((m1.withInit reg mem).afterSteps k).state.register.length = m.state.register.length ∧
      ((m1.withInit reg mem).afterSteps k).state.memory.length = m.state.memory.length ∧
      (c.ins_type ≠ INS_END →
        ∃ v, ((m1.withInit reg mem).afterSteps k).state.reg c.arg1 = some v) ∧
      ((c.ins_type = INS_MOV ∨ c.ins_type = INS_CMP ∨ c.ins_type = INS_LOAD ∨
          c.ins_type = INS_SAVE) →
        ∃ v, ((m1.withInit reg mem).afterSteps k).state.reg c.arg2 = some v) ∧
      ((loopBody ((m1.withInit reg mem).afterSteps k)).2 = true ↔
        FaultAt ((m1.withInit reg mem).afterSteps k))) ∧
    ((m1.withInit reg mem).Run.state.return_code = RES_END ∨
      (m1.withInit reg mem).Run.state.return_code = RES_MEM_OOB ∨
      (m1.withInit reg mem).Run.state.return_code = RES_MAX_CODE_RUN_REACHED) := by
  obtain ⟨hl, hrc, hcnt, hpc, hR, hM, hmax, hiff, hst⟩ := run_fault_core h reg mem
  have hlk : ∀ k, Linked ((m1.withInit reg mem).afterSteps k) ∧
      ((m1.withInit reg mem).afterSteps k).state.register.length = m.state.register.length ∧
      ((m1.withInit reg mem).afterSteps k).state.memory.length = m.state.memory.length ∧
      ((m1.withInit reg mem).afterSteps k).max_code_run = m.max_code_run := by
    intro k
    obtain ⟨a, _, _, _, b, _, c, d, _⟩ := runLoop_linked k hl (by rw [hpc]) (by rw [hpc]; omega)
    exact ⟨a, by rw [← hR]; exact c, by rw [← hM]; exact d, by rw [← hmax]; exact b⟩
  refine ⟨⟨?_, ?_⟩, ?_, ?_⟩
  · intro hf
    exact run_fault_point m m1 P reg mem h hf
  · rintro ⟨k, h1, h2, h3⟩
    obtain ⟨lk, _, _, hx⟩ := hlk k
    have hb := (loopBody_break_iff lk h2).2 h3
    have hcount := runLoop_count k hl h1 h2
    rw [hcnt] at hcount
    have hlt : k < m.max_code_run.toNat := by
      have := h2.2.2
      rw [hx] at this
      have e : ((m1.withInit reg mem).afterSteps k).state.counter = (k : Int) := by
        simpa [Machine.afterSteps] using hcount
      rw [e] at this
      omega
    have hfin := runLoop_break hl h1 h2 lk hb m.max_code_run.toNat hlt
    rw [hiff, hfin]
  · intro k c h1 h2 hcode
    obtain ⟨lk, hRk, hMk, _⟩ := hlk k
    obtain ⟨c1, f, hc1, hprog, hparse⟩ := linked_closure_at lk h2.1 h2.2.1
    rw [hcode] at hc1
    have e := Option.some.inj hc1
    subst e
    obtain ⟨o1, o2⟩ := parse_operands hparse
    have hknown : KnownOpcode c.ins_type := by
      by_contra hk
      have hbad : StructurallyBad
          (((m1.withInit reg mem).afterSteps k).state.register.length : Int) c :=
        Or.inr (Or.inr hk)
      rw [(parse_none_iff _ _ _).2 hbad] at hparse
      exact absurd hparse (by simp)
    refine ⟨hRk, hMk, ?_, ?_, loopBody_break_iff lk h2⟩
    · intro hne
      have ht : c.ins_type = INS_REP ∨ c.ins_type = INS_INC ∨ c.ins_type = INS_DEC ∨
          c.ins_type = INS_MOV ∨ c.ins_type = INS_CMP ∨ c.ins_type = INS_LOAD ∨
          c.ins_type = INS_SAVE := by
        rcases hknown with t | t
        · exact absurd t hne
        · exact t
      exact reg_of_range (o1 ht).1 (o1 ht).2
    · intro ht
      exact reg_of_range (o2 ht).1 (o2 ht).2
  · obtain ⟨_, hl1, _⟩ := Load_spec h
    obtain ⟨i1, _, i3, _⟩ := Init_fields m1.state reg mem
    exact (Run_linked (m := m1.withInit reg mem)
      (linked_of_fields hl1 rfl rfl rfl (by
        show (m1.state.Init reg mem).register.length = _
        exact (Init_fields m1.state reg mem).2.2.2.2.1)) i3 i1).2.2.2.2.2.2.2.2

theorem memory_fault_characterisation_witness :
    (faultMachine.Run.state.return_code = RES_MEM_OOB ↔
      ∃ k : Nat, (faultMachine.afterSteps k).state.return_code = RES_RUNNING ∧
        loopCond (faultMachine.afterSteps k) ∧ FaultAt (faultMachine.afterSteps k)) ∧
    (∀ (k : Nat) (c : Instruction),
      (faultMachine.afterSteps k).state.return_code = RES_RUNNING →
      loopCond (faultMachine.afterSteps k) →
      (faultMachine.afterSteps k).code[(faultMachine.afterSteps k).state.pc.toNat]? = some c →
      (faultMachine.afterSteps k).state.register.length =
        (Machine.new 2 3).state.register.length ∧
      (faultMachine.afterSteps k).state.memory.length = (Machine.new 2 3).state.memory.length ∧
      (c.ins_type ≠ INS_END → ∃ v, (faultMachine.afterSteps k).state.reg c.arg1 = some v) ∧
      ((c.ins_type = INS_MOV ∨ c.ins_type = INS_CMP ∨ c.ins_type = INS_LOAD ∨
          c.ins_type = INS_SAVE) →
        ∃ v, (faultMachine.afterSteps k).state.reg c.arg2 = some v) ∧
      ((loopBody (faultMachine.afterSteps k)).2 = true ↔
        FaultAt (faultMachine.afterSteps k))) ∧
    (faultMachine.Run.state.return_code = RES_END ∨
      faultMachine.Run.state.return_code = RES_MEM_OOB ∨
      faultMachine.Run.state.return_code = RES_MAX_CODE_RUN_REACHED) :=
  memory_fault_characterisation (Machine.new 2 3) (loadedOrNew 2 3 straightProgram)
    straightProgram [5, 4] [7, 8, 9] (loadedOrNew_eq (by decide!))

theorem runStart_eq_of_core {a b : Machine} (hs : a.state = b.state)
    (hd1 : a.dump_all_state = true) (hd2 : b.dump_all_state = true)
    (hx : a.max_code_run = b.max_code_run) (hp : a.program = b.program)
    (hc : a.code = b.code) (hm : a.control_map = b.control_map) :
    a.runStart = b.runStart := by
  obtain ⟨s1, d1, x1, p1, c1, m1, t1, q1⟩ := a
  obtain ⟨s2, d2, x2, p2, c2, m2, t2, q2⟩ := b
  simp only at hs hd1 hd2 hx hp hc hm
  subst hs hd1 hd2 hx hp hc hm
  simp [Machine.runStart]

theorem Run_eq_of_runStart {a b : Machine} (h : a.runStart = b.runStart) : a.Run = b.Run := by
  unfold Machine.Run
  rw [h]

/-- C16. Determinism and history independence of a run: two machines with the same register
count, memory capacity and step budget, both with trace recording enabled, and otherwise in
arbitrary states (any stale program, block map, traces, halt code), either both reject
`Load(P)` or both accept it, and then `Init(reg, mem)` followed by `Run` leaves the same state
(memory, registers, pc, flag, step counter, halt code), the same recorded trace and the same
pc-to-trace-position map on both. -/
theorem run_determinism (a b : Machine) (P : List Instruction) (reg : Register) (mem : Memory)
    (hR : a.state.register.length = b.state.register.length)
    (hM : a.state.memory.length = b.state.memory.length)
    (hX : a.max_code_run = b.max_code_run)
    (ha : a.dump_all_state = true) (hb : b.dump_all_state = true) :
    (a.Load P = none ↔ b.Load P = none) ∧
    (∀ a1 b1, a.Load P = some a1 → b.Load P = some b1 →
      (a1.withInit reg mem).Run.state = (b1.withInit reg mem).Run.state ∧
      (a1.withInit reg mem).Run.dumped_states = (b1.withInit reg mem).Run.dumped_states ∧
      (a1.withInit reg mem).Run.pc2states = (b1.withInit reg mem).Run.pc2states) := by
  constructor
  · constructor
    · intro h
      cases hb1 : b.Load P with
      | none => rfl
      | some b1 =>
        obtain ⟨m3, h3, _⟩ := Load_congr hb1 hR
        rw [h] at h3
        exact absurd h3 (by simp)
    · intro h
      cases ha1 : a.Load P with
      | none => rfl
      | some a1 =>
        obtain ⟨m3, h3, _⟩ := Load_congr ha1 hR.symm
        rw [h] at h3
        exact absurd h3 (by simp)
  · intro a1 b1 h1 h2
    obtain ⟨m3, h3, hp, hc, hm⟩ := Load_congr h1 hR.symm
    rw [h2] at h3
    have e := Option.some.inj h3
    subst e
    obtain ⟨_, _, as, ax, ad, _⟩ := Load_spec h1
    obtain ⟨_, _, bs, bx, bd, _⟩ := Load_spec h2
    have hrun : (a1.withInit reg mem).Run = (b1.withInit reg mem).Run := by
      apply Run_eq_of_runStart
      apply runStart_eq_of_core
      · show a1.state.Init reg mem = b1.state.Init reg mem
        rw [as, bs]
        exact Init_congr hR hM reg mem
      · show a1.dump_all_state = true
        rw [ad]; exact ha
      · show b1.dump_all_state = true
        rw [bd]; exact hb
      · show a1.max_code_run = b1.max_code_run
        rw [ax, bx]; exact hX
      · exact hp.symm
      · exact hc.symm
      · exact hm.symm
    rw [hrun]
    exact ⟨rfl, rfl, rfl⟩

theorem run_determinism_witness :
    (usedMachine.Load repIncEnd = none ↔ tracingMachine.Load repIncEnd = none) ∧
    (∀ a1 b1, usedMachine.Load repIncEnd = some a1 → tracingMachine.Load repIncEnd = some b1 →
      (a1.withInit [2, 0] [1]).Run.state = (b1.withInit [2, 0] [1]).Run.state ∧
      (a1.withInit [2, 0] [1]).Run.dumped_states = (b1.withInit [2, 0] [1]).Run.dumped_states ∧
      (a1.withInit [2, 0] [1]).Run.pc2states = (b1.withInit [2, 0] [1]).Run.pc2states) :=
  run_determinism usedMachine tracingMachine repIncEnd [2, 0] [1] (by decide!) (by decide!)
    (by decide!) (by decide!) (by decide!)

theorem positionsFrom_append (p : Int) (T : List MachineState) (s : MachineState) :
    ∀ k, positionsFrom p k (T ++ [s]) =
      positionsFrom p k T ++ (if s.pc = p then [((k + T.length : Nat) : Int)] else []) := by
  induction T with
  | nil => intro k; simp [positionsFrom]
  | cons t T ih =>
    intro k
    have e : k + 1 + T.length = k + (T.length + 1) := by omega
    show positionsFrom p k (t :: (T ++ [s])) = _
    simp only [positionsFrom, ih (k + 1), List.length_cons, e]
    split_ifs <;> simp

theorem mem_positionsFrom (p : Int) (T : List MachineState) :
    ∀ (k : Nat) (x : Int), x ∈ positionsFrom p k T ↔
      ∃ i : Nat, x = ((k + i : Nat) : Int) ∧ ∃ s, T[i]? = some s ∧ s.pc = p := by
  induction T with
  | nil => intro k x; simp [positionsFrom]
  | cons t T ih =>
    intro k x
    have step : (∃ i : Nat, x = ((k + 1 + i : Nat) : Int) ∧ ∃ s, T[i]? = some s ∧ s.pc = p) ↔
        ∃ i : Nat, 0 < i ∧ x = ((k + i : Nat) : Int) ∧
          ∃ s, (t :: T)[i]? = some s ∧ s.pc = p := by
      constructor
      · rintro ⟨i, hx, s, hs, hp⟩
        exact ⟨i + 1, by omega, by rw [hx]; congr 1; omega, s, by simpa using hs, hp⟩
      · rintro ⟨i, hi, hx, s, hs, hp⟩
        obtain ⟨j, rfl⟩ : ∃ j, i = j + 1 := ⟨i - 1, by omega⟩
        exact ⟨j, by rw [hx]; congr 1; omega, s, by simpa using hs, hp⟩
    unfold positionsFrom
    by_cases hpc : t.pc = p
    · rw [if_pos hpc, List.mem_cons, ih (k + 1) x, step]
      constructor
      · rintro (hx | ⟨i, _, hx, hs⟩)
        · exact ⟨0, by rw [hx]; rfl, t, by simp, hpc⟩
        · exact ⟨i, hx, hs⟩
      · rintro ⟨i, hx, s, hs, hp⟩
        rcases Nat.eq_zero_or_pos i with h0 | h0
        · subst h0; left; rw [hx]; rfl
        · right; exact ⟨i, h0, hx, s, hs, hp⟩
    · rw [if_neg hpc, ih (k + 1) x, step]
      constructor
      · rintro ⟨i, _, hx, hs⟩
        exact ⟨i, hx, hs⟩
      · rintro ⟨i, hx, s, hs, hp⟩
        rcases Nat.eq_zero_or_pos i with h0 | h0
        · subst h0
          simp only [List.getElem?_cons_zero, Option.some.injEq] at hs
          subst hs
          exact absurd hp hpc
        · exact ⟨i, h0, hx, s, hs, hp⟩

theorem positionsFrom_sorted (p : Int) (T : List MachineState) :
    ∀ k, (positionsFrom p k T).Pairwise (fun a b => a < b) := by
  induction T with
  | nil => intro k; simp [positionsFrom]
  | cons t T ih =>
    intro k
    unfold positionsFrom
    split_ifs with hpc
    · rw [List.pairwise_cons]
      refine ⟨?_, ih (k + 1)⟩
      intro x hx
      obtain ⟨i, hi, _⟩ := (mem_positionsFrom p T (k + 1) x).1 hx
      rw [hi]
      push_cast
      omega
    · exact ih (k + 1)

theorem traceIndexed_congr {m n : Machine} (h : TraceIndexed m)
    (h1 : n.dumped_states = m.dumped_states) (h2 : n.pc2states = m.pc2states) :
    TraceIndexed n := by
  intro p
  rw [h1, h2]
  exact h p

theorem traceIndexed_dump {m : Machine} (h : TraceIndexed m) : TraceIndexed m.dump := by
  intro p
  have hp := h p
  simp only [Machine.dump, PcMap.pushAt, positionsFrom_append, Nat.zero_add]
  by_cases hpc : p = m.state.pc
  · subst hpc
    rw [if_pos rfl, if_pos rfl, hp]
    by_cases he : positionsFrom m.state.pc 0 m.dumped_states = []
    · simp [he]
    · simp [he]
  · have hpc2 : ¬ m.state.pc = p := fun hh => hpc hh.symm
    rw [if_neg hpc, if_neg hpc2, hp]
    simp

theorem traceIndexed_loopBody {m : Machine} (h : TraceIndexed m) :
    TraceIndexed (loopBody m).1 := by
  have hd : TraceIndexed (if m.dump_all_state then m.dump else m) := by
    split_ifs
    · exact traceIndexed_dump h
    · exact h
  unfold loopBody
  generalize (if m.dump_all_state then m.dump else m) = m1 at hd
  simp only []
  cases hp : m1.program[m1.state.pc.toNat]? with
  | none => exact hd
  | some f =>
    simp only []
    cases hf : f m1.state m1.control_map with
    | none => exact traceIndexed_congr hd rfl rfl
    | some r => exact traceIndexed_congr hd rfl rfl

theorem traceIndexed_runLoop (fuel : Nat) :
    ∀ {m : Machine}, TraceIndexed m → TraceIndexed (runLoop fuel m) := by
  induction fuel with
  | zero => intro m h; exact h
  | succ fuel ih =>
    intro m h
    rw [runLoop_succ]
    split_ifs
    · exact traceIndexed_loopBody h
    · exact ih (traceIndexed_loopBody h)
    · exact h

theorem traceIndexed_runFinish {m : Machine} (h : TraceIndexed m) :
    TraceIndexed (runFinish m) := by
  unfold runFinish
  by_cases h1 : m.state.return_code = RES_RUNNING
  · rw [if_pos h1]
    by_cases h2 : m.state.counter = m.max_code_run
    · rw [if_pos h2]
      exact traceIndexed_congr h rfl rfl
    · rw [if_neg h2]
      simp only []
      split_ifs
      · exact traceIndexed_dump (m := { m with state := { m.state with return_code := RES_END } })
          (traceIndexed_congr h rfl rfl)
      · exact traceIndexed_congr h rfl rfl
  · rw [if_neg h1]
    exact h

theorem traceIndexed_Run {m : Machine} (hd : m.dump_all_state = true) :
    TraceIndexed m.Run := by
  apply traceIndexed_runFinish
  apply traceIndexed_runLoop
  intro p
  simp [Machine.runStart, hd, positionsFrom]

/-- The index agrees with the trace it was built with: after a run with trace recording
enabled, every list `pc2states[p]` is non-empty and strictly increasing and holds exactly the
trace positions whose snapshot has `pc = p`; a pc value has no list exactly when no snapshot has
that pc; and every trace position occurs in the list of its snapshot's pc and in no other
list. -/
theorem pc_index_general (m : Machine) (hd : m.dump_all_state = true) :
    (∀ p l, m.Run.pc2states p = some l →
      l ≠ [] ∧ l.Pairwise (fun a b => a < b) ∧
      ∀ x, x ∈ l ↔
        ∃ i : Nat, x = (i : Int) ∧ ∃ s, m.Run.dumped_states[i]? = some s ∧ s.pc = p) ∧
    (∀ p, m.Run.pc2states p = none ↔ ∀ s ∈ m.Run.dumped_states, s.pc ≠ p) ∧
    (∀ (i : Nat) (s : MachineState), m.Run.dumped_states[i]? = some s →
      (∃ l, m.Run.pc2states s.pc = some l ∧ (i : Int) ∈ l) ∧
      ∀ q l, m.Run.pc2states q = some l → (i : Int) ∈ l → q = s.pc) := by
  have hinv := traceIndexed_Run hd
  have hmem : ∀ p x, x ∈ positionsFrom p 0 m.Run.dumped_states ↔
      ∃ i : Nat, x = (i : Int) ∧ ∃ s, m.Run.dumped_states[i]? = some s ∧ s.pc = p := by
    intro p x
    rw [mem_positionsFrom]
    simp only [Nat.zero_add]
  have hsome : ∀ p l, m.Run.pc2states p = some l →
      l = positionsFrom p 0 m.Run.dumped_states ∧ l ≠ [] := by
    intro p l hl
    rw [hinv p] at hl
    split_ifs at hl with he
    have e := Option.some.inj hl
    subst e
    exact ⟨rfl, he⟩
  refine ⟨?_, ?_, ?_⟩
  · intro p l hl
    obtain ⟨e, hne⟩ := hsome p l hl
    subst e
    exact ⟨hne, positionsFrom_sorted p _ 0, hmem p⟩
  · intro p
    rw [hinv p]
    constructor
    · intro h s hs hp
      split_ifs at h with he
      obtain ⟨i, hi⟩ := List.mem_iff_getElem?.1 hs
      have : ((i : Nat) : Int) ∈ positionsFrom p 0 m.Run.dumped_states :=
        (hmem p i).2 ⟨i, rfl, s, hi, hp⟩
      rw [he] at this
      exact absurd this (by simp)
    · intro h
      rw [if_pos]
      apply List.eq_nil_iff_forall_not_mem.2
      intro x hx
      obtain ⟨i, _, s, hs, hp⟩ := (hmem p x).1 hx
      exact h s (List.getElem?_mem hs) hp
  · intro i s hs
    have hin : (i : Int) ∈ positionsFrom s.pc 0 m.Run.dumped_states :=
      (hmem s.pc i).2 ⟨i, rfl, s, hs, rfl⟩
    constructor
    · refine ⟨positionsFrom s.pc 0 m.Run.dumped_states, ?_, hin⟩
      rw [hinv s.pc, if_neg]
      intro he
      rw [he] at hin
      exact absurd hin (by simp)
    · intro q l hl hil
      obtain ⟨e, _⟩ := hsome q l hl
      subst e
      obtain ⟨j, hj, t, ht, hq⟩ := (hmem q i).1 hil
      have hij : i = j := by exact_mod_cast hj
      subst hij
      rw [hs] at ht
      have e2 := Option.some.inj ht
      subst e2
      exact hq.symm

theorem loopBody_trace {m : Machine} (hd : m.dump_all_state = true) :
    (loopBody m).1.dumped_states = m.dumped_states ++ [m.state] ∧
    (loopBody m).1.dump_all_state = true := by
  unfold loopBody
  simp only [hd, if_true]
  cases hp : m.dump.program[m.dump.state.pc.toNat]? with
  | none => exact ⟨rfl, hd⟩
  | some f =>
    simp only []
    cases hf : f m.dump.state m.dump.control_map with
    | none => exact ⟨rfl, hd⟩
    | some r => exact ⟨rfl, hd⟩

theorem runFinish_trace {m : Machine} (hd : m.dump_all_state = true) :
    (runFinish m).dumped_states =
      if m.state.return_code = RES_RUNNING then
        if m.state.counter = m.max_code_run then m.dumped_states
        else m.dumped_states ++ [{ m.state with return_code := RES_END }]
      else m.dumped_states := by
  unfold runFinish
  split_ifs <;> simp [Machine.dump, hd]

/-- The trace that the loop of `Run` appends: one snapshot per pass begun, the `i`-th being the
state after `i` completed passes. -/
theorem runLoop_trace (fuel : Nat) :
    ∀ {m : Machine}, Linked m → m.dump_all_state = true →
      m.state.return_code = RES_RUNNING →
      ∃ n, n ≤ fuel ∧
        (runLoop fuel m).dumped_states =
          m.dumped_states ++ (List.range n).map (fun i => (runLoop i m).state) ∧
        (runLoop fuel m).dump_all_state = true ∧
        (∀ i, i < n →
          (runLoop i m).state.return_code = RES_RUNNING ∧ loopCond (runLoop i m)) ∧
        (((runLoop fuel m).state.return_code = RES_MEM_OOB ∧ 0 < n ∧
            (runLoop fuel m).state =
              { (runLoop (n - 1) m).state with return_code := RES_MEM_OOB }) ∨
         ((runLoop fuel m).state.return_code = RES_RUNNING ∧
            (runLoop fuel m).state.counter = m.state.counter + n)) := by
  induction fuel with
  | zero =>
    intro m _ hd hrc
    exact ⟨0, le_refl _, by simp [runLoop_zero], by rw [runLoop_zero]; exact hd,
      fun i hi => absurd hi (by omega), Or.inr ⟨by rw [runLoop_zero]; exact hrc,
        by rw [runLoop_zero]; simp⟩⟩
  | succ fuel ih =>
    intro m hl hd hrc
    rw [runLoop_succ]
    by_cases hc : loopCond m
    · obtain ⟨l1, _, _, _, _, _, _, _, _, hcase⟩ := loopBody_linked hl hc
      obtain ⟨t1, t2⟩ := loopBody_trace hd
      rw [if_pos hc]
      rcases hcase with ⟨hb, hst⟩ | ⟨hb, hcnt, hrc1, _⟩
      · rw [if_pos hb]
        refine ⟨1, by omega, by rw [t1]; rfl, t2, ?_, Or.inl ⟨?_, by omega, ?_⟩⟩
        · intro i hi
          have : i = 0 := by omega
          subst this
          rw [runLoop_zero]
          exact ⟨hrc, hc⟩
        · rw [hst]
        · rw [hst]; rfl
      · rw [hb]
        simp only [Bool.false_eq_true, if_false]
        obtain ⟨n, hn, hT, hdd, hall, halt⟩ := ih l1 t2 (by rw [hrc1]; exact hrc)
        have hstep : ∀ i, runLoop (i + 1) m = runLoop i (loopBody m).1 := by
          intro i
          rw [runLoop_succ, if_pos hc, hb]; rfl
        refine ⟨n + 1, by omega, ?_, hdd, ?_, ?_⟩
        · rw [hT, t1, List.range_succ_eq_map, List.map_cons, List.map_map, runLoop_zero,
            List.append_assoc]
          congr 1
          rw [List.singleton_append]
          congr 1
          apply List.map_congr_left
          intro i _
          simp only [Function.comp, hstep]
        · intro i hi
          rcases Nat.eq_zero_or_pos i with h0 | h0
          · subst h0
            rw [runLoop_zero]
            exact ⟨hrc, hc⟩
          · obtain ⟨j, rfl⟩ : ∃ j, i = j + 1 := ⟨i - 1, by omega⟩
            rw [hstep]
            exact hall j (by omega)
        · rcases halt with ⟨a1, a2, a3⟩ | ⟨a1, a2⟩
          · left
            refine ⟨a1, by omega, ?_⟩
            obtain ⟨j, rfl⟩ : ∃ j, n = j + 1 := ⟨n - 1, by omega⟩
            simp only [Nat.add_sub_cancel] at a3 ⊢
            rw [hstep]
            exact a3
          · right
            refine ⟨a1, ?_⟩
            rw [a2, hcnt]
            push_cast
            ring
    · rw [if_neg hc]
      exact ⟨0, by omega, by simp, hd, fun i hi => absurd hi (by omega),
        Or.inr ⟨hrc, by simp⟩⟩

/-- The trace and final state of `Run` on a loaded, initialised machine that records its
trace, in terms of the number `n` of passes begun. -/
theorem run_trace_core {m m1 : Machine} {P : List Instruction} (h : m.Load P = some m1)
    (hd : m.dump_all_state = true) (reg : Register) (mem : Memory) :
    ∃ n : Nat,
      (∀ i, i < n →
        ((m1.withInit reg mem).afterSteps i).state.return_code = RES_RUNNING ∧
        loopCond ((m1.withInit reg mem).afterSteps i) ∧
        ((m1.withInit reg mem).afterSteps i).state.counter = i) ∧
      (((m1.withInit reg mem).Run.state.return_code = RES_MEM_OOB ∧ 0 < n ∧
          (m1.withInit reg mem).Run.state =
            { ((m1.withInit reg mem).afterSteps (n - 1)).state with
              return_code := RES_MEM_OOB } ∧
          (m1.withInit reg mem).Run.dumped_states =
            (List.range n).map (fun i => ((m1.withInit reg mem).afterSteps i).state)) ∨
       ((m1.withInit reg mem).Run.state.return_code = RES_MAX_CODE_RUN_REACHED ∧
          (m1.withInit reg mem).Run.state.counter = n ∧ (n : Int) = m.max_code_run ∧
          (m1.withInit reg mem).Run.dumped_states =
            (List.range n).map (fun i => ((m1.withInit reg mem).afterSteps i).state)) ∨
       ((m1.withInit reg mem).Run.state.return_code = RES_END ∧
          (m1.withInit reg mem).Run.state.counter = n ∧
          (m1.withInit reg mem).Run.dumped_states =
            (List.range n).map (fun i => ((m1.withInit reg mem).afterSteps i).state) ++
              [(m1.withInit reg mem).Run.state])) := by
  obtain ⟨hl, hrc, hcnt, hpc, _, _, hmax, _, _⟩ := run_fault_core h reg mem
  obtain ⟨_, _, _, _, hdump, _⟩ := Load_spec h
  have hd0 : (m1.withInit reg mem).runStart.dump_all_state = true := by
    rw [(runStart_fields _).2.2.2.2.2]
    show m1.dump_all_state = true
    rw [hdump]; exact hd
  have hT0 : (m1.withInit reg mem).runStart.dumped_states = [] := by
    have e : (m1.withInit reg mem).dump_all_state = true := by
      show m1.dump_all_state = true
      rw [hdump]; exact hd
    simp [Machine.runStart, e]
  obtain ⟨n, _, hT, hdL, hall, halt⟩ := runLoop_trace
    ((m1.withInit reg mem).runStart.max_code_run -
      (m1.withInit reg mem).runStart.state.counter).toNat hl hd0 hrc
  obtain ⟨_, _, _, _, hxL, _⟩ := runLoop_linked
    ((m1.withInit reg mem).runStart.max_code_run -
      (m1.withInit reg mem).runStart.state.counter).toNat hl (by rw [hpc])
    (by rw [hpc]; omega)
  rw [hT0, List.nil_append] at hT
  have hrun : (m1.withInit reg mem).Run = runFinish (runLoop
      ((m1.withInit reg mem).runStart.max_code_run -
        (m1.withInit reg mem).runStart.state.counter).toNat
      (m1.withInit reg mem).runStart) := rfl
  generalize runLoop ((m1.withInit reg mem).runStart.max_code_run -
      (m1.withInit reg mem).runStart.state.counter).toNat
      (m1.withInit reg mem).runStart = L at hT hdL halt hxL hrun
  have e1 : RES_MEM_OOB ≠ RES_RUNNING := by decide
  refine ⟨n, ?_, ?_⟩
  · intro i hi
    obtain ⟨a, b⟩ := hall i hi
    have c := runLoop_count i hl a b
    rw [hcnt] at c
    exact ⟨a, b, by simpa [Machine.afterSteps] using c⟩
  · rw [hrun, runFinish_state, runFinish_trace hdL]
    rcases halt with ⟨a1, a2, a3⟩ | ⟨a1, a2⟩
    · left
      rw [if_neg (by rw [a1]; exact e1), if_neg (by rw [a1]; exact e1)]
      exact ⟨a1, a2, a3, hT⟩
    · right
      rw [hcnt, zero_add] at a2
      rw [if_pos a1, if_pos a1]
      by_cases hmx : L.state.counter = L.max_code_run
      · left
        rw [if_pos hmx, if_pos hmx]
        refine ⟨rfl, a2, ?_, hT⟩
        rw [← a2, hmx, hxL, hmax]
      · right
        rw [if_neg hmx, if_neg hmx]
        exact ⟨rfl, a2, by rw [hT]; rfl⟩

/-- The trace of a run read from its final counter and halt code: on a machine that records
its trace, after `Load(P)`, `Init(reg, mem)` and `Run`, the `i`-th snapshot, for every `i` below
the final counter (and `i = counter` after a fault), is the complete machine state after `i`
completed passes, with `counter = i` and halt code `RES_RUNNING`, in which the loop condition
holds. A run that returns `RES_END` has `counter + 1` snapshots, the last being the final state;
one that returns `RES_MAX_CODE_RUN_REACHED` has exactly `max_code_run = counter` snapshots (no
final one); one that returns `RES_MEM_OOB` has `counter + 1` snapshots, the last being the
state before the faulting instruction (the final state with halt code `RES_RUNNING`). -/
theorem trace_guarded (m m1 : Machine) (P : List Instruction) (reg : Register) (mem : Memory)
    (h : m.Load P = some m1) (hd : m.dump_all_state = true) :
    (∀ i : Nat,
      ((i : Int) < (m1.withInit reg mem).Run.state.counter ∨
        ((m1.withInit reg mem).Run.state.return_code = RES_MEM_OOB ∧
          (i : Int) = (m1.withInit reg mem).Run.state.counter)) →
      (m1.withInit reg mem).Run.dumped_states[i]? =
        some ((m1.withInit reg mem).afterSteps i).state ∧
      ((m1.withInit reg mem).afterSteps i).state.counter = i ∧
      ((m1.withInit reg mem).afterSteps i).state.return_code = RES_RUNNING ∧
      loopCond ((m1.withInit reg mem).afterSteps i)) ∧
    ((m1.withInit reg mem).Run.state.return_code = RES_END →
      ((m1.withInit reg mem).Run.dumped_states.length : Int) =
        (m1.withInit reg mem).Run.state.counter + 1 ∧
      (m1.withInit reg mem).Run.dumped_states.getLast? =
        some (m1.withInit reg mem).Run.state) ∧
    ((m1.withInit reg mem).Run.state.return_code = RES_MAX_CODE_RUN_REACHED →
      ((m1.withInit reg mem).Run.dumped_states.length : Int) = m.max_code_run ∧
      ((m1.withInit reg mem).Run.dumped_states.length : Int) =
        (m1.withInit reg mem).Run.state.counter) ∧
    ((m1.withInit reg mem).Run.state.return_code = RES_MEM_OOB →
      ((m1.withInit reg mem).Run.dumped_states.length : Int) =
        (m1.withInit reg mem).Run.state.counter + 1 ∧
      (m1.withInit reg mem).Run.dumped_states.getLast? =
        some { (m1.withInit reg mem).Run.state with return_code := RES_RUNNING }) := by
  obtain ⟨n, hall, hcases⟩ := run_trace_core h hd reg mem
  generalize (m1.withInit reg mem).Run = R at hcases ⊢
  generalize (m1.withInit reg mem).afterSteps = A at hall hcases ⊢
  have e1 : RES_MEM_OOB ≠ RES_END := by decide
  have e2 : RES_MEM_OOB ≠ RES_MAX_CODE_RUN_REACHED := by decide
  have e3 : RES_MAX_CODE_RUN_REACHED ≠ RES_END := by decide
  have hget : ∀ i, i < n →
      ((List.range n).map (fun i => (A i).state))[i]? = some (A i).state := by
    intro i hi
    simp [List.getElem?_map, List.getElem?_range hi]
  rcases hcases with ⟨hrc, hn, hst, hT⟩ | ⟨hrc, hc, hmx, hT⟩ | ⟨hrc, hc, hT⟩
  · obtain ⟨p1, p2, p3⟩ := hall (n - 1) (by omega)
    have hcR : R.state.counter = ((n - 1 : Nat) : Int) := by rw [hst]; exact p3
    refine ⟨?_, fun hh => absurd (hrc.symm.trans hh) e1, fun hh => absurd (hrc.symm.trans hh) e2,
      fun _ => ⟨?_, ?_⟩⟩
    · intro i hi
      have hin : i < n := by
        rcases hi with hi | ⟨_, hi⟩
        · rw [hcR] at hi; omega
        · rw [hcR] at hi; omega
      obtain ⟨q1, q2, q3⟩ := hall i hin
      exact ⟨by rw [hT]; exact hget i hin, q3, q1, q2⟩
    · rw [hT, hcR]
      simp only [List.length_map, List.length_range]
      omega
    · rw [hT, List.getLast?_eq_getElem?]
      simp only [List.length_map, List.length_range]
      rw [hget (n - 1) (by omega), hst]
      congr 1
      generalize A (n - 1) = B at p1
      obtain ⟨⟨a, b, c, d, e, f⟩, _⟩ := B
      simp only at p1
      subst p1
      rfl
  · refine ⟨?_, fun hh => absurd (hrc.symm.trans hh) e3, fun _ => ⟨?_, ?_⟩,
      fun hh => absurd (hh.symm.trans hrc) e2⟩
    · intro i hi
      have hin : i < n := by
        rcases hi with hi | ⟨hi, _⟩
        · rw [hc] at hi; omega
        · exact absurd (hi.symm.trans hrc) e2
      obtain ⟨q1, q2, q3⟩ := hall i hin
      exact ⟨by rw [hT]; exact hget i hin, q3, q1, q2⟩
    · rw [hT, ← hmx]; simp
    · rw [hT, hc]; simp
  · refine ⟨?_, fun _ => ⟨?_, ?_⟩, fun hh => absurd (hh.symm.trans hrc) e3,
      fun hh => absurd (hh.symm.trans hrc) e1⟩
    · intro i hi
      have hin : i < n := by
        rcases hi with hi | ⟨hi, _⟩
        · rw [hc] at hi; omega
        · exact absurd (hi.symm.trans hrc) e1
      obtain ⟨q1, q2, q3⟩ := hall i hin
      refine ⟨?_, q3, q1, q2⟩
      rw [hT, List.getElem?_append_left (by simpa using hin)]
      exact hget i hin
    · rw [hT, hc]; simp
    · rw [hT]; simp

theorem Load_SetDumpAll {m m1 : Machine} {P : List Instruction} (h : m.Load P = some m1)
    (b : Bool) : (m.SetDumpAll b).Load P = some (m1.SetDumpAll b) := by
  rw [Load_eq] at h ⊢
  simp only [Machine.SetDumpAll] at h ⊢
  cases hp : parseLines m.state.register.length 0
      (P ++ List.replicate (linkScan P 0 LinkState.start).control_pc.length endIns) with
  | none => rw [hp] at h; exact absurd h (by simp)
  | some prog =>
    rw [hp] at h
    simp only [Option.some.injEq] at h ⊢
    rw [← h]

theorem copyAt_spec (src : List Int) :
    ∀ (pre mid post : List Int), mid.length = src.length →
      copyAt src pre.length (pre ++ mid ++ post) = pre ++ src ++ post := by
  induction src with
  | nil =>
    intro pre mid post h
    have : mid = [] := List.length_eq_zero.1 h
    subst this
    simp [copyAt]
  | cons x xs ih =>
    intro pre mid post h
    cases mid with
    | nil => simp at h
    | cons y ys =>
      have hset : (pre ++ y :: ys ++ post).set pre.length x = (pre ++ [x]) ++ ys ++ post := by
        simp [List.set_append]
      have hlen : pre.length + 1 = (pre ++ [x]).length := by simp
      rw [copyAt, hset, hlen, ih (pre ++ [x]) ys post (by simpa using h)]
      simp

theorem set_at_length (pre post : List Int) (y x : Int) :
    (pre ++ y :: post).set pre.length x = pre ++ x :: post := by
  simp [List.set_append]

theorem GetFeature_eq (s : MachineState) :
    s.GetFeature = s.memory ++ s.register ++ [s.pc, s.flag] := by
  unfold MachineState.GetFeature
  simp only [Nat.zero_add]
  have h0 : List.replicate (s.register.length + s.memory.length + 2) (0 : Int) =
      [] ++ List.replicate s.memory.length 0 ++ (List.replicate s.register.length 0 ++ [0, 0]) := by
    rw [Nat.add_comm s.register.length, List.replicate_add, List.replicate_add]
    simp only [List.nil_append, List.append_assoc]
    rfl
  have h1 := copyAt_spec s.memory [] (List.replicate s.memory.length 0)
    (List.replicate s.register.length 0 ++ [0, 0]) (by simp)
  rw [h0]
  simp only [List.length_nil] at h1
  rw [h1]
  have h2 := copyAt_spec s.register s.memory (List.replicate s.register.length 0) [0, 0]
    (by simp)
  simp only [List.nil_append] at h2 ⊢
  rw [← List.append_assoc, h2]
  have e1 : s.memory.length + s.register.length = (s.memory ++ s.register).length := by simp
  have e2 : (s.memory ++ s.register).length + 1 = (s.memory ++ s.register ++ [s.pc]).length := by
    simp only [List.length_append, List.length_singleton]
  rw [e1, set_at_length (s.memory ++ s.register) [0] 0 s.pc, e2]
  have e3 : s.memory ++ s.register ++ [s.pc, 0] = (s.memory ++ s.register ++ [s.pc]) ++ 0 :: [] := by
    simp
  rw [e3, set_at_length (s.memory ++ s.register ++ [s.pc]) [] 0 s.flag]
  simp

theorem GetFeature_length (s : MachineState) :
    s.GetFeature.length = s.memory.length + s.register.length + 2 := by
  rw [GetFeature_eq]; simp; omega

/-- The method `Run` keeps the sizes of the register file and of the memory. -/
theorem Run_lengths {m : Machine} (h : Linked m) :
    m.Run.state.register.length = m.state.register.length ∧
    m.Run.state.memory.length = m.state.memory.length := by
  obtain ⟨m0, hrun, _, hs, hp, hcode, hc, _, _⟩ := Run_eq m
  have hl0 : Linked m0 := linked_of_fields h hp hcode hc (by rw [hs])
  have hloop : (runLoop (m.max_code_run - m.state.counter).toNat m0).state.register.length
        = m.state.register.length ∧
      (runLoop (m.max_code_run - m.state.counter).toNat m0).state.memory.length
        = m.state.memory.length := by
    by_cases hpc : 0 ≤ m0.state.pc ∧ m0.state.pc ≤ m0.code.length
    · obtain ⟨_, _, _, _, _, _, a, b, _⟩ :=
        runLoop_linked (m.max_code_run - m.state.counter).toNat hl0 hpc.1 hpc.2
      rw [hs] at a b
      exact ⟨a, b⟩
    · have hn : ¬ loopCond m0 := by
        intro hcnd
        apply hpc
        have := linked_length_eq hl0
        exact ⟨hcnd.1, by have := hcnd.2.1; omega⟩
      rw [runLoop_of_not_cond hn, hs]
      exact ⟨rfl, rfl⟩
  rw [hrun, runFinish_state]
  split_ifs <;> exact hloop

/-- C19. Machine-state feature layout: `GetFeature` of a state with `M` memory cells and `R`
registers is the memory, then the registers, then `pc`, then `flag`, a vector of `M + R + 2`
integers; the length is unchanged by `Reset`, by `Init` with vectors of any length and by `Run`
(on a machine that holds a linked program), and for the machine of a `CodegenGame` it equals
`GetEnsembleMachineStateDim` (`size_memory + num_reg + 2`). -/
theorem feature_layout (s : MachineState) (m : Machine) (h : Linked m) (reg : Register)
    (mem : Memory) :
    s.GetFeature = s.memory ++ s.register ++ [s.pc, s.flag] ∧
    s.GetFeature.length = s.memory.length + s.register.length + 2 ∧
    s.Reset.GetFeature.length = s.GetFeature.length ∧
    (s.Init reg mem).GetFeature.length = s.GetFeature.length ∧
    m.Run.state.GetFeature.length = m.state.GetFeature.length ∧
    (m.withInit reg mem).Run.state.GetFeature.length = m.state.GetFeature.length ∧
    (∀ (e l : Bool) (t : MachineState),
      t.register.length = (CodegenGame.new e l).machine.state.register.length →
      t.memory.length = (CodegenGame.new e l).machine.state.memory.length →
      (t.GetFeature.length : Int) = (CodegenGame.new e l).GetEnsembleMachineStateDim) := by
  obtain ⟨_, _, _, _, i5, i6⟩ := Init_fields s reg mem
  obtain ⟨_, _, _, _, j5, j6⟩ := Init_fields m.state reg mem
  obtain ⟨r1, r2⟩ := Run_lengths h
  obtain ⟨w1, w2⟩ := Run_lengths (m := m.withInit reg mem)
    (linked_of_fields h rfl rfl rfl j5)
  refine ⟨GetFeature_eq s, GetFeature_length s, ?_, ?_, ?_, ?_, ?_⟩
  · simp [GetFeature_length, MachineState.Reset]
  · rw [GetFeature_length, GetFeature_length, i5, i6]
  · rw [GetFeature_length, GetFeature_length, r1, r2]
  · rw [GetFeature_length, GetFeature_length, w1, w2]
    show (m.state.Init reg mem).memory.length + (m.state.Init reg mem).register.length + 2 = _
    rw [j5, j6]
  · intro e l t ht1 ht2
    rw [GetFeature_length, ht1, ht2]
    simp [CodegenGame.new, CodegenGame.GetEnsembleMachineStateDim, Machine.new,
      MachineState.new]

theorem feature_layout_witness :
    (initState 1 [2, 0] [7]).GetFeature =
      (initState 1 [2, 0] [7]).memory ++ (initState 1 [2, 0] [7]).register ++
        [(initState 1 [2, 0] [7]).pc, (initState 1 [2, 0] [7]).flag] ∧
    (initState 1 [2, 0] [7]).GetFeature.length =
      (initState 1 [2, 0] [7]).memory.length + (initState 1 [2, 0] [7]).register.length + 2 ∧
    (initState 1 [2, 0] [7]).Reset.GetFeature.length =
      (initState 1 [2, 0] [7]).GetFeature.length ∧
    ((initState 1 [2, 0] [7]).Init [1, 2, 3] []).GetFeature.length =
      (initState 1 [2, 0] [7]).GetFeature.length ∧
    (loadedOrNew 2 1 repIncEnd).Run.state.GetFeature.length =
      (loadedOrNew 2 1 repIncEnd).state.GetFeature.length ∧
    ((loadedOrNew 2 1 repIncEnd).withInit [1, 2, 3] []).Run.state.GetFeature.length =
      (loadedOrNew 2 1 repIncEnd).state.GetFeature.length ∧
    (∀ (e l : Bool) (t : MachineState),
      t.register.length = (CodegenGame.new e l).machine.state.register.length →
      t.memory.length = (CodegenGame.new e l).machine.state.memory.length →
      (t.GetFeature.length : Int) = (CodegenGame.new e l).GetEnsembleMachineStateDim) :=
  feature_layout (initState 1 [2, 0] [7]) (loadedOrNew 2 1 repIncEnd)
    (Load_spec (loadedOrNew_eq (by decide!))).2.1 [1, 2, 3] []

theorem digitChar_toNat (d : Nat) : (digitChar d).toNat = 48 + d % 10 := by
  unfold digitChar
  have h : d % 10 < 10 := Nat.mod_lt _ (by decide)
  generalize d % 10 = r at h
  interval_cases r <;> rfl

/-- The character is a decimal digit. -/
theorem digitChar_digit (d : Nat) : 48 ≤ (digitChar d).toNat ∧ (digitChar d).toNat ≤ 57 := by
  rw [digitChar_toNat]
  have h : d % 10 < 10 := Nat.mod_lt _ (by decide)
  omega

theorem natDigitsAux_digits (fuel : Nat) :
    ∀ (n : Nat) (acc : Str), (∀ c ∈ acc, 48 ≤ c.toNat ∧ c.toNat ≤ 57) →
      ∀ c ∈ natDigitsAux fuel n acc, 48 ≤ c.toNat ∧ c.toNat ≤ 57 := by
  induction fuel with
  | zero => intro n acc h; simpa [natDigitsAux] using h
  | succ fuel ih =>
    intro n acc h
    unfold natDigitsAux
    split_ifs
    · intro c hc
      rcases List.mem_cons.1 hc with rfl | hc
      · exact digitChar_digit n
      · exact h c hc
    · apply ih
      intro c hc
      rcases List.mem_cons.1 hc with rfl | hc
      · exact digitChar_digit _
      · exact h c hc

theorem natDigitsAux_ne_nil (fuel : Nat) :
    ∀ (n : Nat) (acc : Str), (0 < fuel ∨ acc ≠ []) → natDigitsAux fuel n acc ≠ [] := by
  induction fuel with
  | zero =>
    intro n acc h
    rcases h with h | h
    · omega
    · simpa [natDigitsAux] using h
  | succ fuel ih =>
    intro n acc _
    unfold natDigitsAux
    split_ifs
    · simp
    · exact ih _ _ (Or.inr (by simp))

theorem readDigits_cons (a : Nat) (c : Char) (cs : Str) (h : 48 ≤ c.toNat ∧ c.toNat ≤ 57) :
    readDigits a (c :: cs) = readDigits (a * 10 + (c.toNat - 48)) cs := by
  rw [readDigits, if_pos h]

theorem readDigits_natDigitsAux (fuel : Nat) :
    ∀ (n : Nat) (acc : Str), n < fuel →
      readDigits 0 (natDigitsAux fuel n acc) = readDigits n acc := by
  induction fuel with
  | zero => intro n acc h; omega
  | succ fuel ih =>
    intro n acc h
    unfold natDigitsAux
    have hd := digitChar_digit
    split_ifs with h10
    · have e := digitChar_toNat n
      rw [readDigits_cons _ _ _ (hd n), e, Nat.mod_eq_of_lt h10]
      congr 1
      omega
    · rw [ih (n / 10) _ (by omega)]
      have e := digitChar_toNat (n % 10)
      rw [readDigits_cons _ _ _ (hd _), e]
      congr 1
      omega

theorem natDigits_spec (n : Nat) :
    natDigits n ≠ [] ∧ (∀ c ∈ natDigits n, 48 ≤ c.toNat ∧ c.toNat ≤ 57) ∧
    readDigits 0 (natDigits n) = n := by
  refine ⟨natDigitsAux_ne_nil _ _ _ (Or.inl (by omega)),
    natDigitsAux_digits _ _ _ (by simp), ?_⟩
  unfold natDigits
  rw [readDigits_natDigitsAux _ _ _ (by omega)]
  rfl

theorem isspace_of_range {c : Char} (h : 45 ≤ c.toNat) : isspace c = false := by
  unfold isspace
  simp only [Bool.or_eq_false_iff, Bool.and_eq_false_iff, decide_eq_false_iff_not]
  constructor
  · omega
  · right; omega

theorem printInt_spec (v : Int) :
    printInt v ≠ [] ∧ (∀ c ∈ printInt v, isspace c = false ∧ c ≠ SPACE) := by
  have hminus : (Char.ofNat 45).toNat = 45 := rfl
  have hspace : SPACE.toNat = 32 := rfl
  have key : ∀ c : Char, 45 ≤ c.toNat → isspace c = false ∧ c ≠ SPACE := by
    intro c hc
    refine ⟨isspace_of_range hc, ?_⟩
    intro e
    rw [e, hspace] at hc
    omega
  unfold printInt
  split_ifs
  · refine ⟨by simp, ?_⟩
    intro c hc
    rcases List.mem_cons.1 hc with rfl | hc
    · exact key _ (by rw [hminus])
    · exact key c (by have := (natDigits_spec _).2.1 c hc; omega)
  · refine ⟨(natDigits_spec _).1, ?_⟩
    intro c hc
    exact key c (by have := (natDigits_spec _).2.1 c hc; omega)

theorem dropWhile_head {p : Char → Bool} {l : Str} (hl : l ≠ [])
    (h : ∀ c ∈ l, p c = false) : l.dropWhile p = l := by
  cases l with
  | nil => exact absurd rfl hl
  | cons c cs => simp [List.dropWhile, h c (by simp)]

theorem stoi_printInt (v : Int) (hv : IsInt32 v) : stoi (printInt v) = StoiResult.value v := by
  obtain ⟨lo, hi⟩ := hv
  have hminus : (Char.ofNat 45).toNat = 45 := rfl
  have hdrop : (printInt v).dropWhile isspace = printInt v :=
    dropWhile_head (printInt_spec v).1 (fun c hc => ((printInt_spec v).2 c hc).1)
  unfold stoi
  simp only [hdrop]
  by_cases hneg : v < 0
  · obtain ⟨n1, n2, n3⟩ := natDigits_spec (-v).toNat
    have hp : printInt v = Char.ofNat 45 :: natDigits (-v).toNat := by
      unfold printInt; rw [if_pos hneg]
    rw [hp]
    simp only [hminus, true_or, if_true, decide_True]
    cases hd : natDigits (-v).toNat with
    | nil => exact absurd hd n1
    | cons c cs =>
      have hc := n2 c (by rw [hd]; simp)
      rw [hd] at n3
      simp only [hc, and_self, if_true, n3]
      have e : (-(((-v).toNat : Nat) : Int)) = v := by omega
      rw [e, if_neg (by omega)]
  · obtain ⟨n1, n2, n3⟩ := natDigits_spec v.toNat
    have hp : printInt v = natDigits v.toNat := by
      unfold printInt; rw [if_neg hneg]
    rw [hp]
    cases hd : natDigits v.toNat with
    | nil => exact absurd hd n1
    | cons c cs =>
      have hc := n2 c (by rw [hd]; simp)
      rw [hd] at n3
      have h45 : ¬ c.toNat = 45 := by omega
      have h43 : ¬ c.toNat = 43 := by omega
      simp only [h45, h43, or_self, if_false, decide_False, hc, and_self, if_true, n3,
        Bool.false_eq_true]
      have e : ((v.toNat : Nat) : Int) = v := by omega
      rw [e, if_neg (by omega)]

theorem splitLoop_token (delim : Char) (t : Str) :
    ∀ (item rest : Str), (∀ c ∈ t, c ≠ delim) →
      splitLoop delim item (t ++ delim :: rest) = (item ++ t) :: splitLoop delim [] rest := by
  induction t with
  | nil => intro item rest _; simp [splitLoop]
  | cons c cs ih =>
    intro item rest h
    have hc : c ≠ delim := h c (by simp)
    rw [List.cons_append, splitLoop, if_neg hc, ih _ _ (fun x hx => h x (by simp [hx]))]
    simp

theorem splitLoop_last (delim : Char) (t : Str) :
    ∀ (item : Str), (∀ c ∈ t, c ≠ delim) → item ++ t ≠ [] →
      splitLoop delim item t = [item ++ t] := by
  induction t with
  | nil =>
    intro item _ hne
    have : item ≠ [] := by simpa using hne
    cases item with
    | nil => exact absurd rfl this
    | cons a as => simp [splitLoop]
  | cons c cs ih =>
    intro item h _
    have hc : c ≠ delim := h c (by simp)
    rw [splitLoop, if_neg hc, ih _ (fun x hx => h x (by simp [hx])) (by simp)]
    simp

theorem trim_eq (pre D : Str) (c : Char) (hc : isspace c = false) (hD : D ≠ [])
    (hall : ∀ x ∈ D, isspace x = false) : trim (c :: pre ++ D) = c :: pre ++ D := by
  have hr : rtrim (c :: pre ++ D) = c :: pre ++ D := by
    unfold rtrim
    have hrev : (c :: pre ++ D).reverse = D.reverse ++ (c :: pre).reverse := by simp
    rw [hrev]
    cases hd : D.reverse with
    | nil => exact absurd (List.reverse_eq_nil_iff.1 hd) hD
    | cons d ds =>
      have hdm : d ∈ D := by
        have : d ∈ D.reverse := by rw [hd]; simp
        exact List.mem_reverse.1 this
      rw [List.cons_append, List.dropWhile_cons_of_neg (by simp [hall d hdm]), ← List.cons_append,
        ← hd, ← hrev, List.reverse_reverse]
  unfold trim
  rw [hr, ltrim, List.cons_append, List.dropWhile_cons_of_neg (by simp [hc])]

/-- Parsing the text `name a1` or `name a1 a2` that `Print` writes. -/
theorem fromString_printed (name : Str) (c : Char) (cs : Str) (ty : InsType) (a1 a2 : Int)
    (hname : name = c :: cs) (hns : ∀ x ∈ name, isspace x = false ∧ x ≠ SPACE)
    (hty : kInsMap.lookup name = some ty) (r1 : IsInt32 a1) (r2 : IsInt32 a2) :
    split (trim (name ++ [SPACE] ++ printInt a1)) SPACE = [name, printInt a1] ∧
    Instruction.fromString (name ++ [SPACE] ++ printInt a1) = ParseOutcome.ok ⟨ty, a1, -1⟩ ∧
    Instruction.fromString (name ++ [SPACE] ++ printInt a1 ++ ([SPACE] ++ printInt a2)) =
      ParseOutcome.ok ⟨ty, a1, a2⟩ := by
  obtain ⟨p1, p2⟩ := printInt_spec a1
  obtain ⟨q1, q2⟩ := printInt_spec a2
  have hc : isspace c = false := (hns c (by rw [hname]; simp)).1
  have hsplit1 : split (trim (name ++ [SPACE] ++ printInt a1)) SPACE = [name, printInt a1] := by
    have e : name ++ [SPACE] ++ printInt a1 = c :: (cs ++ [SPACE]) ++ printInt a1 := by
      rw [hname]; simp
    rw [e, trim_eq _ _ c hc p1 (fun x hx => (p2 x hx).1), ← e]
    unfold split
    have e2 : name ++ [SPACE] ++ printInt a1 = name ++ SPACE :: printInt a1 := by simp
    rw [e2, splitLoop_token SPACE name [] _ (fun x hx => (hns x hx).2),
      splitLoop_last SPACE _ [] (fun x hx => (p2 x hx).2) (by simpa using p1)]
    simp
  have hsplit2 : split (trim (name ++ [SPACE] ++ printInt a1 ++ ([SPACE] ++ printInt a2))) SPACE
      = [name, printInt a1, printInt a2] := by
    have e : name ++ [SPACE] ++ printInt a1 ++ ([SPACE] ++ printInt a2) =
        c :: (cs ++ [SPACE] ++ printInt a1 ++ [SPACE]) ++ printInt a2 := by
      rw [hname]; simp
    rw [e, trim_eq _ _ c hc q1 (fun x hx => (q2 x hx).1), ← e]
    unfold split
    have e2 : name ++ [SPACE] ++ printInt a1 ++ ([SPACE] ++ printInt a2) =
        name ++ SPACE :: (printInt a1 ++ SPACE :: printInt a2) := by simp
    rw [e2, splitLoop_token SPACE name [] _ (fun x hx => (hns x hx).2),
      splitLoop_token SPACE _ [] _ (fun x hx => (p2 x hx).2),
      splitLoop_last SPACE _ [] (fun x hx => (q2 x hx).2) (by simpa using q1)]
    simp
  refine ⟨hsplit1, ?_, ?_⟩
  · unfold Instruction.fromString
    simp only [hsplit1, hty, argOf, List.getElem?_cons_succ, List.getElem?_cons_zero,
      stoi_printInt a1 r1, List.getElem?_nil]
  · unfold Instruction.fromString
    simp only [hsplit2, hty, argOf, List.getElem?_cons_succ, List.getElem?_cons_zero,
      stoi_printInt a1 r1, stoi_printInt a2 r2]

theorem knownOpcode_nat {t : InsType} (h : KnownOpcode t) : ∃ k : Nat, k < 8 ∧ t = (k : Int) := by
  rcases h with rfl | rfl | rfl | rfl | rfl | rfl | rfl | rfl
  · exact ⟨0, by omega, rfl⟩
  · exact ⟨1, by omega, rfl⟩
  · exact ⟨2, by omega, rfl⟩
  · exact ⟨3, by omega, rfl⟩
  · exact ⟨4, by omega, rfl⟩
  · exact ⟨5, by omega, rfl⟩
  · exact ⟨6, by omega, rfl⟩
  · exact ⟨7, by omega, rfl⟩

/-- Every name of `kInsTypename` is non-empty, has no whitespace, and `kInsMap` maps it back to
its index. -/
theorem typename_spec (k : Nat) (hk : k < 8) :
    ∃ c cs, kInsTypename[k]? = some (c :: cs) ∧
      (∀ x ∈ c :: cs, isspace x = false ∧ x ≠ SPACE) ∧
      kInsMap.lookup (c :: cs) = some (k : Int) := by
  interval_cases k
  · exact ⟨_, _, rfl, by decide, by decide⟩
  · exact ⟨_, _, rfl, by decide, by decide⟩
  · exact ⟨_, _, rfl, by decide, by decide⟩
  · exact ⟨_, _, rfl, by decide, by decide⟩
  · exact ⟨_, _, rfl, by decide, by decide⟩
  · exact ⟨_, _, rfl, by decide, by decide⟩
  · exact ⟨_, _, rfl, by decide, by decide⟩
  · exact ⟨_, _, rfl, by decide, by decide⟩

/-- C20. Text round trip: for an instruction `i` whose opcode is one of the eight opcodes and
whose `arg2 >= -1` (operands being 32-bit `int` values), `Print` produces a text, and the
constructor from text applied to it returns an instruction equal to `i`; when `arg2 = -1` the
text is the name, one space and `arg1` only (two tokens), and the second operand is read back
as `-1`. -/
theorem text_round_trip (i : Instruction) (hk : KnownOpcode i.ins_type) (h2 : -1 ≤ i.arg2)
    (r1 : IsInt32 i.arg1) (r2 : IsInt32 i.arg2) :
    ∃ name s, kInsTypename[i.ins_type.toNat]? = some name ∧ i.Print = some s ∧
      Instruction.fromString s = ParseOutcome.ok i ∧
      (i.arg2 = -1 → s = name ++ [SPACE] ++ printInt i.arg1 ∧
        split (trim s) SPACE = [name, printInt i.arg1]) := by
  obtain ⟨t, a1, a2⟩ := i
  simp only at hk h2 r1 r2 ⊢
  obtain ⟨k, hk8, rfl⟩ := knownOpcode_nat hk
  obtain ⟨c, cs, hname, hns, hty⟩ := typename_spec k hk8
  obtain ⟨f1, f2, f3⟩ := fromString_printed (c :: cs) c cs (k : Int) a1 a2 rfl hns hty r1 r2
  have hprint : Instruction.Print ⟨(k : Int), a1, a2⟩ =
      some (c :: cs ++ [SPACE] ++ printInt a1 ++
        (if a2 ≥ 0 then [SPACE] ++ printInt a2 else [])) := by
    unfold Instruction.Print
    simp only [Int.toNat_ofNat, hname]
    rw [if_neg (show ¬ ((k : Int) < 0) by omega)]
  refine ⟨c :: cs, _, by simpa using hname, hprint, ?_, ?_⟩
  · by_cases h0 : a2 ≥ 0
    · rw [if_pos h0]; exact f3
    · have e : a2 = -1 := by omega
      subst e
      rw [if_neg h0, List.append_nil]; exact f2
  · intro e
    subst e
    rw [if_neg (by omega), List.append_nil]
    exact ⟨rfl, f1⟩

theorem text_round_trip_witness :
    ∃ name s, kInsTypename[(⟨INS_MOV, 2, -1⟩ : Instruction).ins_type.toNat]? = some name ∧
      (⟨INS_MOV, 2, -1⟩ : Instruction).Print = some s ∧
      Instruction.fromString s = ParseOutcome.ok ⟨INS_MOV, 2, -1⟩ ∧
      ((⟨INS_MOV, 2, -1⟩ : Instruction).arg2 = -1 →
        s = name ++ [SPACE] ++ printInt (⟨INS_MOV, 2, -1⟩ : Instruction).arg1 ∧
        split (trim s) SPACE = [name, printInt (⟨INS_MOV, 2, -1⟩ : Instruction).arg1]) :=
  text_round_trip ⟨INS_MOV, 2, -1⟩ (Or.inr (Or.inr (Or.inr (Or.inr (Or.inl rfl)))))
    (by decide) ⟨by decide, by decide⟩ ⟨by decide, by decide⟩

theorem Load_none_iff (m : Machine) (P : List Instruction) :
    m.Load P = none ↔ ∃ c ∈ P, StructurallyBad m.state.register.length c := by
  rw [Load_eq]
  have hp := parseLines_none_iff m.state.register.length
    (P ++ List.replicate (linkScan P 0 LinkState.start).control_pc.length endIns) 0
  constructor
  · intro h
    split at h
    · rename_i hnone
      obtain ⟨c, hc, hbad⟩ := hp.1 hnone
      rw [List.mem_append] at hc
      rcases hc with hc | hc
      · exact ⟨c, hc, hbad⟩
      · rw [List.mem_replicate] at hc
        rw [hc.2] at hbad
        exact absurd hbad (endIns_not_bad _ _ _)
    · simp at h
  · rintro ⟨c, hc, hbad⟩
    rw [hp.2 ⟨c, by simp [hc], hbad⟩]

/-- A machine that accepts `P` accepts every sub-sequence of `P`, and so does every machine with
the same number of registers. -/
theorem Load_sublist {m m2 : Machine} {P Q : List Instruction} (h : m.Load P ≠ none)
    (hs : Q.Sublist P) (hR : m2.state.register.length = m.state.register.length) :
    m2.Load Q ≠ none := by
  intro hn
  apply h
  rw [Load_none_iff] at hn ⊢
  obtain ⟨c, hc, hbad⟩ := hn
  rw [hR] at hbad
  exact ⟨c, hs.subset hc, hbad⟩

theorem passes_not_fails {codes : List Instruction} {init_reg : Register} {M : Nat}
    {p : Memory × Memory} (hp : PassesOn codes init_reg M p) : ¬ FailsOn codes init_reg M p := by
  obtain ⟨m, hm, h1, h2⟩ := hp
  rintro ⟨m2, hm2, hf⟩
  rw [hm] at hm2
  have e := Option.some.inj hm2
  subst e
  rcases hf with hf | hf
  · exact hf h1
  · exact hf h2

theorem ready_load {m m1 : Machine} {R M : Nat} {codes : List Instruction} (h : Ready m R M)
    (hl : m.Load codes = some m1) : Tracks m1 codes R M :=
  tracks_of_load h.budget h.regs h.mems hl

theorem tryDeletions_ne_none {init_reg : Register} {M : Nat} (samples : List (Memory × Memory))
    (ins : List Instruction)
    (hload : ∀ (i : Nat) (m : Machine), m.state.register.length = init_reg.length →
      m.Load (ins.eraseIdx i) ≠ none) (k : Nat) :
    ∀ (i : Nat) {m : Machine}, Ready m init_reg.length M →
      tryDeletions init_reg samples ins k i m ≠ none := by
  induction k with
  | zero => intro i m _; simp [tryDeletions]
  | succ k ih =>
    intro i m hr
    unfold tryDeletions
    cases hl : m.Load (ins.eraseIdx i) with
    | none => exact absurd hl (hload i m hr.regs)
    | some m1 =>
      simp only []
      have ht := ready_load hr hl
      obtain ⟨ht2, _⟩ := @validate_spec init_reg _ _ samples _ ht
      split_ifs
      · exact ih (i + 1) (tracks_ready ht2)
      · simp

theorem new_ready (R M : Nat) : Ready (Machine.new R M) R M := by
  obtain ⟨a, b, c⟩ := new_fields R M
  exact ⟨c, a, b⟩

theorem GreedyPrune_loads {P : List Instruction} {init_reg : Register} {M n : Nat}
    {rand : Nat → Nat} {pruned : List Instruction}
    (h : GreedyPrune P init_reg M n rand pruned ≠ none) :
    (Machine.new init_reg.length M).Load P ≠ none := by
  intro hl
  apply h
  unfold GreedyPrune
  rw [hl]

/-- C22. The pruned program is a sub-sequence of the original: when `GreedyPrune` returns
success with result `Q` for input `P`, `Q` is `P` with some instructions deleted (the kept ones
unchanged and in their original order, all taken from `P`, none from the END-extended code of
the linker), so `|Q| <= |P|`. -/
theorem pruned_is_subsequence (P : List Instruction) (init_reg : Register) (M n : Nat)
    (rand : Nat → Nat) (pruned Q : List Instruction)
    (h : GreedyPrune P init_reg M n rand pruned = some (true, Q)) :
    Q.Sublist P ∧ Q.length ≤ P.length ∧ (∀ c ∈ Q, c ∈ P) := by
  obtain ⟨_, _, _, _, _, hs⟩ := GreedyPrune_success h
  exact ⟨hs, hs.length_le, fun c hc => hs.subset hc⟩

theorem pruned_is_subsequence_witness :
    ([⟨INS_INC, 0, -1⟩, ⟨INS_SAVE, 0, 1⟩] : List Instruction).Sublist sampleProgram ∧
    ([⟨INS_INC, 0, -1⟩, ⟨INS_SAVE, 0, 1⟩] : List Instruction).length ≤ sampleProgram.length ∧
    (∀ c ∈ ([⟨INS_INC, 0, -1⟩, ⟨INS_SAVE, 0, 1⟩] : List Instruction), c ∈ sampleProgram) :=
  pruned_is_subsequence sampleProgram [0, 0] 2 2 sampleRand []
    [⟨INS_INC, 0, -1⟩, ⟨INS_SAVE, 0, 1⟩] (by decide!)

/-- C30. Pruning is idempotent on a fixed sample batch: when pruning `P` succeeds with result
`Q`, pruning `Q` with the same `init_reg`, memory size, number of samples and generator stream
(hence the same sampled input memories) succeeds and returns `Q`. -/
theorem pruning_idempotent (P : List Instruction) (init_reg : Register) (M n : Nat)
    (rand : Nat → Nat) (pruned pruned2 Q : List Instruction)
    (h : GreedyPrune P init_reg M n rand pruned = some (true, Q)) :
    GreedyPrune Q init_reg M n rand pruned2 = some (true, Q) := by
  obtain ⟨samples, hrec, hlen, hQ, hfix, hsub⟩ := GreedyPrune_success h
  have hP : (Machine.new init_reg.length M).Load P ≠ none :=
    GreedyPrune_loads (by rw [h]; simp)
  have hload : ∀ (Q2 : List Instruction) (m : Machine), Q2.Sublist Q →
      m.state.register.length = init_reg.length → m.Load Q2 ≠ none :=
    fun Q2 m hq hm => Load_sublist hP (hq.trans hsub) (by rw [hm, (new_fields _ _).1])
  -- every sample passes on `Q` with the memory recorded for `P`
  have hpass : ∀ t, t < n → ∃ mR mem,
      loadInitRun 1000 M Q init_reg (sampleMemory rand M t) = some mR ∧
      mR.state.return_code = RES_END ∧ mR.state.memory = mem ∧
      samples[t]? = some (sampleMemory rand M t, mem) := by
    intro t ht
    obtain ⟨mR, h1, h2, h3⟩ := hrec t ht
    rcases hQ with rfl | hQ
    · exact ⟨mR, _, h1, h2, rfl, h3⟩
    · obtain ⟨mQ, q1, q2, q3⟩ := hQ _ (List.getElem?_mem h3)
      exact ⟨mQ, _, q1, q2, q3, h3⟩
  unfold GreedyPrune
  cases hl : (Machine.new init_reg.length M).Load Q with
  | none => exact absurd hl (hload Q _ (List.Sublist.refl Q) (new_fields _ _).1)
  | some machine =>
    simp only []
    have ht := ready_load (new_ready init_reg.length M) hl
    have hspec := recordSamples_spec (M := M) rand n 0 ht
    cases hr : recordSamples init_reg rand n 0 machine with
    | none =>
      rw [hr] at hspec
      obtain ⟨t, ht1, mR, hrun, hne⟩ := hspec
      obtain ⟨mQ, _, q1, q2, _⟩ := hpass t ht1
      rw [Nat.zero_add, q1] at hrun
      have e := Option.some.inj hrun
      subst e
      exact absurd q2 hne
    | some r =>
      obtain ⟨samples2, machine1⟩ := r
      rw [hr] at hspec
      simp only [] at hspec ⊢
      obtain ⟨ht1, hlen2, hall⟩ := hspec
      have hsame : samples2 = samples := by
        apply List.ext_getElem?
        intro t
        by_cases htn : t < n
        · obtain ⟨mR, r1, _, r3⟩ := hall t htn
          obtain ⟨mQ, mem, q1, _, q3, q4⟩ := hpass t htn
          rw [Nat.zero_add] at r1 r3
          rw [q1] at r1
          have e := Option.some.inj r1
          subst e
          rw [r3, q4, q3]
        · rw [List.getElem?_eq_none (by omega), List.getElem?_eq_none (by omega)]
      subst hsame
      have hr1 := tracks_ready ht1
      have hne := tryDeletions_ne_none (M := M) samples2 Q
        (fun i m hm => hload _ m (List.eraseIdx_sublist Q i) hm) Q.length 0 hr1
      have hsp := tryDeletions_spec (M := M) samples2 Q Q.length 0 hr1
      have hloop : pruneLoop init_reg samples2 (Q.length + 1) Q machine1 = some Q := by
        unfold pruneLoop
        cases htd : tryDeletions init_reg samples2 Q Q.length 0 machine1 with
        | none => exact absurd htd hne
        | some r2 =>
          obtain ⟨o, m2⟩ := r2
          rw [htd] at hsp
          cases o with
          | none => rfl
          | some new_instructions =>
            exfalso
            simp only [] at hsp
            obtain ⟨_, t, htl, hnew, hp, _⟩ := hsp
            obtain ⟨p, hpm, hf⟩ := hfix t htl
            rw [Nat.zero_add] at hnew
            rw [hnew] at hp
            exact passes_not_fails (hp p hpm) hf
      rw [hloop]

theorem pruning_idempotent_witness :
    GreedyPrune [⟨INS_INC, 0, -1⟩, ⟨INS_SAVE, 0, 1⟩] [0, 0] 2 2 sampleRand [] =
      some (true, [⟨INS_INC, 0, -1⟩, ⟨INS_SAVE, 0, 1⟩]) :=
  pruning_idempotent sampleProgram [0, 0] 2 2 sampleRand [] []
    [⟨INS_INC, 0, -1⟩, ⟨INS_SAVE, 0, 1⟩] (by decide!)

theorem candidateValid_iff (init_reg : Register) (M : Nat) (samples : List (Memory × Memory))
    (codes : List Instruction) :
    candidateValid init_reg M samples codes = true ↔
      ∀ p ∈ samples, PassesOn codes init_reg M p := by
  unfold candidateValid PassesOn
  rw [List.all_eq_true]
  constructor
  · intro h p hp
    have := h p hp
    cases hl : loadInitRun 1000 M codes init_reg p.1 with
    | none => rw [hl] at this; exact absurd this (by simp)
    | some m =>
      rw [hl] at this
      simp only [decide_eq_true_eq] at this
      exact ⟨m, rfl, this.1, this.2⟩
  · intro h p hp
    obtain ⟨m, hm, h1, h2⟩ := h p hp
    rw [hm]
    simp [h1, h2]

theorem find_range_none (p : Nat → Bool) (n : Nat) :
    (List.range n).find? p = none ↔ ∀ u, u < n → p u = false := by
  rw [List.find?_eq_none]
  constructor
  · intro h u hu
    have := h u (List.mem_range.2 hu)
    simpa using this
  · intro h u hu
    have := h u (List.mem_range.1 hu)
    simp [this]

theorem find_range_some (p : Nat → Bool) (n t : Nat) (ht : t < n) (hp : p t = true)
    (hall : ∀ u, u < t → p u = false) : (List.range n).find? p = some t := by
  induction n with
  | zero => omega
  | succ n ih =>
    rw [List.range_succ, List.find?_append]
    by_cases htn : t < n
    · rw [ih htn]; rfl
    · have e : t = n := by omega
      subst e
      rw [(find_range_none p t).2 hall]
      simp [hp]

/-- The loop of the pruner computes the reference iteration. -/
theorem pruneLoop_reference {init_reg : Register} {M : Nat} (samples : List (Memory × Memory))
    (fuel : Nat) :
    ∀ (ins : List Instruction) {m : Machine} {Q : List Instruction} (f : Nat),
      Ready m init_reg.length M → ins.length < fuel → ins.length ≤ f →
      pruneLoop init_reg samples fuel ins m = some Q →
      Q = referencePrune init_reg M samples f ins ∧ leastValid init_reg M samples Q = none := by
  induction fuel with
  | zero => intro ins m Q f _ h; omega
  | succ fuel ih =>
    intro ins m Q f hr hlt hf hpl
    unfold pruneLoop at hpl
    have hsp := tryDeletions_spec (M := M) samples ins ins.length 0 hr
    cases htd : tryDeletions init_reg samples ins ins.length 0 m with
    | none => rw [htd] at hpl; exact absurd hpl (by simp)
    | some r =>
      obtain ⟨o, m1⟩ := r
      rw [htd] at hpl hsp
      cases o with
      | none =>
        simp only [Option.some.injEq] at hpl hsp
        subst hpl
        obtain ⟨_, hall⟩ := hsp
        have hnone : leastValid init_reg M samples ins = none := by
          unfold leastValid
          rw [find_range_none]
          intro u hu
          obtain ⟨p, hp, hfail⟩ := hall u hu
          rw [Nat.zero_add] at hfail
          cases hv : candidateValid init_reg M samples (ins.eraseIdx u) with
          | false => rfl
          | true =>
            exact absurd hfail (passes_not_fails ((candidateValid_iff _ _ _ _).1 hv p hp))
        refine ⟨?_, hnone⟩
        cases f with
        | zero => rfl
        | succ f => rw [referencePrune, hnone]
      | some new_instructions =>
        simp only [] at hpl hsp
        obtain ⟨hr1, t, ht, hnew, hpass, hfails⟩ := hsp
        rw [Nat.zero_add] at hnew
        have hsome : leastValid init_reg M samples ins = some t := by
          unfold leastValid
          apply find_range_some _ _ _ ht
          · rw [candidateValid_iff, ← hnew]; exact hpass
          · intro u hu
            obtain ⟨p, hp, hfail⟩ := hfails u hu
            rw [Nat.zero_add] at hfail
            cases hv : candidateValid init_reg M samples (ins.eraseIdx u) with
            | false => rfl
            | true =>
              exact absurd hfail (passes_not_fails ((candidateValid_iff _ _ _ _).1 hv p hp))
        have hlen : new_instructions.length + 1 = ins.length := by
          rw [hnew, List.length_eraseIdx, if_pos ht]; omega
        cases f with
        | zero => omega
        | succ f =>
          rw [referencePrune, hsome]
          simp only []
          rw [← hnew]
          exact ih new_instructions f hr1 (by omega) (by omega) hpl

/-- The three steps of a successful `GreedyPrune`, with the recorded pairs identified. -/
theorem GreedyPrune_steps {P : List Instruction} {init_reg : Register} {M n : Nat}
    {rand : Nat → Nat} {pruned Q : List Instruction}
    (h : GreedyPrune P init_reg M n rand pruned = some (true, Q)) :
    ∃ machine1, Ready machine1 init_reg.length M ∧
      pruneLoop init_reg (recordedSamples P init_reg M n rand) (P.length + 1) P machine1
        = some Q := by
  unfold GreedyPrune at h
  cases hl : (Machine.new init_reg.length M).Load P with
  | none => rw [hl] at h; exact absurd h (by simp)
  | some machine =>
    rw [hl] at h
    simp only [] at h
    have ht := ready_load (new_ready init_reg.length M) hl
    have hspec := recordSamples_spec (M := M) rand n 0 ht
    cases hr : recordSamples init_reg rand n 0 machine with
    | none => rw [hr] at h; simp at h
    | some r =>
      obtain ⟨samples, machine1⟩ := r
      rw [hr] at h hspec
      simp only [] at h hspec
      obtain ⟨ht1, hlen, hall⟩ := hspec
      have hsame : samples = recordedSamples P init_reg M n rand := by
        apply List.ext_getElem?
        intro t
        unfold recordedSamples
        by_cases htn : t < n
        · obtain ⟨mR, r1, _, r3⟩ := hall t htn
          rw [Nat.zero_add] at r1 r3
          rw [r3, List.getElem?_map, List.getElem?_range htn]
          simp [r1]
        · rw [List.getElem?_eq_none (by omega), List.getElem?_eq_none (by simp; omega)]
      subst hsame
      cases hpl : pruneLoop init_reg (recordedSamples P init_reg M n rand) (P.length + 1) P
          machine1 with
      | none => rw [hpl] at h; simp at h
      | some ins =>
        rw [hpl] at h
        simp only [Option.some.injEq, Prod.mk.injEq, true_and] at h
        subst h
        exact ⟨machine1, tracks_ready ht1, hpl⟩

/-- C26. Greedy order, lowest index first: the successful result `Q` of `GreedyPrune` on `P` is
the result of the reference iteration on the recorded sample pairs (from `P`, while some index
validates delete the least such index and start again from index 0); the iteration has stopped
because no index of `Q` validates, and more rounds than `|P|` change nothing. -/
theorem greedy_order (P : List Instruction) (init_reg : Register) (M n : Nat)
    (rand : Nat → Nat) (pruned Q : List Instruction)
    (h : GreedyPrune P init_reg M n rand pruned = some (true, Q)) :
    Q = referencePrune init_reg M (recordedSamples P init_reg M n rand) P.length P ∧
    leastValid init_reg M (recordedSamples P init_reg M n rand) Q = none ∧
    (∀ f, P.length ≤ f →
      referencePrune init_reg M (recordedSamples P init_reg M n rand) f P =
        referencePrune init_reg M (recordedSamples P init_reg M n rand) P.length P) := by
  obtain ⟨machine1, hr, hpl⟩ := GreedyPrune_steps h
  obtain ⟨h1, h2⟩ := pruneLoop_reference (recordedSamples P init_reg M n rand) (P.length + 1) P
    P.length hr (by omega) (le_refl _) hpl
  refine ⟨h1, h2, ?_⟩
  intro f hf
  obtain ⟨h3, _⟩ := pruneLoop_reference (recordedSamples P init_reg M n rand) (P.length + 1) P
    f hr (by omega) hf hpl
  rw [← h1, ← h3]

theorem greedy_order_witness :
    ([⟨INS_INC, 0, -1⟩, ⟨INS_SAVE, 0, 1⟩] : List Instruction) =
      referencePrune [0, 0] 2 (recordedSamples sampleProgram [0, 0] 2 2 sampleRand)
        sampleProgram.length sampleProgram ∧
    leastValid [0, 0] 2 (recordedSamples sampleProgram [0, 0] 2 2 sampleRand)
      [⟨INS_INC, 0, -1⟩, ⟨INS_SAVE, 0, 1⟩] = none ∧
    (∀ f, sampleProgram.length ≤ f →
      referencePrune [0, 0] 2 (recordedSamples sampleProgram [0, 0] 2 2 sampleRand) f
          sampleProgram =
        referencePrune [0, 0] 2 (recordedSamples sampleProgram [0, 0] 2 2 sampleRand)
          sampleProgram.length sampleProgram) :=
  greedy_order sampleProgram [0, 0] 2 2 sampleRand [] [⟨INS_INC, 0, -1⟩, ⟨INS_SAVE, 0, 1⟩]
    (by decide!)

theorem validateLog_spec (init_reg : Register) (samples : List (Memory × Memory)) :
    ∀ m : Machine, (validateLog init_reg samples m).1 = validate init_reg samples m ∧
      (validateLog init_reg samples m).2 ≤ samples.length := by
  induction samples with
  | nil => intro m; exact ⟨rfl, le_refl _⟩
  | cons p rest ih =>
    intro m
    obtain ⟨before, after⟩ := p
    unfold validateLog validate
    simp only []
    split_ifs
    · exact ⟨rfl, by simp⟩
    · exact ⟨(ih _).1, by simpa using (ih _).2⟩

theorem tryDeletionsLog_spec (init_reg : Register) (samples : List (Memory × Memory))
    (ins : List Instruction) (k : Nat) :
    ∀ (i : Nat) (m : Machine),
      (tryDeletionsLog init_reg samples ins k i m).map Prod.fst =
        tryDeletions init_reg samples ins k i m ∧
      ∀ res log, tryDeletionsLog init_reg samples ins k i m = some (res, log) →
        log.length ≤ k ∧ ∀ c ∈ log, c ≤ samples.length := by
  induction k with
  | zero =>
    intro i m
    refine ⟨rfl, ?_⟩
    intro res log h
    simp only [tryDeletionsLog, Option.some.injEq, Prod.mk.injEq] at h
    rw [← h.2]
    simp
  | succ k ih =>
    intro i m
    unfold tryDeletionsLog tryDeletions
    cases hl : m.Load (ins.eraseIdx i) with
    | none => simp
    | some m1 =>
      obtain ⟨v1, v2⟩ := validateLog_spec init_reg samples m1
      simp only [v1]
      by_cases hv : (validate init_reg samples m1).1 = true
      · simp only [hv, if_true]
        obtain ⟨i1, i2⟩ := ih (i + 1) (validate init_reg samples m1).2
        cases ht : tryDeletionsLog init_reg samples ins k (i + 1)
            (validate init_reg samples m1).2 with
        | none =>
          rw [ht] at i1
          refine ⟨by simpa using i1, ?_⟩
          intro res log h
          simp at h
        | some r =>
          obtain ⟨res0, log0⟩ := r
          rw [ht] at i1
          refine ⟨by simpa using i1, ?_⟩
          intro res log h
          simp only [Option.some.injEq, Prod.mk.injEq] at h
          obtain ⟨j1, j2⟩ := i2 res0 log0 ht
          rw [← h.2]
          refine ⟨by simp; omega, ?_⟩
          intro c hc
          rcases List.mem_cons.1 hc with rfl | hc
          · exact v2
          · exact j2 c hc
      · simp only [hv, if_false, Bool.false_eq_true]
        refine ⟨by simp, ?_⟩
        intro res log h
        simp only [Option.some.injEq, Prod.mk.injEq] at h
        rw [← h.2]
        refine ⟨by simp, ?_⟩
        intro c hc
        rw [List.mem_singleton] at hc
        rw [hc]; exact v2

/-- A deletion accepted by a pass removes one instruction of the current program. -/
theorem tryDeletions_accept (init_reg : Register) (samples : List (Memory × Memory))
    (ins : List Instruction) (k : Nat) :
    ∀ (i : Nat) (m m1 : Machine) (new_instructions : List Instruction),
      tryDeletions init_reg samples ins k i m = some (some new_instructions, m1) →
      ∃ t, t < k ∧ new_instructions = ins.eraseIdx (i + t) := by
  induction k with
  | zero => intro i m m1 new h; simp [tryDeletions] at h
  | succ k ih =>
    intro i m m1 new h
    unfold tryDeletions at h
    cases hl : m.Load (ins.eraseIdx i) with
    | none => rw [hl] at h; simp at h
    | some m2 =>
      rw [hl] at h
      simp only [] at h
      split_ifs at h
      · obtain ⟨t, ht, hn⟩ := ih _ _ _ _ h
        exact ⟨t + 1, by omega, by rw [hn]; congr 1; omega⟩
      · simp only [Option.some.injEq, Prod.mk.injEq] at h
        exact ⟨0, by omega, by rw [← h.1]; rfl⟩

/-- The bound `ins.size() + 1` on the passes is never reached by running out of passes: any
larger bound gives the same result. -/
theorem pruneLoop_fuel (init_reg : Register) (samples : List (Memory × Memory)) (fuel : Nat) :
    ∀ (ins : List Instruction) (m : Machine) (d : Nat), ins.length < fuel →
      pruneLoop init_reg samples (fuel + d) ins m = pruneLoop init_reg samples fuel ins m := by
  induction fuel with
  | zero => intro ins m d h; omega
  | succ fuel ih =>
    intro ins m d h
    rw [Nat.add_right_comm]
    unfold pruneLoop
    cases ht : tryDeletions init_reg samples ins ins.length 0 m with
    | none => rfl
    | some r =>
      obtain ⟨o, m1⟩ := r
      cases o with
      | none => rfl
      | some new_instructions =>
        simp only []
        obtain ⟨t, ht1, hn⟩ := tryDeletions_accept _ _ _ _ _ _ _ _ ht
        apply ih
        rw [hn, List.length_eraseIdx, if_pos (by omega)]
        omega

theorem pruneLoopLog_spec (init_reg : Register) (samples : List (Memory × Memory))
    (fuel : Nat) :
    ∀ (ins : List Instruction) (m : Machine),
      (pruneLoopLog init_reg samples fuel ins m).map Prod.fst =
        pruneLoop init_reg samples fuel ins m ∧
      ∀ Q logs, ins.length < fuel → pruneLoopLog init_reg samples fuel ins m = some (Q, logs) →
        Q.length + logs.length = ins.length + 1 ∧
        ∀ pass ∈ logs, pass.1 ≤ ins.length ∧ pass.2.length ≤ pass.1 ∧
          ∀ c ∈ pass.2, c ≤ samples.length := by
  induction fuel with
  | zero =>
    intro ins m
    exact ⟨rfl, fun Q logs h _ => absurd h (by omega)⟩
  | succ fuel ih =>
    intro ins m
    unfold pruneLoopLog pruneLoop
    obtain ⟨t1, t2⟩ := tryDeletionsLog_spec init_reg samples ins ins.length 0 m
    cases ht : tryDeletionsLog init_reg samples ins ins.length 0 m with
    | none =>
      rw [ht] at t1
      rw [← t1]
      exact ⟨rfl, fun Q logs _ h => absurd h (by simp)⟩
    | some r =>
      obtain ⟨⟨o, m1⟩, log⟩ := r
      rw [ht] at t1
      obtain ⟨l1, l2⟩ := t2 _ _ ht
      rw [← t1]
      simp only [Option.map_some']
      cases o with
      | none =>
        refine ⟨rfl, ?_⟩
        intro Q logs _ h
        simp only [Option.some.injEq, Prod.mk.injEq] at h
        obtain ⟨rfl, rfl⟩ := h
        refine ⟨by simp, ?_⟩
        intro pass hp
        rw [List.mem_singleton] at hp
        subst hp
        exact ⟨le_refl _, l1, l2⟩
      | some new_instructions =>
        simp only []
        obtain ⟨i1, i2⟩ := ih new_instructions m1
        have hacc : tryDeletions init_reg samples ins ins.length 0 m
            = some (some new_instructions, m1) := by
          rw [← t1]; rfl
        obtain ⟨t, ht1, hn⟩ := tryDeletions_accept _ _ _ _ _ _ _ _ hacc
        have hlen : new_instructions.length + 1 = ins.length := by
          rw [hn, List.length_eraseIdx, if_pos (by omega)]; omega
        cases hp : pruneLoopLog init_reg samples fuel new_instructions m1 with
        | none =>
          rw [hp] at i1
          rw [← i1]
          exact ⟨rfl, fun Q logs _ h => absurd h (by simp)⟩
        | some r2 =>
          obtain ⟨q, logs0⟩ := r2
          rw [hp] at i1
          rw [← i1]
          refine ⟨rfl, ?_⟩
          intro Q logs hlt h
          simp only [Option.some.injEq, Prod.mk.injEq] at h
          obtain ⟨rfl, rfl⟩ := h
          obtain ⟨j1, j2⟩ := i2 q logs0 (by omega) hp
          refine ⟨by simp; omega, ?_⟩
          intro pass hpm
          rcases List.mem_cons.1 hpm with rfl | hpm
          · exact ⟨le_refl _, l1, l2⟩
          · obtain ⟨a, b, c⟩ := j2 pass hpm
            exact ⟨by omega, b, c⟩

/-- A run from an initialised state executes at most `max_code_run` instructions. -/
theorem loadInitRun_counter {X : Int} {M : Nat} {codes : List Instruction} {init_reg : Register}
    {mem : Memory} {mR : Machine} (hX : 0 ≤ X)
    (h : loadInitRun X M codes init_reg mem = some mR) :
    0 ≤ mR.state.counter ∧ mR.state.counter ≤ X := by
  unfold loadInitRun at h
  cases hl : ((Machine.new init_reg.length M).SetMaxCodeRun X).Load codes with
  | none => rw [hl] at h; simp at h
  | some m =>
    rw [hl] at h
    simp only [Option.some.injEq] at h
    subst h
    obtain ⟨_, hlk, _, hmax, _⟩ := Load_spec hl
    have hmx : m.max_code_run = X := by rw [hmax]; rfl
    obtain ⟨hl0, hs, _, _, _, hx⟩ := withInit_linked hlk init_reg mem
    obtain ⟨_, i2, _⟩ := Init_fields m.state init_reg mem
    have hrun : ({ m with state := m.state.Init init_reg mem } : Machine).Run.state.counter =
        (runLoop ((m.withInit init_reg mem).runStart.max_code_run -
          (m.withInit init_reg mem).runStart.state.counter).toNat
          (m.withInit init_reg mem).runStart).state.counter := by
      show (runFinish _).state.counter = _
      rw [runFinish_state]
      split_ifs <;> rfl
    rw [hrun]
    generalize ((m.withInit init_reg mem).runStart.max_code_run -
      (m.withInit init_reg mem).runStart.state.counter).toNat = N
    obtain ⟨c1, c2⟩ := runLoop_counter N hl0
    rw [hs, i2] at c1 c2
    rw [hx, hmx] at c2
    exact ⟨c1, c2 hX⟩

/-- The empty program halts with `RES_END` at once. -/
theorem empty_run_end {M : Nat} {init_reg : Register} {mem : Memory} {mR : Machine}
    (h : loadInitRun 1000 M [] init_reg mem = some mR) :
    mR.state.return_code = RES_END ∧ mR.state.counter = 0 := by
  unfold loadInitRun at h
  cases hl : ((Machine.new init_reg.length M).SetMaxCodeRun 1000).Load [] with
  | none => rw [hl] at h; simp at h
  | some m =>
    rw [hl] at h
    simp only [Option.some.injEq] at h
    subst h
    obtain ⟨hcode, hlk, _, hmax, _⟩ := Load_spec hl
    have hmx : m.max_code_run = 1000 := by rw [hmax]; rfl
    have hc0 : m.code = [] := by
      rw [hcode]
      simp [linkScan, LinkState.start]
    obtain ⟨hl0, hs, hcd, _, _, _⟩ := withInit_linked hlk init_reg mem
    obtain ⟨hrun, _⟩ := Run_withInit hlk init_reg mem
    obtain ⟨_, i2, i3, _⟩ := Init_fields m.state init_reg mem
    have hn : ¬ loopCond (m.withInit init_reg mem).runStart := by
      intro hc
      have := hc.2.1
      rw [linked_length_eq hl0, hcd, hc0] at this
      have := hc.1
      simp at *
      omega
    rw [runLoop_of_not_cond hn, hs, i3, i2, hmx] at hrun
    show (m.withInit init_reg mem).Run.state.return_code = RES_END ∧
      (m.withInit init_reg mem).Run.state.counter = 0
    rw [hrun, if_pos rfl, if_neg (by decide)]
    exact ⟨rfl, i2⟩

theorem GreedyPrune_empty (init_reg : Register) (M n : Nat) (rand : Nat → Nat)
    (pruned : List Instruction) :
    GreedyPrune [] init_reg M n rand pruned = some (true, []) := by
  unfold GreedyPrune
  cases hl : (Machine.new init_reg.length M).Load [] with
  | none =>
    rw [Load_none_iff] at hl
    obtain ⟨c, hc, _⟩ := hl
    simp at hc
  | some machine =>
    simp only []
    have ht := ready_load (new_ready init_reg.length M) hl
    have hspec := recordSamples_spec (M := M) rand n 0 ht
    cases hr : recordSamples init_reg rand n 0 machine with
    | none =>
      rw [hr] at hspec
      obtain ⟨t, _, mR, hrun, hne⟩ := hspec
      exact absurd (empty_run_end hrun).1 hne
    | some r =>
      obtain ⟨samples, machine1⟩ := r
      simp [pruneLoop, tryDeletions]

/-- C29. The pruner terminates, with bounded work: the bound `|P| + 1` on the passes of the
`while` loop is never the reason why it stops (a larger bound gives the same result); the loop
with its work counted computes the same result, makes at most `|P| + 1` passes and commits
`|P| - |Q|` deletions (one per pass but the last), each pass tries at most as many candidates as
the program current at that pass has instructions, each candidate is run on at most as many
samples as were recorded, and each run executes at most 1000 instructions (the budget of the
pruner's machine). For the empty program `GreedyPrune` returns the empty program after one pass
without any candidate. -/
theorem pruner_terminates (P : List Instruction) (init_reg : Register) (M n : Nat)
    (rand : Nat → Nat) (pruned : List Instruction) :
    (∀ (samples : List (Memory × Memory)) (m : Machine) (d : Nat),
      pruneLoop init_reg samples (P.length + 1 + d) P m =
        pruneLoop init_reg samples (P.length + 1) P m) ∧
    (∀ (samples : List (Memory × Memory)) (m : Machine),
      (pruneLoopLog init_reg samples (P.length + 1) P m).map Prod.fst =
        pruneLoop init_reg samples (P.length + 1) P m) ∧
    (∀ (samples : List (Memory × Memory)) (m : Machine) (Q : List Instruction)
        (logs : List (Nat × List Nat)),
      pruneLoopLog init_reg samples (P.length + 1) P m = some (Q, logs) →
      logs.length ≤ P.length + 1 ∧ Q.length + logs.length = P.length + 1 ∧
      ∀ pass ∈ logs, pass.1 ≤ P.length ∧ pass.2.length ≤ pass.1 ∧
        ∀ c ∈ pass.2, c ≤ samples.length) ∧
    (∀ (codes : List Instruction) (mem : Memory) (mR : Machine),
      loadInitRun 1000 M codes init_reg mem = some mR →
      0 ≤ mR.state.counter ∧ mR.state.counter ≤ 1000) ∧
    GreedyPrune [] init_reg M n rand pruned = some (true, []) ∧
    (∀ (samples : List (Memory × Memory)) (m : Machine),
      pruneLoopLog init_reg samples 1 [] m = some ([], [(0, [])])) := by
  refine ⟨?_, ?_, ?_, ?_, GreedyPrune_empty init_reg M n rand pruned, ?_⟩
  · intro samples m d
    exact pruneLoop_fuel init_reg samples (P.length + 1) P m d (by omega)
  · intro samples m
    exact (pruneLoopLog_spec init_reg samples (P.length + 1) P m).1
  · intro samples m Q logs h
    obtain ⟨a, b⟩ := (pruneLoopLog_spec init_reg samples (P.length + 1) P m).2 Q logs
      (by omega) h
    exact ⟨by omega, a, b⟩
  · intro codes mem mR h
    exact loadInitRun_counter (by decide) h
  · intro samples m
    simp [pruneLoopLog, tryDeletionsLog]

/-- A second `Run` without `Reset`/`Init` in between leaves the state as the first left it. -/
theorem Run_Run_state {m : Machine} (h : Linked m) (hrc : m.state.return_code = RES_RUNNING)
    (hpc : m.state.pc = 0) : m.Run.Run.state = m.Run.state := by
  obtain ⟨m0, hrun, _, hs0, hp0, hcode0, hcm0, hx0, _⟩ := Run_eq m
  have hl0 : Linked m0 := linked_of_fields h hp0 hcode0 hcm0 (by rw [hs0])
  have hrc0 : m0.state.return_code = RES_RUNNING := by rw [hs0]; exact hrc
  have hpc0 : m0.state.pc = 0 := by rw [hs0]; exact hpc
  have hfuel : (m0.max_code_run - m0.state.counter).toNat ≤
      (m.max_code_run - m.state.counter).toNat := by rw [hs0, hx0]
  obtain ⟨hlL, _, hpL, hcL, hxL, _, _, _, _, _, _⟩ :=
    runLoop_linked (m.max_code_run - m.state.counter).toNat hl0 (by rw [hpc0])
      (by rw [hpc0]; omega)
  have hdone := runLoop_done (m.max_code_run - m.state.counter).toNat hl0 hrc0 hfuel
  have hfault := @runLoop_fault (m.max_code_run - m.state.counter).toNat m0 hl0 hrc0
  generalize runLoop (m.max_code_run - m.state.counter).toNat m0 = L at *
  obtain ⟨fp, fc, fm, fx, _⟩ := runFinish_fields L
  have fs := runFinish_state L
  rw [← hrun] at fp fc fm fx fs
  obtain ⟨r0, hrun2, _, rs, rp, rcode, rcm, rx, _⟩ := Run_eq m.Run
  have hlr : Linked m.Run := linked_of_fields hlL fp fc fm (by rw [fs]; split_ifs <;> rfl)
  have hlr0 : Linked r0 := linked_of_fields hlr rp rcode rcm (by rw [rs])
  have e1 : RES_MEM_OOB ≠ RES_RUNNING := by decide
  have e2 : RES_MAX_CODE_RUN_REACHED ≠ RES_RUNNING := by decide
  have e3 : RES_END ≠ RES_RUNNING := by decide
  rw [hrun2, runFinish_state]
  rcases hdone with hoob | ⟨hrun1, hncond⟩
  · -- the first run faulted: the second one executes the faulting instruction again
    have hrs : m.Run.state = L.state := by rw [fs, if_neg (by rw [hoob]; exact e1)]
    obtain ⟨k, _, k1, k2, k3, k4, k5⟩ := hfault hoob
    obtain ⟨_, _, kp, kc, kx, _, _, _, _, _, _⟩ :=
      runLoop_linked k hl0 (by rw [hpc0]) (by rw [hpc0]; omega)
    generalize runLoop k m0 = mk at *
    have hst : r0.state = { mk.state with return_code := RES_MEM_OOB } := by
      rw [rs, hrs, k5]
    have hcond : loopCond r0 := by
      refine ⟨?_, ?_, ?_⟩
      · rw [hst]; exact k2.1
      · rw [hst, rp, fp, hpL, ← kp]; exact k2.2.1
      · rw [hst, rx, fx, hxL, ← kx]; exact k2.2.2
    have hbreak : (loopBody r0).2 = true := by
      rw [loopBody_break_iff hlr0 hcond]
      obtain ⟨c, a, q1, q2, q3, q4⟩ := (loopBody_break_iff k3 k2).1 k4
      refine ⟨c, a, ?_, q2, ?_, ?_⟩
      · rw [rcode, fc, hcL, ← kc, hst]; exact q1
      · rw [hst]; exact q3
      · rw [hst]; exact q4
    obtain ⟨_, _, _, _, _, _, _, _, _, hcase⟩ := loopBody_linked hlr0 hcond
    have hbody : (loopBody r0).1.state = { r0.state with return_code := RES_MEM_OOB } := by
      rcases hcase with ⟨_, hb⟩ | ⟨hb, _⟩
      · exact hb
      · rw [hbreak] at hb; exact absurd hb (by simp)
    have hpos : ∃ j, (m.Run.max_code_run - m.Run.state.counter).toNat = j + 1 := by
      have := hcond.2.2
      rw [rs, rx] at this
      exact ⟨(m.Run.max_code_run - m.Run.state.counter).toNat - 1, by omega⟩
    obtain ⟨j, hj⟩ := hpos
    rw [hj, runLoop_succ, if_pos hcond, if_pos hbreak, hbody, if_neg (fun hh => e1 hh)]
    rw [hst, hrs, k5]
  · -- the first run left the loop: the loop condition is still false
    have hncond2 : ¬ loopCond r0 := by
      intro hc
      apply hncond
      have hpcs : r0.state.pc = L.state.pc ∧ r0.state.counter = L.state.counter := by
        rw [rs, fs, if_pos hrun1]
        split_ifs <;> exact ⟨rfl, rfl⟩
      refine ⟨?_, ?_, ?_⟩
      · rw [← hpcs.1]; exact hc.1
      · rw [← hpcs.1, ← fp, ← rp]; exact hc.2.1
      · rw [← hpcs.2, ← fx, ← rx]; exact hc.2.2
    have hne : r0.state.return_code ≠ RES_RUNNING := by
      rw [rs, fs, if_pos hrun1]
      split_ifs
      · exact e2
      · exact e3
    rw [runLoop_of_not_cond hncond2, if_neg hne, rs]

/-- C28. Halt codes are terminal: `Run` on a loaded and initialised machine returns `RES_END`,
`RES_MEM_OOB` or `RES_MAX_CODE_RUN_REACHED`, never `RES_RUNNING`, and a second `Run` without
`Reset`/`Init` leaves the whole state (halt code, registers, memory, pc, flag, step counter) as
the first `Run` left it, whichever of the three codes that was. -/
theorem halt_codes_terminal (m m1 : Machine) (P : List Instruction) (reg : Register)
    (mem : Memory) (h : m.Load P = some m1) :
    ((m1.withInit reg mem).Run.state.return_code = RES_END ∨
      (m1.withInit reg mem).Run.state.return_code = RES_MEM_OOB ∨
      (m1.withInit reg mem).Run.state.return_code = RES_MAX_CODE_RUN_REACHED) ∧
    (m1.withInit reg mem).Run.state.return_code ≠ RES_RUNNING ∧
    (m1.withInit reg mem).Run.Run.state = (m1.withInit reg mem).Run.state := by
  obtain ⟨_, hl1, _⟩ := Load_spec h
  obtain ⟨i1, _, i3, _, i5, _⟩ := Init_fields m1.state reg mem
  have hl : Linked (m1.withInit reg mem) := linked_of_fields hl1 rfl rfl rfl i5
  have hcodes := (Run_linked hl i3 i1).2.2.2.2.2.2.2.2
  refine ⟨hcodes, ?_, Run_Run_state hl i3 i1⟩
  rcases hcodes with hc | hc | hc <;> rw [hc] <;> decide

theorem halt_codes_terminal_witness :
    (faultMachine.Run.state.return_code = RES_END ∨
      faultMachine.Run.state.return_code = RES_MEM_OOB ∨
      faultMachine.Run.state.return_code = RES_MAX_CODE_RUN_REACHED) ∧
    faultMachine.Run.state.return_code ≠ RES_RUNNING ∧
    faultMachine.Run.Run.state = faultMachine.Run.state :=
  halt_codes_terminal (Machine.new 2 3) (loadedOrNew 2 3 straightProgram) straightProgram
    [5, 4] [7, 8, 9] (loadedOrNew_eq (by decide!))

theorem lookup_none_iff (t : Str) : kInsMap.lookup t = none ↔ t ∉ kInsTypename := by
  simp only [kInsMap, kInsTypename, List.lookup_cons, List.lookup_nil, List.mem_cons,
    List.mem_singleton, List.not_mem_nil, or_false, not_or]
  constructor
  · intro h
    repeat' constructor
    all_goals
      intro e
      subst e
      revert h
      decide
  · rintro ⟨h1, h2, h3, h4, h5, h6, h7, h8⟩
    have b1 : (t == "rep".toList) = false := by simpa using h2
    have b2 : (t == "end".toList) = false := by simpa using h1
    have b3 : (t == "inc".toList) = false := by simpa using h3
    have b4 : (t == "dec".toList) = false := by simpa using h4
    have b5 : (t == "mov".toList) = false := by simpa using h5
    have b6 : (t == "cmp".toList) = false := by simpa using h6
    have b7 : (t == "load".toList) = false := by simpa using h7
    have b8 : (t == "save".toList) = false := by simpa using h8
    simp only [b1, b2, b3, b4, b5, b6, b7, b8]

theorem readDigits_foldl (ds : Str) (hd : ∀ c ∈ ds, 48 ≤ c.toNat ∧ c.toNat ≤ 57) :
    ∀ a, readDigits a ds = ds.foldl (fun a c => a * 10 + (c.toNat - 48)) a := by
  induction ds with
  | nil => intro a; rfl
  | cons c cs ih =>
    intro a
    rw [readDigits_cons a c cs (hd c (by simp)), ih (fun x hx => hd x (by simp [hx]))]
    rfl

theorem isspace_false {c : Char} (h : 33 ≤ c.toNat) : isspace c = false := by
  unfold isspace
  simp only [Bool.or_eq_false_iff, Bool.and_eq_false_iff, decide_eq_false_iff_not]
  constructor
  · omega
  · right; omega

/-- The text of a decimal integer has no whitespace and is read back by `std::stoi`. -/
theorem decimalText_spec {t : Str} {v : Int} (h : DecimalText t v) (hv : IsInt32 v) :
    t ≠ [] ∧ (∀ c ∈ t, c ≠ SPACE) ∧ stoi t = StoiResult.value v := by
  obtain ⟨ds, hne, hd, hform⟩ := h
  obtain ⟨lo, hi⟩ := hv
  have hminus : (Char.ofNat 45).toNat = 45 := rfl
  have hplus : (Char.ofNat 43).toNat = 43 := rfl
  have hspace : SPACE.toNat = 32 := rfl
  have hval : readDigits 0 ds = decimalValue ds := readDigits_foldl ds hd 0
  have hns : ∀ c : Char, 33 ≤ c.toNat → c ≠ SPACE := by
    intro c hc e
    rw [e, hspace] at hc
    omega
  cases hds : ds with
  | nil => exact absurd hds hne
  | cons d ds1 =>
    have hd0 := hd d (by rw [hds]; simp)
    have h45 : ¬ d.toNat = 45 := by omega
    have h43 : ¬ d.toNat = 43 := by omega
    rcases hform with ⟨rfl, rfl⟩ | ⟨rfl, rfl⟩ | ⟨rfl, rfl⟩
    · refine ⟨hne, fun c hc => hns c (by have := hd c hc; omega), ?_⟩
      unfold stoi
      rw [dropWhile_head hne (fun c hc => isspace_false (by have := hd c hc; omega))]
      rw [← hval] at lo hi ⊢
      rw [hds] at lo hi ⊢
      simp only [h45, h43, or_self, if_false, decide_False, hd0, and_self, if_true,
        Bool.false_eq_true]
      rw [if_neg (by omega)]
    · refine ⟨by simp, ?_, ?_⟩
      · intro c hc
        rcases List.mem_cons.1 hc with rfl | hc
        · exact hns _ (by rw [hminus]; omega)
        · exact hns c (by have := hd c hc; omega)
      · unfold stoi
        rw [List.dropWhile_cons_of_neg (by simp [isspace_false (c := Char.ofNat 45)
          (by rw [hminus]; omega)])]
        rw [← hval] at lo hi ⊢
        rw [hds] at lo hi ⊢
        simp only [hminus, true_or, if_true, decide_True, hd0, and_self]
        rw [if_neg (by omega)]
    · refine ⟨by simp, ?_, ?_⟩
      · intro c hc
        rcases List.mem_cons.1 hc with rfl | hc
        · exact hns _ (by rw [hplus]; omega)
        · exact hns c (by have := hd c hc; omega)
      · unfold stoi
        rw [List.dropWhile_cons_of_neg (by simp [isspace_false (c := Char.ofNat 43)
          (by rw [hplus]; omega)])]
        rw [← hval] at lo hi ⊢
        rw [hds] at lo hi ⊢
        have h4345 : ¬ (43 = 45) := by omega
        simp only [hplus, h4345, or_true, if_true, decide_False, hd0, and_self,
          Bool.false_eq_true, if_false]
        rw [if_neg (by omega)]

/-- Parsing a trimmed text made of a known name and up to two operand tokens. -/
theorem fromString_tokens (s name : Str) (k : Nat) (hname : kInsTypename[k]? = some name) :
    (trim s = name → Instruction.fromString s = ParseOutcome.ok ⟨(k : Int), -1, -1⟩) ∧
    (∀ t1 v1, DecimalText t1 v1 → IsInt32 v1 → trim s = name ++ [SPACE] ++ t1 →
      Instruction.fromString s = ParseOutcome.ok ⟨(k : Int), v1, -1⟩) ∧
    (∀ t1 v1 t2 v2, DecimalText t1 v1 → IsInt32 v1 → DecimalText t2 v2 → IsInt32 v2 →
      trim s = name ++ [SPACE] ++ t1 ++ [SPACE] ++ t2 →
      Instruction.fromString s = ParseOutcome.ok ⟨(k : Int), v1, v2⟩) := by
  have hk : k < 8 := by
    by_contra hge
    have : kInsTypename[k]? = none := List.getElem?_eq_none (by simp [kInsTypename]; omega)
    rw [this] at hname
    exact absurd hname (by simp)
  obtain ⟨c, cs, hn, hns, hty⟩ := typename_spec k hk
  rw [hn] at hname
  have e := Option.some.inj hname
  subst e
  have hnsp : ∀ x ∈ c :: cs, x ≠ SPACE := fun x hx => (hns x hx).2
  refine ⟨?_, ?_, ?_⟩
  · intro ht
    have hsplit : split (trim s) SPACE = [c :: cs] := by
      rw [ht]
      unfold split
      rw [splitLoop_last SPACE _ [] hnsp (by simp)]
      simp
    unfold Instruction.fromString
    simp only [hsplit, hty, argOf, List.getElem?_cons_succ, List.getElem?_nil]
  · intro t1 v1 d1 r1 ht
    obtain ⟨a1, a2, a3⟩ := decimalText_spec d1 r1
    have hsplit : split (trim s) SPACE = [c :: cs, t1] := by
      rw [ht]
      unfold split
      have e2 : c :: cs ++ [SPACE] ++ t1 = (c :: cs) ++ SPACE :: t1 := by simp
      rw [e2, splitLoop_token SPACE (c :: cs) [] _ hnsp,
        splitLoop_last SPACE _ [] a2 (by simpa using a1)]
      simp
    unfold Instruction.fromString
    simp only [hsplit, hty, argOf, List.getElem?_cons_succ, List.getElem?_cons_zero, a3,
      List.getElem?_nil]
  · intro t1 v1 t2 v2 d1 r1 d2 r2 ht
    obtain ⟨a1, a2, a3⟩ := decimalText_spec d1 r1
    obtain ⟨b1, b2, b3⟩ := decimalText_spec d2 r2
    have hsplit : split (trim s) SPACE = [c :: cs, t1, t2] := by
      rw [ht]
      unfold split
      have e2 : c :: cs ++ [SPACE] ++ t1 ++ [SPACE] ++ t2 =
          (c :: cs) ++ SPACE :: (t1 ++ SPACE :: t2) := by simp
      rw [e2, splitLoop_token SPACE (c :: cs) [] _ hnsp,
        splitLoop_token SPACE t1 [] _ a2,
        splitLoop_last SPACE _ [] b2 (by simpa using b1)]
      simp
    unfold Instruction.fromString
    simp only [hsplit, hty, argOf, List.getElem?_cons_succ, List.getElem?_cons_zero, a3, b3]

/-- C21, amended. Parsing contract: when the trimmed text has a first space-delimited token
that is not exactly one of `end, rep, inc, dec, mov, cmp, load, save`, the constructor throws
its `std::runtime_error`; when the trimmed text is one of these names followed by zero, one or
two single-space-separated decimal integers that each fit a 32-bit `int`, it returns the
instruction whose opcode is the index of the name (`end = 0`, ..., `save = 7`), with the
integers given as `arg1`, `arg2` and `-1` for each absent operand. -/
theorem parsing_contract (s : Str) :
    (∀ t0 rest, split (trim s) SPACE = t0 :: rest → t0 ∉ kInsTypename →
      Instruction.fromString s = ParseOutcome.runtime_error) ∧
    (∀ (k : Nat) (name : Str), kInsTypename[k]? = some name →
      (trim s = name → Instruction.fromString s = ParseOutcome.ok ⟨(k : Int), -1, -1⟩) ∧
      (∀ t1 v1, DecimalText t1 v1 → IsInt32 v1 → trim s = name ++ [SPACE] ++ t1 →
        Instruction.fromString s = ParseOutcome.ok ⟨(k : Int), v1, -1⟩) ∧
      (∀ t1 v1 t2 v2, DecimalText t1 v1 → IsInt32 v1 → DecimalText t2 v2 → IsInt32 v2 →
        trim s = name ++ [SPACE] ++ t1 ++ [SPACE] ++ t2 →
        Instruction.fromString s = ParseOutcome.ok ⟨(k : Int), v1, v2⟩)) ∧
    kInsTypename = ["end".toList, "rep".toList, "inc".toList, "dec".toList, "mov".toList,
      "cmp".toList, "load".toList, "save".toList] := by
  refine ⟨?_, fun k name hname => fromString_tokens s name k hname, rfl⟩
  intro t0 rest hsplit hnot
  unfold Instruction.fromString
  simp only [hsplit, (lookup_none_iff t0).2 hnot]

/-- C21, counterexample. The text `mov 2147483648 0` is the name `mov` followed by two
single-space-separated decimal integers, yet the constructor does not return an instruction:
`std::stoi` throws `std::out_of_range` for the first operand. -/
theorem parse_operand_out_of_range :
    trim "mov 2147483648 0".toList =
      "mov".toList ++ [SPACE] ++ "2147483648".toList ++ [SPACE] ++ "0".toList ∧
    DecimalText "2147483648".toList 2147483648 ∧ DecimalText "0".toList 0 ∧
    Instruction.fromString "mov 2147483648 0".toList = ParseOutcome.out_of_range := by
  refine ⟨by decide!, ⟨"2147483648".toList, by decide, by decide, Or.inl ⟨rfl, by decide!⟩⟩,
    ⟨"0".toList, by decide, by decide, Or.inl ⟨rfl, by decide!⟩⟩, by decide!⟩

theorem drawInt_range (gen : Nat → Nat) (k : Nat) {a b : Int} (h : a ≤ b) :
    a ≤ drawInt gen k a b ∧ drawInt gen k a b ≤ b := by
  unfold drawInt
  have h1 : 0 < b - a + 1 := by omega
  have h2 := Int.emod_nonneg (gen k : Int) (by omega : b - a + 1 ≠ 0)
  have h3 := Int.emod_lt_of_pos (gen k : Int) h1
  constructor <;> omega

theorem opcode_cases {t : Int} (h0 : 0 ≤ t) (h7 : t ≤ 7) :
    t = INS_END ∨ t = INS_REP ∨ t = INS_INC ∨ t = INS_DEC ∨ t = INS_MOV ∨ t = INS_CMP ∨
      t = INS_LOAD ∨ t = INS_SAVE := by
  have e0 : INS_END = 0 := rfl
  have e1 : INS_REP = 1 := rfl
  have e2 : INS_INC = 2 := rfl
  have e3 : INS_DEC = 3 := rfl
  have e4 : INS_MOV = 4 := rfl
  have e5 : INS_CMP = 5 := rfl
  have e6 : INS_LOAD = 6 := rfl
  have e7 : INS_SAVE = 7 := rfl
  rw [e0, e1, e2, e3, e4, e5, e6, e7]
  omega

theorem drawType_spec (gen : Nat → Nat) (fuel : Nat) :
    ∀ (pos : Nat) (t : InsType) (p : Nat), drawType gen fuel pos = some (t, p) →
      0 ≤ t ∧ t ≤ 7 ∧ t ≠ INS_END ∧ t ≠ INS_REP ∧ t ≠ INS_CMP := by
  induction fuel with
  | zero => intro pos t p h; simp [drawType] at h
  | succ fuel ih =>
    intro pos t p h
    unfold drawType at h
    simp only [] at h
    split_ifs at h with hc
    · exact ih _ _ _ h
    · simp only [Option.some.injEq, Prod.mk.injEq] at h
      obtain ⟨r1, r2⟩ := drawInt_range gen pos (a := 0) (b := INS_TOTAL - 1) (by decide)
      rw [h.1] at r1 r2 hc
      push_neg at hc
      have e : INS_TOTAL - 1 = 7 := rfl
      rw [e] at r2
      exact ⟨r1, r2, hc.1, hc.2.1, hc.2.2⟩

theorem drawPair_spec (gen : Nat → Nat) {num_reg : Int} (hr : 1 ≤ num_reg) (fuel : Nat) :
    ∀ (pos : Nat) (a1 a2 : Int) (p : Nat), drawPair gen num_reg fuel pos = some (a1, a2, p) →
      0 ≤ a1 ∧ a1 < num_reg ∧ 0 ≤ a2 ∧ a2 < num_reg ∧ a1 ≠ a2 := by
  induction fuel with
  | zero => intro pos a1 a2 p h; simp [drawPair] at h
  | succ fuel ih =>
    intro pos a1 a2 p h
    unfold drawPair at h
    simp only [] at h
    split_ifs at h with hc
    · exact ih _ _ _ _ h
    · simp only [Option.some.injEq, Prod.mk.injEq] at h
      obtain ⟨r1, r2⟩ := drawInt_range gen pos (a := 0) (b := num_reg - 1) (by omega)
      obtain ⟨r3, r4⟩ := drawInt_range gen (pos + 1) (a := 0) (b := num_reg - 1) (by omega)
      rw [h.1] at r1 r2 hc
      rw [h.2.1] at r3 r4 hc
      exact ⟨r1, by omega, r3, by omega, hc⟩

theorem drawOpcode_spec (gen : Nat → Nat) (loop : Bool) (fuel pos : Nat) (t : InsType)
    (p : Nat) (h : drawOpcode gen loop fuel pos = some (t, p)) :
    0 ≤ t ∧ t ≤ 7 ∧ (loop = false → t ≠ INS_END ∧ t ≠ INS_REP ∧ t ≠ INS_CMP) := by
  unfold drawOpcode at h
  cases loop with
  | true =>
    simp only [if_true, Option.some.injEq, Prod.mk.injEq] at h
    obtain ⟨r1, r2⟩ := drawInt_range gen pos (a := 0) (b := INS_TOTAL - 1) (by decide)
    rw [h.1] at r1 r2
    have e : INS_TOTAL - 1 = 7 := rfl
    rw [e] at r2
    exact ⟨r1, r2, fun hh => absurd hh (by simp)⟩
  | false =>
    simp only [Bool.false_eq_true, if_false] at h
    obtain ⟨a, b, c⟩ := drawType_spec gen fuel pos t p h
    exact ⟨a, b, fun _ => c⟩

theorem drawOperands_spec (gen : Nat → Nat) {num_reg : Int} (hr : 1 ≤ num_reg) (fuel : Nat)
    (ins ins2 : Instruction) (pos p : Nat) (h0 : 0 ≤ ins.ins_type) (h7 : ins.ins_type ≤ 7)
    (h : drawOperands gen num_reg fuel ins pos = some (ins2, p)) :
    ins2.ins_type = ins.ins_type ∧ WellFormed num_reg ins2 := by
  obtain ⟨t, x1, x2⟩ := ins
  have k0 : (0 : Int) ≤ t := h0
  have k7 : t ≤ (7 : Int) := h7
  have hcases := opcode_cases k0 k7
  have d1 : ¬ (INS_REP ≤ INS_BOUND_J) := by decide
  have d2 : ¬ (INS_INC ≤ INS_BOUND_J) := by decide
  have d3 : ¬ (INS_DEC ≤ INS_BOUND_J) := by decide
  have d4 : ¬ (INS_MOV ≤ INS_BOUND_J) := by decide
  have d5 : ¬ (INS_CMP ≤ INS_BOUND_J) := by decide
  have d6 : ¬ (INS_LOAD ≤ INS_BOUND_J) := by decide
  have d7 : ¬ (INS_SAVE ≤ INS_BOUND_J) := by decide
  have u0 : INS_END ≤ INS_BOUND_J := by decide
  have u1 : INS_REP ≤ INS_BOUND_UNARY := by decide
  have u2 : INS_INC ≤ INS_BOUND_UNARY := by decide
  have u3 : INS_DEC ≤ INS_BOUND_UNARY := by decide
  have u4 : ¬ (INS_MOV ≤ INS_BOUND_UNARY) := by decide
  have u5 : ¬ (INS_CMP ≤ INS_BOUND_UNARY) := by decide
  have u6 : ¬ (INS_LOAD ≤ INS_BOUND_UNARY) := by decide
  have u7 : ¬ (INS_SAVE ≤ INS_BOUND_UNARY) := by decide
  have unary : ∀ ty : InsType, (ty = INS_REP ∨ ty = INS_INC ∨ ty = INS_DEC) →
      (some (({ ins_type := ty, arg1 := drawInt gen pos 0 (num_reg - 1), arg2 := -1 }
          : Instruction), pos + 1) = some (ins2, p)) →
      ins2.ins_type = ty ∧ WellFormed num_reg ins2 := by
    intro ty hty he
    simp only [Option.some.injEq, Prod.mk.injEq] at he
    obtain ⟨r1, r2⟩ := drawInt_range gen pos (a := 0) (b := num_reg - 1) (by omega)
    rw [← he.1]
    exact ⟨rfl, Or.inr (Or.inl ⟨hty, r1, by show drawInt gen pos 0 (num_reg - 1) < num_reg; omega,
      rfl⟩)⟩
  have binary : ∀ ty : InsType,
      (ty = INS_MOV ∨ ty = INS_CMP ∨ ty = INS_LOAD ∨ ty = INS_SAVE) →
      ((match drawPair gen num_reg fuel pos with
        | none => none
        | some (a1, a2, pos2) =>
          some (({ ins_type := ty, arg1 := a1, arg2 := a2 } : Instruction), pos2))
        = some (ins2, p)) →
      ins2.ins_type = ty ∧ WellFormed num_reg ins2 := by
    intro ty hty he
    cases hd : drawPair gen num_reg fuel pos with
    | none => rw [hd] at he; simp at he
    | some r =>
      obtain ⟨a1, a2, pos2⟩ := r
      rw [hd] at he
      simp only [Option.some.injEq, Prod.mk.injEq] at he
      obtain ⟨q1, q2, q3, q4, q5⟩ := drawPair_spec gen hr fuel pos a1 a2 pos2 hd
      rw [← he.1]
      exact ⟨rfl, Or.inr (Or.inr ⟨hty, q1, q2, q3, q4, q5⟩)⟩
  unfold drawOperands at h
  simp only [] at h
  rcases hcases with rfl | rfl | rfl | rfl | rfl | rfl | rfl | rfl
  · rw [if_pos u0] at h
    simp only [Option.some.injEq, Prod.mk.injEq] at h
    rw [← h.1]
    exact ⟨rfl, Or.inl ⟨rfl, rfl, rfl⟩⟩
  · rw [if_neg d1, if_pos u1] at h
    exact unary _ (Or.inl rfl) h
  · rw [if_neg d2, if_pos u2] at h
    exact unary _ (Or.inr (Or.inl rfl)) h
  · rw [if_neg d3, if_pos u3] at h
    exact unary _ (Or.inr (Or.inr rfl)) h
  · rw [if_neg d4, if_neg u4] at h
    exact binary _ (Or.inl rfl) h
  · rw [if_neg d5, if_neg u5] at h
    exact binary _ (Or.inr (Or.inl rfl)) h
  · rw [if_neg d6, if_neg u6] at h
    exact binary _ (Or.inr (Or.inr (Or.inl rfl))) h
  · rw [if_neg d7, if_neg u7] at h
    exact binary _ (Or.inr (Or.inr (Or.inr rfl))) h

/-- The invariant of the loop of `SampleCode`. -/
theorem sampleLoop_spec (gen : Nat → Nat) {num_reg : Int} (hr : 1 ≤ num_reg) (num_lines : Int)
    (loop : Bool) (fuel : Nat) :
    ∀ (pos : Nat) (ins : Instruction) (code result : List Instruction),
      (code.length : Int) ≤ num_lines →
      (∀ c ∈ code, WellFormed num_reg c ∧
        (loop = false → c.ins_type ≠ INS_END ∧ c.ins_type ≠ INS_REP ∧ c.ins_type ≠ INS_CMP)) →
      sampleLoop gen num_reg num_lines loop fuel pos ins code = some result →
      (result.length : Int) = num_lines ∧
      ∀ c ∈ result, WellFormed num_reg c ∧
        (loop = false → c.ins_type ≠ INS_END ∧ c.ins_type ≠ INS_REP ∧ c.ins_type ≠ INS_CMP) := by
  induction fuel with
  | zero => intro pos ins code result _ _ h; simp [sampleLoop] at h
  | succ fuel ih =>
    intro pos ins code result hlen hall h
    unfold sampleLoop at h
    by_cases hc : (code.length : Int) < num_lines
    · rw [if_neg (not_not.2 hc)] at h
      cases ho : drawOpcode gen loop fuel pos with
      | none => rw [ho] at h; simp at h
      | some r =>
        obtain ⟨t, pos1⟩ := r
        rw [ho] at h
        simp only [] at h
        obtain ⟨t0, t7, tl⟩ := drawOpcode_spec gen loop fuel pos t pos1 ho
        cases hd : drawOperands gen num_reg fuel { ins with ins_type := t } pos1 with
        | none => rw [hd] at h; simp at h
        | some r2 =>
          obtain ⟨ins2, pos2⟩ := r2
          rw [hd] at h
          simp only [] at h
          obtain ⟨w1, w2⟩ := drawOperands_spec gen hr fuel _ ins2 pos1 pos2 t0 t7 hd
          split_ifs at h
          · exact ih _ _ _ _ hlen hall h
          · refine ih _ _ _ _ (by simp; omega) ?_ h
            intro c hcm
            rcases List.mem_append.1 hcm with hcm | hcm
            · exact hall c hcm
            · rw [List.mem_singleton] at hcm
              subst hcm
              exact ⟨w2, fun hl => by rw [w1]; exact tl hl⟩
    · rw [if_pos hc] at h
      simp only [Option.some.injEq] at h
      subst h
      exact ⟨by omega, hall⟩

theorem wellFormed_not_bad {num_reg : Int} {c : Instruction} (h : WellFormed num_reg c) :
    ¬ StructurallyBad num_reg c := by
  have d1 : INS_END ≠ INS_REP := by decide
  have d2 : INS_END ≠ INS_INC := by decide
  have d3 : INS_END ≠ INS_DEC := by decide
  have d4 : INS_END ≠ INS_MOV := by decide
  have d5 : INS_END ≠ INS_CMP := by decide
  have d6 : INS_END ≠ INS_LOAD := by decide
  have d7 : INS_END ≠ INS_SAVE := by decide
  unfold StructurallyBad KnownOpcode
  rcases h with ⟨t, _, _⟩ | ⟨t, a, b, _⟩ | ⟨t, a, b, c1, c2, _⟩
  · rw [t]
    simp [d1, d2, d3, d4, d5, d6, d7]
  · rintro (⟨_, hb⟩ | ⟨hk, _⟩ | hk)
    · omega
    · rcases t with t | t | t <;> rw [t] at hk <;> revert hk <;> decide
    · apply hk
      rcases t with t | t | t <;> simp [t]
  · rintro (⟨hk, _⟩ | ⟨_, hb⟩ | hk)
    · rcases t with t | t | t | t <;> rw [t] at hk <;> revert hk <;> decide
    · omega
    · apply hk
      rcases t with t | t | t | t <;> simp [t]

theorem drawType_mono (gen : Nat → Nat) (d : Nat) (fuel : Nat) :
    ∀ (pos : Nat) (r : InsType × Nat), drawType gen fuel pos = some r →
      drawType gen (fuel + d) pos = some r := by
  induction fuel with
  | zero => intro pos r h; simp [drawType] at h
  | succ fuel ih =>
    intro pos r h
    rw [Nat.add_right_comm]
    unfold drawType at h ⊢
    simp only [] at h ⊢
    split_ifs at h ⊢
    · exact ih _ _ h
    · exact h

theorem drawPair_mono (gen : Nat → Nat) (num_reg : Int) (d : Nat) (fuel : Nat) :
    ∀ (pos : Nat) (r : Int × Int × Nat), drawPair gen num_reg fuel pos = some r →
      drawPair gen num_reg (fuel + d) pos = some r := by
  induction fuel with
  | zero => intro pos r h; simp [drawPair] at h
  | succ fuel ih =>
    intro pos r h
    rw [Nat.add_right_comm]
    unfold drawPair at h ⊢
    simp only [] at h ⊢
    split_ifs at h ⊢
    · exact ih _ _ h
    · exact h

theorem drawOpcode_mono (gen : Nat → Nat) (loop : Bool) (d fuel pos : Nat) (r : InsType × Nat)
    (h : drawOpcode gen loop fuel pos = some r) : drawOpcode gen loop (fuel + d) pos = some r := by
  unfold drawOpcode at h ⊢
  split_ifs at h ⊢
  · exact h
  · exact drawType_mono gen d fuel pos r h

theorem drawOperands_mono (gen : Nat → Nat) (num_reg : Int) (d fuel : Nat) (ins : Instruction)
    (pos : Nat) (r : Instruction × Nat) (h : drawOperands gen num_reg fuel ins pos = some r) :
    drawOperands gen num_reg (fuel + d) ins pos = some r := by
  unfold drawOperands at h ⊢
  split_ifs at h ⊢
  · exact h
  · exact h
  · cases hd : drawPair gen num_reg fuel pos with
    | none => rw [hd] at h; simp at h
    | some q =>
      rw [hd] at h
      rw [drawPair_mono gen num_reg d fuel pos q hd]
      exact h

/-- A larger bound on the iterations does not change what the loop returns. -/
theorem sampleLoop_mono (gen : Nat → Nat) (num_reg num_lines : Int) (loop : Bool) (d : Nat)
    (fuel : Nat) :
    ∀ (pos : Nat) (ins : Instruction) (code result : List Instruction),
      sampleLoop gen num_reg num_lines loop fuel pos ins code = some result →
      sampleLoop gen num_reg num_lines loop (fuel + d) pos ins code = some result := by
  induction fuel with
  | zero => intro pos ins code result h; simp [sampleLoop] at h
  | succ fuel ih =>
    intro pos ins code result h
    rw [Nat.add_right_comm]
    unfold sampleLoop at h ⊢
    by_cases hc : (code.length : Int) < num_lines
    · rw [if_neg (not_not.2 hc)] at h ⊢
      cases ho : drawOpcode gen loop fuel pos with
      | none => rw [ho] at h; simp at h
      | some r =>
        obtain ⟨t, pos1⟩ := r
        rw [ho] at h
        rw [drawOpcode_mono gen loop d fuel pos _ ho]
        simp only [] at h ⊢
        cases hd : drawOperands gen num_reg fuel { ins with ins_type := t } pos1 with
        | none => rw [hd] at h; simp at h
        | some r2 =>
          obtain ⟨ins2, pos2⟩ := r2
          rw [hd] at h
          rw [drawOperands_mono gen num_reg d fuel _ pos1 _ hd]
          simp only [] at h ⊢
          split_ifs at h ⊢
          · exact ih _ _ _ _ h
          · exact ih _ _ _ _ h
    · rw [if_pos hc] at h ⊢
      exact h

/-- C25. Sampled programs are well formed: whenever `SampleCode(num_reg, num_lines, loop)`
returns (on a generator stream and within some bound on its loop iterations), the result has
exactly `num_lines` instructions; every `END` has operands `(-1, -1)`, every `REP`, `INC`, `DEC`
has `arg1` in `[0, num_reg)` and `arg2 = -1`, every `MOV`, `CMP`, `LOAD`, `SAVE` has both
operands in `[0, num_reg)` and distinct; in loop-free mode no `END`, `REP` or `CMP` occurs;
`Load` on a machine with `num_reg` registers accepts the result; and a larger bound on the
iterations returns the same result. -/
theorem sampled_programs_well_formed (gen : Nat → Nat) (num_reg num_lines : Int) (loop : Bool)
    (fuel : Nat) (code : List Instruction)
    (h : SampleCode gen num_reg num_lines loop fuel = SampleOutcome.returned code) :
    (code.length : Int) = num_lines ∧
    (∀ c ∈ code, WellFormed num_reg c) ∧
    (loop = false → ∀ c ∈ code,
      c.ins_type ≠ INS_END ∧ c.ins_type ≠ INS_REP ∧ c.ins_type ≠ INS_CMP) ∧
    (∀ m : Machine, (m.state.register.length : Int) = num_reg → m.Load code ≠ none) ∧
    (∀ d, SampleCode gen num_reg num_lines loop (fuel + d) = SampleOutcome.returned code) := by
  unfold SampleCode at h
  by_cases hu : num_reg - 1 < 0 ∨ num_lines - 1 < 0
  · rw [if_pos hu] at h
    exact absurd h (by simp)
  · rw [if_neg hu] at h
    push_neg at hu
    cases hs : sampleLoop gen num_reg num_lines loop fuel 0 {} [] with
    | none => rw [hs] at h; exact absurd h (by simp)
    | some result =>
      rw [hs] at h
      simp only [SampleOutcome.returned.injEq] at h
      subst h
      obtain ⟨h1, h2⟩ := sampleLoop_spec gen (by omega) num_lines loop fuel 0 {} [] result
        (by simp; omega) (by simp) hs
      refine ⟨h1, fun c hc => (h2 c hc).1, fun hl c hc => (h2 c hc).2 hl, ?_, ?_⟩
      · intro m hm hn
        rw [Load_none_iff] at hn
        obtain ⟨c, hc, hbad⟩ := hn
        rw [hm] at hbad
        exact wellFormed_not_bad (h2 c hc).1 hbad
      · intro d
        unfold SampleCode
        have hu2 : ¬ (num_reg - 1 < 0 ∨ num_lines - 1 < 0) := by omega
        rw [if_neg hu2, sampleLoop_mono gen num_reg num_lines loop d fuel 0 {} [] result hs]

theorem sampled_programs_well_formed_witness :
    ((([⟨INS_REP, 2, -1⟩, ⟨INS_CMP, 2, 1⟩, ⟨INS_INC, 1, -1⟩, ⟨INS_INC, 1, -1⟩,
        ⟨INS_INC, 1, -1⟩, ⟨INS_INC, 1, -1⟩] : List Instruction).length : Nat) : Int) = 6 ∧
    (∀ c ∈ ([⟨INS_REP, 2, -1⟩, ⟨INS_CMP, 2, 1⟩, ⟨INS_INC, 1, -1⟩, ⟨INS_INC, 1, -1⟩,
        ⟨INS_INC, 1, -1⟩, ⟨INS_INC, 1, -1⟩] : List Instruction), WellFormed 4 c) ∧
    (true = false → ∀ c ∈ ([⟨INS_REP, 2, -1⟩, ⟨INS_CMP, 2, 1⟩, ⟨INS_INC, 1, -1⟩,
        ⟨INS_INC, 1, -1⟩, ⟨INS_INC, 1, -1⟩, ⟨INS_INC, 1, -1⟩] : List Instruction),
      c.ins_type ≠ INS_END ∧ c.ins_type ≠ INS_REP ∧ c.ins_type ≠ INS_CMP) ∧
    (∀ m : Machine, (m.state.register.length : Int) = 4 →
      m.Load [⟨INS_REP, 2, -1⟩, ⟨INS_CMP, 2, 1⟩, ⟨INS_INC, 1, -1⟩, ⟨INS_INC, 1, -1⟩,
        ⟨INS_INC, 1, -1⟩, ⟨INS_INC, 1, -1⟩] ≠ none) ∧
    (∀ d, SampleCode sampleGen 4 6 true (50 + d) = SampleOutcome.returned
      [⟨INS_REP, 2, -1⟩, ⟨INS_CMP, 2, 1⟩, ⟨INS_INC, 1, -1⟩, ⟨INS_INC, 1, -1⟩,
        ⟨INS_INC, 1, -1⟩, ⟨INS_INC, 1, -1⟩]) :=
  sampled_programs_well_formed sampleGen 4 6 true 50
    [⟨INS_REP, 2, -1⟩, ⟨INS_CMP, 2, 1⟩, ⟨INS_INC, 1, -1⟩, ⟨INS_INC, 1, -1⟩,
      ⟨INS_INC, 1, -1⟩, ⟨INS_INC, 1, -1⟩] (by decide!)

/-- A run that records its trace leaves a non-empty trace when the step budget is positive. -/
theorem Run_trace_nonempty {m : Machine} (hl : Linked m) (hd : m.dump_all_state = true)
    (hrc : m.state.return_code = RES_RUNNING) (hcnt : m.state.counter = 0)
    (hpc : m.state.pc = 0) (hX : 0 < m.max_code_run) : m.Run.dumped_states ≠ [] := by
  obtain ⟨a, b, c, d, e, f⟩ := runStart_fields m
  have hl0 : Linked m.runStart := linked_of_fields hl b c d (by rw [a])
  have hd0 : m.runStart.dump_all_state = true := by rw [f]; exact hd
  have hT0 : m.runStart.dumped_states = [] := by simp [Machine.runStart, hd]
  obtain ⟨n, _, hT, hdL, _, halt⟩ := runLoop_trace
    (m.runStart.max_code_run - m.runStart.state.counter).toNat hl0 hd0 (by rw [a]; exact hrc)
  obtain ⟨_, _, _, _, hxL, _⟩ := runLoop_linked
    (m.runStart.max_code_run - m.runStart.state.counter).toNat hl0 (by rw [a, hpc])
    (by rw [a, hpc]; omega)
  have hrun : m.Run = runFinish (runLoop
      (m.runStart.max_code_run - m.runStart.state.counter).toNat m.runStart) := rfl
  generalize runLoop (m.runStart.max_code_run - m.runStart.state.counter).toNat m.runStart = L
    at hT hdL halt hxL hrun
  rw [hT0, List.nil_append] at hT
  have e1 : RES_MEM_OOB ≠ RES_RUNNING := by decide
  have hlen : L.dumped_states.length = n := by rw [hT]; simp
  rw [hrun, runFinish_trace hdL]
  rcases halt with ⟨a1, a2, _⟩ | ⟨a1, a2⟩
  · rw [if_neg (by rw [a1]; exact e1)]
    intro h0
    rw [h0] at hlen
    simp at hlen
    omega
  · rw [if_pos a1]
    split_ifs with hmx
    · intro h0
      rw [h0] at hlen
      simp at hlen
      rw [a, hcnt, hxL, e] at *
      omega
    · simp

theorem withInit_fields {m : Machine} (h : Linked m) (reg : Register) (mem : Memory) :
    Linked (m.withInit reg mem) ∧ (m.withInit reg mem).state.return_code = RES_RUNNING ∧
    (m.withInit reg mem).state.counter = 0 ∧ (m.withInit reg mem).state.pc = 0 ∧
    (m.withInit reg mem).state.register.length = m.state.register.length ∧
    (m.withInit reg mem).state.memory.length = m.state.memory.length := by
  obtain ⟨i1, i2, i3, _, i5, i6⟩ := Init_fields m.state reg mem
  exact ⟨linked_of_fields h rfl rfl rfl i5, i3, i2, i1, i5, i6⟩

/-- One pass of the loop of `reload_code`: the machine stays linked and tracing with the same
program, block map, budget and vector sizes, and the trace of the run is not empty. -/
theorem reload_pass {m : Machine} (hl : Linked m) (hd : m.dump_all_state = true)
    (hX : 0 < m.max_code_run) (reg : Register) (mem : Memory) :
    Linked (m.withInit reg mem).Run ∧ (m.withInit reg mem).Run.dump_all_state = true ∧
    (m.withInit reg mem).Run.max_code_run = m.max_code_run ∧
    (m.withInit reg mem).Run.program = m.program ∧
    (m.withInit reg mem).Run.control_map = m.control_map ∧
    (m.withInit reg mem).Run.state.register.length = m.state.register.length ∧
    (m.withInit reg mem).Run.state.memory.length = m.state.memory.length ∧
    (m.withInit reg mem).Run.dumped_states ≠ [] := by
  obtain ⟨w1, w2, w3, w4, w5, w6⟩ := withInit_fields hl reg mem
  obtain ⟨r1, r2, r3, _, r5, r6, r7, r8, _⟩ := Run_linked w1 w2 w4
  exact ⟨r1, r6.trans hd, r5, r3, r2, r7.trans w5, r8.trans w6,
    Run_trace_nonempty w1 hd w2 w3 w4 hX⟩

/-- The loop of `reload_code` appends one non-empty trace per memory. -/
theorem reloadLoop_spec (init_reg : Register) :
    ∀ (mems : List Memory) (m : Machine) (states : List (List MachineState))
      (maps : List PcMap), Linked m → m.dump_all_state = true → 0 < m.max_code_run →
      (∀ t ∈ states, t ≠ []) →
      (reloadLoop init_reg mems m states maps).2.1.length = states.length + mems.length ∧
      (∀ t ∈ (reloadLoop init_reg mems m states maps).2.1, t ≠ []) := by
  intro mems
  induction mems with
  | nil =>
    intro m states maps _ _ _ hs
    exact ⟨rfl, hs⟩
  | cons mem rest ih =>
    intro m states maps hl hd hX hs
    obtain ⟨p1, p2, p3, _, _, _, _, p8⟩ := reload_pass hl hd hX init_reg mem
    obtain ⟨a, b⟩ := ih (m.withInit init_reg mem).Run
      (states ++ [(m.withInit init_reg mem).Run.dumped_states])
      (maps ++ [(m.withInit init_reg mem).Run.pc2states]) p1 p2 (by rw [p3]; exact hX)
      (by
        intro t ht
        rcases List.mem_append.1 ht with h1 | h1
        · exact hs t h1
        · rw [List.mem_singleton.1 h1]; exact p8)
    refine ⟨?_, b⟩
    show (reloadLoop init_reg rest _ _ _).2.1.length = _
    rw [a]
    simp only [List.length_append, List.length_cons, List.length_nil]
    omega

/-- The halt codes of the runs of `reload_code` are those of the runs of the loaded machine from
each memory: a run leaves nothing behind that the next `Init` and `Run` read. -/
theorem reloadCodes_eq (init_reg : Register) :
    ∀ (mems : List Memory) (m : Machine), Linked m → m.dump_all_state = true →
      0 < m.max_code_run →
      reloadCodes init_reg mems m =
        mems.map fun mem => (m.withInit init_reg mem).Run.state.return_code := by
  intro mems
  induction mems with
  | nil => intro m _ _ _; rfl
  | cons mem rest ih =>
    intro m hl hd hX
    obtain ⟨p1, p2, p3, p4, p5, p6, p7, _⟩ := reload_pass hl hd hX init_reg mem
    show _ :: reloadCodes init_reg rest (m.withInit init_reg mem).Run = _
    rw [ih _ p1 p2 (by rw [p3]; exact hX), List.map_cons]
    congr 1
    apply List.map_congr_left
    intro mem2 _
    have hs : ((m.withInit init_reg mem).Run.withInit init_reg mem2).state =
        (m.withInit init_reg mem2).state := Init_congr p6 p7 init_reg mem2
    rw [@Run_congr ((m.withInit init_reg mem).Run.withInit init_reg mem2)
      (m.withInit init_reg mem2) p4 p5 p3 hs]

/-- What `reload_code` leaves: one non-empty trace for each memory. -/
theorem reload_code_spec {g g2 : CodegenGame} (h : g.reload_code = some g2)
    (hX : 0 < g.machine.max_code_run) :
    g2.memories = g.memories ∧ g2.code_pruned = g.code_pruned ∧
    g2.all_states.length = g.memories.length ∧ (∀ t ∈ g2.all_states, t ≠ []) ∧
    g2.init_reg = g.init_reg := by
  unfold CodegenGame.reload_code at h
  cases hload : g.machine.Load g.code_pruned with
  | none => rw [hload] at h; simp at h
  | some m1 =>
    rw [hload] at h
    simp only [Option.some.injEq] at h
    obtain ⟨_, hl1, hst, hmax, _⟩ := Load_spec hload
    have hl : Linked (m1.SetDumpAll true) := linked_of_fields hl1 rfl rfl rfl rfl
    obtain ⟨a, b⟩ := reloadLoop_spec g.init_reg g.memories (m1.SetDumpAll true) [] [] hl rfl
      (by show 0 < m1.max_code_run; rw [hmax]; exact hX) (by simp)
    subst h
    refine ⟨rfl, rfl, ?_, b, rfl⟩
    show (reloadLoop g.init_reg g.memories (m1.SetDumpAll true) [] []).2.1.length = _
    rw [a]; simp

/-- On a recorded, non-empty trace `get_half_feature` returns the (non-zero) size of a
feature vector, for the first and for the last snapshot. -/
theorem get_half_feature_pos (g : CodegenGame) (i : Nat) (t : List MachineState)
    (ht : g.all_states[i]? = some t) (f : List Int) (offset : Int)
    (idx : Int) (h0 : 0 ≤ idx) (h1 : idx < t.length) :
    (g.get_half_feature i idx f offset).1 ≠ 0 := by
  have hi : i < g.all_states.length := by
    rcases Nat.lt_or_ge i g.all_states.length with h | h
    · exact h
    · rw [List.getElem?_eq_none h] at ht; simp at ht
  unfold CodegenGame.get_half_feature
  rw [if_neg (by push_neg; constructor <;> omega), Int.toNat_ofNat, ht]
  simp only []
  rw [if_neg (by push_neg; constructor <;> omega)]
  have hj : idx.toNat < t.length := by omega
  rw [List.getElem?_eq_getElem hj]
  simp only []
  rw [GetFeature_length]
  omega

/-- The loop over the samples never sets `retry` when every sample has a non-empty trace. -/
theorem featureLoop_no_retry (g : CodegenGame) :
    ∀ (k i : Nat) (state : GameState) (o1 o2 : Int),
      (∀ j, i ≤ j → j < i + k → ∃ t, g.all_states[j]? = some t ∧ t ≠ []) →
      (featureLoop g k i state o1 o2 false).2 = false := by
  intro k
  induction k with
  | zero => intro i state o1 o2 _; rfl
  | succ k ih =>
    intro i state o1 o2 h
    obtain ⟨t, ht, hne⟩ := h i (le_refl _) (by omega)
    have hpos : 0 < t.length := List.length_pos.2 hne
    have hget : g.all_states.getD i [] = t := by
      rw [List.getD_eq_getElem?_getD, ht]; rfl
    have a := get_half_feature_pos g i t ht state.mem_in o1 0 (le_refl _)
      (by omega)
    have b := get_half_feature_pos g i t ht state.mem_out o2 ((t.length : Int) - 1)
      (by omega) (by omega)
    rw [featureLoop]
    simp only [Bool.false_eq_true, if_false, hget]
    have hdec : decide ((g.get_half_feature i 0 state.mem_in o1).1 = 0 ∨
        (g.get_half_feature i ((t.length : Int) - 1) state.mem_out o2).1 = 0) = false := by
      rw [decide_eq_false_iff_not]
      push_neg
      exact ⟨a, b⟩
    rw [hdec]
    exact ih (i + 1) _ _ _ (fun j h1 h2 => h j (by omega) (by omega))

/-- The loop of `get_pruned_code` writes `code_pruned` only. -/
theorem get_pruned_code_machine (loop : Bool) (gens rands : Nat → Nat → Nat) (sfuel : Nat) :
    ∀ (fuel k : Nat) (g g1 : CodegenGame),
      get_pruned_code loop gens rands sfuel fuel k g = some g1 → g1.machine = g.machine := by
  intro fuel
  induction fuel with
  | zero => intro k g g1 h; simp [get_pruned_code] at h
  | succ fuel ih =>
    intro k g g1 h
    rw [get_pruned_code] at h
    split at h
    · split at h
      · simp at h
      · split_ifs at h
        · simp only [Option.some.injEq] at h
          rw [← h]
        · have e := ih _ _ _ h
          exact e
    · simp at h

/-- A trial of `GenerateProgram` never sets `retry`: the first trial either lets an exception
escape or returns. -/
theorem trialLoop_first (program : Option Str) (trialGen : Nat → Nat → Nat)
    (gens rands : Nat → Nat → Nat → Nat) (sfuel pfuel n k : Nat) (g : CodegenGame)
    (state : GameState) (hX : 0 < g.machine.max_code_run) :
    trialLoop program trialGen gens rands sfuel pfuel (n + 1) k g state = GenOutcome.escaped ∨
    ∃ g2 st, trialLoop program trialGen gens rands sfuel pfuel (n + 1) k g state =
      GenOutcome.returned g2 st k := by
  simp only [trialLoop]
  generalize hcoded : (match program with
      | none => get_pruned_code g.use_loop (gens k) (rands k) sfuel pfuel 0 g
      | some text =>
        match LoadCodeFromString text with
        | none => none
        | some code => some { g with code_pruned := code }) = coded
  have hmach : ∀ g1, coded = some g1 → g1.machine = g.machine := by
    intro g1 h1
    rw [← hcoded] at h1
    cases program with
    | none => exact get_pruned_code_machine _ _ _ _ _ _ _ _ h1
    | some text =>
      simp only [] at h1
      split at h1
      · simp at h1
      · simp only [Option.some.injEq] at h1
        rw [← h1]
  cases coded with
  | none => exact Or.inl rfl
  | some g1 =>
    simp only []
    cases hre : (g1.regenerate_memory (trialGen k)).reload_code with
    | none => exact Or.inl rfl
    | some g2 =>
      simp only []
      obtain ⟨a, _, c, d, _⟩ := reload_code_spec hre (by
        show 0 < g1.machine.max_code_run
        rw [hmach g1 rfl]; exact hX)
      have hno := featureLoop_no_retry g2 g2.memories.length 0 state 0 0 (by
        intro j _ hj
        have hj2 : j < g2.all_states.length := by rw [c, ← a]; omega
        exact ⟨g2.all_states[j], List.getElem?_eq_getElem hj2,
          d _ (List.getElem_mem hj2)⟩)
      rw [hno]
      exact Or.inr ⟨_, _, rfl⟩

/-- A trial on a program text that parses and links returns the game that `reload_code`
leaves. -/
theorem trialLoop_text {text : Str} {code : List Instruction} (trialGen : Nat → Nat → Nat)
    (gens rands : Nat → Nat → Nat → Nat) (sfuel pfuel n k : Nat) {g g2 : CodegenGame}
    (state : GameState) (hparse : LoadCodeFromString text = some code)
    (hre : (({ g with code_pruned := code } : CodegenGame).regenerate_memory
      (trialGen k)).reload_code = some g2)
    (hX : 0 < g.machine.max_code_run) :
    ∃ st, trialLoop (some text) trialGen gens rands sfuel pfuel (n + 1) k g state =
      GenOutcome.returned g2 st k := by
  simp only [trialLoop, hparse, hre]
  obtain ⟨a, _, c, d, _⟩ := reload_code_spec hre hX
  have hno := featureLoop_no_retry g2 g2.memories.length 0 state 0 0 (by
    intro j _ hj
    have hj2 : j < g2.all_states.length := by rw [c, ← a]; omega
    exact ⟨g2.all_states[j], List.getElem?_eq_getElem hj2, d _ (List.getElem_mem hj2)⟩)
  rw [hno]
  exact ⟨_, rfl⟩

theorem loadCode_selfLoop : LoadCodeFromString selfLoopText = some repIncSelfEnd := by
  decide!

/-- On the machine of a default game, `rep 0; inc 0; end` started by `Init` with the game's
`init_reg` (`r0 = 10`) halts with `RES_MAX_CODE_RUN_REACHED` on every memory. -/
theorem selfLoop_default_run {m1 : Machine}
    (hload : (Machine.new 4 10).Load repIncSelfEnd = some m1) (mem : Memory) :
    ((m1.SetDumpAll true).withInit [10, 0, 0, 0] mem).Run.state.return_code =
      RES_MAX_CODE_RUN_REACHED := by
  obtain ⟨mR, hrun, hrc, _⟩ := selfLoop_reaches_budget 10 [0, 0, 0] 10 mem 1000
    (by decide) (by decide)
  have key : loadInitRun 1000 10 repIncSelfEnd (10 :: [0, 0, 0]) mem =
      some ({ m1 with state := m1.state.Init [10, 0, 0, 0] mem }).Run := by
    unfold loadInitRun
    have hload2 : ((Machine.new ([10, 0, 0, 0] : List Int).length 10).SetMaxCodeRun 1000).Load
        repIncSelfEnd = some m1 := hload
    rw [hload2]
  rw [key] at hrun
  simp only [Option.some.injEq] at hrun
  rw [← hrun] at hrc
  rw [@Run_congr ((m1.SetDumpAll true).withInit [10, 0, 0, 0] mem)
    { m1 with state := m1.state.Init [10, 0, 0, 0] mem } rfl rfl rfl rfl]
  exact hrc

/-- C24 (the code departs from the claim). `GenerateProgram` never looks at the halt code of a
sample run: `reload_code` discards the value returned by `Run`, and `retry` is set only when
`get_half_feature` returns 0, which with trace recording on and the default budget never
happens. (a) For every game whose machine has a positive step budget, every program argument
and every state of the generators, the call does not raise the fatal error: it returns in its
first trial, or an exception of parsing, linking or sampling escapes. (b) For the default game
and the program text `rep 0;inc 0;end` (`r0` initialised to 10) the call returns in trial 0,
although each of the 10 sample runs halted with `RES_MAX_CODE_RUN_REACHED`. -/
theorem generate_ignores_halt_code (opt_eval_only opt_use_loop : Bool) (state : GameState)
    (trialGen : Nat → Nat → Nat) (gens rands : Nat → Nat → Nat → Nat) (sfuel pfuel : Nat) :
    (∀ (g : CodegenGame) (program : Option Str), 0 < g.machine.max_code_run →
      g.GenerateProgram state program trialGen gens rands sfuel pfuel ≠ GenOutcome.fatal ∧
      (g.GenerateProgram state program trialGen gens rands sfuel pfuel = GenOutcome.escaped ∨
        ∃ g2 st, g.GenerateProgram state program trialGen gens rands sfuel pfuel =
          GenOutcome.returned g2 st 0)) ∧
    ∃ g2 st m1,
      (CodegenGame.new opt_eval_only opt_use_loop).GenerateProgram state (some selfLoopText)
        trialGen gens rands sfuel pfuel = GenOutcome.returned g2 st 0 ∧
      LoadCodeFromString selfLoopText = some repIncSelfEnd ∧
      g2.code_pruned = repIncSelfEnd ∧ g2.init_reg = [10, 0, 0, 0] ∧
      g2.memories = ((CodegenGame.new opt_eval_only opt_use_loop).regenerate_memory
        (trialGen 0)).memories ∧
      g2.memories.length = 10 ∧ g2.all_states.length = 10 ∧
      (CodegenGame.new opt_eval_only opt_use_loop).machine.Load repIncSelfEnd = some m1 ∧
      reloadCodes g2.init_reg g2.memories (m1.SetDumpAll true) =
        List.replicate 10 RES_MAX_CODE_RUN_REACHED := by
  constructor
  · intro g program hX
    have h := trialLoop_first program trialGen gens rands sfuel pfuel 99 0 g
      { state with
        mem_in := List.replicate (g.GetEnsembleMachineStateDim * g.num_memory_sample).toNat 0,
        mem_out := List.replicate (g.GetEnsembleMachineStateDim * g.num_memory_sample).toNat 0,
        code := List.replicate
          (g.max_program_length_after_pruning * g.instruction_dim).toNat 0 } hX
    have e : g.GenerateProgram state program trialGen gens rands sfuel pfuel =
        trialLoop program trialGen gens rands sfuel pfuel (99 + 1) 0 g
          { state with
            mem_in := List.replicate
              (g.GetEnsembleMachineStateDim * g.num_memory_sample).toNat 0,
            mem_out := List.replicate
              (g.GetEnsembleMachineStateDim * g.num_memory_sample).toNat 0,
            code := List.replicate
              (g.max_program_length_after_pruning * g.instruction_dim).toNat 0 } := rfl
    rw [e]
    refine ⟨?_, h⟩
    rcases h with h | ⟨g2, st, h⟩ <;> rw [h] <;> simp
  · have hsome : ((Machine.new 4 10).Load repIncSelfEnd).isSome = true := by decide!
    obtain ⟨m1, hload⟩ := Option.isSome_iff_exists.1 hsome
    obtain ⟨_, hl1, _, hmax, _⟩ := Load_spec hload
    have hl : Linked (m1.SetDumpAll true) := linked_of_fields hl1 rfl rfl rfl rfl
    have hre : (({ CodegenGame.new opt_eval_only opt_use_loop with
          code_pruned := repIncSelfEnd } : CodegenGame).regenerate_memory
          (trialGen 0)).reload_code =
        some { (({ CodegenGame.new opt_eval_only opt_use_loop with
            code_pruned := repIncSelfEnd } : CodegenGame).regenerate_memory (trialGen 0)) with
          machine := (reloadLoop [10, 0, 0, 0]
            ((CodegenGame.new opt_eval_only opt_use_loop).regenerate_memory
              (trialGen 0)).memories (m1.SetDumpAll true) [] []).1,
          all_states := (reloadLoop [10, 0, 0, 0]
            ((CodegenGame.new opt_eval_only opt_use_loop).regenerate_memory
              (trialGen 0)).memories (m1.SetDumpAll true) [] []).2.1,
          pc2states := (reloadLoop [10, 0, 0, 0]
            ((CodegenGame.new opt_eval_only opt_use_loop).regenerate_memory
              (trialGen 0)).memories (m1.SetDumpAll true) [] []).2.2 } := by
      unfold CodegenGame.reload_code
      have hload2 : (({ CodegenGame.new opt_eval_only opt_use_loop with
          code_pruned := repIncSelfEnd } : CodegenGame).regenerate_memory
          (trialGen 0)).machine.Load
          (({ CodegenGame.new opt_eval_only opt_use_loop with
          code_pruned := repIncSelfEnd } : CodegenGame).regenerate_memory
          (trialGen 0)).code_pruned = some m1 := hload
      rw [hload2]
      rfl
    have hb0 : (0 : Int) < (Machine.new 4 10).max_code_run := by decide
    obtain ⟨st, hret⟩ := trialLoop_text trialGen gens rands sfuel pfuel 99 0
      { state with
        mem_in := List.replicate ((CodegenGame.new opt_eval_only
          opt_use_loop).GetEnsembleMachineStateDim * (CodegenGame.new opt_eval_only
          opt_use_loop).num_memory_sample).toNat 0,
        mem_out := List.replicate ((CodegenGame.new opt_eval_only
          opt_use_loop).GetEnsembleMachineStateDim * (CodegenGame.new opt_eval_only
          opt_use_loop).num_memory_sample).toNat 0,
        code := List.replicate ((CodegenGame.new opt_eval_only
          opt_use_loop).max_program_length_after_pruning * (CodegenGame.new opt_eval_only
          opt_use_loop).instruction_dim).toNat 0 } loadCode_selfLoop hre hb0
    obtain ⟨_, _, c, _, _⟩ := reload_code_spec hre hb0
    have hlen : ((CodegenGame.new opt_eval_only opt_use_loop).regenerate_memory
        (trialGen 0)).memories.length = 10 := by
      simp [CodegenGame.regenerate_memory, CodegenGame.new]
    refine ⟨_, st, m1, hret, loadCode_selfLoop, rfl, rfl, rfl, hlen, c.trans hlen, hload, ?_⟩
    rw [reloadCodes_eq _ _ _ hl rfl (by show 0 < m1.max_code_run; rw [hmax]; decide)]
    show List.map _ ((CodegenGame.new opt_eval_only opt_use_loop).regenerate_memory
        (trialGen 0)).memories = _
    rw [List.eq_replicate_iff]
    refine ⟨by rw [List.length_map]; exact hlen, ?_⟩
    intro b hb
    obtain ⟨mem, _, rfl⟩ := List.mem_map.1 hb
    exact selfLoop_default_run hload mem

theorem check_oob_eq {a R d : Int} (h : check_oob a R = some d) : d = a := by
  unfold check_oob at h
  split_ifs at h
  simp only [Option.some.injEq] at h
  exact h.symm

/-- A closure bound by `parse_one_line` is the lambda of its instruction. -/
theorem parse_closureBody {R idx : Int} {c : Instruction} {f : Closure}
    (h : parse_one_line R idx c = some f) : f = closureBody c idx := by
  unfold parse_one_line at h
  unfold closureBody
  split_ifs at h ⊢
  · split at h
    · simp at h
    · rename_i d hd
      simp only [Option.some.injEq] at h
      rw [← h, check_oob_eq hd]
      try rfl
  · simp only [Option.some.injEq] at h
    rw [← h]
    try rfl
  · split at h
    · simp at h
    · rename_i d hd
      split at h
      · simp at h
      · rename_i s hs
        simp only [Option.some.injEq] at h
        rw [← h, check_oob_eq hd, check_oob_eq hs]
        try rfl
  · split at h
    · simp at h
    · rename_i d hd
      simp only [Option.some.injEq] at h
      rw [← h, check_oob_eq hd]
      try rfl
  · split at h
    · simp at h
    · rename_i d hd
      simp only [Option.some.injEq] at h
      rw [← h, check_oob_eq hd]
      try rfl
  · split at h
    · simp at h
    · rename_i d hd
      split at h
      · simp at h
      · rename_i s hs
        simp only [Option.some.injEq] at h
        rw [← h, check_oob_eq hd, check_oob_eq hs]
        try rfl
  · split at h
    · simp at h
    · rename_i d hd
      split at h
      · simp at h
      · rename_i s hs
        simp only [Option.some.injEq] at h
        rw [← h, check_oob_eq hd, check_oob_eq hs]
        try rfl
  · split at h
    · simp at h
    · rename_i d hd
      split at h
      · simp at h
      · rename_i s hs
        simp only [Option.some.injEq] at h
        rw [← h, check_oob_eq hd, check_oob_eq hs]
        try rfl

theorem shiftIndex_inj (i : Int) {x y : Int} (h : shiftIndex i x = shiftIndex i y) : x = y := by
  unfold shiftIndex at h
  split_ifs at h <;> omega

theorem shiftIndex_ne (i x : Int) : shiftIndex i x ≠ i + 1 := by
  unfold shiftIndex
  split_ifs <;> omega

theorem shiftIndex_succ {i x : Int} (h : x ≠ i) : shiftIndex i (x + 1) = shiftIndex i x + 1 := by
  unfold shiftIndex
  split_ifs <;> omega

theorem shiftIndex_le (i x : Int) : x ≤ shiftIndex i x ∧ shiftIndex i x ≤ x + 1 := by
  unfold shiftIndex
  split_ifs <;> omega

/-- The lambda of an instruction acts in the same way at index `j` with the block map `cm` and
at the shifted index `j2` with the shifted block map `cm2`: it reads and writes registers and
memory only, and a jump goes to the shifted target. -/
theorem closureBody_shift (i : Int) (c : Instruction) (j j2 p k : Int) (st : MachineState)
    (cm cm2 : ControlMap)
    (hopen : c.ins_type = INS_REP ∨ c.ins_type = INS_CMP →
      ∃ t, cm j = some t ∧ cm2 j2 = some (shiftIndex i t))
    (hend : c.ins_type = INS_END → cm2 j2 = (cm j).map (shiftIndex i)) :
    (closureBody c j st cm = none ∧
      closureBody c j2 { st with pc := p, counter := k } cm2 = none) ∨
    ∃ (st1 : MachineState) (q q2 : Int),
      closureBody c j st cm = some ({ st1 with pc := q }, cm) ∧
      closureBody c j2 { st with pc := p, counter := k } cm2 =
        some ({ st1 with pc := q2, counter := k }, cm2) ∧
      st1.counter = st.counter ∧ st1.return_code = st.return_code ∧ st1.flag = st.flag ∧
      ((q = st.pc ∧ q2 = p) ∨
       (c.ins_type = INS_REP ∧ ∃ t, cm j = some t ∧ q = t ∧ q2 = shiftIndex i t) ∨
       ((c.ins_type = INS_END ∨ c.ins_type = INS_CMP) ∧
          ∃ t, q = t - 1 ∧ q2 = shiftIndex i t - 1)) := by
  unfold closureBody
  generalize (if c.ins_type = INS_INC then (1 : Int) else -1) = inc
  split_ifs with h1 h2 h3 h4 h5 h6
  · -- REP
    obtain ⟨t, ht, ht2⟩ := hopen (Or.inl h1)
    simp only [MachineState.reg, MachineState.setReg]
    cases hr : getCell st.register c.arg1 with
    | none => left; simp
    | some v =>
      simp only []
      by_cases hv : v > 0
      · simp only [if_pos hv]
        cases hs : setCell st.register c.arg1 (v - 1) with
        | none => left; simp
        | some r =>
          right
          exact ⟨{ st with register := r }, st.pc, p, rfl, rfl, rfl, rfl, rfl, Or.inl ⟨rfl, rfl⟩⟩
      · simp only [if_neg hv]
        right
        refine ⟨st, t, shiftIndex i t, ?_, ?_, rfl, rfl, rfl, Or.inr (Or.inl ⟨h1, t, ht, rfl, rfl⟩)⟩
        · simp [ControlMap.index, ht]
        · simp [ControlMap.index, ht2]
  · -- END
    have he := hend h2
    cases hcm : cm j with
    | none =>
      rw [hcm] at he
      right
      refine ⟨st, st.pc, p, ?_, ?_, rfl, rfl, rfl, Or.inl ⟨rfl, rfl⟩⟩
      · simp [hcm]
      · simp only [Option.map_none'] at he
        simp [he]
    | some v =>
      rw [hcm] at he
      right
      refine ⟨st, v - 1, shiftIndex i v - 1, ?_, ?_, rfl, rfl, rfl,
        Or.inr (Or.inr ⟨Or.inl h2, v, rfl, rfl⟩)⟩
      · simp [hcm]
      · simp only [Option.map_some'] at he
        simp [he]
  · -- MOV
    simp only [MachineState.reg, MachineState.setReg]
    cases hr : getCell st.register c.arg2 with
    | none => left; simp
    | some v =>
      simp only []
      cases hs : setCell st.register c.arg1 v with
      | none => left; simp
      | some r =>
        right
        exact ⟨{ st with register := r }, st.pc, p, rfl, rfl, rfl, rfl, rfl, Or.inl ⟨rfl, rfl⟩⟩
  · -- INC, DEC
    simp only [MachineState.reg, MachineState.setReg]
    cases hr : getCell st.register c.arg1 with
    | none => left; simp
    | some v =>
      simp only []
      cases hs : setCell st.register c.arg1 (v + inc) with
      | none => left; simp
      | some r =>
        right
        exact ⟨{ st with register := r }, st.pc, p, rfl, rfl, rfl, rfl, rfl, Or.inl ⟨rfl, rfl⟩⟩
  · -- CMP
    obtain ⟨t, ht, ht2⟩ := hopen (Or.inr h5)
    simp only [MachineState.reg]
    cases hr : getCell st.register c.arg1 with
    | none => left; simp
    | some v1 =>
      simp only []
      cases hs : getCell st.register c.arg2 with
      | none => left; simp
      | some v2 =>
        simp only []
        right
        by_cases hv : v1 ≥ v2
        · simp only [if_pos hv]
          refine ⟨st, t - 1, shiftIndex i t - 1, ?_, ?_, rfl, rfl, rfl,
            Or.inr (Or.inr ⟨Or.inr h5, t, rfl, rfl⟩)⟩
          · simp [ControlMap.index, ht]
          · simp [ControlMap.index, ht2]
        · simp only [if_neg hv]
          exact ⟨st, st.pc, p, rfl, rfl, rfl, rfl, rfl, Or.inl ⟨rfl, rfl⟩⟩
  · -- LOAD
    simp only [MachineState.reg, MachineState.setReg, MachineState.mem]
    cases hr : getCell st.register c.arg2 with
    | none => left; simp
    | some a =>
      simp only []
      cases hm : getCell st.memory a with
      | none => left; simp
      | some v =>
        simp only []
        cases hs : setCell st.register c.arg1 v with
        | none => left; simp
        | some r =>
          right
          exact ⟨{ st with register := r }, st.pc, p, rfl, rfl, rfl, rfl, rfl,
            Or.inl ⟨rfl, rfl⟩⟩
  · -- SAVE
    simp only [MachineState.reg, MachineState.setMem]
    cases hr : getCell st.register c.arg2 with
    | none => left; simp
    | some a =>
      simp only []
      cases hm : getCell st.register c.arg1 with
      | none => left; simp
      | some v =>
        simp only []
        cases hs : setCell st.memory a v with
        | none => left; simp
        | some r =>
          right
          exact ⟨{ st with memory := r }, st.pc, p, rfl, rfl, rfl, rfl, rfl,
            Or.inl ⟨rfl, rfl⟩⟩

theorem setCell_eq {v r : List Int} {d y : Int} (h : setCell v d y = some r) :
    0 ≤ d ∧ d < v.length ∧ r = v.set d.toNat y := by
  unfold setCell at h
  split_ifs at h with hc
  simp only [Option.some.injEq] at h
  exact ⟨by omega, by omega, h.symm⟩

theorem setCell_again {v r : List Int} {d y : Int} (h : setCell v d y = some r) :
    setCell r d y = some r := by
  obtain ⟨h0, h1, rfl⟩ := setCell_eq h
  unfold setCell
  rw [if_neg (by simp only [List.length_set]; omega), List.set_set]

theorem getCell_set_ne {v r : List Int} {d s x y : Int} (h : setCell v d y = some r)
    (hs : getCell v s = some x) (hne : d ≠ s) : getCell r s = some x := by
  obtain ⟨h0, h1, rfl⟩ := setCell_eq h
  unfold getCell at hs ⊢
  split_ifs at hs with hc
  rw [if_neg (by simp only [List.length_set]; exact hc)]
  rw [List.getElem?_set_ne (by omega)]
  exact hs

/-- A `mov`, `load` or `save` with distinct operands that has just been executed changes
nothing when it is executed again. -/
theorem closureBody_twice {c : Instruction}
    (hop : c.ins_type = INS_MOV ∨ c.ins_type = INS_LOAD ∨ c.ins_type = INS_SAVE)
    (hne : c.arg1 ≠ c.arg2) (j j2 p k : Int) {st st1 : MachineState} {cm cm1 : ControlMap}
    (h : closureBody c j st cm = some (st1, cm1)) (cm2 : ControlMap) :
    closureBody c j2 { st1 with pc := p, counter := k } cm2 =
      some ({ st1 with pc := p, counter := k }, cm2) := by
  have e1 : INS_MOV ≠ INS_REP := by decide
  have e2 : INS_MOV ≠ INS_END := by decide
  have f1 : INS_LOAD ≠ INS_REP := by decide
  have f2 : INS_LOAD ≠ INS_END := by decide
  have f3 : INS_LOAD ≠ INS_MOV := by decide
  have f4 : INS_LOAD ≠ INS_INC := by decide
  have f5 : INS_LOAD ≠ INS_DEC := by decide
  have f6 : INS_LOAD ≠ INS_CMP := by decide
  have g1 : INS_SAVE ≠ INS_REP := by decide
  have g2 : INS_SAVE ≠ INS_END := by decide
  have g3 : INS_SAVE ≠ INS_MOV := by decide
  have g4 : INS_SAVE ≠ INS_INC := by decide
  have g5 : INS_SAVE ≠ INS_DEC := by decide
  have g6 : INS_SAVE ≠ INS_CMP := by decide
  have g7 : INS_SAVE ≠ INS_LOAD := by decide
  unfold closureBody at h ⊢
  rcases hop with hop | hop | hop
  · simp only [hop, e1, e2, if_false, if_true, MachineState.reg, MachineState.setReg] at h ⊢
    cases hr : getCell st.register c.arg2 with
    | none => rw [hr] at h; simp at h
    | some v =>
      rw [hr] at h
      simp only [] at h
      cases hs : setCell st.register c.arg1 v with
      | none => rw [hs] at h; simp at h
      | some r =>
        rw [hs] at h
        simp only [Option.some.injEq, Prod.mk.injEq] at h
        obtain ⟨rfl, rfl⟩ := h
        simp only [getCell_set_ne hs hr hne, setCell_again hs]
  · simp only [hop, f1, f2, f3, f4, f5, f6, or_self, if_false, if_true, MachineState.reg,
      MachineState.setReg, MachineState.mem] at h ⊢
    cases hr : getCell st.register c.arg2 with
    | none => rw [hr] at h; simp at h
    | some a =>
      rw [hr] at h
      simp only [] at h
      cases hm : getCell st.memory a with
      | none => rw [hm] at h; simp at h
      | some v =>
        rw [hm] at h
        simp only [] at h
        cases hs : setCell st.register c.arg1 v with
        | none => rw [hs] at h; simp at h
        | some r =>
          rw [hs] at h
          simp only [Option.some.injEq, Prod.mk.injEq] at h
          obtain ⟨rfl, rfl⟩ := h
          simp only [getCell_set_ne hs hr hne, hm, setCell_again hs]
  · simp only [hop, g1, g2, g3, g4, g5, g6, g7, or_self, if_false, MachineState.reg,
      MachineState.setMem] at h ⊢
    cases hr : getCell st.register c.arg2 with
    | none => rw [hr] at h; simp at h
    | some a =>
      rw [hr] at h
      simp only [] at h
      cases hm : getCell st.register c.arg1 with
      | none => rw [hm] at h; simp at h
      | some v =>
        rw [hm] at h
        simp only [] at h
        cases hs : setCell st.memory a v with
        | none => rw [hs] at h; simp at h
        | some r =>
          rw [hs] at h
          simp only [Option.some.injEq, Prod.mk.injEq] at h
          obtain ⟨rfl, rfl⟩ := h
          simp only [hr, hm, setCell_again hs]

theorem insert_shift {i : Int} {cm cm2 : ControlMap}
    (hmap : ∀ x, cm2 (shiftIndex i x) = (cm x).map (shiftIndex i))
    (hfresh : cm2 (i + 1) = none) (k v : Int) :
    (∀ x, (cm2.insert (shiftIndex i k) (shiftIndex i v)) (shiftIndex i x) =
      ((cm.insert k v) x).map (shiftIndex i)) ∧
    (cm2.insert (shiftIndex i k) (shiftIndex i v)) (i + 1) = none := by
  constructor
  · intro x
    unfold ControlMap.insert
    by_cases hx : x = k
    · subst hx; simp
    · have hx2 : shiftIndex i x ≠ shiftIndex i k := fun h => hx (shiftIndex_inj i h)
      rw [if_neg hx2, if_neg hx]
      exact hmap x
  · unfold ControlMap.insert
    rw [if_neg (fun h => shiftIndex_ne i k h.symm)]
    exact hfresh

theorem closeBlock_shift {i : Int} {s s2 : LinkState} (h : ShiftRel i s s2)
    (p : Int) (rest : List Int) (e : Int) :
    ShiftRel i (closeBlock s p rest e)
      (closeBlock s2 (shiftIndex i p) (rest.map (shiftIndex i)) (shiftIndex i e)) := by
  unfold closeBlock
  refine ⟨?_, rfl, ?_, ?_⟩
  · show s2.control_type >>> 1 = s.control_type >>> 1
    rw [h.type_eq]
  · intro x
    simp only [h.type_eq]
    split_ifs
    · obtain ⟨a, b⟩ := insert_shift h.map_eq h.fresh e p
      exact (insert_shift a b p e).1 x
    · exact (insert_shift h.map_eq h.fresh p e).1 x
  · simp only [h.type_eq]
    split_ifs
    · obtain ⟨a, b⟩ := insert_shift h.map_eq h.fresh e p
      exact (insert_shift a b p e).2
    · exact (insert_shift h.map_eq h.fresh p e).2

/-- The scan of `Machine::Load` over the same instructions at shifted indices keeps the locals
related. -/
theorem linkScan_shift (i : Int) :
    ∀ (cs : List Instruction) (j j2 : Int) (s s2 : LinkState), ShiftRel i s s2 →
      (∀ k : Nat, k < cs.length → shiftIndex i (j + k) = j2 + k) →
      ShiftRel i (linkScan cs j s) (linkScan cs j2 s2) := by
  intro cs
  induction cs with
  | nil => intro j j2 s s2 h _; exact h
  | cons c cs ih =>
    intro j j2 s s2 h hidx
    have h0 : shiftIndex i j = j2 := by
      have := hidx 0 (by simp)
      simpa using this
    have hrest : ∀ k : Nat, k < cs.length → shiftIndex i (j + 1 + k) = j2 + 1 + k := by
      intro k hk
      have := hidx (k + 1) (by simp only [List.length_cons]; omega)
      push_cast at this
      rw [show j + 1 + (k : Int) = j + ((k : Int) + 1) by ring,
        show j2 + 1 + (k : Int) = j2 + ((k : Int) + 1) by ring]
      exact this
    simp only [linkScan]
    split_ifs with h1 h2 h3
    · refine ih _ _ _ _ ⟨?_, ?_, h.map_eq, h.fresh⟩ hrest
      · show wrap32 (s2.control_type * 2) = wrap32 (s.control_type * 2)
        rw [h.type_eq]
      · show j2 :: s2.control_pc = (j :: s.control_pc).map (shiftIndex i)
        rw [List.map_cons, h0, h.stack_eq]
    · refine ih _ _ _ _ ⟨?_, ?_, h.map_eq, h.fresh⟩ hrest
      · show wrap32 (wrap32 (s2.control_type * 2) + 1) = wrap32 (wrap32 (s.control_type * 2) + 1)
        rw [h.type_eq]
      · show j2 :: s2.control_pc = (j :: s.control_pc).map (shiftIndex i)
        rw [List.map_cons, h0, h.stack_eq]
    · have hst := h.stack_eq
      cases hs : s.control_pc with
      | nil =>
        rw [hs] at hst
        simp only [List.map_nil] at hst
        rw [hst]
        exact ih _ _ _ _ h hrest
      | cons p rest =>
        rw [hs] at hst
        simp only [List.map_cons] at hst
        rw [hst]
        simp only []
        subst h0
        exact ih _ _ _ _ (closeBlock_shift h p rest j) hrest
    · exact ih _ _ _ _ h hrest

theorem shiftRel_start (i : Int) : ShiftRel i LinkState.start LinkState.start :=
  ⟨rfl, rfl, fun _ => rfl, rfl⟩

theorem linkScan_plain {c : Instruction} (h1 : c.ins_type ≠ INS_REP)
    (h2 : c.ins_type ≠ INS_CMP) (h3 : c.ins_type ≠ INS_END) (cs : List Instruction) (j : Int)
    (s : LinkState) : linkScan (c :: cs) j s = linkScan cs (j + 1) s := by
  simp only [linkScan, if_neg h1, if_neg h2, if_neg h3]

/-- The scans of `Machine::Load` over a program and over the program with a doubled
non-control instruction end with related locals. -/
theorem scan_doubled (A T : List Instruction) {c : Instruction} (h1 : c.ins_type ≠ INS_REP)
    (h2 : c.ins_type ≠ INS_CMP) (h3 : c.ins_type ≠ INS_END) :
    ShiftRel A.length (linkScan (A ++ c :: T) 0 LinkState.start)
      (linkScan (A ++ c :: c :: T) 0 LinkState.start) := by
  rw [linkScan_append, linkScan_append, linkScan_plain h1 h2 h3, linkScan_plain h1 h2 h3,
    linkScan_plain h1 h2 h3]
  have hA : ShiftRel A.length (linkScan A 0 LinkState.start) (linkScan A 0 LinkState.start) :=
    linkScan_shift A.length A 0 0 _ _ (shiftRel_start _) (by
      intro k hk
      unfold shiftIndex
      rw [if_pos (by omega)])
  refine linkScan_shift A.length T _ _ _ _ hA ?_
  intro k _
  unfold shiftIndex
  rw [if_neg (by omega)]
  ring

theorem mov_load_save_plain {c : Instruction}
    (h : c.ins_type = INS_MOV ∨ c.ins_type = INS_LOAD ∨ c.ins_type = INS_SAVE) :
    c.ins_type ≠ INS_REP ∧ c.ins_type ≠ INS_CMP ∧ c.ins_type ≠ INS_END := by
  have e1 : INS_MOV ≠ INS_REP := by decide
  have e2 : INS_MOV ≠ INS_CMP := by decide
  have e3 : INS_MOV ≠ INS_END := by decide
  have f1 : INS_LOAD ≠ INS_REP := by decide
  have f2 : INS_LOAD ≠ INS_CMP := by decide
  have f3 : INS_LOAD ≠ INS_END := by decide
  have g1 : INS_SAVE ≠ INS_REP := by decide
  have g2 : INS_SAVE ≠ INS_CMP := by decide
  have g3 : INS_SAVE ≠ INS_END := by decide
  rcases h with h | h | h <;> rw [h] <;> exact ⟨by assumption, by assumption, by assumption⟩

theorem doubled_maps {A T : List Instruction} {c : Instruction} {m m2 : Machine}
    (h : Doubled A T c m m2) (x : Int) :
    m2.control_map (shiftIndex A.length x) = (m.control_map x).map (shiftIndex A.length) := by
  obtain ⟨p1, p2, p3⟩ := mov_load_save_plain h.op
  rw [h.l1.map_eq, h.l2.map_eq, h.code1, h.code2]
  exact (scan_doubled A T p1 p2 p3).map_eq x

theorem doubled_get (A T : List Instruction) (c : Instruction) (j : Int) (h0 : 0 ≤ j) :
    (A ++ c :: c :: T)[(shiftIndex A.length j).toNat]? = (A ++ c :: T)[j.toNat]? := by
  unfold shiftIndex
  split_ifs with h
  · rcases Nat.lt_or_ge j.toNat A.length with h1 | h1
    · rw [List.getElem?_append_left h1, List.getElem?_append_left h1]
    · have e : j.toNat = A.length := by omega
      rw [e, List.getElem?_append_right (le_refl _), List.getElem?_append_right (le_refl _)]
      simp
  · have e : (j + 1).toNat = j.toNat + 1 := by omega
    have h1 : A.length ≤ j.toNat := by omega
    rw [e, List.getElem?_append_right (by omega), List.getElem?_append_right h1]
    obtain ⟨d, hd⟩ : ∃ d, j.toNat - A.length = d + 1 := ⟨j.toNat - A.length - 1, by omega⟩
    have e2 : j.toNat + 1 - A.length = d + 2 := by omega
    rw [hd, e2]
    simp

theorem doubled_lengths {A T : List Instruction} {c : Instruction} {m m2 : Machine}
    (h : Doubled A T c m m2) :
    (m.program.length : Int) = A.length + 1 + T.length ∧
    (m2.program.length : Int) = A.length + 2 + T.length := by
  rw [linked_length_eq h.l1, linked_length_eq h.l2, h.code1, h.code2]
  simp only [List.length_append, List.length_cons]
  push_cast
  constructor <;> ring

theorem doubled_cond {A T : List Instruction} {c : Instruction} {m m2 : Machine}
    (h : Doubled A T c m m2) (hc : loopCond m2) : loopCond m := by
  obtain ⟨a, b⟩ := doubled_lengths h
  obtain ⟨c0, c1, c2⟩ := hc
  have hp := h.pcs
  have hb := h.budget
  have hcnt := h.cnt
  unfold shiftIndex at hp
  refine ⟨?_, ?_, ?_⟩ <;> split_ifs at hp <;> omega

theorem doubled_final {A T : List Instruction} {c : Instruction} {m m2 : Machine}
    (h : Doubled A T c m m2) (hc : ¬ loopCond m2)
    (hx : m2.state.counter ≠ m2.max_code_run) :
    ¬ loopCond m ∧ m.state.counter ≠ m.max_code_run := by
  obtain ⟨a, b⟩ := doubled_lengths h
  have hp := h.pcs
  have hb := h.budget
  have hcnt := h.cnt
  have hcnt2 := h.cnt2
  unfold shiftIndex at hp
  unfold loopCond at hc ⊢
  constructor
  · rintro ⟨c0, c1, c2⟩
    apply hc
    refine ⟨?_, ?_, ?_⟩ <;> split_ifs at hp <;> omega
  · omega

/-- A pass of the loop whose closure throws. -/
theorem loopBody_throw {m : Machine} {f : Closure}
    (hprog : m.program[m.state.pc.toNat]? = some f)
    (hf : f m.state m.control_map = none) :
    (loopBody m).2 = true ∧
    (loopBody m).1.state = { m.state with return_code := RES_MEM_OOB } := by
  rw [loopBody_of m f hprog, hf]
  exact ⟨rfl, rfl⟩

theorem state_eq_of_fields {s s2 : MachineState} (hr : s2.register = s.register)
    (hm : s2.memory = s.memory) (hf : s2.flag = s.flag)
    (hrc : s2.return_code = s.return_code) :
    s2 = { s with pc := s2.pc, counter := s2.counter } := by
  cases s
  cases s2
  simp only [MachineState.mk.injEq] at *
  simp [hr, hm, hf, hrc]

theorem getElem_middle (A T : List Instruction) (c : Instruction) :
    (A ++ c :: T)[A.length]? = some c := by
  rw [List.getElem?_append_right (le_refl _)]
  simp

/-- The closures that the two machines of `Doubled` are about to run, and what they do. -/
theorem doubled_closures {A T : List Instruction} {c : Instruction} {m m2 : Machine}
    (h : Doubled A T c m m2) (hc2 : loopCond m2) :
    ∃ c1, m.code[m.state.pc.toNat]? = some c1 ∧
      m.program[m.state.pc.toNat]? = some (closureBody c1 m.state.pc) ∧
      m2.program[m2.state.pc.toNat]? = some (closureBody c1 m2.state.pc) ∧
      ((closureBody c1 m.state.pc m.state m.control_map = none ∧
          closureBody c1 m2.state.pc m2.state m2.control_map = none) ∨
        ∃ (st1 : MachineState) (q q2 : Int),
          closureBody c1 m.state.pc m.state m.control_map =
            some ({ st1 with pc := q }, m.control_map) ∧
          closureBody c1 m2.state.pc m2.state m2.control_map =
            some ({ st1 with pc := q2, counter := m2.state.counter }, m2.control_map) ∧
          st1.counter = m.state.counter ∧ st1.return_code = m.state.return_code ∧
          st1.flag = m.state.flag ∧
          ((q = m.state.pc ∧ q2 = m2.state.pc) ∨
           (m.state.pc ≠ A.length ∧ q2 + 1 = shiftIndex A.length (q + 1)))) := by
  have hc1 := doubled_cond h hc2
  obtain ⟨c1, f1, hcode1, hprog1, hparse1⟩ := linked_closure_at h.l1 hc1.1 hc1.2.1
  obtain ⟨c2, f2, hcode2, hprog2, hparse2⟩ := linked_closure_at h.l2 hc2.1 hc2.2.1
  have hcc : c2 = c1 := by
    have e := doubled_get A T c m.state.pc hc1.1
    rw [← h.code1, ← h.code2, ← h.pcs, hcode1, hcode2] at e
    simp only [Option.some.injEq] at e
    exact e
  subst hcc
  rw [parse_closureBody hparse1] at hprog1
  rw [parse_closureBody hparse2] at hprog2
  refine ⟨c2, hcode1, hprog1, hprog2, ?_⟩
  have hst := state_eq_of_fields h.regs h.mems h.flags (h.rc2.trans h.rc1.symm)
  have hopen : c2.ins_type = INS_REP ∨ c2.ins_type = INS_CMP →
      ∃ t, m.control_map m.state.pc = some t ∧
        m2.control_map m2.state.pc = some (shiftIndex A.length t) := by
    intro hop
    obtain ⟨e, he, _⟩ := linked_opener_key h.l1 (x := m.state.pc) ⟨hc1.1, c2, hcode1, hop⟩
    refine ⟨e, he, ?_⟩
    rw [h.pcs, doubled_maps h, he]
    rfl
  have hend : c2.ins_type = INS_END →
      m2.control_map m2.state.pc = (m.control_map m.state.pc).map (shiftIndex A.length) := by
    intro _
    rw [h.pcs, doubled_maps h]
  have key := closureBody_shift A.length c2 m.state.pc m2.state.pc m2.state.pc
    m2.state.counter m.state m.control_map m2.control_map hopen hend
  rw [← hst] at key
  rcases key with hnone | ⟨st1, q, q2, k1, k2, k3, k4, k5, k6⟩
  · exact Or.inl hnone
  · refine Or.inr ⟨st1, q, q2, k1, k2, k3, k4, k5, ?_⟩
    rcases k6 with ⟨a, b⟩ | ⟨hrep, t, ht, rfl, rfl⟩ | ⟨hjmp, t, rfl, rfl⟩
    · exact Or.inl ⟨a, b⟩
    · right
      obtain ⟨e, he, _, _, hE⟩ := linked_opener_key h.l1 (x := m.state.pc)
        ⟨hc1.1, c2, hcode1, Or.inl hrep⟩
      rw [ht] at he
      simp only [Option.some.injEq] at he
      subst he
      obtain ⟨p1, p2, p3⟩ := mov_load_save_plain h.op
      have hci : m.code[A.length]? = some c := by rw [h.code1]; exact getElem_middle A T c
      have hti : q ≠ A.length := by
        intro heq
        obtain ⟨_, c5, hc5, hc6⟩ := hE
        rw [heq] at hc5
        simp only [Int.toNat_ofNat] at hc5
        rw [hci] at hc5
        simp only [Option.some.injEq] at hc5
        rw [← hc5] at hc6
        exact p3 hc6
      have hpi : m.state.pc ≠ A.length := by
        intro heq
        rw [heq] at hcode1
        simp only [Int.toNat_ofNat] at hcode1
        rw [hci] at hcode1
        simp only [Option.some.injEq] at hcode1
        rw [← hcode1] at hrep
        exact p1 hrep
      exact ⟨hpi, (shiftIndex_succ hti).symm⟩
    · right
      have hpi : m.state.pc ≠ A.length := by
        intro heq
        obtain ⟨p1, p2, p3⟩ := mov_load_save_plain h.op
        have hci : m.code[A.length]? = some c := by rw [h.code1]; exact getElem_middle A T c
        rw [heq] at hcode1
        simp only [Int.toNat_ofNat] at hcode1
        rw [hci] at hcode1
        simp only [Option.some.injEq] at hcode1
        rw [← hcode1] at hjmp
        rcases hjmp with hj | hj
        · exact p3 hj
        · exact p2 hj
      exact ⟨hpi, by simp⟩

/-- One pass of the loop on both machines of `Doubled`: both break with a fault; or both
complete, and then the machines are related again, unless the pass ran the first copy of the
doubled instruction, after which the second machine stands before the second copy with the
registers and memory of the first. -/
theorem doubled_pass {A T : List Instruction} {c : Instruction} {m m2 : Machine}
    (h : Doubled A T c m m2) (hc2 : loopCond m2) :
    ((loopBody m).2 = true ∧ (loopBody m2).2 = true ∧
      (loopBody m).1.state = { m.state with return_code := RES_MEM_OOB } ∧
      (loopBody m2).1.state = { m2.state with return_code := RES_MEM_OOB }) ∨
    ((loopBody m).2 = false ∧ (loopBody m2).2 = false ∧
      ((m.state.pc ≠ A.length ∧ Doubled A T c (loopBody m).1 (loopBody m2).1) ∨
       (m.state.pc = A.length ∧ ∃ (s : MachineState) (cm : ControlMap),
          closureBody c A.length m2.state m2.control_map = some (s, cm) ∧
          (loopBody m2).1.state =
            { s with pc := A.length + 1, counter := m2.state.counter + 1 } ∧
          (loopBody m).1.state =
            { s with pc := A.length + 1, counter := m.state.counter + 1 } ∧
          s.return_code = RES_RUNNING))) := by
  have hc1 := doubled_cond h hc2
  obtain ⟨c1, hcode1, hprog1, hprog2, hcase⟩ := doubled_closures h hc2
  rcases hcase with ⟨n1, n2⟩ | ⟨st1, q, q2, k1, k2, k3, k4, k5, k6⟩
  · obtain ⟨a1, a2⟩ := loopBody_throw hprog1 n1
    obtain ⟨b1, b2⟩ := loopBody_throw hprog2 n2
    exact Or.inl ⟨a1, b1, a2, b2⟩
  · obtain ⟨⟨a1, a2⟩, _⟩ := loopBody_exec hprog1 k1
    obtain ⟨⟨b1, b2⟩, _⟩ := loopBody_exec hprog2 k2
    refine Or.inr ⟨a1, b1, ?_⟩
    obtain ⟨x1, _, _, x4, x5, _⟩ := loopBody_linked h.l1 hc1
    obtain ⟨y1, _, _, y4, y5, _⟩ := loopBody_linked h.l2 hc2
    have hpcs := h.pcs
    by_cases hpi : m.state.pc = A.length
    · right
      refine ⟨hpi, { st1 with pc := q2, counter := m2.state.counter }, m2.control_map,
        ?_, ?_, ?_, ?_⟩
      · have e := k2
        rw [hpcs, hpi] at e
        have e2 : shiftIndex (A.length : Int) (A.length : Int) = A.length := by
          unfold shiftIndex; rw [if_pos (le_refl _)]
        rw [e2] at e
        have hcc : c1 = c := by
          rw [hpi] at hcode1
          simp only [Int.toNat_ofNat] at hcode1
          rw [h.code1, getElem_middle] at hcode1
          simp only [Option.some.injEq] at hcode1
          exact hcode1.symm
        rw [hcc] at e
        exact e
      · rw [b2]
        rcases k6 with ⟨_, hq2⟩ | ⟨hne, _⟩
        · rw [hq2, hpcs, hpi]
          unfold shiftIndex
          rw [if_pos (le_refl _)]
        · exact absurd hpi hne
      · rw [a2]
        rcases k6 with ⟨hq, _⟩ | ⟨hne, _⟩
        · rw [hq, hpi, k3]
        · exact absurd hpi hne
      · exact k4.trans h.rc1
    · left
      refine ⟨hpi, ?_⟩
      have hcnt := h.cnt
      have hlt := hc2.2.2
      exact {
        l1 := x1
        l2 := y1
        code1 := x4.trans h.code1
        code2 := y4.trans h.code2
        op := h.op
        ne := h.ne
        regs := by rw [a2, b2]
        mems := by rw [a2, b2]
        flags := by rw [a2, b2]
        budget := by rw [x5, y5]; exact h.budget
        pcs := by
          rw [a2, b2]
          rcases k6 with ⟨hq, hq2⟩ | ⟨_, hq⟩
          · show q2 + 1 = shiftIndex A.length (q + 1)
            rw [hq, hq2, hpcs, shiftIndex_succ hpi]
          · exact hq
        rc1 := by rw [a2]; exact k4.trans h.rc1
        rc2 := by rw [b2]; exact k4.trans h.rc1
        cnt := by
          rw [a2, b2]
          show st1.counter + 1 ≤ m2.state.counter + 1
          omega
        cnt2 := by
          left
          rw [b2, y5]
          show m2.state.counter + 1 ≤ m2.max_code_run
          omega }

theorem getElem_second (A T : List Instruction) (c : Instruction) :
    (A ++ c :: c :: T)[A.length + 1]? = some c := by
  rw [List.getElem?_append_right (by omega)]
  simp

/-- The pass that runs the second copy of the doubled instruction changes nothing but `pc` and
`counter`, and brings the two machines back into relation. -/
theorem doubled_second {A T : List Instruction} {c : Instruction} {m m2 : Machine}
    (h : Doubled A T c m m2) (hc2 : loopCond m2) {s : MachineState} {cm : ControlMap}
    (hs : closureBody c A.length m2.state m2.control_map = some (s, cm))
    (e2 : (loopBody m2).1.state =
      { s with pc := A.length + 1, counter := m2.state.counter + 1 })
    (e1 : (loopBody m).1.state =
      { s with pc := A.length + 1, counter := m.state.counter + 1 })
    (hrc : s.return_code = RES_RUNNING) (hc3 : loopCond (loopBody m2).1) :
    (loopBody (loopBody m2).1).2 = false ∧
    Doubled A T c (loopBody m).1 (loopBody (loopBody m2).1).1 := by
  have hc1 := doubled_cond h hc2
  obtain ⟨x1, _, _, x4, x5, _⟩ := loopBody_linked h.l1 hc1
  obtain ⟨y1, _, _, y4, y5, _⟩ := loopBody_linked h.l2 hc2
  obtain ⟨z1, _, _, z4, z5, _⟩ := loopBody_linked y1 hc3
  obtain ⟨c3, f3, hcode3, hprog3, hparse3⟩ := linked_closure_at y1 hc3.1 hc3.2.1
  have hpc3 : (loopBody m2).1.state.pc = A.length + 1 := by rw [e2]
  have hcc : c3 = c := by
    rw [hpc3, y4, h.code2] at hcode3
    have e : ((A.length : Int) + 1).toNat = A.length + 1 := by omega
    rw [e, getElem_second] at hcode3
    simp only [Option.some.injEq] at hcode3
    exact hcode3.symm
  subst hcc
  rw [parse_closureBody hparse3] at hprog3
  have htw := closureBody_twice h.op h.ne A.length (loopBody m2).1.state.pc
    ((A.length : Int) + 1) (m2.state.counter + 1) hs (loopBody m2).1.control_map
  rw [← e2] at htw
  obtain ⟨⟨b1, b2⟩, _⟩ := loopBody_exec hprog3 htw
  refine ⟨b1, ?_⟩
  have hcnt := h.cnt
  have hlt := hc3.2.2
  rw [e2, y5] at hlt
  exact {
    l1 := x1
    l2 := z1
    code1 := x4.trans h.code1
    code2 := z4.trans (y4.trans h.code2)
    op := h.op
    ne := h.ne
    regs := by rw [b2, e1, e2]
    mems := by rw [b2, e1, e2]
    flags := by rw [b2, e1, e2]
    budget := by rw [x5, z5, y5]; exact h.budget
    pcs := by
      rw [b2, e1, e2]
      show (A.length : Int) + 1 + 1 = shiftIndex A.length (A.length + 1)
      unfold shiftIndex
      rw [if_neg (by omega)]
    rc1 := by rw [e1]; exact hrc
    rc2 := by rw [b2, e2]; exact hrc
    cnt := by
      rw [b2, e1, e2]
      show m.state.counter + 1 ≤ m2.state.counter + 1 + 1
      omega
    cnt2 := by
      left
      rw [b2, e2, z5, y5]
      show m2.state.counter + 1 + 1 ≤ m2.max_code_run
      have : (m2.state.counter + 1 : Int) < m2.max_code_run := hlt
      omega }

theorem runLoop_step {m : Machine} (hc : loopCond m) (hb : (loopBody m).2 = false) (k : Nat) :
    runLoop (k + 1) m = runLoop k (loopBody m).1 := by
  rw [runLoop_succ, if_pos hc, hb]
  rfl

theorem runLoop_stop {m : Machine} (hc : loopCond m) (hb : (loopBody m).2 = true) (k : Nat) :
    runLoop (k + 1) m = (loopBody m).1 := by
  rw [runLoop_succ, if_pos hc, if_pos hb]

/-- The stuttering simulation: when the loop of `Run` on the program with the doubled
instruction ends within the budget, the loop on the original program ends within the budget
with the same registers, memory and halt code. -/
theorem doubled_run {A T : List Instruction} {c : Instruction} :
    ∀ (n2 : Nat) (m m2 : Machine), Doubled A T c m m2 → EndedInBudget (runLoop n2 m2) →
      ∃ n, EndedInBudget (runLoop n m) ∧
        (runLoop n m).state.register = (runLoop n2 m2).state.register ∧
        (runLoop n m).state.memory = (runLoop n2 m2).state.memory ∧
        (runLoop n m).state.return_code = (runLoop n2 m2).state.return_code := by
  intro n2
  induction n2 using Nat.strong_induction_on with
  | _ n2 ih =>
    intro m m2 h hend
    have e1 : RES_RUNNING ≠ RES_MEM_OOB := by decide
    by_cases hc2 : loopCond m2
    · have hc1 := doubled_cond h hc2
      cases n2 with
      | zero =>
        rw [runLoop_zero] at hend
        rcases hend with hx | ⟨_, hx, _⟩
        · rw [h.rc2] at hx; exact absurd hx e1
        · exact absurd hc2 hx
      | succ k =>
        rcases doubled_pass h hc2 with ⟨a1, b1, a2, b2⟩ | ⟨a1, b1, hcase⟩
        · refine ⟨1, ?_, ?_, ?_, ?_⟩
          · rw [runLoop_stop hc1 a1 0]
            left; rw [a2]
          · rw [runLoop_stop hc1 a1 0, runLoop_stop hc2 b1 k, a2, b2]
            exact h.regs.symm
          · rw [runLoop_stop hc1 a1 0, runLoop_stop hc2 b1 k, a2, b2]
            exact h.mems.symm
          · rw [runLoop_stop hc1 a1 0, runLoop_stop hc2 b1 k, a2, b2]
        · rw [runLoop_step hc2 b1 k] at hend ⊢
          rcases hcase with ⟨_, hd⟩ | ⟨_, s, cm, hs, q2, q1, hrc⟩
          · obtain ⟨n, hn⟩ := ih k (by omega) _ _ hd hend
            refine ⟨n + 1, ?_⟩
            rw [runLoop_step hc1 a1 n]
            exact hn
          · by_cases hc3 : loopCond (loopBody m2).1
            · cases k with
              | zero =>
                rw [runLoop_zero] at hend
                rcases hend with hx | ⟨_, hx, _⟩
                · rw [q2] at hx
                  have hx2 : s.return_code = RES_MEM_OOB := hx
                  rw [hrc] at hx2
                  exact absurd hx2 e1
                · exact absurd hc3 hx
              | succ k2 =>
                obtain ⟨b3, hd⟩ := doubled_second h hc2 hs q2 q1 hrc hc3
                rw [runLoop_step hc3 b3 k2] at hend ⊢
                obtain ⟨n, hn⟩ := ih k2 (by omega) _ _ hd hend
                refine ⟨n + 1, ?_⟩
                rw [runLoop_step hc1 a1 n]
                exact hn
            · exfalso
              rw [runLoop_of_not_cond hc3] at hend
              obtain ⟨_, _, y1, _, y5, _⟩ := loopBody_linked h.l2 hc2
              obtain ⟨_, hlen⟩ := doubled_lengths h
              rcases hend with hx | ⟨_, _, hx⟩
              · rw [q2] at hx
                have hx2 : s.return_code = RES_MEM_OOB := hx
                rw [hrc] at hx2
                exact absurd hx2 e1
              · apply hc3
                have hlt := hc2.2.2
                rw [q2, y5] at hx
                have hx2 : m2.state.counter + 1 ≠ m2.max_code_run := hx
                refine ⟨?_, ?_, ?_⟩
                · rw [q2]
                  show (0 : Int) ≤ A.length + 1
                  omega
                · rw [q2, y1]
                  show ((A.length : Int) + 1) < m2.program.length
                  omega
                · rw [q2, y5]
                  show m2.state.counter + 1 < m2.max_code_run
                  omega
    · rw [runLoop_of_not_cond hc2] at hend ⊢
      refine ⟨0, ?_, ?_, ?_, ?_⟩
      · rw [runLoop_zero]
        rcases hend with hx | ⟨_, _, hx⟩
        · rw [h.rc2] at hx; exact absurd hx e1
        · obtain ⟨a, b⟩ := doubled_final h hc2 hx
          exact Or.inr ⟨h.rc1, a, b⟩
      · rw [runLoop_zero]; exact h.regs.symm
      · rw [runLoop_zero]; exact h.mems.symm
      · rw [runLoop_zero, h.rc1, h.rc2]

/-- Once the loop of `Run` has ended, more passes change nothing. -/
theorem runLoop_stable {m : Machine} (hl : Linked m) (hrc : m.state.return_code = RES_RUNNING)
    {n : Nat}
    (hE : (runLoop n m).state.return_code = RES_MEM_OOB ∨
      ((runLoop n m).state.return_code = RES_RUNNING ∧ ¬ loopCond (runLoop n m)))
    (N : Nat) (hN : n ≤ N) : (runLoop N m).state = (runLoop n m).state := by
  rcases hE with hf | ⟨hr, hc⟩
  · obtain ⟨k, hk, k1, k2, k3, k4, k5⟩ := runLoop_fault n hl hrc hf
    rw [k5]
    exact runLoop_break hl k1 k2 k3 k4 N (by omega)
  · obtain ⟨j, rfl⟩ : ∃ j, N = n + j := ⟨N - n, by omega⟩
    rw [runLoop_add n m j hl hr, runLoop_of_not_cond hc]

/-- The final state of `Run` from the state in which its loop ended within the budget. -/
theorem run_of_ended {m : Machine} (hl : Linked m.runStart)
    (hrc : m.runStart.state.return_code = RES_RUNNING) (hpc : m.runStart.state.pc = 0) {n : Nat}
    (hE : EndedInBudget (runLoop n m.runStart)) :
    m.Run.state.register = (runLoop n m.runStart).state.register ∧
    m.Run.state.memory = (runLoop n m.runStart).state.memory ∧
    m.Run.state.return_code =
      (if (runLoop n m.runStart).state.return_code = RES_RUNNING then RES_END
        else RES_MEM_OOB) := by
  have hfin := runLoop_done (m.runStart.max_code_run - m.runStart.state.counter).toNat hl hrc
    (le_refl _)
  have hE2 : (runLoop n m.runStart).state.return_code = RES_MEM_OOB ∨
      ((runLoop n m.runStart).state.return_code = RES_RUNNING ∧
        ¬ loopCond (runLoop n m.runStart)) := by
    rcases hE with h | ⟨h1, h2, _⟩
    · exact Or.inl h
    · exact Or.inr ⟨h1, h2⟩
  have s1 := runLoop_stable hl hrc hE2
    (max n (m.runStart.max_code_run - m.runStart.state.counter).toNat) (le_max_left _ _)
  have s2 := runLoop_stable hl hrc hfin
    (max n (m.runStart.max_code_run - m.runStart.state.counter).toNat) (le_max_right _ _)
  have hst : (runLoop (m.runStart.max_code_run - m.runStart.state.counter).toNat
      m.runStart).state = (runLoop n m.runStart).state := s2.symm.trans s1
  obtain ⟨_, _, _, _, x1, _⟩ := runLoop_linked
    (m.runStart.max_code_run - m.runStart.state.counter).toNat hl (by rw [hpc])
    (by rw [hpc]; omega)
  obtain ⟨_, _, _, _, x2, _⟩ := runLoop_linked n hl (by rw [hpc]) (by rw [hpc]; omega)
  have hrun : m.Run = runFinish (runLoop
      (m.runStart.max_code_run - m.runStart.state.counter).toNat m.runStart) := rfl
  rw [hrun, runFinish_state, hst, x1]
  have e1 : RES_MEM_OOB ≠ RES_RUNNING := by decide
  rcases hE with h | ⟨h1, _, h3⟩
  · rw [if_neg (by rw [h]; exact e1), if_neg (by rw [h]; exact e1)]
    exact ⟨rfl, rfl, h⟩
  · rw [x2] at h3
    rw [if_pos h1, if_neg h3, if_pos h1]
    exact ⟨rfl, rfl, rfl⟩

/-- A run that does not return `RES_MAX_CODE_RUN_REACHED` ended its loop within the budget. -/
theorem ended_of_run {m : Machine} (hl : Linked m.runStart)
    (hrc : m.runStart.state.return_code = RES_RUNNING)
    (hx : m.Run.state.return_code ≠ RES_MAX_CODE_RUN_REACHED) :
    EndedInBudget
      (runLoop (m.runStart.max_code_run - m.runStart.state.counter).toNat m.runStart) := by
  have hfin := runLoop_done (m.runStart.max_code_run - m.runStart.state.counter).toNat hl hrc
    (le_refl _)
  have hrun : m.Run = runFinish (runLoop
      (m.runStart.max_code_run - m.runStart.state.counter).toNat m.runStart) := rfl
  rw [hrun, runFinish_state] at hx
  rcases hfin with h | ⟨h1, h2⟩
  · exact Or.inl h
  · refine Or.inr ⟨h1, h2, ?_⟩
    intro h3
    rw [if_pos h1, if_pos h3] at hx
    exact hx rfl

theorem duplicateAt_eq {P : List Instruction} {i : Nat} {c : Instruction}
    (hc : P[i]? = some c) :
    P = P.take i ++ c :: P.drop (i + 1) ∧
    duplicateAt P i = P.take i ++ c :: c :: P.drop (i + 1) ∧ (P.take i).length = i := by
  obtain ⟨hlt, hget⟩ := List.getElem?_eq_some_iff.1 hc
  have hdrop : P.drop i = c :: P.drop (i + 1) := by
    rw [List.drop_eq_getElem_cons hlt, hget]
  refine ⟨?_, ?_, ?_⟩
  · rw [← hdrop, List.take_append_drop]
  · unfold duplicateAt
    rw [List.take_succ, hc, hdrop]
    simp
  · rw [List.length_take]
    omega

/-- The runs of a program and of the program with a doubled `mov`, `load` or `save` from the
same initial state. -/
theorem doubled_of_load {m0 m1 m2 : Machine} {A B : List Instruction} {c : Instruction}
    (hop : c.ins_type = INS_MOV ∨ c.ins_type = INS_LOAD ∨ c.ins_type = INS_SAVE)
    (hne : c.arg1 ≠ c.arg2) (h1 : m0.Load (A ++ c :: B) = some m1)
    (h2 : m0.Load (A ++ c :: c :: B) = some m2) (reg : Register) (mem : Memory) :
    Doubled A
      (B ++ List.replicate (linkScan (A ++ c :: B) 0 LinkState.start).control_pc.length endIns)
      c (m1.withInit reg mem).runStart (m2.withInit reg mem).runStart := by
  obtain ⟨p1, p2, p3⟩ := mov_load_save_plain hop
  obtain ⟨c1, l1, s1, x1, _⟩ := Load_spec h1
  obtain ⟨c2, l2, s2, x2, _⟩ := Load_spec h2
  obtain ⟨a1, a2, a3, _, _, a6⟩ := withInit_linked l1 reg mem
  obtain ⟨b1, b2, b3, _, _, b6⟩ := withInit_linked l2 reg mem
  obtain ⟨i1, i2, i3, _⟩ := Init_fields m1.state reg mem
  have hlen : (linkScan (A ++ c :: c :: B) 0 LinkState.start).control_pc.length =
      (linkScan (A ++ c :: B) 0 LinkState.start).control_pc.length := by
    rw [(scan_doubled A B p1 p2 p3).stack_eq, List.length_map]
  have hst : (m2.withInit reg mem).runStart.state = (m1.withInit reg mem).runStart.state := by
    rw [a2, b2, s1, s2]
  exact {
    l1 := a1
    l2 := b1
    code1 := by rw [a3, c1, List.append_assoc]; rfl
    code2 := by rw [b3, c2, hlen, List.append_assoc]; rfl
    op := hop
    ne := hne
    regs := by rw [hst]
    mems := by rw [hst]
    flags := by rw [hst]
    budget := by rw [a6, b6, x1, x2]
    pcs := by
      rw [hst, a2, i1]
      unfold shiftIndex
      rw [if_pos (by omega)]
    rc1 := by rw [a2, i3]
    rc2 := by rw [hst, a2, i3]
    cnt := by rw [hst]
    cnt2 := Or.inr (by rw [hst]) }

/-- An immediately repeated `mov`, `load` or `save` is redundant: for every
machine, every program `P` that it links, every index `i` holding a MOV, LOAD or SAVE with
two distinct operands (in range, since `P` links), and every initial registers and memory, the
program with a second copy of that instruction inserted right after index `i` links too, and
whenever its run does not exhaust the step budget, it ends with the same registers, the same
memory and the same halt code as the run of `P` (which then does not exhaust the budget
either). -/
theorem repeated_instruction_redundant (m0 : Machine) (P : List Instruction) (i : Nat)
    (c : Instruction) (m1 : Machine) (reg : Register) (mem : Memory)
    (hc : P[i]? = some c)
    (hop : c.ins_type = INS_MOV ∨ c.ins_type = INS_LOAD ∨ c.ins_type = INS_SAVE)
    (hne : c.arg1 ≠ c.arg2) (h1 : m0.Load P = some m1) :
    duplicateAt P i = P.take i ++ c :: c :: P.drop (i + 1) ∧
    ∃ m2, m0.Load (duplicateAt P i) = some m2 ∧
      ((m2.withInit reg mem).Run.state.return_code ≠ RES_MAX_CODE_RUN_REACHED →
        (m1.withInit reg mem).Run.state.register = (m2.withInit reg mem).Run.state.register ∧
        (m1.withInit reg mem).Run.state.memory = (m2.withInit reg mem).Run.state.memory ∧
        (m1.withInit reg mem).Run.state.return_code =
          (m2.withInit reg mem).Run.state.return_code ∧
        (m1.withInit reg mem).Run.state.return_code ≠ RES_MAX_CODE_RUN_REACHED) := by
  obtain ⟨hP, hD, _⟩ := duplicateAt_eq hc
  refine ⟨hD, ?_⟩
  have hload2 : m0.Load (duplicateAt P i) ≠ none := by
    intro hn
    obtain ⟨d, hd, hbad⟩ := (Load_none_iff m0 _).1 hn
    have hdP : d ∈ P := by
      unfold duplicateAt at hd
      rcases List.mem_append.1 hd with h | h
      · exact List.mem_of_mem_take h
      · exact List.mem_of_mem_drop h
    have := (Load_none_iff m0 P).2 ⟨d, hdP, hbad⟩
    rw [h1] at this
    exact absurd this (by simp)
  obtain ⟨m2, h2⟩ := Option.ne_none_iff_exists'.1 hload2
  refine ⟨m2, h2, ?_⟩
  intro hx
  rw [hP] at h1
  rw [hD] at h2
  have hdb := doubled_of_load hop hne h1 h2 reg mem
  have hE2 := ended_of_run hdb.l2 hdb.rc2 hx
  obtain ⟨n, hE1, r1, r2, r3⟩ := doubled_run _ _ _ hdb hE2
  have hpc1 : (m1.withInit reg mem).runStart.state.pc = 0 := by
    obtain ⟨_, l1, _⟩ := Load_spec h1
    obtain ⟨_, a2, _⟩ := withInit_linked l1 reg mem
    rw [a2]; exact (Init_fields _ _ _).1
  have hpc2 : (m2.withInit reg mem).runStart.state.pc = 0 := by
    obtain ⟨_, l2, _⟩ := Load_spec h2
    obtain ⟨_, a2, _⟩ := withInit_linked l2 reg mem
    rw [a2]; exact (Init_fields _ _ _).1
  obtain ⟨u1, u2, u3⟩ := run_of_ended hdb.l1 hdb.rc1 hpc1 hE1
  obtain ⟨v1, v2, v3⟩ := run_of_ended hdb.l2 hdb.rc2 hpc2 hE2
  have hrc : (m1.withInit reg mem).Run.state.return_code =
      (m2.withInit reg mem).Run.state.return_code := by rw [u3, v3, r3]
  exact ⟨by rw [u1, v1, r1], by rw [u2, v2, r2], hrc, by rw [hrc]; exact hx⟩

/-- C27 (the code departs from the claim). `SampleCode` drops an immediately repeated `cmp`
on the ground that repeating the instruction does not change the state: on a stream that draws
`cmp 0 1; cmp 0 1; end; inc 1` it returns the three lines `cmp 0 1; end; inc 1`. But a repeated
`cmp` is not redundant, it opens a second block: on two registers `r0 = 1`, `r1 = 0`, the
program `cmp 0 1; end; inc 1` halts with code END and registers `[1, 1]`, and the program with
a second `cmp 0 1` inserted right after index 0 halts with code END and registers `[1, 0]`;
neither run exhausts the step budget. -/
theorem repeated_cmp_not_redundant :
    SampleCode cmpStream 2 3 true 10 = SampleOutcome.returned cmpEndInc ∧
    cmpEndInc[0]? = some ⟨INS_CMP, 0, 1⟩ ∧
    duplicateAt cmpEndInc 0 =
      [⟨INS_CMP, 0, 1⟩, ⟨INS_CMP, 0, 1⟩, ⟨INS_END, -1, -1⟩, ⟨INS_INC, 1, -1⟩] ∧
    finalRegisters 2 cmpEndInc [1, 0] [0, 0] = some ([1, 1], RES_END) ∧
    finalRegisters 2 (duplicateAt cmpEndInc 0) [1, 0] [0, 0] = some ([1, 0], RES_END) := by
  refine ⟨?_, rfl, rfl, ?_, ?_⟩
  · decide!
  · decide!
  · decide!

theorem repeated_instruction_redundant_witness :
    straightProgram[3]? = some ⟨INS_LOAD, 0, 1⟩ ∧
    duplicateAt straightProgram 3 =
      straightProgram.take 3 ++ ⟨INS_LOAD, 0, 1⟩ :: ⟨INS_LOAD, 0, 1⟩ ::
        straightProgram.drop (3 + 1) ∧
    ∃ m2, (Machine.new 2 3).Load (duplicateAt straightProgram 3) = some m2 ∧
      ((m2.withInit [0, 1] [7, 8, 9]).Run.state.return_code ≠ RES_MAX_CODE_RUN_REACHED →
        ((loadedOrNew 2 3 straightProgram).withInit [0, 1] [7, 8, 9]).Run.state.register =
          (m2.withInit [0, 1] [7, 8, 9]).Run.state.register ∧
        ((loadedOrNew 2 3 straightProgram).withInit [0, 1] [7, 8, 9]).Run.state.memory =
          (m2.withInit [0, 1] [7, 8, 9]).Run.state.memory ∧
        ((loadedOrNew 2 3 straightProgram).withInit [0, 1] [7, 8, 9]).Run.state.return_code =
          (m2.withInit [0, 1] [7, 8, 9]).Run.state.return_code ∧
        ((loadedOrNew 2 3 straightProgram).withInit [0, 1] [7, 8, 9]).Run.state.return_code ≠
          RES_MAX_CODE_RUN_REACHED) :=
  ⟨rfl, repeated_instruction_redundant (Machine.new 2 3) straightProgram 3 ⟨INS_LOAD, 0, 1⟩
    (loadedOrNew 2 3 straightProgram) [0, 1] [7, 8, 9] rfl (Or.inr (Or.inl rfl)) (by decide)
    (loadedOrNew_eq (by decide!))⟩

/-- Loading the END-extended code of a linked machine: the scan leaves no open block, the
closing loop appends nothing, and the result has the same code, closures and block map. -/
theorem Load_code_of_linked {m1 : Machine} (hl : Linked m1) (n : Machine)
    (hR : n.state.register.length = m1.state.register.length) :
    (linkScan m1.code 0 LinkState.start).control_pc = [] ∧
    (linkClose (linkScan m1.code 0 LinkState.start).control_pc
      (linkScan m1.code 0 LinkState.start) m1.code.length).2 = m1.code.length ∧
    n.Load m1.code = some { n with program := m1.program, code := m1.code,
                                   control_map := m1.control_map } := by
  have hc := hl.all_closed
  refine ⟨hc, by rw [hc]; rfl, ?_⟩
  rw [Load_eq, hc]
  simp only [List.length_nil, List.replicate_zero, List.append_nil]
  rw [hR, hl.prog, hl.map_eq]

/-- C31. Linking is idempotent on its own output: when `Load` accepts `P` and leaves the
machine `m1`, whose code is `P` plus the synthetic ENDs, then loading `m1.code` leaves no block
open, so that the closing loop ends with `n = codes.size()` and appends no END; on the same
machine it gives again `m1` (same code, same block map, same closures), and on any machine with
as many registers it gives the same code, block map and closures; hence from every initial
registers and memory the run of the END-extended form is the run of `P`: identical machine
after `Run` on the same machine, identical final state on another machine with the same memory
size and step budget. -/
theorem linking_idempotent (m m1 : Machine) (P : List Instruction) (h : m.Load P = some m1) :
    m1.code = P ++ List.replicate (linkScan P 0 LinkState.start).control_pc.length endIns ∧
    (linkScan m1.code 0 LinkState.start).control_pc = [] ∧
    (linkClose (linkScan m1.code 0 LinkState.start).control_pc
      (linkScan m1.code 0 LinkState.start) m1.code.length).2 = m1.code.length ∧
    (∃ m2, m.Load m1.code = some m2 ∧ m2.code = m1.code ∧
      m2.control_map = m1.control_map ∧ m2.program = m1.program ∧ m2 = m1 ∧
      ∀ (reg : Register) (mem : Memory),
        (m2.withInit reg mem).Run = (m1.withInit reg mem).Run) ∧
    (∀ n : Machine, n.state.register.length = m.state.register.length →
      ∃ n2, n.Load m1.code = some n2 ∧ n2.code = m1.code ∧
        n2.control_map = m1.control_map ∧ n2.program = m1.program ∧
        (n.state.memory.length = m.state.memory.length → n.max_code_run = m.max_code_run →
          ∀ (reg : Register) (mem : Memory),
            (n2.withInit reg mem).Run.state = (m1.withInit reg mem).Run.state)) := by
  obtain ⟨hcode, hl, hst, hmax, hdump, htr, hpc⟩ := Load_spec h
  obtain ⟨a, b, c⟩ := Load_code_of_linked hl m (by rw [hst])
  have hsame : { m with program := m1.program, code := m1.code,
                        control_map := m1.control_map } = m1 := by
    cases m
    cases m1
    simp only [Machine.mk.injEq] at *
    simp [hst, hmax, hdump, htr, hpc]
  refine ⟨hcode, a, b, ⟨m1, ?_, rfl, rfl, rfl, rfl, fun _ _ => rfl⟩, ?_⟩
  · rw [c, hsame]
  · intro n hn
    obtain ⟨_, _, c2⟩ := Load_code_of_linked hl n (by rw [hn, hst])
    refine ⟨_, c2, rfl, rfl, rfl, ?_⟩
    intro hm hx reg mem
    have e1 : n.max_code_run = m1.max_code_run := by rw [hmax, hx]
    have e2 : n.state.Init reg mem = m1.state.Init reg mem :=
      Init_congr (by rw [hn, hst]) (by rw [hm, hst]) reg mem
    exact @Run_congr
      (({ n with program := m1.program, code := m1.code,
                 control_map := m1.control_map } : Machine).withInit reg mem)
      (m1.withInit reg mem) rfl rfl e1 e2

theorem linking_idempotent_witness :
    (loadedOrNew 2 2 nestedProgram).code =
      nestedProgram ++
        List.replicate (linkScan nestedProgram 0 LinkState.start).control_pc.length endIns ∧
    (linkScan (loadedOrNew 2 2 nestedProgram).code 0 LinkState.start).control_pc = [] ∧
    (linkClose (linkScan (loadedOrNew 2 2 nestedProgram).code 0 LinkState.start).control_pc
      (linkScan (loadedOrNew 2 2 nestedProgram).code 0 LinkState.start)
      (loadedOrNew 2 2 nestedProgram).code.length).2 =
        (loadedOrNew 2 2 nestedProgram).code.length ∧
    (∃ m2, (Machine.new 2 2).Load (loadedOrNew 2 2 nestedProgram).code = some m2 ∧
      m2.code = (loadedOrNew 2 2 nestedProgram).code ∧
      m2.control_map = (loadedOrNew 2 2 nestedProgram).control_map ∧
      m2.program = (loadedOrNew 2 2 nestedProgram).program ∧
      m2 = loadedOrNew 2 2 nestedProgram ∧
      ∀ (reg : Register) (mem : Memory),
        (m2.withInit reg mem).Run = ((loadedOrNew 2 2 nestedProgram).withInit reg mem).Run) ∧
    (∀ n : Machine, n.state.register.length = (Machine.new 2 2).state.register.length →
      ∃ n2, n.Load (loadedOrNew 2 2 nestedProgram).code = some n2 ∧
        n2.code = (loadedOrNew 2 2 nestedProgram).code ∧
        n2.control_map = (loadedOrNew 2 2 nestedProgram).control_map ∧
        n2.program = (loadedOrNew 2 2 nestedProgram).program ∧
        (n.state.memory.length = (Machine.new 2 2).state.memory.length →
          n.max_code_run = (Machine.new 2 2).max_code_run →
          ∀ (reg : Register) (mem : Memory),
            (n2.withInit reg mem).Run.state =
              ((loadedOrNew 2 2 nestedProgram).withInit reg mem).Run.state)) :=
  linking_idempotent (Machine.new 2 2) (loadedOrNew 2 2 nestedProgram) nestedProgram
    (loadedOrNew_eq (by decide!))

/-- A loop that ends still running stopped after some `k` passes: later passes were not
begun. -/
theorem runLoop_exact (fuel : Nat) :
    ∀ {m : Machine}, Linked m → (runLoop fuel m).state.return_code = RES_RUNNING →
      ∃ k, k ≤ fuel ∧ runLoop fuel m = runLoop k m ∧
        (k < fuel → ¬ loopCond (runLoop k m)) ∧
        (runLoop k m).state.counter = m.state.counter + k := by
  induction fuel with
  | zero =>
    intro m _ _
    exact ⟨0, le_refl _, rfl, fun h => absurd h (by omega), by simp [runLoop_zero]⟩
  | succ fuel ih =>
    intro m hl hrc
    by_cases hc : loopCond m
    · obtain ⟨l1, _, _, _, _, _, _, _, _, hcase⟩ := loopBody_linked hl hc
      rcases hcase with ⟨hb, hst⟩ | ⟨hb, hcnt, _⟩
      · rw [runLoop_stop hc hb fuel, hst] at hrc
        have hrc2 : RES_MEM_OOB = RES_RUNNING := hrc
        exact absurd hrc2 (by decide)
      · rw [runLoop_step hc hb fuel] at hrc ⊢
        obtain ⟨k, hk, e, hn, hcount⟩ := ih l1 hrc
        refine ⟨k + 1, by omega, ?_, ?_, ?_⟩
        · rw [runLoop_step hc hb k]; exact e
        · intro hlt
          rw [runLoop_step hc hb k]
          exact hn (by omega)
        · rw [runLoop_step hc hb k, hcount, hcnt]
          push_cast
          ring
    · refine ⟨0, by omega, ?_, fun _ => ?_, by simp [runLoop_zero]⟩
      · rw [runLoop_of_not_cond hc, runLoop_zero]
      · rw [runLoop_zero]; exact hc

/-- The run of a loaded, initialised machine that records its trace, in terms of the number `n`
of passes of the loop that were begun: the first `n` passes were begun, the trace holds the
states in which they were begun (and the final state after a normal end), and the run ended
because pass `n - 1` threw, or because the counter reached the budget, or because the loop
condition failed for another reason. -/
theorem run_trace_full {m m1 : Machine} {P : List Instruction} (h : m.Load P = some m1)
    (hd : m.dump_all_state = true) (reg : Register) (mem : Memory) :
    ∃ n : Nat,
      (∀ i, i < n →
        ((m1.withInit reg mem).afterSteps i).state.return_code = RES_RUNNING ∧
        loopCond ((m1.withInit reg mem).afterSteps i) ∧
        ((m1.withInit reg mem).afterSteps i).state.counter = i) ∧
      (m1.withInit reg mem).Run.dumped_states =
        (List.range n).map (fun i => ((m1.withInit reg mem).afterSteps i).state) ++
          (if (m1.withInit reg mem).Run.state.return_code = RES_END then
            [(m1.withInit reg mem).Run.state] else []) ∧
      (((m1.withInit reg mem).Run.state.return_code = RES_MEM_OOB ∧ 0 < n ∧
          (loopBody ((m1.withInit reg mem).afterSteps (n - 1))).2 = true ∧
          (m1.withInit reg mem).Run.state =
            { ((m1.withInit reg mem).afterSteps (n - 1)).state with
              return_code := RES_MEM_OOB }) ∨
       ((m1.withInit reg mem).Run.state.return_code = RES_MAX_CODE_RUN_REACHED ∧
          ((m1.withInit reg mem).afterSteps n).state.return_code = RES_RUNNING ∧
          ((m1.withInit reg mem).afterSteps n).state.counter = m.max_code_run ∧
          (n : Int) = m.max_code_run ∧
          (m1.withInit reg mem).Run.state =
            { ((m1.withInit reg mem).afterSteps n).state with
              return_code := RES_MAX_CODE_RUN_REACHED }) ∨
       ((m1.withInit reg mem).Run.state.return_code = RES_END ∧
          ((m1.withInit reg mem).afterSteps n).state.return_code = RES_RUNNING ∧
          ¬ loopCond ((m1.withInit reg mem).afterSteps n) ∧
          ((m1.withInit reg mem).afterSteps n).state.counter = n ∧
          (m1.withInit reg mem).Run.state =
            { ((m1.withInit reg mem).afterSteps n).state with return_code := RES_END })) := by
  obtain ⟨hl, hrc, hcnt, hpc, _, _, hmax, _, _⟩ := run_fault_core h reg mem
  obtain ⟨_, _, _, _, hdump, _⟩ := Load_spec h
  have hd0 : (m1.withInit reg mem).runStart.dump_all_state = true := by
    rw [(runStart_fields _).2.2.2.2.2]
    show m1.dump_all_state = true
    rw [hdump]; exact hd
  have hT0 : (m1.withInit reg mem).runStart.dumped_states = [] := by
    have e : (m1.withInit reg mem).dump_all_state = true := by
      show m1.dump_all_state = true
      rw [hdump]; exact hd
    simp [Machine.runStart, e]
  have hrun : (m1.withInit reg mem).Run = runFinish (runLoop
      ((m1.withInit reg mem).runStart.max_code_run -
        (m1.withInit reg mem).runStart.state.counter).toNat
      (m1.withInit reg mem).runStart) := rfl
  have hA : ∀ i, (m1.withInit reg mem).afterSteps i =
      runLoop i (m1.withInit reg mem).runStart := fun _ => rfl
  simp only [hA]
  generalize (m1.withInit reg mem).runStart = mS at hl hrc hcnt hpc hmax hd0 hT0 hrun
  generalize hF : (mS.max_code_run - mS.state.counter).toNat = F at hrun
  obtain ⟨n, _, hT, hdL, hall, halt⟩ := runLoop_trace F hl hd0 hrc
  obtain ⟨_, _, _, _, hxL, _⟩ := runLoop_linked F hl (by rw [hpc]) (by rw [hpc]; omega)
  have hdone := runLoop_done F hl hrc (by rw [← hF])
  rw [hT0, List.nil_append] at hT
  have e1 : RES_MEM_OOB ≠ RES_RUNNING := by decide
  have e2 : RES_MEM_OOB ≠ RES_END := by decide
  have e3 : RES_MAX_CODE_RUN_REACHED ≠ RES_END := by decide
  have hallc : ∀ i, i < n → (runLoop i mS).state.return_code = RES_RUNNING ∧
      loopCond (runLoop i mS) ∧ (runLoop i mS).state.counter = i := by
    intro i hi
    obtain ⟨a, b⟩ := hall i hi
    have c := runLoop_count i hl a b
    rw [hcnt] at c
    exact ⟨a, b, by simpa using c⟩
  refine ⟨n, hallc, ?_⟩
  rw [hrun]
  generalize hL : runLoop F mS = L at hT hdL halt hxL hdone
  rcases halt with ⟨a1, a2, a3⟩ | ⟨a1, a2⟩
  · have hs : (runFinish L).state = L.state := by
      rw [runFinish_state, if_neg (by rw [a1]; exact e1)]
    have ht : (runFinish L).dumped_states = L.dumped_states := by
      rw [runFinish_trace hdL, if_neg (by rw [a1]; exact e1)]
    rw [hs, ht, if_neg (by rw [a1]; exact e2), List.append_nil]
    refine ⟨hT, Or.inl ⟨a1, a2, ?_, a3⟩⟩
    have a1b : (runLoop F mS).state.return_code = RES_MEM_OOB := by rw [hL]; exact a1
    obtain ⟨k, _, k1, k2, _, k4, k5⟩ := runLoop_fault F hl hrc a1b
    have kc := runLoop_count k hl k1 k2
    obtain ⟨_, _, nc⟩ := hallc (n - 1) (by omega)
    have hkn : k = n - 1 := by
      rw [hL] at k5
      have e := congrArg MachineState.counter (k5.symm.trans a3)
      simp only [] at e
      rw [kc, nc, hcnt] at e
      omega
    rw [← hkn]
    exact k4
  · have a1b : (runLoop F mS).state.return_code = RES_RUNNING := by rw [hL]; exact a1
    obtain ⟨k, _, e, _, hkc⟩ := runLoop_exact F hl a1b
    rw [hL] at e
    have hkn : k = n := by
      rw [← e, a2] at hkc
      omega
    subst hkn
    have hnc : ¬ loopCond L := by
      rcases hdone with hx | ⟨_, hx⟩
      · rw [a1] at hx; exact absurd hx.symm e1
      · exact hx
    rw [hcnt, zero_add] at a2
    by_cases hmx : L.state.counter = L.max_code_run
    · have hs : (runFinish L).state =
          { L.state with return_code := RES_MAX_CODE_RUN_REACHED } := by
        rw [runFinish_state, if_pos a1, if_pos hmx]
      have ht : (runFinish L).dumped_states = L.dumped_states := by
        rw [runFinish_trace hdL, if_pos a1, if_pos hmx]
      rw [hs, ht, if_neg e3, List.append_nil]
      refine ⟨hT, Or.inr (Or.inl ⟨rfl, ?_, ?_, ?_, ?_⟩)⟩
      · rw [← e]; exact a1
      · rw [← e, hmx, hxL, hmax]
      · rw [← a2, hmx, hxL, hmax]
      · rw [← e]
    · have hs : (runFinish L).state = { L.state with return_code := RES_END } := by
        rw [runFinish_state, if_pos a1, if_neg hmx]
      have ht : (runFinish L).dumped_states =
          L.dumped_states ++ [{ L.state with return_code := RES_END }] := by
        rw [runFinish_trace hdL, if_pos a1, if_neg hmx]
      rw [hs, ht, if_pos rfl]
      refine ⟨by rw [hT], Or.inr (Or.inr ⟨rfl, ?_, ?_, ?_, ?_⟩)⟩
      · rw [← e]; exact a1
      · rw [← e]; exact hnc
      · rw [← e]; exact a2
      · rw [← e]

theorem trace_lookup (f : Nat → MachineState) (n : Nat) (c : Prop) [Decidable c]
    (s0 : MachineState) (i : Nat) (s : MachineState) :
    ((List.range n).map f ++ (if c then [s0] else []))[i]? = some s ↔
      (i < n ∧ s = f i) ∨ (i = n ∧ c ∧ s = s0) := by
  by_cases hi : i < n
  · rw [List.getElem?_append_left (by simpa using hi), List.getElem?_map,
      List.getElem?_range hi]
    simp only [Option.map_some', Option.some.injEq]
    constructor
    · intro e; exact Or.inl ⟨hi, e.symm⟩
    · rintro (⟨_, e⟩ | ⟨e, _⟩)
      · exact e.symm
      · omega
  · rw [List.getElem?_append_right (by simpa using hi)]
    simp only [List.length_map, List.length_range]
    by_cases hc : c
    · rw [if_pos hc]
      rcases Nat.eq_zero_or_pos (i - n) with h0 | h0
      · rw [h0]
        simp only [List.getElem?_cons_zero, Option.some.injEq]
        constructor
        · intro e; exact Or.inr ⟨by omega, hc, e.symm⟩
        · rintro (⟨h1, _⟩ | ⟨_, _, e⟩)
          · exact absurd h1 hi
          · exact e.symm
      · obtain ⟨d, hd⟩ : ∃ d, i - n = d + 1 := ⟨i - n - 1, by omega⟩
        rw [hd]
        simp only [List.getElem?_cons_succ, List.getElem?_nil]
        constructor
        · intro e; exact absurd e (by simp)
        · rintro (⟨h1, _⟩ | ⟨h1, _⟩) <;> omega
    · rw [if_neg hc]
      simp only [List.getElem?_nil]
      constructor
      · intro e; exact absurd e (by simp)
      · rintro (⟨h1, _⟩ | ⟨_, h1, _⟩)
        · exact absurd h1 hi
        · exact absurd h1 hc

/-- C17. Trace content: on a machine that records its trace, after `Load(P)`, `Init(reg, mem)`
and `Run`, there is a number `n` of instructions that the run began: for every `i < n` the
machine after `i` completed passes is still running inside the loop with `counter = i`, and the
`i`-th snapshot is its complete state. The run ends in one of three ways. It returns
`RES_MEM_OOB` because pass `n - 1` threw: the final state is the state before that pass with
only the halt code replaced, and the trace has exactly the `n` snapshots (no final one, the
last being the state before the faulting instruction). It returns `RES_MAX_CODE_RUN_REACHED`
with `n = max_code_run` completed passes, and the trace has exactly `max_code_run` snapshots
(no final one). Or it returns `RES_END` because after `n` completed passes the loop condition
fails: the trace has `n + 1 = counter + 1` snapshots, the last being the final state. The same
facts read from the final counter and halt code follow. -/
theorem trace_content (m m1 : Machine) (P : List Instruction) (reg : Register) (mem : Memory)
    (h : m.Load P = some m1) (hd : m.dump_all_state = true) :
    (∃ n : Nat,
      (∀ i : Nat, i < n →
        ((m1.withInit reg mem).afterSteps i).state.return_code = RES_RUNNING ∧
        loopCond ((m1.withInit reg mem).afterSteps i) ∧
        ((m1.withInit reg mem).afterSteps i).state.counter = i ∧
        (m1.withInit reg mem).Run.dumped_states[i]? =
          some ((m1.withInit reg mem).afterSteps i).state) ∧
      (((m1.withInit reg mem).Run.state.return_code = RES_MEM_OOB ∧ 0 < n ∧
          (loopBody ((m1.withInit reg mem).afterSteps (n - 1))).2 = true ∧
          (m1.withInit reg mem).Run.state =
            { ((m1.withInit reg mem).afterSteps (n - 1)).state with
              return_code := RES_MEM_OOB } ∧
          (m1.withInit reg mem).Run.dumped_states.length = n) ∨
       ((m1.withInit reg mem).Run.state.return_code = RES_MAX_CODE_RUN_REACHED ∧
          ((m1.withInit reg mem).afterSteps n).state.return_code = RES_RUNNING ∧
          ((m1.withInit reg mem).afterSteps n).state.counter = m.max_code_run ∧
          (n : Int) = m.max_code_run ∧
          (m1.withInit reg mem).Run.state =
            { ((m1.withInit reg mem).afterSteps n).state with
              return_code := RES_MAX_CODE_RUN_REACHED } ∧
          (m1.withInit reg mem).Run.dumped_states.length = n) ∨
       ((m1.withInit reg mem).Run.state.return_code = RES_END ∧
          ((m1.withInit reg mem).afterSteps n).state.return_code = RES_RUNNING ∧
          ¬ loopCond ((m1.withInit reg mem).afterSteps n) ∧
          ((m1.withInit reg mem).afterSteps n).state.counter = n ∧
          (m1.withInit reg mem).Run.state =
            { ((m1.withInit reg mem).afterSteps n).state with return_code := RES_END } ∧
          (m1.withInit reg mem).Run.dumped_states.length = n + 1 ∧
          (m1.withInit reg mem).Run.dumped_states[n]? =
            some (m1.withInit reg mem).Run.state))) ∧
    (∀ i : Nat,
      ((i : Int) < (m1.withInit reg mem).Run.state.counter ∨
        ((m1.withInit reg mem).Run.state.return_code = RES_MEM_OOB ∧
          (i : Int) = (m1.withInit reg mem).Run.state.counter)) →
      (m1.withInit reg mem).Run.dumped_states[i]? =
        some ((m1.withInit reg mem).afterSteps i).state ∧
      ((m1.withInit reg mem).afterSteps i).state.counter = i ∧
      ((m1.withInit reg mem).afterSteps i).state.return_code = RES_RUNNING ∧
      loopCond ((m1.withInit reg mem).afterSteps i)) ∧
    ((m1.withInit reg mem).Run.state.return_code = RES_END →
      ((m1.withInit reg mem).Run.dumped_states.length : Int) =
        (m1.withInit reg mem).Run.state.counter + 1 ∧
      (m1.withInit reg mem).Run.dumped_states.getLast? =
        some (m1.withInit reg mem).Run.state) ∧
    ((m1.withInit reg mem).Run.state.return_code = RES_MAX_CODE_RUN_REACHED →
      ((m1.withInit reg mem).Run.dumped_states.length : Int) = m.max_code_run ∧
      ((m1.withInit reg mem).Run.dumped_states.length : Int) =
        (m1.withInit reg mem).Run.state.counter) ∧
    ((m1.withInit reg mem).Run.state.return_code = RES_MEM_OOB →
      ((m1.withInit reg mem).Run.dumped_states.length : Int) =
        (m1.withInit reg mem).Run.state.counter + 1 ∧
      (m1.withInit reg mem).Run.dumped_states.getLast? =
        some { (m1.withInit reg mem).Run.state with return_code := RES_RUNNING }) := by
  refine ⟨?_, trace_guarded m m1 P reg mem h hd⟩
  obtain ⟨n, hall, hT, hend⟩ := run_trace_full h hd reg mem
  have e2 : RES_MEM_OOB ≠ RES_END := by decide
  have e3 : RES_MAX_CODE_RUN_REACHED ≠ RES_END := by decide
  refine ⟨n, ?_, ?_⟩
  · intro i hi
    obtain ⟨a, b, c⟩ := hall i hi
    refine ⟨a, b, c, ?_⟩
    rw [hT, trace_lookup]
    exact Or.inl ⟨hi, rfl⟩
  · rcases hend with ⟨a1, a2, a3, a4⟩ | ⟨a1, a2, a3, a4, a5⟩ | ⟨a1, a2, a3, a4, a5⟩
    · refine Or.inl ⟨a1, a2, a3, a4, ?_⟩
      rw [hT, if_neg (by rw [a1]; exact e2)]
      simp
    · refine Or.inr (Or.inl ⟨a1, a2, a3, a4, a5, ?_⟩)
      rw [hT, if_neg (by rw [a1]; exact e3)]
      simp
    · refine Or.inr (Or.inr ⟨a1, a2, a3, a4, a5, ?_, ?_⟩)
      · rw [hT, if_pos a1]
        simp
      · rw [hT, trace_lookup]
        exact Or.inr ⟨rfl, a1, rfl⟩

theorem trace_content_witness :
    (tracedLoop.Run.state.return_code = RES_END ∧ tracedLoop.Run.state.counter = 7 ∧
      tracedLoop.Run.dumped_states.map
          (fun s => (s.pc, s.counter, s.return_code, s.register, s.memory)) =
        [(0, 0, 1, [2, 0], [1]), (1, 1, 1, [1, 0], [1]), (2, 2, 1, [1, 1], [1]),
          (0, 3, 1, [1, 1], [1]), (1, 4, 1, [0, 1], [1]), (2, 5, 1, [0, 2], [1]),
          (0, 6, 1, [0, 2], [1]), (3, 7, 0, [0, 2], [1])] ∧
      (tracingFault.Run.state.pc, tracingFault.Run.state.counter,
          tracingFault.Run.state.return_code, tracingFault.Run.state.register) =
        (3, 3, 3, [5, 3]) ∧
      tracingFault.Run.dumped_states.map
          (fun s => (s.pc, s.counter, s.return_code, s.register, s.memory)) =
        [(0, 0, 1, [5, 4], [7, 8, 9]), (1, 1, 1, [4, 4], [7, 8, 9]),
          (2, 2, 1, [5, 4], [7, 8, 9]), (3, 3, 1, [5, 3], [7, 8, 9])]) ∧
    (∃ n : Nat,
      (∀ i : Nat, i < n →
        (tracedLoop.afterSteps i).state.return_code = RES_RUNNING ∧
        loopCond (tracedLoop.afterSteps i) ∧
        (tracedLoop.afterSteps i).state.counter = i ∧
        tracedLoop.Run.dumped_states[i]? =
          some (tracedLoop.afterSteps i).state) ∧
      ((tracedLoop.Run.state.return_code = RES_MEM_OOB ∧ 0 < n ∧
          (loopBody (tracedLoop.afterSteps (n - 1))).2 = true ∧
          tracedLoop.Run.state =
            { (tracedLoop.afterSteps (n - 1)).state with
              return_code := RES_MEM_OOB } ∧
          tracedLoop.Run.dumped_states.length = n) ∨
       (tracedLoop.Run.state.return_code = RES_MAX_CODE_RUN_REACHED ∧
          (tracedLoop.afterSteps n).state.return_code = RES_RUNNING ∧
          (tracedLoop.afterSteps n).state.counter = ((Machine.new 2 1).SetDumpAll true).max_code_run ∧
          (n : Int) = ((Machine.new 2 1).SetDumpAll true).max_code_run ∧
          tracedLoop.Run.state =
            { (tracedLoop.afterSteps n).state with
              return_code := RES_MAX_CODE_RUN_REACHED } ∧
          tracedLoop.Run.dumped_states.length = n) ∨
       (tracedLoop.Run.state.return_code = RES_END ∧
          (tracedLoop.afterSteps n).state.return_code = RES_RUNNING ∧
          ¬ loopCond (tracedLoop.afterSteps n) ∧
          (tracedLoop.afterSteps n).state.counter = n ∧
          tracedLoop.Run.state =
            { (tracedLoop.afterSteps n).state with return_code := RES_END } ∧
          tracedLoop.Run.dumped_states.length = n + 1 ∧
          tracedLoop.Run.dumped_states[n]? =
            some tracedLoop.Run.state))) ∧
    (∀ i : Nat,
      ((i : Int) < tracedLoop.Run.state.counter ∨
        (tracedLoop.Run.state.return_code = RES_MEM_OOB ∧
          (i : Int) = tracedLoop.Run.state.counter)) →
      tracedLoop.Run.dumped_states[i]? =
        some (tracedLoop.afterSteps i).state ∧
      (tracedLoop.afterSteps i).state.counter = i ∧
      (tracedLoop.afterSteps i).state.return_code = RES_RUNNING ∧
      loopCond (tracedLoop.afterSteps i)) ∧
    (tracedLoop.Run.state.return_code = RES_END →
      (tracedLoop.Run.dumped_states.length : Int) =
        tracedLoop.Run.state.counter + 1 ∧
      tracedLoop.Run.dumped_states.getLast? =
        some tracedLoop.Run.state) ∧
    (tracedLoop.Run.state.return_code = RES_MAX_CODE_RUN_REACHED →
      (tracedLoop.Run.dumped_states.length : Int) = ((Machine.new 2 1).SetDumpAll true).max_code_run ∧
      (tracedLoop.Run.dumped_states.length : Int) =
        tracedLoop.Run.state.counter) ∧
    (tracedLoop.Run.state.return_code = RES_MEM_OOB →
      (tracedLoop.Run.dumped_states.length : Int) =
        tracedLoop.Run.state.counter + 1 ∧
      tracedLoop.Run.dumped_states.getLast? =
        some { tracedLoop.Run.state with return_code := RES_RUNNING }) :=
  ⟨⟨by decide!, by decide!, by decide!, by decide!, by decide!⟩,
    trace_content ((Machine.new 2 1).SetDumpAll true)
      ((loadedOrNew 2 1 repIncEnd).SetDumpAll true) repIncEnd [2, 0] [1]
      (Load_SetDumpAll (loadedOrNew_eq (by decide!)) true) (by decide!)⟩

/-- C18. The pc index of the trace: on a machine that records its trace, after `Load(P)`,
`Init(reg, mem)` and `Run`, with `n` the number of instructions that the run began (the machine
after `i < n` completed passes is running inside the loop; the run ended because pass `n - 1`
threw, or the counter reached the budget, or the loop condition failed after `n` passes) and
the trace being the states in which the `n` passes began, plus the final state after a normal
end: for every pc value `p` that has a list, `pc2states[p]` is non-empty, strictly increasing,
and holds exactly the positions `i < n` at which the `i`-th instruction was begun with
`pc = p`, and the position `n` of the final snapshot when the run ended normally with
`pc = p`; a pc value has no list exactly when the run began no instruction at it and did not
end normally at it. In terms of the recorded trace: a list holds exactly the positions of the
snapshots with that pc, and every trace position occurs in the list of its snapshot's pc and in
no other list. -/
theorem pc_index_of_trace (m m1 : Machine) (P : List Instruction) (reg : Register)
    (mem : Memory) (h : m.Load P = some m1) (hd : m.dump_all_state = true) :
    (∃ n : Nat,
      (∀ i : Nat, i < n →
        ((m1.withInit reg mem).afterSteps i).state.return_code = RES_RUNNING ∧
        loopCond ((m1.withInit reg mem).afterSteps i) ∧
        ((m1.withInit reg mem).afterSteps i).state.counter = i) ∧
      (((m1.withInit reg mem).Run.state.return_code = RES_MEM_OOB ∧ 0 < n ∧
          (loopBody ((m1.withInit reg mem).afterSteps (n - 1))).2 = true) ∨
       ((m1.withInit reg mem).Run.state.return_code = RES_MAX_CODE_RUN_REACHED ∧
          ((m1.withInit reg mem).afterSteps n).state.return_code = RES_RUNNING ∧
          ((m1.withInit reg mem).afterSteps n).state.counter = m.max_code_run) ∨
       ((m1.withInit reg mem).Run.state.return_code = RES_END ∧
          ((m1.withInit reg mem).afterSteps n).state.return_code = RES_RUNNING ∧
          ¬ loopCond ((m1.withInit reg mem).afterSteps n) ∧
          (m1.withInit reg mem).Run.state.pc =
            ((m1.withInit reg mem).afterSteps n).state.pc)) ∧
      (m1.withInit reg mem).Run.dumped_states =
        (List.range n).map (fun i => ((m1.withInit reg mem).afterSteps i).state) ++
          (if (m1.withInit reg mem).Run.state.return_code = RES_END then
            [(m1.withInit reg mem).Run.state] else []) ∧
      (∀ p l, (m1.withInit reg mem).Run.pc2states p = some l →
        l ≠ [] ∧ l.Pairwise (fun a b => a < b) ∧
        ∀ x, x ∈ l ↔
          ∃ i : Nat, x = (i : Int) ∧
            ((i < n ∧ ((m1.withInit reg mem).afterSteps i).state.pc = p) ∨
             (i = n ∧ (m1.withInit reg mem).Run.state.return_code = RES_END ∧
                (m1.withInit reg mem).Run.state.pc = p))) ∧
      (∀ p, (m1.withInit reg mem).Run.pc2states p = none ↔
        (∀ i : Nat, i < n → ((m1.withInit reg mem).afterSteps i).state.pc ≠ p) ∧
        ¬ ((m1.withInit reg mem).Run.state.return_code = RES_END ∧
            (m1.withInit reg mem).Run.state.pc = p))) ∧
    (∀ p l, (m1.withInit reg mem).Run.pc2states p = some l →
      l ≠ [] ∧ l.Pairwise (fun a b => a < b) ∧
      ∀ x, x ∈ l ↔
        ∃ i : Nat, x = (i : Int) ∧
          ∃ s, (m1.withInit reg mem).Run.dumped_states[i]? = some s ∧ s.pc = p) ∧
    (∀ p, (m1.withInit reg mem).Run.pc2states p = none ↔
      ∀ s ∈ (m1.withInit reg mem).Run.dumped_states, s.pc ≠ p) ∧
    (∀ (i : Nat) (s : MachineState), (m1.withInit reg mem).Run.dumped_states[i]? = some s →
      (∃ l, (m1.withInit reg mem).Run.pc2states s.pc = some l ∧ (i : Int) ∈ l) ∧
      ∀ q l, (m1.withInit reg mem).Run.pc2states q = some l → (i : Int) ∈ l → q = s.pc) := by
  obtain ⟨_, _, _, _, hdump, _⟩ := Load_spec h
  have hd1 : (m1.withInit reg mem).dump_all_state = true := by
    show m1.dump_all_state = true
    rw [hdump]; exact hd
  obtain ⟨g1, g2, g3⟩ := pc_index_general (m1.withInit reg mem) hd1
  refine ⟨?_, g1, g2, g3⟩
  obtain ⟨n, hall, hT, hend⟩ := run_trace_full h hd reg mem
  refine ⟨n, hall, ?_, hT, ?_, ?_⟩
  · rcases hend with ⟨a1, a2, a3, _⟩ | ⟨a1, a2, a3, _⟩ | ⟨a1, a2, a3, _, a5⟩
    · exact Or.inl ⟨a1, a2, a3⟩
    · exact Or.inr (Or.inl ⟨a1, a2, a3⟩)
    · exact Or.inr (Or.inr ⟨a1, a2, a3, by rw [a5]⟩)
  · intro p l hl
    obtain ⟨hne, hpw, hmem⟩ := g1 p l hl
    refine ⟨hne, hpw, fun x => ?_⟩
    rw [hmem x]
    constructor
    · rintro ⟨i, hx, s, hs, hp⟩
      rw [hT, trace_lookup] at hs
      refine ⟨i, hx, ?_⟩
      rcases hs with ⟨hi, e⟩ | ⟨hi, hc, e⟩
      · exact Or.inl ⟨hi, by rw [← e]; exact hp⟩
      · exact Or.inr ⟨hi, hc, by rw [← e]; exact hp⟩
    · rintro ⟨i, hx, hcase⟩
      refine ⟨i, hx, ?_⟩
      rcases hcase with ⟨hi, hp⟩ | ⟨hi, hc, hp⟩
      · refine ⟨_, ?_, hp⟩
        rw [hT, trace_lookup]
        exact Or.inl ⟨hi, rfl⟩
      · refine ⟨_, ?_, hp⟩
        rw [hT, trace_lookup]
        exact Or.inr ⟨hi, hc, rfl⟩
  · intro p
    rw [g2 p]
    constructor
    · intro hs
      constructor
      · intro i hi
        have hget : (m1.withInit reg mem).Run.dumped_states[i]? =
            some ((m1.withInit reg mem).afterSteps i).state := by
          rw [hT, trace_lookup]
          exact Or.inl ⟨hi, rfl⟩
        exact hs _ (List.getElem?_mem hget)
      · rintro ⟨hc, hp⟩
        have hget : (m1.withInit reg mem).Run.dumped_states[n]? =
            some (m1.withInit reg mem).Run.state := by
          rw [hT, trace_lookup]
          exact Or.inr ⟨rfl, hc, rfl⟩
        exact hs _ (List.getElem?_mem hget) hp
    · rintro ⟨h1, h2⟩ s hs hp
      obtain ⟨i, hi⟩ := List.mem_iff_getElem?.1 hs
      rw [hT, trace_lookup] at hi
      rcases hi with ⟨hi, e⟩ | ⟨_, hc, e⟩
      · exact h1 i hi (by rw [← e]; exact hp)
      · exact h2 ⟨hc, by rw [← e]; exact hp⟩

theorem pc_index_of_trace_witness :
    (tracedLoop.Run.dumped_states.map (fun s => s.pc) = [0, 1, 2, 0, 1, 2, 0, 3] ∧
      tracedLoop.Run.pc2states 0 = some [0, 3, 6] ∧
      tracedLoop.Run.pc2states 1 = some [1, 4] ∧
      tracedLoop.Run.pc2states 2 = some [2, 5] ∧
      tracedLoop.Run.pc2states 3 = some [7] ∧
      tracedLoop.Run.pc2states 4 = none ∧
      tracedLoop.Run.pc2states (-1) = none) ∧
    (∃ n : Nat,
      (∀ i : Nat, i < n →
        (tracedLoop.afterSteps i).state.return_code = RES_RUNNING ∧
        loopCond (tracedLoop.afterSteps i) ∧
        (tracedLoop.afterSteps i).state.counter = i) ∧
      ((tracedLoop.Run.state.return_code = RES_MEM_OOB ∧ 0 < n ∧
          (loopBody (tracedLoop.afterSteps (n - 1))).2 = true) ∨
       (tracedLoop.Run.state.return_code = RES_MAX_CODE_RUN_REACHED ∧
          (tracedLoop.afterSteps n).state.return_code = RES_RUNNING ∧
          (tracedLoop.afterSteps n).state.counter = ((Machine.new 2 1).SetDumpAll true).max_code_run) ∨
       (tracedLoop.Run.state.return_code = RES_END ∧
          (tracedLoop.afterSteps n).state.return_code = RES_RUNNING ∧
          ¬ loopCond (tracedLoop.afterSteps n) ∧
          tracedLoop.Run.state.pc =
            (tracedLoop.afterSteps n).state.pc)) ∧
      tracedLoop.Run.dumped_states =
        (List.range n).map (fun i => (tracedLoop.afterSteps i).state) ++
          (if tracedLoop.Run.state.return_code = RES_END then
            [tracedLoop.Run.state] else []) ∧
      (∀ p l, tracedLoop.Run.pc2states p = some l →
        l ≠ [] ∧ l.Pairwise (fun a b => a < b) ∧
        ∀ x, x ∈ l ↔
          ∃ i : Nat, x = (i : Int) ∧
            ((i < n ∧ (tracedLoop.afterSteps i).state.pc = p) ∨
             (i = n ∧ tracedLoop.Run.state.return_code = RES_END ∧
                tracedLoop.Run.state.pc = p))) ∧
      (∀ p, tracedLoop.Run.pc2states p = none ↔
        (∀ i : Nat, i < n → (tracedLoop.afterSteps i).state.pc ≠ p) ∧
        ¬ (tracedLoop.Run.state.return_code = RES_END ∧
            tracedLoop.Run.state.pc = p))) ∧
    (∀ p l, tracedLoop.Run.pc2states p = some l →
      l ≠ [] ∧ l.Pairwise (fun a b => a < b) ∧
      ∀ x, x ∈ l ↔
        ∃ i : Nat, x = (i : Int) ∧
          ∃ s, tracedLoop.Run.dumped_states[i]? = some s ∧ s.pc = p) ∧
    (∀ p, tracedLoop.Run.pc2states p = none ↔
      ∀ s ∈ tracedLoop.Run.dumped_states, s.pc ≠ p) ∧
    (∀ (i : Nat) (s : MachineState), tracedLoop.Run.dumped_states[i]? = some s →
      (∃ l, tracedLoop.Run.pc2states s.pc = some l ∧ (i : Int) ∈ l) ∧
      ∀ q l, tracedLoop.Run.pc2states q = some l → (i : Int) ∈ l → q = s.pc) :=
  ⟨⟨by decide!, by decide!, by decide!, by decide!, by decide!, by decide!, by decide!⟩,
    pc_index_of_trace ((Machine.new 2 1).SetDumpAll true)
      ((loadedOrNew 2 1 repIncEnd).SetDumpAll true) repIncEnd [2, 0] [1]
      (Load_SetDumpAll (loadedOrNew_eq (by decide!)) true) (by decide!)⟩

end ELF
